import Mathlib

/-!
Demand-paged virtual memory: the `VMPool` region manager.

Shallow embedding of `Virtual Memory Management and Memory Allocation/vm_pool.C`.

* `unsigned long` is a 32-bit word: every arithmetic result is reduced modulo `ULONG`.
* The two metadata pages `alloc_list` and `free_list` are word arrays, embedded as
  functions from the word index to the stored word.  The code only ever touches the
  indices `0 .. ENTRIES_PER_PAGE - 1`.
* A failed `assert` aborts the kernel: the embedded operation returns `none`.
* Loops are embedded as recursive functions on an explicit iteration budget; the
  budget passed by each operation is large enough for the loop to run to its own exit
  (see the `scanPairs_*`, `zeroLoop_*`, `shiftLoop_*` and `freeLoop_*` lemmas).
-/

namespace VM

/-- The constant `PageTable::PAGE_SIZE`. -/
def PAGE_SIZE : Nat := 4096

/-- The constant `PageTable::ENTRIES_PER_PAGE`. -/
def ENTRIES_PER_PAGE : Nat := 1024

/-- Number of values of an `unsigned long` (32 bits). -/
def ULONG : Nat := 4294967296

/-- Addition of `unsigned long`. -/
def uadd (a b : Nat) : Nat := (a + b) % ULONG

/-- Subtraction of `unsigned long` (operands are words). -/
def usub (a b : Nat) : Nat := (a + ULONG - b) % ULONG

/-- Multiplication of `unsigned long`. -/
def umul (a b : Nat) : Nat := (a * b) % ULONG

/-- The statement `a[i] = v`. -/
def write (a : Nat → Nat) (i v : Nat) : Nat → Nat :=
  fun j => if j = i then v else a j

/-- The rounding at the head of the constructor and of `allocate`:
`if (_size % PAGE_SIZE != 0) _size = (_size / PAGE_SIZE + 1) * PAGE_SIZE;`. -/
def roundUp (_size : Nat) : Nat :=
  if _size % PAGE_SIZE ≠ 0 then umul (_size / PAGE_SIZE + 1) PAGE_SIZE else _size

/-- The loop `for (i = start; i < ENTRIES_PER_PAGE - 1; i += 2) { a[i] = 0; a[i+1] = 0; }`
of the constructor. -/
def zeroLoop : Nat → Nat → (Nat → Nat) → (Nat → Nat)
  | 0, _, a => a
  | fuel + 1, i, a =>
    if i < ENTRIES_PER_PAGE - 1 then
      zeroLoop fuel (i + 2) (write (write a i 0) (i + 1) 0)
    else a

/-- The compaction loop shared by `allocate` (on `free_list`) and `release` (on `alloc_list`):
`for (i = iter + 2; i < ENTRIES_PER_PAGE - 1; i += 2) { a[i-2] = a[i]; a[i-1] = a[i+1];
 if (i + 2 >= ENTRIES_PER_PAGE - 1) { a[i] = 0; a[i+1] = 0; } }`; the argument is `i`. -/
def shiftLoop : Nat → Nat → (Nat → Nat) → (Nat → Nat)
  | 0, _, a => a
  | fuel + 1, i, a =>
    if i < ENTRIES_PER_PAGE - 1 then
      let a1 := write a (i - 2) (a i)
      let a2 := write a1 (i - 1) (a1 (i + 1))
      let a3 := if i + 2 ≥ ENTRIES_PER_PAGE - 1 then write (write a2 i 0) (i + 1) 0 else a2
      shiftLoop fuel (i + 2) a3
    else a

/-- The scanning loops `while (cond(iter)) { iter += 2; assert(iter < bound); }`.
`none` is the failed assertion. -/
def scanPairs (cond : Nat → Bool) (bound : Nat) : Nat → Nat → Option Nat
  | 0, _ => none
  | fuel + 1, iter =>
    if cond iter then
      if iter + 2 < bound then scanPairs cond bound fuel (iter + 2) else none
    else some iter

/-- State of one `VMPool` object: its fields and the contents of its two metadata pages.
`alloc_list` is the page at `base_address`, `free_list` the page at
`base_address + PAGE_SIZE`. -/
structure VMPool where
  base_address : Nat
  size : Nat
  next_pool : Option Nat
  alloc_list : Nat → Nat
  free_list : Nat → Nat

/-- The list head `PageTable::head_pool` after `PageTable::register_pool(_vm_pool)`, together
with the `next_pool` field it stores into the pool:
`_vm_pool->next_pool = head_pool; head_pool = _vm_pool;`. -/
def register_pool (head_pool : Option Nat) (_vm_pool : Nat) : Option Nat × Option Nat :=
  (some _vm_pool, head_pool)

/-- The constructor `VMPool::VMPool(_base_address, _size, _frame_pool, _page_table)`.
`obj` is the address of the object (`this`), `head_pool` the page table's pool list before the call,
`mem_a` and `mem_f` the prior contents of the two metadata pages.  Returns the constructed
pool and the page table's new `head_pool`. -/
def VMPool.construct (obj : Nat) (_base_address _size : Nat) (head_pool : Option Nat)
    (mem_a mem_f : Nat → Nat) : VMPool × Option Nat :=
  let size := roundUp _size
  let reg := register_pool head_pool obj
  let a1 := write mem_a 0 _base_address
  let a2 := write a1 1 PAGE_SIZE
  let a3 := write a2 2 (uadd _base_address PAGE_SIZE)
  let a4 := write a3 3 PAGE_SIZE
  let a5 := zeroLoop ENTRIES_PER_PAGE 4 a4
  let f1 := write mem_f 0 (uadd _base_address (2 * PAGE_SIZE))
  let f2 := write f1 1 (usub size (2 * PAGE_SIZE))
  let f3 := zeroLoop ENTRIES_PER_PAGE 2 f2
  ({ base_address := _base_address, size := size, next_pool := reg.2,
     alloc_list := a5, free_list := f3 }, reg.1)

/-- The method `VMPool::is_legitimate(_address)`; the `for` loop over the pairs of
`alloc_list` is the recursion on the number of pairs still to visit. -/
def legitLoop (a : Nat → Nat) (_address : Nat) : Nat → Nat → Bool
  | 0, _ => false
  | fuel + 1, i =>
    if i < ENTRIES_PER_PAGE - 1 then
      if a i ≤ _address ∧ _address < uadd (a i) (a (i + 1)) then true
      else legitLoop a _address fuel (i + 2)
    else false

/-- The method `VMPool::is_legitimate(_address)`. -/
def VMPool.is_legitimate (p : VMPool) (_address : Nat) : Bool :=
  let alloc_base := p.base_address
  if alloc_base ≤ _address ∧ _address < uadd alloc_base PAGE_SIZE then true
  else
    let free_base := uadd p.base_address PAGE_SIZE
    if free_base ≤ _address ∧ _address < uadd free_base PAGE_SIZE then true
    else legitLoop p.alloc_list _address ENTRIES_PER_PAGE 0

/-- The method `VMPool::allocate(_size)`: the new pool state and the returned address, or
`none` when one of the two assertions fails. -/
def VMPool.allocate (p : VMPool) (_size : Nat) : Option (VMPool × Nat) :=
  let sz := roundUp _size
  match scanPairs (fun iter => decide (p.free_list (iter + 1) < sz))
      (ENTRIES_PER_PAGE - 1) ENTRIES_PER_PAGE 0 with
  | none => none
  | some iter =>
    let allocated_start := p.free_list iter
    let fl :=
      if p.free_list (iter + 1) > sz then
        let f1 := write p.free_list iter (uadd (p.free_list iter) sz)
        write f1 (iter + 1) (usub (f1 (iter + 1)) sz)
      else shiftLoop ENTRIES_PER_PAGE (iter + 2) p.free_list
    match scanPairs (fun it => decide (p.alloc_list (it + 1) ≠ 0))
        (ENTRIES_PER_PAGE - 3) ENTRIES_PER_PAGE 0 with
    | none => none
    | some it =>
      let al := write (write p.alloc_list it allocated_start) (it + 1) sz
      some ({ p with alloc_list := al, free_list := fl }, allocated_start)

/-- The legitimacy assertion at the head of `PageTable::free_page(_page_no)`: the walk over
the registered pools `pools` (in list order) calling `is_legitimate(_page_no * PAGE_SIZE)`
until one accepts. -/
def free_page_check (pools : List VMPool) (_page_no : Nat) : Bool :=
  pools.any (fun node => node.is_legitimate (umul _page_no PAGE_SIZE))

/-- The loop `for (i = free_start; i < free_start + free_length; i += PAGE_SIZE)
{ page_table->free_page(i / PAGE_SIZE); }` of `release`: the page numbers passed to
`free_page`, in call order, or `none` when `free_page` fails its legitimacy assertion.
`bound` is the word `free_start + free_length`. -/
def freeLoop (pools : List VMPool) (bound : Nat) : Nat → Nat → Option (List Nat)
  | 0, _ => some []
  | fuel + 1, i =>
    if i < bound then
      let page_no := i / PAGE_SIZE
      if free_page_check pools page_no then
        (freeLoop pools bound fuel (uadd i PAGE_SIZE)).map (fun l => page_no :: l)
      else none
    else some []

/-- The method `VMPool::release(_start_address)`: the new pool state and the page numbers
passed to `page_table->free_page`, in call order, or `none` when an assertion fails.
`pools` are the pools registered with the pool's page table, in their current state.
Each call of `free_page` appears here as its legitimacy assertion and as the page number
passed; what the call does to the page table is `PageTable.free_page`.  The two lists of the
state returned are those the code leaves when none of the pages passed is the page of
`alloc_list` (page `base_address / PAGE_SIZE`) or of `free_list` (the page after it): a call
with `_start_address = base_address` or `base_address + PAGE_SIZE` has the page of a list
unmapped before the list is edited, and the lists it leaves are then those of the frame
mapped at the next fault, which this definition does not give.  No call of a run (`Run`) is
of that kind (`Run.release_spares_metadata`). -/
def VMPool.release (pools : List VMPool) (p : VMPool) (_start_address : Nat) :
    Option (VMPool × List Nat) :=
  match scanPairs (fun iter => decide (p.alloc_list iter ≠ _start_address))
      (ENTRIES_PER_PAGE - 1) ENTRIES_PER_PAGE 0 with
  | none => none
  | some iter =>
    let free_start := p.alloc_list iter
    let free_length := p.alloc_list (iter + 1)
    if free_start % PAGE_SIZE ≠ 0 then none
    else if free_length % PAGE_SIZE ≠ 0 then none
    else
      match freeLoop pools (uadd free_start free_length) (ULONG / PAGE_SIZE + 1) free_start with
      | none => none
      | some pages =>
        let a1 := write (write p.alloc_list iter 0) (iter + 1) 0
        let al := shiftLoop ENTRIES_PER_PAGE (iter + 2) a1
        match scanPairs (fun it => decide (p.free_list (it + 1) ≠ 0))
            (ENTRIES_PER_PAGE - 3) ENTRIES_PER_PAGE 0 with
        | none => none
        | some it =>
          let fl := write (write p.free_list it free_start) (it + 1) free_length
          some ({ p with alloc_list := al, free_list := fl }, pages)

/-- The two stores `a[2k] = s; a[2k+1] = l` into pair `k`. -/
def writePair (a : Nat → Nat) (k s l : Nat) : Nat → Nat :=
  write (write a (2 * k) s) (2 * k + 1) l

/-- Array contents after the compaction loop has run from word index `it + 2`: the pair at
word index `it` is dropped, the later pairs move down by one pair and the last pair of the
page is zeroed (proved equal to `shiftLoop` in `shiftLoop_eq`). -/
def erasePair (a : Nat → Nat) (it : Nat) : Nat → Nat :=
  fun j => if j < it then a j else if j < 1022 then a (j + 2) else if j < 1024 then 0 else a j

/-- Free-list contents after `allocate` has taken `sz` bytes from pair `i`. -/
def takeFree (fl : Nat → Nat) (i sz : Nat) : Nat → Nat :=
  if fl (2 * i + 1) > sz then
    writePair fl i (uadd (fl (2 * i)) sz) (usub (fl (2 * i + 1)) sz)
  else shiftLoop ENTRIES_PER_PAGE (2 * i + 2) fl

/-- The post-state the constructor is expected to establish for `VMPool(base, size, ..)` called
with object address `obj` and previous list head `head_pool`: the two metadata entries
of `alloc_list`, the single free span covering `[base + 2 * PAGE_SIZE, base + size)` with
`size` the least page multiple not below `_size`, zeros elsewhere, and the pool at the head
of the page table's pool list. -/
def ConstructPost (obj _base_address _size : Nat) (head_pool : Option Nat)
    (r : VMPool × Option Nat) : Prop :=
  r.1.base_address = _base_address ∧
  (r.1.size % PAGE_SIZE = 0 ∧ _size ≤ r.1.size ∧ r.1.size < _size + PAGE_SIZE) ∧
  r.1.alloc_list 0 = _base_address ∧ r.1.alloc_list 1 = PAGE_SIZE ∧
  r.1.alloc_list 2 = _base_address + PAGE_SIZE ∧ r.1.alloc_list 3 = PAGE_SIZE ∧
  (∀ j, 4 ≤ j → j < ENTRIES_PER_PAGE → r.1.alloc_list j = 0) ∧
  r.1.free_list 0 = _base_address + 2 * PAGE_SIZE ∧
  r.1.free_list 0 + r.1.free_list 1 = _base_address + r.1.size ∧
  (∀ j, 2 ≤ j → j < ENTRIES_PER_PAGE → r.1.free_list j = 0) ∧
  r.2 = some obj ∧ r.1.next_pool = head_pool

/-- The least multiple of `PAGE_SIZE` that is not below `n`, as a natural number (the
rounded size the specification speaks of; `roundUp` is what the code computes in
`unsigned long` arithmetic). -/
def pageCeil (n : Nat) : Nat := (n + PAGE_SIZE - 1) / PAGE_SIZE * PAGE_SIZE

/-- Start field of pair `k` of a metadata page: the word `a[2k]`. -/
def startAt (a : Nat → Nat) (k : Nat) : Nat := a (2 * k)

/-- Length field of pair `k` of a metadata page: the word `a[2k+1]`. -/
def lenAt (a : Nat → Nat) (k : Nat) : Nat := a (2 * k + 1)

/-- One call on a pool as seen by the caller: `allocate(size)` that returned `va`, or
`release(va)` that returned. -/
inductive Event where
  | allocate (size va : Nat)
  | release (va : Nat)
  deriving DecidableEq, Repr

/-- Pool states reachable from `p0` by calls of `allocate` and `release` that return, with any
`unsigned long` size and any address; `pools` are the pools registered with the page table
at the time of the `release`. -/
inductive Reach (p0 : VMPool) : VMPool → Prop where
  | init : Reach p0 p0
  | allocate {p p' : VMPool} {n va : Nat} :
      Reach p0 p → n < ULONG → p.allocate n = some (p', va) → Reach p0 p'
  | release {p p' : VMPool} {pools : List VMPool} {a : Nat} {pages : List Nat} :
      Reach p0 p → p.release pools a = some (p', pages) → Reach p0 p'

/-- The pool state `p` is reached from `p0` by the calls `tr` (most recent first), each of
which returned; `release` is only called on an address that an earlier `allocate` of the
trace returned. -/
inductive Run (p0 : VMPool) : List Event → VMPool → Prop where
  | init : Run p0 [] p0
  | allocate {tr : List Event} {p p' : VMPool} {n va : Nat} :
      Run p0 tr p → n < ULONG → p.allocate n = some (p', va) →
      Run p0 (Event.allocate n va :: tr) p'
  | release {tr : List Event} {p p' : VMPool} {pools : List VMPool} {va : Nat}
      {pages : List Nat} :
      Run p0 tr p → (∃ n, Event.allocate n va ∈ tr) → p.release pools va = some (p', pages) →
      Run p0 (Event.release va :: tr) p'

/-- Shape of a metadata page maintained by the code: every field is an `unsigned long`, a
pair whose length field is 0 is followed by a `(0,0)` pair, and the last pair is `(0,0)`. -/
structure ListInv (a : Nat → Nat) : Prop where
  words : ∀ k, k < 512 → startAt a k < ULONG ∧ lenAt a k < ULONG
  shape : ∀ k, k < 511 → lenAt a k = 0 → startAt a (k + 1) = 0 ∧ lenAt a (k + 1) = 0
  last : startAt a 511 = 0 ∧ lenAt a 511 = 0

/-- Both metadata pages of a pool have the shape `ListInv`. -/
def PoolInv (p : VMPool) : Prop := ListInv p.alloc_list ∧ ListInv p.free_list

/-- Number of live entries (pairs with a non-zero length field) among the first `n` pairs. -/
def liveCount (a : Nat → Nat) : Nat → Nat
  | 0 => 0
  | n + 1 => liveCount a n + (if lenAt a n ≠ 0 then 1 else 0)

/-- The pool of the specification's scenarios, freshly constructed:
`VMPool(base = 0x40000000, size = 0x01000000, ..)` as the first pool of its page table, on
metadata pages that held zeros. -/
def pool0 : VMPool :=
  (VMPool.construct 1 0x40000000 0x01000000 none (fun _ => 0) (fun _ => 0)).1

/-- List shape as the specification states it: the live entries (non-zero length field) are
the pairs below some `n ≤ 511` and every pair from `n` on is exactly `(0,0)`. -/
def PrefixZero (a : Nat → Nat) : Prop :=
  ∃ n, n ≤ 511 ∧ (∀ k, k < n → lenAt a k ≠ 0) ∧
    ∀ k, n ≤ k → k < 512 → startAt a k = 0 ∧ lenAt a k = 0

/-- List shape the code maintains: the live entries are the pairs below some `n ≤ 511`, pair
`n` has length field 0 (its start field is not constrained) and every later pair is
exactly `(0,0)`. -/
def PrefixLen (a : Nat → Nat) : Prop :=
  ∃ n, n ≤ 511 ∧ (∀ k, k < n → lenAt a k ≠ 0) ∧ lenAt a n = 0 ∧
    ∀ k, n < k → k < 512 → startAt a k = 0 ∧ lenAt a k = 0

/-- `allocate(n)` aborts exactly when no pair of `free_list` has a length field of at least
the page-rounded `n`, or `alloc_list` holds 511 live entries. -/
def AbortsExactly (p : VMPool) (n : Nat) : Prop :=
  p.allocate n = none ↔
    ((∀ k, k < 512 → lenAt p.free_list k < pageCeil n) ∨ liveCount p.alloc_list 512 = 511)


/-- `release(a)` aborts when `a` is not the start of a live entry of `alloc_list`, as the
specification states it. -/
def UnknownAborts (pools : List VMPool) (p : VMPool) (a : Nat) : Prop :=
  (∀ k, k < 512 → lenAt p.alloc_list k ≠ 0 → startAt p.alloc_list k ≠ a) →
    p.release pools a = none

/-- Number of pairs `k` with `lo ≤ k < lo + n` of a metadata page whose recorded byte range
`[start, start + length)` contains the byte address `x`. -/
def coverCount (a : Nat → Nat) (x lo : Nat) : Nat → Nat
  | 0 => 0
  | n + 1 => coverCount a x lo n +
      (if startAt a (lo + n) ≤ x ∧ x < startAt a (lo + n) + lenAt a (lo + n) then 1 else 0)

/-- Conservation as the specification states it for a pool at `b` of `s` bytes: every byte of
`[b + 2 * PAGE_SIZE, b + s)` lies in exactly one of the ranges recorded in the pairs 2..511 of
`alloc_list` (the allocate results) and in the pairs of `free_list`, and every other byte
in none of them. -/
def Conserved (b s : Nat) (p : VMPool) : Prop :=
  ∀ x, coverCount p.alloc_list x 2 510 + coverCount p.free_list x 0 512 =
    if b + 2 * PAGE_SIZE ≤ x ∧ x < b + s then 1 else 0

/-- Bookkeeping invariant of a pool at `b` of `s` bytes: the two metadata entries head
`alloc_list`, the recorded ranges are conserved, and no other pair starts at one of the two
metadata pages. -/
structure Consistent (b s : Nat) (p : VMPool) : Prop where
  base : p.base_address = b
  meta0 : startAt p.alloc_list 0 = b ∧ lenAt p.alloc_list 0 = PAGE_SIZE
  meta1 : startAt p.alloc_list 1 = b + PAGE_SIZE ∧ lenAt p.alloc_list 1 = PAGE_SIZE
  cover : Conserved b s p
  fstart : ∀ k, k < 512 → startAt p.free_list k ≠ b ∧ startAt p.free_list k ≠ b + PAGE_SIZE
  astart : ∀ k, 2 ≤ k → k < 512 →
    startAt p.alloc_list k ≠ b ∧ startAt p.alloc_list k ≠ b + PAGE_SIZE

/-- A freshly constructed one-page pool: `VMPool(base = 0x40000000, size = PAGE_SIZE, ..)`. -/
def onePagePool : VMPool :=
  (VMPool.construct 1 0x40000000 4096 none (fun _ => 0) (fun _ => 0)).1

/-- The scenario pool after a first call `allocate(n)` that took its region from the head of
the initial free span (see `pool0_allocate`). -/
def pool0_after (n : Nat) : VMPool :=
  { pool0 with
      alloc_list := writePair pool0.alloc_list 2 0x40002000 (roundUp n),
      free_list := takeFree pool0.free_list 0 (roundUp n) }

/-- First-fit postcondition of a returning `allocate(n)` as the specification states it, with
`r = pageCeil n`: the result is the start of the lowest-indexed pair `i` of `free_list` whose
length is at least `r`; if the length is larger the pair becomes `(start + r, length - r)` and
the other pairs are unchanged; if it is equal the pair is removed, the later pairs move down
by one and the last pair is zeroed; `(start, r)` is written into the first pair `m` of
`alloc_list` whose length field is 0 and the other pairs are unchanged. -/
def FirstFit (p : VMPool) (n : Nat) (p' : VMPool) (va : Nat) : Prop :=
  ∃ i m, i < 512 ∧ (∀ k, k < i → lenAt p.free_list k < pageCeil n) ∧
    pageCeil n ≤ lenAt p.free_list i ∧ va = startAt p.free_list i ∧
    (pageCeil n < lenAt p.free_list i → ∀ k, k < 512 →
      startAt p'.free_list k =
        (if k = i then startAt p.free_list i + pageCeil n else startAt p.free_list k) ∧
      lenAt p'.free_list k =
        (if k = i then lenAt p.free_list i - pageCeil n else lenAt p.free_list k)) ∧
    (lenAt p.free_list i = pageCeil n → ∀ k, k < 512 →
      startAt p'.free_list k =
        (if k < i then startAt p.free_list k
         else if k < 511 then startAt p.free_list (k + 1) else 0) ∧
      lenAt p'.free_list k =
        (if k < i then lenAt p.free_list k
         else if k < 511 then lenAt p.free_list (k + 1) else 0)) ∧
    m < 512 ∧ (∀ k, k < m → lenAt p.alloc_list k ≠ 0) ∧ lenAt p.alloc_list m = 0 ∧
    ∀ k, k < 512 →
      startAt p'.alloc_list k = (if k = m then startAt p.free_list i else startAt p.alloc_list k) ∧
      lenAt p'.alloc_list k = (if k = m then pageCeil n else lenAt p.alloc_list k)

/-- Entry `k` of a list of `(start, length)` pairs, `(0,0)` beyond its end. -/
def entry (l : List (Nat × Nat)) (k : Nat) : Nat × Nat := (l[k]?).getD (0, 0)

/-- The metadata page `a` holds the pairs of `l`, in order from pair 0, followed by `(0,0)`
pairs up to the end of the page. -/
def Rep (a : Nat → Nat) (l : List (Nat × Nat)) : Prop :=
  ∀ k, k < 512 → startAt a k = (entry l k).1 ∧ lenAt a k = (entry l k).2

/-- Scenario S2 on the pool `p0`: five regions of 4, 8, 4, 4 and 8 pages are allocated in that
order, the third region `a3` is released (the pool being registered with its page table),
and `allocate(3 * PAGE_SIZE)` then returns `a`; every call returns. -/
def ScenarioS2 (p0 : VMPool) (a3 a : Nat) : Prop :=
  ∃ p1 a1 p2 a2 p3 p4 a4 p5 a5 pools p6 pages p7,
    p0.allocate (4 * PAGE_SIZE) = some (p1, a1) ∧ p1.allocate (8 * PAGE_SIZE) = some (p2, a2) ∧
    p2.allocate (4 * PAGE_SIZE) = some (p3, a3) ∧ p3.allocate (4 * PAGE_SIZE) = some (p4, a4) ∧
    p4.allocate (8 * PAGE_SIZE) = some (p5, a5) ∧ p5 ∈ pools ∧
    p5.release pools a3 = some (p6, pages) ∧ p6.allocate (3 * PAGE_SIZE) = some (p7, a)

/-- Every field of both metadata pages is a multiple of `PAGE_SIZE`. -/
def Aligned (p : VMPool) : Prop :=
  ∀ k, k < 512 →
    (startAt p.alloc_list k % PAGE_SIZE = 0 ∧ lenAt p.alloc_list k % PAGE_SIZE = 0) ∧
    (startAt p.free_list k % PAGE_SIZE = 0 ∧ lenAt p.free_list k % PAGE_SIZE = 0)

/-- Effect of `release(start)` on a pool state `p` for the entry `(start, length)` held in
pair `j` of `alloc_list`, as the specification states it: the call returns after invoking
`free_page` once for each page number `start / PAGE_SIZE + i`, `i < length / PAGE_SIZE`, in
ascending order; the entry is gone from `alloc_list`, the later entries having moved down by
one pair; and `(start, length)` occupies the first previously empty pair `m` of `free_list`,
the earlier pairs being unchanged. -/
def ReleaseEffect (pools : List VMPool) (p : VMPool) (j : Nat) : Prop :=
  ∃ p' m,
    p.release pools (startAt p.alloc_list j) =
      some (p', List.range' (startAt p.alloc_list j / PAGE_SIZE)
        (lenAt p.alloc_list j / PAGE_SIZE)) ∧
    (∀ k, k < 512 →
      startAt p'.alloc_list k =
        (if k < j then startAt p.alloc_list k
         else if k < 511 then startAt p.alloc_list (k + 1) else 0) ∧
      lenAt p'.alloc_list k =
        (if k < j then lenAt p.alloc_list k
         else if k < 511 then lenAt p.alloc_list (k + 1) else 0)) ∧
    m < 512 ∧ (∀ k, k < m → lenAt p.free_list k ≠ 0) ∧ lenAt p.free_list m = 0 ∧
    startAt p'.free_list m = startAt p.alloc_list j ∧
    lenAt p'.free_list m = lenAt p.alloc_list j ∧
    ∀ k, k < m → startAt p'.free_list k = startAt p.free_list k ∧
      lenAt p'.free_list k = lenAt p.free_list k

/-- The single-page regions `(0x40002000 + t * PAGE_SIZE, PAGE_SIZE)`, `t < i`, as entries of a
free list. -/
def singles (i : Nat) : List (Nat × Nat) :=
  (List.range i).map (fun t => (1073750016 + t * 4096, 4096))

/-- A freshly constructed pool that ends at the top of the 32-bit address space:
`VMPool(base = 0xFF000000, size = 0x01000000, ..)`. -/
def topPool : VMPool :=
  (VMPool.construct 1 0xFF000000 0x01000000 none (fun _ => 0) (fun _ => 0)).1

/-- Round trip on a pool `p0`, as the specification states it: whenever `allocate(n)` returns
`va` and the following `release(va)` returns, a second `allocate(n)` returns some `va'`, and
the region it hands out, recorded as a pair `(va', length)` of `alloc_list`, has
`n ≤ length` and lies inside `[base + 2 * PAGE_SIZE, base + size)`. -/
def RoundTrip (pools : List VMPool) (p0 : VMPool) (n : Nat) : Prop :=
  ∀ p1 va p2 pages, p0.allocate n = some (p1, va) → p1.release pools va = some (p2, pages) →
    ∃ p3 va' j, p2.allocate n = some (p3, va') ∧ j < 512 ∧ startAt p3.alloc_list j = va' ∧
      n ≤ lenAt p3.alloc_list j ∧ p0.base_address + 2 * PAGE_SIZE ≤ va' ∧
      va' + lenAt p3.alloc_list j ≤ p0.base_address + p0.size

/-- Legitimacy tracks allocation on the runs of a pool `p0` with base `b`, for request sizes
`0 < n ≤ nmax`, as the specification states it: when `allocate(n)` returned `va` and
`release(va)` has not been called since, `is_legitimate(va + k)` is true for every `k < n`;
in the state right after a returning `release(va)` it is false for every `k < n`; and
`is_legitimate(a)` is true in every state for every `a` in `[b, b + 2 * PAGE_SIZE)`. -/
def LegitTracks (nmax b : Nat) (p0 : VMPool) : Prop :=
  (∀ later earlier n va q, 0 < n → n ≤ nmax →
      Run p0 (later ++ Event.allocate n va :: earlier) q → Event.release va ∉ later →
      (∀ k, k < n → q.is_legitimate (va + k) = true) ∧
      ∀ pools q' pages, q.release pools va = some (q', pages) →
        ∀ k, k < n → q'.is_legitimate (va + k) = false) ∧
  ∀ tr q a, Run p0 tr q → b ≤ a → a < b + 2 * PAGE_SIZE → q.is_legitimate a = true

/-! ### The page table: `page_table.C` of the VM-pool build and of `MP_3` -/

/-- The fields of a `PageTable` object (`head_pool` exists in the VM-pool build only; the
pools it links are passed to `free_page` as a list). -/
structure PageTable where
  page_directory : Nat
  head_pool : Option Nat

/-- Physical memory, the MMU registers and the two frame pools, as the page-table code sees
them.  `mem a` is the 32-bit word stored at the word-aligned physical byte address `a`;
`cr3` and `cr2` are the MMU root register and the fault-address register;
`current_page_table` is the static `PageTable::current_page_table`.
A frame pool is the list of the frame numbers that its next `get_frames(1)` calls return;
`released` lists the arguments of the `release_frames` calls on the process pool, oldest
first, and `cr3_writes` counts the `write_cr3` calls. -/
structure Machine where
  mem : Nat → Nat
  cr3 : Nat
  cr2 : Nat
  current_page_table : Option PageTable
  kernel_frames : List Nat
  process_frames : List Nat
  released : List Nat
  cr3_writes : Nat

/-- Modelled from the spec: `ContFramePool::get_frames(1)`, whose code is not among the
sources; "`get_frames(count) → first_frame_number` (0 on failure)".  Returns the frame
number and the pool left. -/
def get_frames (pool : List Nat) : Nat × List Nat :=
  match pool with
  | [] => (0, [])
  | f :: rest => (f, rest)

/-- How a page-table routine ends: it returns (`ok`), it fails an `assert` (`abort`), or one
of its data accesses is not mapped (`fault`); each with the machine state at that point. -/
inductive Result where
  | ok (m : Machine)
  | abort (m : Machine)
  | fault (m : Machine)

/-- Left shift of an `unsigned long`. -/
def ushl (a n : Nat) : Nat := (a <<< n) % ULONG

/-- Modelled from the spec: the MMU's translation of a virtual address (hardware, not code
of the repository); "4 KiB pages, 1024 entries per table, two-level translation; entry bit
layout P=0, W=1, U=2, physical frame in bits 12..31".  The walk starts at the directory in
`cr3`, reads the entries from physical memory and gives `none` when an entry on the way is
not present. -/
def translate (m : Machine) (va : Nat) : Option Nat :=
  let pde := m.mem ((m.cr3 &&& 0xFFFFF000) + 4 * (va >>> 22))
  if pde &&& 1 = 0 then none
  else
    let pte := m.mem ((pde &&& 0xFFFFF000) + 4 * ((va >>> 12) &&& 0x3FF))
    if pte &&& 1 = 0 then none
    else some ((pte &&& 0xFFFFF000) + (va &&& 0xFFF))

/-- A load `*p` with paging enabled. -/
def vread (m : Machine) (p : Nat) : Option Nat :=
  (translate m p).map m.mem

/-- A store `*p = v` with paging enabled. -/
def vwrite (m : Machine) (p v : Nat) : Option Machine :=
  (translate m p).map (fun pa => { m with mem := write m.mem pa v })

/-- The loop `for (pno = 0; pno < ENTRIES_PER_PAGE; pno++)
first_page_table[pno] = (pno * PAGE_SIZE) | 3;` of the constructor (paging is off: the
stores go to physical memory). -/
def identityLoop (first_page_table : Nat) : Nat → Nat → (Nat → Nat) → (Nat → Nat)
  | 0, _, mem => mem
  | fuel + 1, pno, mem =>
    if pno < ENTRIES_PER_PAGE then
      identityLoop first_page_table fuel (pno + 1)
        (write mem (uadd first_page_table (umul 4 pno)) (umul pno PAGE_SIZE ||| 3))
    else mem

/-- The loop `for (pdno = 1; pdno < ENTRIES_PER_PAGE; pdno++) { page_directory[pdno] = 0 | 2;
if (pdno == ENTRIES_PER_PAGE - 1) page_directory[pdno] = (pd_frame_no * PAGE_SIZE) | 3; }`
of the constructor of the VM-pool build. -/
def directoryLoop (page_directory pd_frame_no : Nat) : Nat → Nat → (Nat → Nat) → (Nat → Nat)
  | 0, _, mem => mem
  | fuel + 1, pdno, mem =>
    if pdno < ENTRIES_PER_PAGE then
      let mem1 := write mem (uadd page_directory (umul 4 pdno)) (0 ||| 2)
      let mem2 :=
        if pdno = ENTRIES_PER_PAGE - 1 then
          write mem1 (uadd page_directory (umul 4 pdno)) (umul pd_frame_no PAGE_SIZE ||| 3)
        else mem1
      directoryLoop page_directory pd_frame_no fuel (pdno + 1) mem2
    else mem

/-- The constructor `PageTable::PageTable()` of the VM-pool build: the final machine state and
the fields of the new object. -/
def PageTable.construct (m : Machine) : Result × Option PageTable :=
  let g1 := get_frames m.process_frames
  let pd_frame_no := g1.1
  let m1 := { m with process_frames := g1.2 }
  if pd_frame_no = 0 then (Result.abort m1, none)
  else
    let page_directory := umul pd_frame_no PAGE_SIZE
    let g2 := get_frames m1.process_frames
    let pt_frame_no := g2.1
    let m2 := { m1 with process_frames := g2.2 }
    if pt_frame_no = 0 then (Result.abort m2, none)
    else
      let first_page_table := umul pt_frame_no PAGE_SIZE
      let mem1 := write m2.mem page_directory (first_page_table ||| 3)
      let mem2 := identityLoop first_page_table ENTRIES_PER_PAGE 0 mem1
      let mem3 := directoryLoop page_directory pd_frame_no ENTRIES_PER_PAGE 1 mem2
      (Result.ok { m2 with mem := mem3 },
        some { page_directory := page_directory, head_pool := none })

/-- The method `PageTable::load()`: `write_cr3(page_directory); current_page_table = this;`. -/
def PageTable.load (pt : PageTable) (m : Machine) : Machine :=
  { m with cr3 := pt.page_directory, cr3_writes := m.cr3_writes + 1,
           current_page_table := some pt }

/-- The loop of `handle_fault` (VM-pool build) that fills the new page table through its
recursive window: `for (i = 0; i < ENTRIES_PER_PAGE; i++) { *page_table = 2 | 4;
if (i == ENTRIES_PER_PAGE - 1) *page_table = (new_pt_frame * PAGE_SIZE) | 7; page_table++; }`;
`none` when a store is not mapped. -/
def tableLoop (new_pt_frame : Nat) : Nat → Nat → Nat → Machine → Option Machine
  | 0, _, _, m => some m
  | fuel + 1, i, page_table, m =>
    if i < ENTRIES_PER_PAGE then
      match vwrite m page_table (2 ||| 4) with
      | none => none
      | some m1 =>
        let r :=
          if i = ENTRIES_PER_PAGE - 1 then
            vwrite m1 page_table (umul new_pt_frame PAGE_SIZE ||| 7)
          else some m1
        match r with
        | none => none
        | some m2 => tableLoop new_pt_frame fuel (i + 1) (uadd page_table 4) m2
    else some m

/-- The first half of `handle_fault` (VM-pool build), `if (!(*pde & 1)) { ... }`: when the
directory entry read through the recursive window is not present, take a frame from the
process pool, store it into the entry and fill the new page table. -/
def PageTable.install_table (m : Machine) (pde : Nat) : Result :=
  match vread m pde with
  | none => Result.fault m
  | some v =>
    if v &&& 1 = 0 then
      let g := get_frames m.process_frames
      let new_pt_frame := g.1
      let m1 := { m with process_frames := g.2 }
      if new_pt_frame = 0 then Result.abort m1
      else
        match vwrite m1 pde (umul new_pt_frame PAGE_SIZE ||| 7) with
        | none => Result.fault m1
        | some m2 =>
          let page_table := ushl (m.cr2 >>> 22) 12 ||| 0xFFC00000
          match tableLoop new_pt_frame ENTRIES_PER_PAGE 0 page_table m2 with
          | none => Result.fault m2
          | some m3 => Result.ok m3
    else Result.ok m

/-- The method `PageTable::handle_fault(_r)` of the VM-pool build; `err_code` is
`_r->err_code` and the faulting address is read from `cr2`. -/
def PageTable.handle_fault (m : Machine) (err_code : Nat) : Result :=
  if err_code &&& 1 ≠ 0 then Result.abort m
  else
    let cr2 := m.cr2
    let pde := ushl (cr2 >>> 22) 2 ||| 0xFFFFF000
    match PageTable.install_table m pde with
    | Result.ok m4 =>
      let pte := ushl (cr2 >>> 12) 2 ||| 0xFFC00000
      let g := get_frames m4.process_frames
      let new_page_frame := g.1
      let m5 := { m4 with process_frames := g.2 }
      if new_page_frame = 0 then Result.abort m5
      else
        match vwrite m5 pte (umul new_page_frame PAGE_SIZE ||| 7) with
        | none => Result.fault m5
        | some m6 => Result.ok m6
    | other => other

/-- The method `PageTable::free_page(_page_no)` of the object `pt`; `pools` are the pools
linked from `head_pool`, in list order.  The three loads of `*pte` return the same word,
nothing being stored in between. -/
def PageTable.free_page (pt : PageTable) (pools : List VMPool) (m : Machine)
    (_page_no : Nat) : Result :=
  if free_page_check pools _page_no = false then Result.abort m
  else
    let virtual_address := umul _page_no PAGE_SIZE
    let pte := ushl (virtual_address >>> 12) 2 ||| 0xFFC00000
    match vread m pte with
    | none => Result.fault m
    | some v =>
      let frame_number := v / PAGE_SIZE
      if v &&& 0x00000001 = 0x00000001 then
        let m1 := { m with released := m.released ++ [frame_number] }
        match vwrite m1 pte (v &&& 0xFFFFFFFE) with
        | none => Result.fault m1
        | some m2 => Result.ok (pt.load m2)
      else Result.ok m

/-- The loop `for (i = 0; i < ENTRIES_PER_PAGE; i++) new_page_table[i] = 2 | 4;` of
`handle_fault` in `MP_3`; `none` when a store is not mapped. -/
def MP3.fillLoop (new_page_table : Nat) : Nat → Nat → Machine → Option Machine
  | 0, _, m => some m
  | fuel + 1, i, m =>
    if i < ENTRIES_PER_PAGE then
      match vwrite m (uadd new_page_table (umul 4 i)) (2 ||| 4) with
      | none => none
      | some m1 => MP3.fillLoop new_page_table fuel (i + 1) m1
    else some m

/-- The first half of `handle_fault` in `MP_3`, `if (!(page_directory[cr2>>22] & 1)) { ... }`:
the new page table comes from the kernel pool and is filled through its own address. -/
def MP3.PageTable.install_table (m : Machine) (page_directory : Nat) : Result :=
  match vread m (uadd page_directory (umul 4 (m.cr2 >>> 22))) with
  | none => Result.fault m
  | some v =>
    if v &&& 1 = 0 then
      let g := get_frames m.kernel_frames
      let new_pt_frame := g.1
      let m1 := { m with kernel_frames := g.2 }
      if new_pt_frame = 0 then Result.abort m1
      else
        let new_page_table := umul new_pt_frame PAGE_SIZE
        match MP3.fillLoop new_page_table ENTRIES_PER_PAGE 0 m1 with
        | none => Result.fault m1
        | some m2 =>
          match vwrite m2 (uadd page_directory (umul 4 (m.cr2 >>> 22)))
              (new_page_table ||| 7) with
          | none => Result.fault m2
          | some m3 => Result.ok m3
    else Result.ok m

/-- The method `PageTable::handle_fault(_r)` of `MP_3`, which walks the directory through
`current_page_table->page_directory`. -/
def MP3.PageTable.handle_fault (m : Machine) (err_code : Nat) : Result :=
  if err_code &&& 1 ≠ 0 then Result.abort m
  else
    let cr2 := m.cr2
    match m.current_page_table with
    | none => Result.fault m
    | some cpt =>
      let page_directory := cpt.page_directory
      match MP3.PageTable.install_table m page_directory with
      | Result.ok m4 =>
        match vread m4 (uadd page_directory (umul 4 (cr2 >>> 22))) with
        | none => Result.fault m4
        | some e =>
          let page_table := e &&& 0xFFFFF000
          let g := get_frames m4.process_frames
          let new_page_frame := g.1
          let m5 := { m4 with process_frames := g.2 }
          if new_page_frame = 0 then Result.abort m5
          else
            let pt_index := (cr2 >>> 12) &&& 0x3FF
            match vwrite m5 (uadd page_table (umul 4 pt_index))
                (umul new_page_frame PAGE_SIZE ||| 7) with
            | none => Result.fault m5
            | some m6 => Result.ok m6
      | other => other

/-- The recursive-mapping invariant of the spec for the directory installed in `cr3`: "the
last entry of every page directory (index 1023) must reference the directory itself with
P=1"; `cr3` holds a page-aligned 32-bit address. -/
def RecursiveMapped (m : Machine) : Prop :=
  m.cr3 % PAGE_SIZE = 0 ∧ m.cr3 < ULONG ∧
    m.mem (m.cr3 + 4 * 1023) &&& 1 = 1 ∧ m.mem (m.cr3 + 4 * 1023) &&& 0xFFFFF000 = m.cr3

/-- Post-state of `handle_fault` (VM-pool build) as the specification states it, `m` being the
state at the fault and `m'` the state on return, with `j = cr2 >> 22`,
`k = (cr2 >> 12) & 0x3FF` and `PDE[j]` the word at `cr3 + 4 * j`.  If `PDE[j]` is not
present, two frames `f_pt`, `f_pg` are taken from the process pool in that order, `PDE[j]`
becomes `f_pt * PAGE_SIZE | 7` and the page table in frame `f_pt` has entry `k` equal to
`f_pg * PAGE_SIZE | 7`, entry 1023 equal to `f_pt * PAGE_SIZE | 7` when `k ≠ 1023`, and
every other entry equal to 6.  If `PDE[j]` is present, one frame `f_pg` is taken from the
process pool and entry `k` of the page table that `PDE[j]` references becomes
`f_pg * PAGE_SIZE | 7`.  The kernel pool is left alone. -/
def HandleFaultPost (m m' : Machine) : Prop :=
  (m.mem (m.cr3 + 4 * (m.cr2 >>> 22)) &&& 1 = 0 →
    ∃ f_pt f_pg rest, m.process_frames = f_pt :: f_pg :: rest ∧ m'.process_frames = rest ∧
      m'.mem (m.cr3 + 4 * (m.cr2 >>> 22)) = (f_pt * PAGE_SIZE) ||| 7 ∧
      m'.mem (f_pt * PAGE_SIZE + 4 * ((m.cr2 >>> 12) &&& 0x3FF)) = (f_pg * PAGE_SIZE) ||| 7 ∧
      ((m.cr2 >>> 12) &&& 0x3FF ≠ 1023 →
        m'.mem (f_pt * PAGE_SIZE + 4 * 1023) = (f_pt * PAGE_SIZE) ||| 7) ∧
      ∀ i, i < 1024 → i ≠ (m.cr2 >>> 12) &&& 0x3FF → i ≠ 1023 →
        m'.mem (f_pt * PAGE_SIZE + 4 * i) = 6) ∧
  (m.mem (m.cr3 + 4 * (m.cr2 >>> 22)) &&& 1 = 1 →
    ∃ f_pg rest, m.process_frames = f_pg :: rest ∧ m'.process_frames = rest ∧
      m'.mem ((m.mem (m.cr3 + 4 * (m.cr2 >>> 22)) &&& 0xFFFFF000) +
        4 * ((m.cr2 >>> 12) &&& 0x3FF)) = (f_pg * PAGE_SIZE) ||| 7) ∧
  m'.kernel_frames = m.kernel_frames

/-- Physical address of the page-table entry of page number `n`: entry `n % 1024` of the page
table that directory entry `n / 1024` references. -/
def pte_pa (m : Machine) (n : Nat) : Nat :=
  (m.mem (m.cr3 + 4 * (n / 1024)) &&& 0xFFFFF000) + 4 * (n % 1024)

/-- Effect of `free_page(n)` as the specification states it, `PTE` being the word at
`pte_pa m n`.  If its present bit is set, the call returns, `PTE / PAGE_SIZE` is the one
frame released to the process pool, bit 0 of `PTE` is cleared and its other bits and every
other word of memory are unchanged, and the MMU root register is written once, with the
directory of the object.  If the present bit is clear, the call returns and the state is
unchanged. -/
def FreePageEffect (pt : PageTable) (pools : List VMPool) (m : Machine) (n : Nat) : Prop :=
  (m.mem (pte_pa m n) &&& 1 = 1 →
    ∃ m', PageTable.free_page pt pools m n = Result.ok m' ∧
      m'.released = m.released ++ [m.mem (pte_pa m n) / PAGE_SIZE] ∧
      (∀ i, (m'.mem (pte_pa m n)).testBit i =
        (decide (i ≠ 0) && (m.mem (pte_pa m n)).testBit i)) ∧
      (∀ b, b ≠ pte_pa m n → m'.mem b = m.mem b) ∧
      m'.cr3_writes = m.cr3_writes + 1 ∧ m'.cr3 = pt.page_directory ∧
      m'.process_frames = m.process_frames ∧ m'.kernel_frames = m.kernel_frames) ∧
  (m.mem (pte_pa m n) &&& 1 = 0 → PageTable.free_page pt pools m n = Result.ok m)

/-- A machine whose directory is frame `0x400`, with the recursive entry, a page table in
frame `0x402` for the addresses from `0x40000000` and the page `0x40000000` mapped to frame
`0x403`; the fault address is `0x40001234` and the process pool holds two frames. -/
def demoMachine : Machine :=
  { mem := fun a =>
      if a = 0x400000 + 4 * 1023 then 0x400003
      else if a = 0x400000 + 4 * 0x100 then 0x402007
      else if a = 0x402000 then 0x403007
      else 0
    cr3 := 0x400000
    cr2 := 0x40001234
    current_page_table := some { page_directory := 0x400000, head_pool := none }
    kernel_frames := []
    process_frames := [0x404, 0x405]
    released := []
    cr3_writes := 1 }

/-! ### The schedulers and the non-blocking disk: `scheduler.C` of both builds and
`nonblocking_disk.C` -/

/-- A list node: a `ReadyThread` of the ready queue or an `IOThreadNode` of the I/O waiter
queue.  Pointers are `Option`: `none` is `nullptr`. -/
structure ThreadNode where
  thread : Option Nat
  next : Option Nat
  prev : Option Nat

/-- The two static locks of `nonblocking_disk.C`. -/
inductive LockId where
  | hw_lock
  | queue_lock
  deriving DecidableEq

/-- Events recorded while the code runs, newest first in `World.trace`: a store to `head`,
`tail` or a link field of a ready-queue node together with `Machine::interrupts_enabled()`
at that time; a call of `DiskLock::lock`; an entry into the disk build's `Scheduler::yield`
together with the flags of `hw_lock` and `queue_lock` at that time; a call of
`Thread::dispatch_to`. -/
inductive Ev where
  | store (irq : Bool)
  | lock (l : LockId)
  | yield (hw queue : Bool)
  | dispatch (t : Option Nat)

/-- The state the schedulers and the disk driver work on.  `head`, `tail`, `currThread`,
`zombieThread` are the fields of the `Scheduler` object; `io_head`, `io_tail` the queue
pointers of `System::DISK` and `hw_locked`, `queue_locked` the `locked` flags of the two
`DiskLock`s (the base build uses none of these four); `heap` holds the list nodes by
address; `interrupts` is `Machine::interrupts_enabled()`, `current` is
`Thread::CurrentThread()`; `busy k` is what the `k`-th poll of the controller
(`SimpleDisk::is_busy()`) returns and `polls` counts the polls made; `destroyed` lists the
thread objects deleted, newest first. -/
structure World where
  head : Option Nat
  tail : Option Nat
  currThread : Option Nat
  zombieThread : Option Nat
  io_head : Option Nat
  io_tail : Option Nat
  hw_locked : Bool
  queue_locked : Bool
  heap : Nat → ThreadNode
  interrupts : Bool
  current : Option Nat
  busy : Nat → Bool
  polls : Nat
  destroyed : List Nat
  trace : List Ev

/-- How a call ends: it returns; it reaches `Thread::dispatch_to(node->thread)`, where the
CPU is handed to another thread (the rest of the call runs when the caller is dispatched
again); it fails an `assert`; it dereferences a null pointer; or it never does any of these
(the iteration budget of the model is used up). -/
inductive Outcome where
  | returned (w : World)
  | switched (w : World) (node : Nat)
  | aborted (w : World)
  | crashed (w : World)
  | diverged

/-- Record an event. -/
def World.emit (w : World) (e : Ev) : World := { w with trace := e :: w.trace }

/-- Modelled from the spec: `Machine::disable_interrupts()`, whose code is not among the
sources; the interrupt flag is explicit state (`Machine::interrupts_enabled()` reads it) and
the call clears it. -/
def disable_interrupts (w : World) : World := { w with interrupts := false }

/-- Modelled from the spec: `Machine::enable_interrupts()`, whose code is not among the
sources; the call sets the interrupt flag. -/
def enable_interrupts (w : World) : World := { w with interrupts := true }

/-- Modelled from the spec: `Thread::dispatch_to(thread)`, a context-switch primitive of the
thread library; the thread becomes `Thread::CurrentThread()`. -/
def dispatch_to (w : World) (t : Option Nat) : World :=
  { (w.emit (Ev.dispatch t)) with current := t }

/-- The store `head = v`. -/
def set_head (w : World) (v : Option Nat) : World :=
  { (w.emit (Ev.store w.interrupts)) with head := v }

/-- The store `tail = v`. -/
def set_tail (w : World) (v : Option Nat) : World :=
  { (w.emit (Ev.store w.interrupts)) with tail := v }

/-- The store `node->next = v` into a ready-queue node. -/
def set_next (w : World) (node : Nat) (v : Option Nat) : World :=
  { (w.emit (Ev.store w.interrupts)) with
    heap := fun a => if a = node then { w.heap a with next := v } else w.heap a }

/-- The store `node->prev = v` into a ready-queue node. -/
def set_prev (w : World) (node : Nat) (v : Option Nat) : World :=
  { (w.emit (Ev.store w.interrupts)) with
    heap := fun a => if a = node then { w.heap a with prev := v } else w.heap a }

/-- Modelled from the spec: `new ReadyThread(_thread)` and `new IOThreadNode(_thread)`, whose
node types are declared in headers that are not among the sources ("a ready-queue of thread
references as a doubly-linked list", "an I/O waiter queue (doubly-linked list of `(thread)`
nodes)").  `node` is the address chosen by the allocator; the constructor stores the
thread; the link fields are left as the heap has them, and no routine below reads them
before storing into them. -/
def new_node (w : World) (node : Nat) (_thread : Option Nat) : World :=
  { w with heap := fun a => if a = node then { w.heap a with thread := _thread } else w.heap a }

/-- The constructor `Scheduler::Scheduler()` (the same text in both builds). -/
def Scheduler.construct (w : World) : World :=
  { w with head := none, tail := none, currThread := w.current, zombieThread := none }

/-- The part of `yield` that unlinks the first node of the ready queue, `node` being `head`:
`if (head == tail) { head = nullptr; tail = nullptr; } else { head->next->prev = nullptr;
head = head->next; }`; `none` when `head->next` is null in the second branch. -/
def unlink_head (w : World) (node : Nat) : Option World :=
  if w.head = w.tail then some (set_tail (set_head w none) none)
  else
    match (w.heap node).next with
    | none => none
    | some nx => some (set_head (set_prev w nx none) (some nx))

/-- The ready-queue branch of `yield`, shared by both builds: `if (head != nullptr) { ... }`
up to the call of `Thread::dispatch_to(node->thread)`. -/
def dispatch_ready (w : World) : Outcome :=
  match w.head with
  | none => Outcome.returned w
  | some node =>
    match unlink_head w node with
    | none => Outcome.crashed w
    | some w1 =>
      let w2 := if w1.interrupts = false then enable_interrupts w1 else w1
      Outcome.switched (dispatch_to w2 (w2.heap node).thread) node

/-- The end of `yield` in both builds, run when the caller is dispatched again:
`delete node; currThread = Thread::CurrentThread();`. -/
def Scheduler.yield_rest (w : World) : World :=
  { w with currThread := w.current }

/-- The method `Scheduler::yield()` of the base build, up to its `dispatch_to`. -/
def Scheduler.yield (w : World) : Outcome :=
  let w1 := if w.interrupts then disable_interrupts w else w
  let w2 := { w1 with currThread := w1.current }
  if w2.currThread = none then Outcome.aborted w2
  else dispatch_ready w2

/-- The method `Scheduler::resume(_thread)` of the base build; `node` is the address of the
`ReadyThread` that `new` returns. -/
def Scheduler.resume (w : World) (_thread : Option Nat) (node : Nat) : World :=
  let w1 := if w.interrupts then disable_interrupts w else w
  let w2 := new_node w1 node _thread
  let w3 :=
    match w2.tail with
    | none => set_head (set_tail w2 (some node)) (some node)
    | some t => set_tail (set_prev (set_next w2 t (some node)) node (some t)) (some node)
  if w3.interrupts = false then enable_interrupts w3 else w3

/-- The method `Scheduler::add(_thread)` of the base build. -/
def Scheduler.add (w : World) (_thread : Option Nat) (node : Nat) : World :=
  Scheduler.resume w _thread node

/-- The method `Scheduler::terminate(_thread)` of the base build. -/
def Scheduler.terminate (w : World) (_thread : Option Nat) : World :=
  let w1 :=
    match w.zombieThread with
    | some z => { w with destroyed := z :: w.destroyed, zombieThread := none }
    | none => w
  { w1 with zombieThread := _thread }

/-- The flag `locked` of a lock. -/
def locked (l : LockId) (w : World) : Bool :=
  match l with
  | LockId.hw_lock => w.hw_locked
  | LockId.queue_lock => w.queue_locked

/-- The store `locked = v` into a lock. -/
def set_locked (l : LockId) (v : Bool) (w : World) : World :=
  match l with
  | LockId.hw_lock => { w with hw_locked := v }
  | LockId.queue_lock => { w with queue_locked := v }

/-- The method `DiskLock::lock()`; `yield` is `System::SCHEDULER->yield()`.  The `for (;;)`
loop is the recursion; an outcome of the inner `yield` other than a return ends the call. -/
def lockLoop (l : LockId) (yield : World → Outcome) : Nat → World → Outcome
  | 0, _ => Outcome.diverged
  | fuel + 1, w =>
    let w1 := if w.interrupts then disable_interrupts w else w
    if locked l w1 = false then
      Outcome.returned (enable_interrupts (set_locked l true w1))
    else
      match yield (enable_interrupts w1) with
      | Outcome.returned w2 => lockLoop l yield fuel w2
      | other => other

/-- `DiskLock::lock()` with the call recorded. -/
def DiskLock.lock (l : LockId) (yield : World → Outcome) (fuel : Nat) (w : World) : Outcome :=
  lockLoop l yield fuel (w.emit (Ev.lock l))

/-- The method `DiskLock::unlock()`. -/
def DiskLock.unlock (l : LockId) (w : World) : World :=
  let w1 := if w.interrupts then disable_interrupts w else w
  enable_interrupts (set_locked l false w1)

/-- Modelled from the spec: `SimpleDisk::is_busy()`, the poll of the controller's status
(hardware): the next value of the `busy` sequence. -/
def is_busy (w : World) : Bool × World :=
  (w.busy w.polls, { w with polls := w.polls + 1 })

/-- The part of the disk build's `yield` that unlinks the first node of the I/O waiter
queue, `node` being `System::DISK->head`; `none` when `head->next` is null in the second
branch. -/
def unlink_io_head (w : World) (node : Nat) : Option World :=
  if w.io_head = w.io_tail then some { w with io_head := none, io_tail := none }
  else
    match (w.heap node).next with
    | none => none
    | some nx =>
      some { w with
        heap := fun a => if a = nx then { w.heap a with prev := none } else w.heap a,
        io_head := some nx }

/-- The `else` branch of the disk build's `yield`: take the first I/O waiter under the queue
lock and dispatch it.  `node->thread` with `node` null is a null dereference. -/
def dispatch_waiter (yield : World → Outcome) (fuel : Nat) (w : World) : Outcome :=
  match DiskLock.lock LockId.queue_lock yield fuel w with
  | Outcome.returned w1 =>
    match w1.io_head with
    | none => Outcome.crashed w1
    | some node =>
      match unlink_io_head w1 node with
      | none => Outcome.crashed w1
      | some w2 =>
        let w3 := DiskLock.unlock LockId.queue_lock w2
        let w4 := if w3.interrupts = false then enable_interrupts w3 else w3
        Outcome.switched (dispatch_to w4 (w4.heap node).thread) node
  | other => other

/-- The method `Scheduler::yield(int interrupt)` of the disk build, up to its `dispatch_to`.
The calls `System::SCHEDULER->yield()` made by `DiskLock::lock` are calls of this method
with `interrupt = 0`; the recursion through them is bounded by `fuel`. -/
def DiskBuild.Scheduler.yield : Nat → World → Int → Outcome
  | 0, _, _ => Outcome.diverged
  | fuel + 1, w, interrupt =>
    let w0 := w.emit (Ev.yield w.hw_locked w.queue_locked)
    let w1 := if w0.interrupts then disable_interrupts w0 else w0
    let w2 := { w1 with currThread := w1.current }
    if w2.currThread = none then Outcome.aborted w2
    else
      let b := if interrupt = 0 then is_busy w2 else (false, w2)
      let disk_busy := b.1
      match DiskLock.lock LockId.queue_lock (fun x => DiskBuild.Scheduler.yield fuel x 0)
          fuel b.2 with
      | Outcome.returned w3 =>
        let disk_queue_empty := decide (w3.io_head = none)
        let w4 := DiskLock.unlock LockId.queue_lock w3
        if disk_busy || disk_queue_empty then dispatch_ready w4
        else dispatch_waiter (fun x => DiskBuild.Scheduler.yield fuel x 0) fuel w4
      | other => other

/-- The method `Scheduler::resume(_thread)` of the disk build. -/
def DiskBuild.Scheduler.resume (w : World) (_thread : Option Nat) (node : Nat) : World :=
  let w1 := if w.interrupts then disable_interrupts w else w
  let w2 := new_node w1 node _thread
  let w3 :=
    match w2.tail with
    | none => set_head (set_tail w2 (some node)) (some node)
    | some t => set_tail (set_prev (set_next w2 t (some node)) node (some t)) (some node)
  if w3.interrupts = false then enable_interrupts w3 else w3

/-- The method `Scheduler::add(_thread)` of the disk build. -/
def DiskBuild.Scheduler.add (w : World) (_thread : Option Nat) (node : Nat) : World :=
  DiskBuild.Scheduler.resume w _thread node

/-- The method `Scheduler::terminate(_thread)` of the disk build. -/
def DiskBuild.Scheduler.terminate (w : World) (_thread : Option Nat) : World :=
  let w1 :=
    match w.zombieThread with
    | some z => { w with destroyed := z :: w.destroyed, zombieThread := none }
    | none => w
  { w1 with zombieThread := _thread }

/-- The method `NonBlockingDisk::wait_while_busy()`:
`while (is_busy()) { System::SCHEDULER->yield(); }`. -/
def NonBlockingDisk.wait_while_busy : Nat → World → Outcome
  | 0, _ => Outcome.diverged
  | fuel + 1, w =>
    let b := is_busy w
    if b.1 then
      match DiskBuild.Scheduler.yield fuel b.2 0 with
      | Outcome.returned w1 => NonBlockingDisk.wait_while_busy fuel w1
      | other => other
    else Outcome.returned b.2

/-- Modelled from the spec: `SimpleDisk::read(_block_no, _buf)` of the base disk, which
"blocks internally via repeated `is_busy` polls": it issues the operation, calls the virtual
`wait_while_busy()` and transfers the block.  Only the wait acts on this state. -/
def SimpleDisk.read (fuel : Nat) (w : World) : Outcome :=
  NonBlockingDisk.wait_while_busy fuel w

/-- The append of `node` to the I/O waiter queue in `read` and `write`:
`if (tail == nullptr) { tail = node; head = node; } else { tail->next = node;
node->prev = tail; tail = node; }`. -/
def io_append (w : World) (node : Nat) : World :=
  match w.io_tail with
  | none => { w with io_tail := some node, io_head := some node }
  | some t =>
    let h1 : Nat → ThreadNode :=
      fun a => if a = t then { w.heap a with next := some node } else w.heap a
    let h2 : Nat → ThreadNode :=
      fun a => if a = node then { h1 a with prev := some t } else h1 a
    { w with heap := h2, io_tail := some node }

/-- The method `NonBlockingDisk::read(_block_no, _buf)`, up to the first `dispatch_to`;
`io_node` and `ready_node` are the addresses that the two `new` return.  The whole call,
followed past each `dispatch_to`, is `Whole.NonBlockingDisk.read`. -/
def NonBlockingDisk.read (fuel : Nat) (w : World) (io_node ready_node : Nat) : Outcome :=
  let w1 := new_node w io_node w.current
  match DiskLock.lock LockId.queue_lock (fun x => DiskBuild.Scheduler.yield fuel x 0)
      fuel w1 with
  | Outcome.returned w2 =>
    let w3 := io_append w2 io_node
    let w4 := DiskLock.unlock LockId.queue_lock w3
    match DiskLock.lock LockId.hw_lock (fun x => DiskBuild.Scheduler.yield fuel x 0)
        fuel w4 with
    | Outcome.returned w5 =>
      match SimpleDisk.read fuel w5 with
      | Outcome.returned w6 =>
        let w7 := DiskLock.unlock LockId.hw_lock w6
        let w8 := DiskBuild.Scheduler.resume w7 w7.current ready_node
        DiskBuild.Scheduler.yield fuel w8 0
      | other => other
    | other => other
  | other => other

/-- The method `NonBlockingDisk::handle_interrupt(_r)`, up to the `dispatch_to` of its
`yield(1)`; `ready_node` is the address that the `new` in `resume` returns. -/
def NonBlockingDisk.handle_interrupt (fuel : Nat) (w : World) (ready_node : Nat) : Outcome :=
  let w1 := DiskBuild.Scheduler.resume w w.current ready_node
  DiskBuild.Scheduler.yield fuel w1 1

/-- The `next` links of the nodes `as` lead from each node to the one after it. -/
def Chain (heap : Nat → ThreadNode) : List Nat → Prop
  | [] => True
  | [_] => True
  | a :: b :: rest => (heap a).next = some b ∧ Chain heap (b :: rest)

/-- The queue with pointers `head` and `tail` consists of the nodes at the addresses `as`,
first to last: `head` points to the first and `tail` to the last (both are null for the
empty queue), the nodes are distinct and linked by `next`. -/
structure IsQueue (heap : Nat → ThreadNode) (head tail : Option Nat) (as : List Nat) :
    Prop where
  head_eq : head = as.head?
  tail_eq : tail = as.getLast?
  nodup : as.Nodup
  chain : Chain heap as

/-- The threads held by the nodes `as`, in order. -/
def threadsOf (heap : Nat → ThreadNode) (as : List Nat) : List (Option Nat) :=
  as.map (fun a => (heap a).thread)

/-- A sequence of calls `resume(t)` or `add(t)` in order; each item says whether the call is
`add`, the thread, and the address of the node that `new` returns in the call. -/
def enqueueAll (w : World) : List (Bool × Nat × Nat) → World
  | [] => w
  | (viaAdd, t, node) :: rest =>
    enqueueAll
      (if viaAdd then Scheduler.add w (some t) node else Scheduler.resume w (some t) node) rest

/-- `n` calls of `yield` (base build), each made by the thread that the call before it
dispatched: the threads dispatched, in order, and the state at the last dispatch; `none`
when one of the calls does not dispatch. -/
def yields : Nat → World → Option (List (Option Nat) × World)
  | 0, w => some ([], w)
  | n + 1, w =>
    match Scheduler.yield w with
    | Outcome.switched w' _ => (yields n w').map (fun r => (w'.current :: r.1, r.2))
    | _ => none

/-- The calls `terminate(t1)`, ..., `terminate(tn)` of the base build in order. -/
def terminateAll (w : World) : List Nat → World
  | [] => w
  | t :: rest => terminateAll (Scheduler.terminate w (some t)) rest

/-- The calls `terminate(t1)`, ..., `terminate(tn)` of the disk build in order. -/
def DiskBuild.terminateAll (w : World) : List Nat → World
  | [] => w
  | t :: rest => DiskBuild.terminateAll (DiskBuild.Scheduler.terminate w (some t)) rest

/-- A state with empty queues, free locks, interrupts enabled, an idle disk and thread 100
running. -/
def idleWorld : World :=
  { head := none
    tail := none
    currThread := none
    zombieThread := none
    io_head := none
    io_tail := none
    hw_locked := false
    queue_locked := false
    heap := fun _ => { thread := none, next := none, prev := none }
    interrupts := true
    current := some 100
    busy := fun _ => false
    polls := 0
    destroyed := []
    trace := [] }

/-- Dispatch choice of the disk build's `yield(interrupt)` as the specification states it, in
a state whose ready queue holds the nodes `ready` and whose I/O waiter queue holds the nodes
`waiters`, with `disk_busy = (interrupt != 0 ? false : DISK.is_busy())`.  When `disk_busy`
holds or there is no waiter, the call dispatches the first ready thread (or returns, if none
is ready) and the waiter queue is unchanged; otherwise it removes the first waiter and
dispatches it. -/
def DispatchChoice (fuel : Nat) (w : World) (interrupt : Int) (ready waiters : List Nat) :
    Prop :=
  (((if interrupt ≠ 0 then false else w.busy w.polls) = true ∨ waiters = []) →
    (ready = [] →
      ∃ w', DiskBuild.Scheduler.yield fuel w interrupt = Outcome.returned w' ∧
        IsQueue w'.heap w'.io_head w'.io_tail waiters ∧
        threadsOf w'.heap waiters = threadsOf w.heap waiters) ∧
    (∀ a rest, ready = a :: rest →
      ∃ w', DiskBuild.Scheduler.yield fuel w interrupt = Outcome.switched w' a ∧
        w'.current = (w.heap a).thread ∧ IsQueue w'.heap w'.head w'.tail rest ∧
        IsQueue w'.heap w'.io_head w'.io_tail waiters ∧
        threadsOf w'.heap waiters = threadsOf w.heap waiters)) ∧
  (((if interrupt ≠ 0 then false else w.busy w.polls) = false ∧ waiters ≠ []) →
    ∀ b rest, waiters = b :: rest →
      ∃ w', DiskBuild.Scheduler.yield fuel w interrupt = Outcome.switched w' b ∧
        w'.current = (w.heap b).thread ∧ IsQueue w'.heap w'.io_head w'.io_tail rest ∧
        threadsOf w'.heap rest = threadsOf w.heap rest)

/-- Effect of the disk completion interrupt as the specification states it, in a state whose
ready queue holds the nodes `ready` and whose I/O waiter queue holds the nodes `waiters`,
`node` being the address of the `ReadyThread` allocated for the interrupted thread.  With a
first waiter `b`, `handle_interrupt` dispatches the thread of `b`, the remaining waiters stay
queued in order, and the interrupted thread is at the tail of the ready queue behind the
threads that were ready. -/
def InterruptDispatch (fuel : Nat) (w : World) (node : Nat) (ready waiters : List Nat) :
    Prop :=
  ∀ b rest, waiters = b :: rest →
    ∃ w', NonBlockingDisk.handle_interrupt fuel w node = Outcome.switched w' b ∧
      w'.current = (w.heap b).thread ∧ IsQueue w'.heap w'.io_head w'.io_tail rest ∧
      threadsOf w'.heap rest = threadsOf w.heap rest ∧
      IsQueue w'.heap w'.head w'.tail (ready ++ [node]) ∧
      threadsOf w'.heap (ready ++ [node]) = threadsOf w.heap ready ++ [w.current]

/-- A state in which `queue_lock` is held: thread 100 is running, thread 1 is ready (node
10) and thread 2 waits for the disk (node 20). -/
def lockedWorld : World :=
  { idleWorld with
    queue_locked := true
    head := some 10
    tail := some 10
    io_head := some 20
    io_tail := some 20
    heap := fun a =>
      if a = 10 then { thread := some 1, next := none, prev := none }
      else if a = 20 then { thread := some 2, next := none, prev := none }
      else { thread := none, next := none, prev := none } }

/-- The state `lockedWorld` with `queue_lock` free. -/
def queuedWorld : World := { lockedWorld with queue_locked := false }

/-- Start of scenario S5: thread `A` is running, thread `B` is the only thread on the ready
queue (in node `nb`), no thread waits for the disk and both locks are free. -/
def S5Start (w : World) (A B nb : Nat) : Prop :=
  w.current = some A ∧ IsQueue w.heap w.head w.tail [nb] ∧ (w.heap nb).thread = some B ∧
    w.io_head = none ∧ w.io_tail = none ∧ w.hw_locked = false ∧ w.queue_locked = false

/-- Scenario S5 as the specification states it: `A`'s call `disk.read` (allocating the waiter
node `io_node` and the ready node `ready_node`) ends in a `yield` that dispatches `B`, with
`A` at the tail of the ready queue; the disk interrupt that follows (allocating `irq_node`
for the interrupted thread) dispatches `A`, taken from the waiter queue. -/
def ScenarioS5 (fuel : Nat) (w : World) (A B io_node ready_node irq_node : Nat) : Prop :=
  ∃ w1 n1 w2,
    NonBlockingDisk.read fuel w io_node ready_node = Outcome.switched w1 n1 ∧
    w1.current = some B ∧
    (∃ rs, IsQueue w1.heap w1.head w1.tail rs ∧
      (threadsOf w1.heap rs).getLast? = some (some A)) ∧
    NonBlockingDisk.handle_interrupt fuel w1 irq_node = Outcome.switched w2 io_node ∧
    w2.current = some A

/-- A start state of scenario S5 with an idle disk (`is_busy()` is false at every poll):
thread 1 is running and thread 2 is ready in node 10. -/
def s5World : World :=
  { idleWorld with
    current := some 1
    head := some 10
    tail := some 10
    heap := fun a =>
      if a = 10 then { thread := some 2, next := none, prev := none }
      else { thread := none, next := none, prev := none } }

/-- The state `s5World` with a disk that reports busy from its second poll on. -/
def s5BusyWorld : World := { s5World with busy := fun k => decide (1 ≤ k) }

/-- The state in which a call ended, when it ended: `none` for a call that never ends. -/
def Outcome.world : Outcome → Option World
  | Outcome.returned w => some w
  | Outcome.switched w _ => some w
  | Outcome.aborted w => some w
  | Outcome.crashed w => some w
  | Outcome.diverged => none

/-- Modelled from the spec: `SimpleDisk::write(_block_no, _buf)` of the base disk, which, like
`SimpleDisk::read`, "blocks internally via repeated `is_busy` polls": it issues the
operation, calls the virtual `wait_while_busy()` and transfers the block.  Only the wait acts
on this state. -/
def SimpleDisk.write (fuel : Nat) (w : World) : Outcome :=
  NonBlockingDisk.wait_while_busy fuel w

/-- The method `NonBlockingDisk::write(_block_no, _buf)`, up to the first `dispatch_to`;
`io_node` and `ready_node` are the addresses that the two `new` return. -/
def NonBlockingDisk.write (fuel : Nat) (w : World) (io_node ready_node : Nat) : Outcome :=
  let w1 := new_node w io_node w.current
  match DiskLock.lock LockId.queue_lock (fun x => DiskBuild.Scheduler.yield fuel x 0)
      fuel w1 with
  | Outcome.returned w2 =>
    let w3 := io_append w2 io_node
    let w4 := DiskLock.unlock LockId.queue_lock w3
    match DiskLock.lock LockId.hw_lock (fun x => DiskBuild.Scheduler.yield fuel x 0)
        fuel w4 with
    | Outcome.returned w5 =>
      match SimpleDisk.write fuel w5 with
      | Outcome.returned w6 =>
        let w7 := DiskLock.unlock LockId.hw_lock w6
        let w8 := DiskBuild.Scheduler.resume w7 w7.current ready_node
        DiskBuild.Scheduler.yield fuel w8 0
      | other => other
    | other => other
  | other => other

/-- A state with one ready thread and no waiter: thread 100 is running with interrupts
enabled, thread 1 is ready (node 10), both locks are free and the disk is idle. -/
def readyWorld : World :=
  { idleWorld with
    head := some 10
    tail := some 10
    heap := fun a =>
      if a = 10 then { thread := some 1, next := none, prev := none }
      else { thread := none, next := none, prev := none } }

/-- The state `w'` extends the trace of `w` by events that all satisfy `P`. -/
def Appends (P : Ev → Prop) (w w' : World) : Prop :=
  ∃ evs, w'.trace = evs ++ w.trace ∧ ∀ e ∈ evs, P e

/-- The events that one call of the disk build's `yield`, entered with `queue_lock` free and
`hw_lock` in state `hw`, can record: its own entry, calls of `queue_lock.lock()`, stores to
the ready queue made with interrupts enabled, and a dispatch. -/
def YieldEvent (hw : Bool) (e : Ev) : Prop :=
  e = Ev.yield hw false ∨ e = Ev.lock LockId.queue_lock ∨ e = Ev.store true ∨
    ∃ t, e = Ev.dispatch t

/-- The event `e`, if it is an entry into `yield`, found `hw_lock` in state `hw` and
`queue_lock` free. -/
def YieldsWith (hw : Bool) (e : Ev) : Prop :=
  ∀ h q, e = Ev.yield h q → h = hw ∧ q = false

/-- The state `w'` differs from `w` at most in the zombie slot and in the log of destroyed
thread objects: the ready queue (pointers and nodes), `currThread`, the running thread, the
waiter queue, the locks, the interrupt flag, the disk and the trace are the same. -/
def OnlyZombie (w w' : World) : Prop :=
  w'.head = w.head ∧ w'.tail = w.tail ∧ w'.heap = w.heap ∧ w'.currThread = w.currThread ∧
    w'.current = w.current ∧ w'.io_head = w.io_head ∧ w'.io_tail = w.io_tail ∧
    w'.hw_locked = w.hw_locked ∧ w'.queue_locked = w.queue_locked ∧
    w'.interrupts = w.interrupts ∧ w'.busy = w.busy ∧ w'.polls = w.polls ∧
    w'.trace = w.trace

/-- The machine `demoMachine` at a fault inside the recursive window: the fault address
`0xFFC05000` has directory index 1023 and table index 5. -/
def windowMachine : Machine := { demoMachine with cr2 := 0xFFC05000 }

/-- The call `release(va)` on the pool state `p` passes each of its assertions, as the
specification states them: the scan of `alloc_list` finds the entry (pair `j`, the first
whose start field is `va`) before it leaves the page; the start and the length of the entry
are multiples of `PAGE_SIZE`; `free_page` accepts the page number of every page of the
region; `free_list` has an empty pair `m` below the last pair of the page; and the call
returns, having called `free_page` once for each page of the region. -/
def ReleaseSafe (pools : List VMPool) (p : VMPool) (va : Nat) : Prop :=
  ∃ j m, j < 512 ∧ (∀ k, k < j → startAt p.alloc_list k ≠ va) ∧ startAt p.alloc_list j = va ∧
    startAt p.alloc_list j % PAGE_SIZE = 0 ∧ lenAt p.alloc_list j % PAGE_SIZE = 0 ∧
    (∀ t, t < lenAt p.alloc_list j / PAGE_SIZE →
      free_page_check pools (va / PAGE_SIZE + t) = true) ∧
    m < 511 ∧ (∀ k, k < m → lenAt p.free_list k ≠ 0) ∧ lenAt p.free_list m = 0 ∧
    ∃ p', p.release pools va =
      some (p', List.range' (va / PAGE_SIZE) (lenAt p.alloc_list j / PAGE_SIZE))

/-- The state `queuedWorld` with a controller that reports busy at every poll. -/
def busyQueuedWorld : World := { queuedWorld with busy := fun _ => true }

/-- The layout `MP_3` relies on when it indexes the directory and a page table through their
physical addresses: directory entry `j` and the 1024 words of frame `frame` are
identity-mapped (the MMU resolves their addresses to themselves), and the walk that
resolves them reads neither that entry nor a word of that frame, so that the mapping holds
for every memory that agrees with `m` outside them. -/
def MP3.DirectMapped (m : Machine) (frame j : Nat) : Prop :=
  ∀ mem' : Nat → Nat,
    (∀ b, b / PAGE_SIZE ≠ frame → b ≠ m.cr3 + 4 * j → mem' b = m.mem b) →
    translate { m with mem := mem' } (m.cr3 + 4 * j) = some (m.cr3 + 4 * j) ∧
    ∀ i, i < ENTRIES_PER_PAGE →
      translate { m with mem := mem' } (frame * PAGE_SIZE + 4 * i) =
        some (frame * PAGE_SIZE + 4 * i)

/-- A machine in a layout both handlers can run on.  The directory is frame `0x200`; its
entry 0 references the page table in frame `0x201`, which identity-maps the frames `0x200`,
`0x202` and `0x203`; entry 1023 references the directory itself; entry `0x100` references the
page table in frame `0x202`.  The kernel pool holds frame `0x203`, the process pool the
frames `0x404` and `0x405`, and the fault address is `0x40001234`. -/
def directMachine : Machine :=
  { mem := fun a =>
      if a = 0x200000 then 0x201003
      else if a = 0x200000 + 4 * 1023 then 0x200003
      else if a = 0x200000 + 4 * 0x100 then 0x202007
      else if a = 0x201000 + 4 * 0x200 then 0x200003
      else if a = 0x201000 + 4 * 0x202 then 0x202003
      else if a = 0x201000 + 4 * 0x203 then 0x203003
      else 0
    cr3 := 0x200000
    cr2 := 0x40001234
    current_page_table := some { page_directory := 0x200000, head_pool := none }
    kernel_frames := [0x203]
    process_frames := [0x404, 0x405]
    released := []
    cr3_writes := 1 }

/-- The machine `directMachine` at a fault in a region whose page table does not exist yet:
the fault address is `0x40401234`, of directory index `0x101`. -/
def directMachineAbsent : Machine := { directMachine with cr2 := 0x40401234 }

/-- The two handlers make the same edit on a fault whose directory entry `j = cr2 >> 22` is
present: run on the state `m`, the handler of the VM-pool build (through the recursive
window) and the handler of `MP_3` (through physical addresses) return in the same state, in
which one frame `f` has left the process pool and entry `k = (cr2 >> 12) & 0x3FF` of the page
table that `PDE[j]` references holds `f * PAGE_SIZE | 7`, every other word of memory being
as it was. -/
def SameEditPresent (m : Machine) (err_code : Nat) : Prop :=
  ∃ f rest, m.process_frames = f :: rest ∧
    PageTable.handle_fault m err_code =
      Result.ok { m with
        process_frames := rest,
        mem := write m.mem
          ((m.mem (m.cr3 + 4 * (m.cr2 >>> 22)) &&& 0xFFFFF000) +
            4 * ((m.cr2 >>> 12) &&& 0x3FF))
          ((f * PAGE_SIZE) ||| 7) } ∧
    MP3.PageTable.handle_fault m err_code =
      Result.ok { m with
        process_frames := rest,
        mem := write m.mem
          ((m.mem (m.cr3 + 4 * (m.cr2 >>> 22)) &&& 0xFFFFF000) +
            4 * ((m.cr2 >>> 12) &&& 0x3FF))
          ((f * PAGE_SIZE) ||| 7) }

/-- The two handlers edit the same indices on a fault whose directory entry `j = cr2 >> 22`
is not present.  The handler of the VM-pool build returns in a state `m1` and the handler of
`MP_3` in a state `m2`; each has stored a new page table into the directory word
`page_directory[j]` (frame `f1`, the first of the process pool, in the VM-pool build; frame
`g`, the first of the kernel pool, in `MP_3`) and a new page into entry
`k = (cr2 >> 12) & 0x3FF` of that table (the next frame of the process pool), and outside the
frame of the new table no other word of memory has changed. -/
def SameEditAbsent (m : Machine) (err_code : Nat) : Prop :=
  ∃ f1 f2 rest g krest m1 m2,
    m.process_frames = f1 :: f2 :: rest ∧ m.kernel_frames = g :: krest ∧
    PageTable.handle_fault m err_code = Result.ok m1 ∧
    MP3.PageTable.handle_fault m err_code = Result.ok m2 ∧
    m1.mem (m.cr3 + 4 * (m.cr2 >>> 22)) = (f1 * PAGE_SIZE) ||| 7 ∧
    m2.mem (m.cr3 + 4 * (m.cr2 >>> 22)) = (g * PAGE_SIZE) ||| 7 ∧
    m1.mem (f1 * PAGE_SIZE + 4 * ((m.cr2 >>> 12) &&& 0x3FF)) = (f2 * PAGE_SIZE) ||| 7 ∧
    m2.mem (g * PAGE_SIZE + 4 * ((m.cr2 >>> 12) &&& 0x3FF)) = (f1 * PAGE_SIZE) ||| 7 ∧
    (∀ a, a ≠ m.cr3 + 4 * (m.cr2 >>> 22) → a / PAGE_SIZE ≠ f1 → m1.mem a = m.mem a) ∧
    (∀ a, a ≠ m.cr3 + 4 * (m.cr2 >>> 22) → a / PAGE_SIZE ≠ g → m2.mem a = m.mem a) ∧
    m1.process_frames = rest ∧ m1.kernel_frames = m.kernel_frames ∧
    m2.process_frames = f2 :: rest ∧ m2.kernel_frames = krest

/-! ### Whole calls of the disk build: the code of `scheduler.C` and `nonblocking_disk.C`
followed past `Thread::dispatch_to`, as the calling thread runs it -/

/-- The places from which the calling thread reaches `Scheduler::yield` in `read`, `write`
and `handle_interrupt`: the spin of `queue_lock.lock()` at the head of `read` and `write`,
the spin of `hw_lock.lock()`, `wait_while_busy()` inside the raw transfer, the `yield()`
that ends `read` and `write`, and the `yield(1)` of `handle_interrupt`.  A `yield` reached
from inside another `yield` (through the spin of `lock_queue()`) counts for the place of the
outer one. -/
inductive Site where
  | enqueue
  | acquire
  | transfer
  | finish
  | irq
  deriving DecidableEq

/-- What the calling thread itself does, newest first in `Caller.log`: a call of
`DiskLock::lock` on a lock, and an entry into `Scheduler::yield` together with the place it
is reached from and whether the thread holds `hw_lock` and `queue_lock` at that time. -/
inductive CallEv where
  | lock (l : LockId)
  | yield (site : Site) (hw queue : Bool)
  deriving DecidableEq

/-- The calling thread in the middle of a call: the state of the system, the locks the
thread holds (a lock is held from the return of its `lock()` to its `unlock()`), and the
record of the thread's own lock calls and yields. -/
structure Caller where
  world : World
  holds_hw : Bool
  holds_queue : Bool
  log : List CallEv

/-- How a whole call ends for the calling thread: it returns; it is switched out by
`Thread::dispatch_to` (of the node given) and never dispatched again; it fails an `assert`;
it dereferences a null pointer; or the iteration budget of the model is used up, the call
being still under way.  Each with the thread's state at that point. -/
inductive CallEnd where
  | returned (c : Caller)
  | parked (c : Caller) (node : Nat)
  | aborted (c : Caller)
  | crashed (c : Caller)
  | budget (c : Caller)

/-- The thread's state at the end of a call. -/
def CallEnd.caller : CallEnd → Caller
  | CallEnd.returned c => c
  | CallEnd.parked c _ => c
  | CallEnd.aborted c => c
  | CallEnd.crashed c => c
  | CallEnd.budget c => c

/-- A thread that holds no lock and has done nothing yet, in the state `w`. -/
def Caller.start (w : World) : Caller :=
  { world := w, holds_hw := false, holds_queue := false, log := [] }

/-- The thread does `e`. -/
def Caller.note (c : Caller) (e : CallEv) : Caller := { c with log := e :: c.log }

/-- The thread takes (`v = true`) or gives up (`v = false`) the lock `l`. -/
def Caller.grant (c : Caller) (l : LockId) (v : Bool) : Caller :=
  match l with
  | LockId.hw_lock => { c with holds_hw := v }
  | LockId.queue_lock => { c with holds_queue := v }

/-- The method `DiskLock::lock()` as `lockLoop`, run by the calling thread: the thread holds
the lock when the call returns. -/
def Whole.lockLoop (l : LockId) (yield : Caller → CallEnd) : Nat → Caller → CallEnd
  | 0, c => CallEnd.budget c
  | fuel + 1, c =>
    let w1 := if c.world.interrupts then disable_interrupts c.world else c.world
    if locked l w1 = false then
      CallEnd.returned
        { (c.grant l true) with world := enable_interrupts (set_locked l true w1) }
    else
      match yield { c with world := enable_interrupts w1 } with
      | CallEnd.returned c2 => Whole.lockLoop l yield fuel c2
      | other => other

/-- `DiskLock::lock()` with the call recorded, in the state and by the thread. -/
def Whole.DiskLock.lock (l : LockId) (yield : Caller → CallEnd) (fuel : Nat) (c : Caller) :
    CallEnd :=
  Whole.lockLoop l yield fuel ({ c with world := c.world.emit (Ev.lock l) }.note (CallEv.lock l))

/-- The method `DiskLock::unlock()`, run by the calling thread. -/
def Whole.DiskLock.unlock (l : LockId) (c : Caller) : Caller :=
  { (c.grant l false) with world := VM.DiskLock.unlock l c.world }

/-- The end of `yield` for the calling thread, `o` being how the code up to
`Thread::dispatch_to` ended.  At a dispatch the thread is switched out; `env` gives the
state in which it is dispatched again, if it ever is, and `yield` then runs its last
statements (`delete node; currThread = Thread::CurrentThread();`) and returns. -/
def Whole.dispatched (env : World → Option World) (c : Caller) : Outcome → CallEnd
  | Outcome.returned w => CallEnd.returned { c with world := w }
  | Outcome.switched w node =>
    match env w with
    | some w' => CallEnd.returned { c with world := Scheduler.yield_rest w' }
    | none => CallEnd.parked { c with world := w } node
  | Outcome.aborted w => CallEnd.aborted { c with world := w }
  | Outcome.crashed w => CallEnd.crashed { c with world := w }
  | Outcome.diverged => CallEnd.budget c

/-- The `else` branch of the disk build's `yield` as `dispatch_waiter`, followed past its
`dispatch_to`. -/
def Whole.dispatch_waiter (env : World → Option World) (yield : Caller → CallEnd) (fuel : Nat)
    (c : Caller) : CallEnd :=
  match Whole.DiskLock.lock LockId.queue_lock yield fuel c with
  | CallEnd.returned c1 =>
    match c1.world.io_head with
    | none => CallEnd.crashed c1
    | some node =>
      match unlink_io_head c1.world node with
      | none => CallEnd.crashed c1
      | some w2 =>
        let c3 := Whole.DiskLock.unlock LockId.queue_lock { c1 with world := w2 }
        let w4 := if c3.world.interrupts = false then enable_interrupts c3.world else c3.world
        Whole.dispatched env c3 (Outcome.switched (dispatch_to w4 (w4.heap node).thread) node)
  | other => other

/-- The method `Scheduler::yield(int interrupt)` of the disk build as
`DiskBuild.Scheduler.yield`, followed past its `dispatch_to`: the whole call, as the thread
that makes it runs it.  `site` is the place the call is reached from; the entry is recorded
with the locks the thread holds. -/
def Whole.Scheduler.yield (env : World → Option World) (site : Site) :
    Nat → Caller → Int → CallEnd
  | 0, c, _ => CallEnd.budget c
  | fuel + 1, c, interrupt =>
    let c0 := c.note (CallEv.yield site c.holds_hw c.holds_queue)
    let w0 := c.world.emit (Ev.yield c.world.hw_locked c.world.queue_locked)
    let w1 := if w0.interrupts then disable_interrupts w0 else w0
    let w2 := { w1 with currThread := w1.current }
    if w2.currThread = none then CallEnd.aborted { c0 with world := w2 }
    else
      let b := if interrupt = 0 then is_busy w2 else (false, w2)
      let disk_busy := b.1
      match Whole.DiskLock.lock LockId.queue_lock
          (fun x => Whole.Scheduler.yield env site fuel x 0) fuel { c0 with world := b.2 } with
      | CallEnd.returned c3 =>
        let disk_queue_empty := decide (c3.world.io_head = none)
        let c4 := Whole.DiskLock.unlock LockId.queue_lock c3
        if disk_busy || disk_queue_empty then
          Whole.dispatched env c4 (dispatch_ready c4.world)
        else
          Whole.dispatch_waiter env (fun x => Whole.Scheduler.yield env site fuel x 0) fuel c4
      | other => other

/-- The method `NonBlockingDisk::wait_while_busy()`, each `yield` followed to its return. -/
def Whole.NonBlockingDisk.wait_while_busy (env : World → Option World) :
    Nat → Caller → CallEnd
  | 0, c => CallEnd.budget c
  | fuel + 1, c =>
    let b := is_busy c.world
    if b.1 then
      match Whole.Scheduler.yield env Site.transfer fuel { c with world := b.2 } 0 with
      | CallEnd.returned c1 => Whole.NonBlockingDisk.wait_while_busy env fuel c1
      | other => other
    else CallEnd.returned { c with world := b.2 }

/-- Modelled from the spec: `SimpleDisk::read(_block_no, _buf)` of the base disk, as
`SimpleDisk.read`: it "blocks internally via repeated `is_busy` polls", that is, calls the
virtual `wait_while_busy()`. -/
def Whole.SimpleDisk.read (env : World → Option World) (fuel : Nat) (c : Caller) : CallEnd :=
  Whole.NonBlockingDisk.wait_while_busy env fuel c

/-- Modelled from the spec: `SimpleDisk::write(_block_no, _buf)` of the base disk, as
`SimpleDisk.write`: like `SimpleDisk::read` it calls the virtual `wait_while_busy()`. -/
def Whole.SimpleDisk.write (env : World → Option World) (fuel : Nat) (c : Caller) : CallEnd :=
  Whole.NonBlockingDisk.wait_while_busy env fuel c

/-- The method `NonBlockingDisk::read(_block_no, _buf)`, the whole call; `io_node` and
`ready_node` are the addresses that the two `new` return. -/
def Whole.NonBlockingDisk.read (env : World → Option World) (fuel : Nat) (c : Caller)
    (io_node ready_node : Nat) : CallEnd :=
  let c1 := { c with world := new_node c.world io_node c.world.current }
  match Whole.DiskLock.lock LockId.queue_lock
      (fun x => Whole.Scheduler.yield env Site.enqueue fuel x 0) fuel c1 with
  | CallEnd.returned c2 =>
    let c3 := { c2 with world := io_append c2.world io_node }
    let c4 := Whole.DiskLock.unlock LockId.queue_lock c3
    match Whole.DiskLock.lock LockId.hw_lock
        (fun x => Whole.Scheduler.yield env Site.acquire fuel x 0) fuel c4 with
    | CallEnd.returned c5 =>
      match Whole.SimpleDisk.read env fuel c5 with
      | CallEnd.returned c6 =>
        let c7 := Whole.DiskLock.unlock LockId.hw_lock c6
        let c8 :=
          { c7 with world := DiskBuild.Scheduler.resume c7.world c7.world.current ready_node }
        Whole.Scheduler.yield env Site.finish fuel c8 0
      | other => other
    | other => other
  | other => other

/-- The method `NonBlockingDisk::write(_block_no, _buf)`, the whole call. -/
def Whole.NonBlockingDisk.write (env : World → Option World) (fuel : Nat) (c : Caller)
    (io_node ready_node : Nat) : CallEnd :=
  let c1 := { c with world := new_node c.world io_node c.world.current }
  match Whole.DiskLock.lock LockId.queue_lock
      (fun x => Whole.Scheduler.yield env Site.enqueue fuel x 0) fuel c1 with
  | CallEnd.returned c2 =>
    let c3 := { c2 with world := io_append c2.world io_node }
    let c4 := Whole.DiskLock.unlock LockId.queue_lock c3
    match Whole.DiskLock.lock LockId.hw_lock
        (fun x => Whole.Scheduler.yield env Site.acquire fuel x 0) fuel c4 with
    | CallEnd.returned c5 =>
      match Whole.SimpleDisk.write env fuel c5 with
      | CallEnd.returned c6 =>
        let c7 := Whole.DiskLock.unlock LockId.hw_lock c6
        let c8 :=
          { c7 with world := DiskBuild.Scheduler.resume c7.world c7.world.current ready_node }
        Whole.Scheduler.yield env Site.finish fuel c8 0
      | other => other
    | other => other
  | other => other

/-- The method `NonBlockingDisk::handle_interrupt(_r)`, the whole call, run in the context of
the interrupted thread; `ready_node` is the address that the `new` in `resume` returns. -/
def Whole.NonBlockingDisk.handle_interrupt (env : World → Option World) (fuel : Nat)
    (c : Caller) (ready_node : Nat) : CallEnd :=
  let c1 :=
    { c with world := DiskBuild.Scheduler.resume c.world c.world.current ready_node }
  Whole.Scheduler.yield env Site.irq fuel c1 1

/-- The thread's record in `c'` extends its record in `c` by events that all satisfy `P`. -/
def Extends (P : CallEv → Prop) (c c' : Caller) : Prop :=
  ∃ evs, c'.log = evs ++ c.log ∧ ∀ e ∈ evs, P e

/-- The events a whole call of `yield` reached from `site` can add to the thread's record:
calls of `queue_lock.lock()` and entries into `yield` from that place; when `strict` holds,
each entry is made holding `hw_lock` exactly if `hh` and not holding `queue_lock`. -/
def YieldStep (site : Site) (hh : Bool) (strict : Prop) (e : CallEv) : Prop :=
  e = CallEv.lock LockId.queue_lock ∨
    ∃ h q, e = CallEv.yield site h q ∧ (strict → h = hh ∧ q = false)

/-- When `strict` holds, the thread holds `hw_lock` exactly if `hh` and does not hold
`queue_lock`. -/
def Owns (hh : Bool) (strict : Prop) (c : Caller) : Prop :=
  strict → c.holds_hw = hh ∧ c.holds_queue = false

/-- The end of a whole call as the model of the code up to `Thread::dispatch_to` names it: a
thread that is switched out and not dispatched again has ended at its `dispatch_to`. -/
def CallEnd.outcome : CallEnd → Outcome
  | CallEnd.returned c => Outcome.returned c.world
  | CallEnd.parked c node => Outcome.switched c.world node
  | CallEnd.aborted c => Outcome.aborted c.world
  | CallEnd.crashed c => Outcome.crashed c.world
  | CallEnd.budget _ => Outcome.diverged

end VM

/-! ## Loop lemmas -/

namespace VM

@[simp] theorem write_same (a : Nat → Nat) (i v : Nat) : write a i v i = v := by
  simp [write]

theorem write_of_ne (a : Nat → Nat) {i j : Nat} (v : Nat) (h : j ≠ i) : write a i v j = a j := by
  simp [write, h]

theorem zeroLoop_apply (fuel : Nat) : ∀ (i : Nat) (a : Nat → Nat) (j : Nat),
    i % 2 = 0 → 1024 ≤ 2 * fuel + i →
    zeroLoop fuel i a j = if i ≤ j ∧ j < 1024 then 0 else a j := by
  induction fuel with
  | zero =>
    intro i a j _ hf
    have : ¬ (i ≤ j ∧ j < 1024) := by omega
    simp [zeroLoop, this]
  | succ n ih =>
    intro i a j hi hf
    unfold zeroLoop
    by_cases hlt : i < ENTRIES_PER_PAGE - 1
    · rw [if_pos hlt, ih (i + 2) _ j (by omega) (by omega)]
      have hlt2 : i < 1023 := hlt
      by_cases h1 : i + 2 ≤ j ∧ j < 1024
      · rw [if_pos h1, if_pos (by omega)]
      · rw [if_neg h1]
        by_cases h2 : j = i + 1
        · subst h2; rw [write_same, if_pos (by omega)]
        · rw [write_of_ne _ _ h2]
          by_cases h3 : j = i
          · subst h3; rw [write_same, if_pos (by omega)]
          · rw [write_of_ne _ _ h3, if_neg (by omega)]
    · rw [if_neg hlt]
      have hlt2 : ¬ i < 1023 := hlt
      rw [if_neg (by omega)]

theorem shiftLoop_eq (fuel : Nat) : ∀ (i : Nat) (a : Nat → Nat),
    i % 2 = 0 → 2 ≤ i → i ≤ 1022 → 1024 ≤ 2 * fuel + i →
    shiftLoop fuel i a = erasePair a (i - 2) := by
  induction fuel with
  | zero => intro i a _ _ h1 h2; omega
  | succ n ih =>
    intro i a hi h2 hle hf
    unfold shiftLoop
    have hlt : i < ENTRIES_PER_PAGE - 1 := by show i < 1024 - 1; omega
    rw [if_pos hlt]
    by_cases hlast : i = 1022
    · subst hlast
      have hge : 1022 + 2 ≥ ENTRIES_PER_PAGE - 1 := by show 1022 + 2 ≥ 1024 - 1; omega
      simp only [if_pos hge]
      have hstop : ∀ (m : Nat) (b : Nat → Nat), shiftLoop m (1022 + 2) b = b := by
        intro m b
        cases m with
        | zero => rfl
        | succ m => unfold shiftLoop; rw [if_neg (by show ¬ (1022 + 2 < 1024 - 1); omega)]
      rw [hstop]
      funext j
      simp only [erasePair, write]
      split_ifs <;> first | rfl | omega | (congr 1; omega)
    · have hge : ¬ (i + 2 ≥ ENTRIES_PER_PAGE - 1) := by show ¬ (i + 2 ≥ 1024 - 1); omega
      simp only [if_neg hge]
      rw [ih (i + 2) _ (by omega) (by omega) (by omega) (by omega)]
      funext j
      simp only [erasePair, write]
      split_ifs <;> first | rfl | omega | (congr 1; omega)

theorem shiftLoop_stop (fuel : Nat) (i : Nat) (a : Nat → Nat) (h : 1023 ≤ i) :
    shiftLoop fuel i a = a := by
  cases fuel with
  | zero => rfl
  | succ m => unfold shiftLoop; rw [if_neg (by show ¬ (i < 1024 - 1); omega)]

theorem scanPairs_eq_some (cond : Nat → Bool) (bound : Nat) : ∀ (t fuel s : Nat),
    (∀ m, s ≤ m → m < s + t → cond (2 * m) = true) → cond (2 * (s + t)) = false →
    (t = 0 ∨ 2 * (s + t) < bound) → t < fuel →
    scanPairs cond bound fuel (2 * s) = some (2 * (s + t)) := by
  intro t
  induction t with
  | zero =>
    intro fuel s _ hc _ hf
    obtain ⟨f, rfl⟩ : ∃ f, fuel = f + 1 := ⟨fuel - 1, by omega⟩
    unfold scanPairs
    simp only [Nat.add_zero] at hc ⊢
    simp [hc]
  | succ t ih =>
    intro fuel s hall hc hb hf
    obtain ⟨f, rfl⟩ : ∃ f, fuel = f + 1 := ⟨fuel - 1, by omega⟩
    unfold scanPairs
    have h0 : cond (2 * s) = true := hall s (Nat.le_refl s) (by omega)
    have hlt : 2 * s + 2 < bound := by omega
    rw [if_pos h0, if_pos hlt]
    have e1 : 2 * s + 2 = 2 * (s + 1) := by omega
    have e2 : s + (t + 1) = s + 1 + t := by omega
    rw [e1, e2]
    apply ih f (s + 1)
    · intro m h1 h2; exact hall m (by omega) (by omega)
    · rw [← e2]; exact hc
    · right; omega
    · omega

theorem scanPairs_eq_none (cond : Nat → Bool) (bound : Nat) : ∀ (fuel s : Nat),
    (∀ m, s ≤ m → (m = s ∨ 2 * m < bound) → cond (2 * m) = true) →
    scanPairs cond bound fuel (2 * s) = none := by
  intro fuel
  induction fuel with
  | zero => intro s _; rfl
  | succ f ih =>
    intro s hall
    unfold scanPairs
    rw [if_pos (hall s (Nat.le_refl s) (Or.inl rfl))]
    by_cases hlt : 2 * s + 2 < bound
    · rw [if_pos hlt]
      have e1 : 2 * s + 2 = 2 * (s + 1) := by omega
      rw [e1]
      apply ih (s + 1)
      intro m h1 h2
      exact hall m (by omega) (Or.inr (by omega))
    · rw [if_neg hlt]

/-- Outcome of a scan from index 0: either it stops at the first pair whose condition fails,
or the condition holds on every pair it is allowed to visit and the assertion fails. -/
theorem scanPairs_cases (cond : Nat → Bool) (bound fuel : Nat) (hb : bound ≤ 2 * fuel)
    (hf : 0 < fuel) :
    (∃ k, (∀ m, m < k → cond (2 * m) = true) ∧ cond (2 * k) = false ∧ (k = 0 ∨ 2 * k < bound) ∧
        scanPairs cond bound fuel 0 = some (2 * k)) ∨
    ((∀ k, (k = 0 ∨ 2 * k < bound) → cond (2 * k) = true) ∧
        scanPairs cond bound fuel 0 = none) := by
  by_cases h : ∃ k, (k = 0 ∨ 2 * k < bound) ∧ cond (2 * k) = false
  · left
    classical
    have hk := Nat.find_spec h
    have hmin : ∀ m, m < Nat.find h → cond (2 * m) = true := by
      intro m hm
      have := Nat.find_min h hm
      have hm' : m = 0 ∨ 2 * m < bound := by omega
      by_contra hc
      exact this ⟨hm', by simpa using hc⟩
    refine ⟨Nat.find h, hmin, hk.2, hk.1, ?_⟩
    have := scanPairs_eq_some cond bound (Nat.find h) fuel 0
      (by intro m _ h2; exact hmin m (by omega)) (by simpa using hk.2)
      (by simpa using hk.1) (by omega)
    simpa using this
  · right
    have hall : ∀ k, (k = 0 ∨ 2 * k < bound) → cond (2 * k) = true := by
      intro k hk
      by_contra hc
      exact h ⟨k, hk, by simpa using hc⟩
    refine ⟨hall, ?_⟩
    have := scanPairs_eq_none cond bound fuel 0 (by intro m _ h2; exact hall m h2)
    simpa using this

theorem scanPairs_some_iff (cond : Nat → Bool) (bound fuel : Nat) (hb : bound ≤ 2 * fuel)
    (hf : 0 < fuel) (j : Nat) :
    scanPairs cond bound fuel 0 = some j ↔
      ∃ k, j = 2 * k ∧ (∀ m, m < k → cond (2 * m) = true) ∧ cond (2 * k) = false ∧
        (k = 0 ∨ 2 * k < bound) := by
  constructor
  · intro hj
    rcases scanPairs_cases cond bound fuel hb hf with ⟨k, h1, h2, h3, h4⟩ | ⟨_, h4⟩
    · rw [h4] at hj
      exact ⟨k, (Option.some.inj hj).symm, h1, h2, h3⟩
    · rw [h4] at hj; exact absurd hj (by simp)
  · rintro ⟨k, rfl, h1, h2, h3⟩
    have := scanPairs_eq_some cond bound k fuel 0
      (by intro m _ hm; exact h1 m (by omega)) (by simpa using h2) (by simpa using h3) (by omega)
    simpa using this

theorem scanPairs_none_iff (cond : Nat → Bool) (bound fuel : Nat) (hb : bound ≤ 2 * fuel)
    (hf : 0 < fuel) :
    scanPairs cond bound fuel 0 = none ↔ ∀ k, (k = 0 ∨ 2 * k < bound) → cond (2 * k) = true := by
  constructor
  · intro hn
    rcases scanPairs_cases cond bound fuel hb hf with ⟨k, _, _, _, h4⟩ | ⟨h, _⟩
    · rw [h4] at hn; exact absurd hn (by simp)
    · exact h
  · intro hall
    have := scanPairs_eq_none cond bound fuel 0 (by intro m _ h2; exact hall m h2)
    simpa using this

theorem legitLoop_iff (a : Nat → Nat) (x : Nat) : ∀ (fuel s : Nat), 1024 ≤ 2 * fuel + 2 * s →
    (legitLoop a x fuel (2 * s) = true ↔
      ∃ k, s ≤ k ∧ k < 512 ∧ a (2 * k) ≤ x ∧ x < uadd (a (2 * k)) (a (2 * k + 1))) := by
  intro fuel
  induction fuel with
  | zero =>
    intro s hs
    simp only [legitLoop]
    constructor
    · intro h; exact absurd h (by simp)
    · rintro ⟨k, h1, h2, _⟩; omega
  | succ f ih =>
    intro s hs
    unfold legitLoop
    by_cases hlt : 2 * s < ENTRIES_PER_PAGE - 1
    · rw [if_pos hlt]
      have hlt2 : 2 * s < 1023 := hlt
      by_cases hc : a (2 * s) ≤ x ∧ x < uadd (a (2 * s)) (a (2 * s + 1))
      · rw [if_pos hc]
        simp only [true_iff]
        exact ⟨s, Nat.le_refl s, by omega, hc.1, hc.2⟩
      · rw [if_neg hc]
        have e1 : 2 * s + 2 = 2 * (s + 1) := by omega
        rw [e1, ih (s + 1) (by omega)]
        constructor
        · rintro ⟨k, h1, h2, h3⟩; exact ⟨k, by omega, h2, h3⟩
        · rintro ⟨k, h1, h2, h3⟩
          have : k ≠ s := by rintro rfl; exact hc h3
          exact ⟨k, by omega, h2, h3⟩
    · rw [if_neg hlt]
      have hlt2 : ¬ 2 * s < 1023 := hlt
      constructor
      · intro h; exact absurd h (by simp)
      · rintro ⟨k, h1, h2, _⟩; omega

theorem is_legitimate_iff (p : VMPool) (x : Nat) :
    p.is_legitimate x = true ↔
      (p.base_address ≤ x ∧ x < uadd p.base_address PAGE_SIZE) ∨
      (uadd p.base_address PAGE_SIZE ≤ x ∧ x < uadd (uadd p.base_address PAGE_SIZE) PAGE_SIZE) ∨
      ∃ k, k < 512 ∧ p.alloc_list (2 * k) ≤ x ∧
        x < uadd (p.alloc_list (2 * k)) (p.alloc_list (2 * k + 1)) := by
  unfold VMPool.is_legitimate
  have hl := legitLoop_iff p.alloc_list x ENTRIES_PER_PAGE 0 (by show 1024 ≤ 2 * 1024 + 2 * 0; omega)
  simp only [Nat.mul_zero, Nat.zero_le, true_and] at hl
  by_cases h1 : p.base_address ≤ x ∧ x < uadd p.base_address PAGE_SIZE
  · simp [h1]
  · by_cases h2 : uadd p.base_address PAGE_SIZE ≤ x ∧
        x < uadd (uadd p.base_address PAGE_SIZE) PAGE_SIZE
    · simp [h1, h2]
    · simp only [if_neg h1, if_neg h2, hl]
      constructor
      · intro h; exact Or.inr (Or.inr h)
      · rintro (h | h | h)
        · exact absurd h h1
        · exact absurd h h2
        · exact h

theorem freeLoop_eq (pools : List VMPool) (bound : Nat) : ∀ (c fuel i : Nat),
    i % PAGE_SIZE = 0 → i + c * PAGE_SIZE = bound → bound < ULONG → c < fuel →
    (∀ t, t < c → free_page_check pools (i / PAGE_SIZE + t) = true) →
    freeLoop pools bound fuel i = some (List.range' (i / PAGE_SIZE) c) := by
  intro c
  induction c with
  | zero =>
    intro fuel i _ hb _ hf _
    obtain ⟨f, rfl⟩ : ∃ f, fuel = f + 1 := ⟨fuel - 1, by omega⟩
    unfold freeLoop
    rw [if_neg (by omega)]
    rfl
  | succ c ih =>
    intro fuel i hi hb hlt hf hchk
    obtain ⟨f, rfl⟩ : ∃ f, fuel = f + 1 := ⟨fuel - 1, by omega⟩
    unfold freeLoop
    have hi' : i % 4096 = 0 := hi
    have hb' : i + (c + 1) * 4096 = bound := hb
    have hlt' : bound < 4294967296 := hlt
    have hib : i < bound := by omega
    rw [if_pos hib]
    have h0 := hchk 0 (by omega)
    simp only [Nat.add_zero] at h0
    simp only [h0, if_true]
    have hadd : uadd i PAGE_SIZE = i + 4096 := by
      show (i + 4096) % 4294967296 = i + 4096
      apply Nat.mod_eq_of_lt
      omega
    have hdiv : (i + 4096) / PAGE_SIZE = i / PAGE_SIZE + 1 := by
      show (i + 4096) / 4096 = i / 4096 + 1
      omega
    rw [hadd, ih f (i + 4096)]
    · rw [hdiv]
      rfl
    · show (i + 4096) % 4096 = 0
      omega
    · show i + 4096 + c * 4096 = bound
      omega
    · exact hlt
    · omega
    · intro t ht
      rw [hdiv]
      have := hchk (t + 1) (by omega)
      rw [show i / PAGE_SIZE + 1 + t = i / PAGE_SIZE + (t + 1) by omega]
      exact this

theorem freeLoop_stop (pools : List VMPool) (bound fuel i : Nat) (h : ¬ i < bound) :
    freeLoop pools bound fuel i = some [] := by
  cases fuel with
  | zero => rfl
  | succ f => unfold freeLoop; rw [if_neg h]

/-! ## The operations in terms of pairs -/

theorem shiftLoop_erase (a : Nat → Nat) (i : Nat) (hi : i ≤ 510) :
    shiftLoop ENTRIES_PER_PAGE (2 * i + 2) a = erasePair a (2 * i) := by
  have := shiftLoop_eq ENTRIES_PER_PAGE (2 * i + 2) a (by omega) (by omega) (by omega)
    (by show 1024 ≤ 2 * 1024 + (2 * i + 2); omega)
  simpa using this

theorem shiftLoop_last (a : Nat → Nat) :
    shiftLoop ENTRIES_PER_PAGE (2 * 511 + 2) a = a :=
  shiftLoop_stop _ _ _ (by omega)

theorem free_scan_iff (fl : Nat → Nat) (sz j : Nat) :
    scanPairs (fun iter => decide (fl (iter + 1) < sz)) (ENTRIES_PER_PAGE - 1)
        ENTRIES_PER_PAGE 0 = some j ↔
      ∃ i, j = 2 * i ∧ i < 512 ∧ (∀ k, k < i → fl (2 * k + 1) < sz) ∧ sz ≤ fl (2 * i + 1) := by
  rw [scanPairs_some_iff _ _ _ (by show 1024 - 1 ≤ 2 * 1024; omega) (by show 0 < 1024; omega)]
  constructor
  · rintro ⟨k, rfl, h1, h2, h3⟩
    refine ⟨k, rfl, ?_, ?_, ?_⟩
    · have h3' : k = 0 ∨ 2 * k < 1024 - 1 := h3
      omega
    · intro m hm; simpa using h1 m hm
    · simpa using h2
  · rintro ⟨i, rfl, h1, h2, h3⟩
    refine ⟨i, rfl, ?_, ?_, ?_⟩
    · intro m hm; simpa using h2 m hm
    · simpa using h3
    · show i = 0 ∨ 2 * i < 1024 - 1
      omega

theorem free_scan_none_iff (fl : Nat → Nat) (sz : Nat) :
    scanPairs (fun iter => decide (fl (iter + 1) < sz)) (ENTRIES_PER_PAGE - 1)
        ENTRIES_PER_PAGE 0 = none ↔ ∀ k, k < 512 → fl (2 * k + 1) < sz := by
  rw [scanPairs_none_iff _ _ _ (by show 1024 - 1 ≤ 2 * 1024; omega) (by show 0 < 1024; omega)]
  constructor
  · intro h k hk
    have := h k (by show k = 0 ∨ 2 * k < 1024 - 1; omega)
    simpa using this
  · intro h k hk
    have hk' : k = 0 ∨ 2 * k < 1024 - 1 := hk
    simpa using h k (by omega)

theorem empty_scan_iff (a : Nat → Nat) (j : Nat) :
    scanPairs (fun it => decide (a (it + 1) ≠ 0)) (ENTRIES_PER_PAGE - 3)
        ENTRIES_PER_PAGE 0 = some j ↔
      ∃ m, j = 2 * m ∧ m < 511 ∧ (∀ k, k < m → a (2 * k + 1) ≠ 0) ∧ a (2 * m + 1) = 0 := by
  rw [scanPairs_some_iff _ _ _ (by show 1024 - 3 ≤ 2 * 1024; omega) (by show 0 < 1024; omega)]
  constructor
  · rintro ⟨k, rfl, h1, h2, h3⟩
    refine ⟨k, rfl, ?_, ?_, ?_⟩
    · have h3' : k = 0 ∨ 2 * k < 1024 - 3 := h3
      omega
    · intro m hm; simpa using h1 m hm
    · simpa using h2
  · rintro ⟨i, rfl, h1, h2, h3⟩
    refine ⟨i, rfl, ?_, ?_, ?_⟩
    · intro m hm; simpa using h2 m hm
    · simpa using h3
    · show i = 0 ∨ 2 * i < 1024 - 3
      omega

theorem empty_scan_none_iff (a : Nat → Nat) :
    scanPairs (fun it => decide (a (it + 1) ≠ 0)) (ENTRIES_PER_PAGE - 3)
        ENTRIES_PER_PAGE 0 = none ↔ ∀ k, k < 511 → a (2 * k + 1) ≠ 0 := by
  rw [scanPairs_none_iff _ _ _ (by show 1024 - 3 ≤ 2 * 1024; omega) (by show 0 < 1024; omega)]
  constructor
  · intro h k hk
    have := h k (by show k = 0 ∨ 2 * k < 1024 - 3; omega)
    simpa using this
  · intro h k hk
    have hk' : k = 0 ∨ 2 * k < 1024 - 3 := hk
    simpa using h k (by omega)

theorem start_scan_iff (a : Nat → Nat) (addr j : Nat) :
    scanPairs (fun iter => decide (a iter ≠ addr)) (ENTRIES_PER_PAGE - 1)
        ENTRIES_PER_PAGE 0 = some j ↔
      ∃ i, j = 2 * i ∧ i < 512 ∧ (∀ k, k < i → a (2 * k) ≠ addr) ∧ a (2 * i) = addr := by
  rw [scanPairs_some_iff _ _ _ (by show 1024 - 1 ≤ 2 * 1024; omega) (by show 0 < 1024; omega)]
  constructor
  · rintro ⟨k, rfl, h1, h2, h3⟩
    refine ⟨k, rfl, ?_, ?_, ?_⟩
    · have h3' : k = 0 ∨ 2 * k < 1024 - 1 := h3
      omega
    · intro m hm; simpa using h1 m hm
    · simpa using h2
  · rintro ⟨i, rfl, h1, h2, h3⟩
    refine ⟨i, rfl, ?_, ?_, ?_⟩
    · intro m hm; simpa using h2 m hm
    · simpa using h3
    · show i = 0 ∨ 2 * i < 1024 - 1
      omega

theorem start_scan_none_iff (a : Nat → Nat) (addr : Nat) :
    scanPairs (fun iter => decide (a iter ≠ addr)) (ENTRIES_PER_PAGE - 1)
        ENTRIES_PER_PAGE 0 = none ↔ ∀ k, k < 512 → a (2 * k) ≠ addr := by
  rw [scanPairs_none_iff _ _ _ (by show 1024 - 1 ≤ 2 * 1024; omega) (by show 0 < 1024; omega)]
  constructor
  · intro h k hk
    have := h k (by show k = 0 ∨ 2 * k < 1024 - 1; omega)
    simpa using this
  · intro h k hk
    have hk' : k = 0 ∨ 2 * k < 1024 - 1 := hk
    simpa using h k (by omega)

/-- Every successful `allocate` is a first-fit take from some pair `i` of `free_list` recorded
in the first empty pair `m` of `alloc_list`. -/
theorem allocate_some_iff (p : VMPool) (n : Nat) (p' : VMPool) (va : Nat) :
    p.allocate n = some (p', va) ↔
      ∃ i m, i < 512 ∧ (∀ k, k < i → p.free_list (2 * k + 1) < roundUp n) ∧
        roundUp n ≤ p.free_list (2 * i + 1) ∧
        m < 511 ∧ (∀ k, k < m → p.alloc_list (2 * k + 1) ≠ 0) ∧ p.alloc_list (2 * m + 1) = 0 ∧
        va = p.free_list (2 * i) ∧
        p' = { p with alloc_list := writePair p.alloc_list m (p.free_list (2 * i)) (roundUp n),
                      free_list := takeFree p.free_list i (roundUp n) } := by
  unfold VMPool.allocate
  simp only []
  constructor
  · intro h
    cases h1 : scanPairs (fun iter => decide (p.free_list (iter + 1) < roundUp n))
        (ENTRIES_PER_PAGE - 1) ENTRIES_PER_PAGE 0 with
    | none => rw [h1] at h; exact absurd h (by simp)
    | some iter =>
      rw [h1] at h
      simp only [] at h
      cases h2 : scanPairs (fun it => decide (p.alloc_list (it + 1) ≠ 0))
          (ENTRIES_PER_PAGE - 3) ENTRIES_PER_PAGE 0 with
      | none => rw [h2] at h; exact absurd h (by simp)
      | some it =>
        rw [h2] at h
        simp only [Option.some.injEq, Prod.mk.injEq] at h
        obtain ⟨i, rfl, hi, hb, hfit⟩ := (free_scan_iff _ _ _).1 h1
        obtain ⟨m, rfl, hm, hl, he⟩ := (empty_scan_iff _ _).1 h2
        refine ⟨i, m, hi, hb, hfit, hm, hl, he, h.2.symm, ?_⟩
        rw [← h.1]
        simp only [takeFree, writePair]
        congr 1
        split_ifs with hc
        · have : write p.free_list (2 * i) (uadd (p.free_list (2 * i)) (roundUp n)) (2 * i + 1)
              = p.free_list (2 * i + 1) := write_of_ne _ _ (by omega)
          rw [this]
        · rfl
  · rintro ⟨i, m, hi, hb, hfit, hm, hl, he, rfl, rfl⟩
    have h1 := (free_scan_iff p.free_list (roundUp n) (2 * i)).2 ⟨i, rfl, hi, hb, hfit⟩
    have h2 := (empty_scan_iff p.alloc_list (2 * m)).2 ⟨m, rfl, hm, hl, he⟩
    rw [h1]
    simp only []
    rw [h2]
    simp only [takeFree, writePair, Option.some.injEq, Prod.mk.injEq, and_true]
    congr 1
    split_ifs with hc
    · have : write p.free_list (2 * i) (uadd (p.free_list (2 * i)) (roundUp n)) (2 * i + 1)
          = p.free_list (2 * i + 1) := write_of_ne _ _ (by omega)
      rw [this]
    · rfl

theorem allocate_none_iff (p : VMPool) (n : Nat) :
    p.allocate n = none ↔
      (∀ k, k < 512 → p.free_list (2 * k + 1) < roundUp n) ∨
      (∀ k, k < 511 → p.alloc_list (2 * k + 1) ≠ 0) := by
  unfold VMPool.allocate
  simp only []
  cases h1 : scanPairs (fun iter => decide (p.free_list (iter + 1) < roundUp n))
      (ENTRIES_PER_PAGE - 1) ENTRIES_PER_PAGE 0 with
  | none =>
    simp only [true_iff]
    exact Or.inl ((free_scan_none_iff _ _).1 h1)
  | some iter =>
    simp only []
    obtain ⟨i, rfl, hi, hb, hfit⟩ := (free_scan_iff _ _ _).1 h1
    cases h2 : scanPairs (fun it => decide (p.alloc_list (it + 1) ≠ 0))
        (ENTRIES_PER_PAGE - 3) ENTRIES_PER_PAGE 0 with
    | none =>
      simp only [true_iff]
      exact Or.inr ((empty_scan_none_iff _).1 h2)
    | some it =>
      obtain ⟨m, rfl, hm, hl, he⟩ := (empty_scan_iff _ _).1 h2
      constructor
      · intro h; exact absurd h (by simp)
      · rintro (h | h)
        · have := h i hi
          omega
        · exact absurd he (h m hm)

theorem erase_after_zero (a : Nat → Nat) (j : Nat) (hj : j < 512) :
    shiftLoop ENTRIES_PER_PAGE (2 * j + 2) (writePair a j 0 0) = erasePair a (2 * j) := by
  by_cases h : j ≤ 510
  · rw [shiftLoop_erase _ _ h]
    funext x
    simp only [erasePair, writePair, write]
    split_ifs <;> first | rfl | omega
  · have hj' : j = 511 := by omega
    subst hj'
    rw [shiftLoop_last]
    funext x
    simp only [erasePair, writePair, write]
    split_ifs <;> first | rfl | omega

theorem takeFree_exact (fl : Nat → Nat) (i sz : Nat) (hi : i < 512) (h : ¬ fl (2 * i + 1) > sz)
    (h0 : fl 1022 = 0) (h1 : fl 1023 = 0) :
    takeFree fl i sz = erasePair fl (2 * i) := by
  unfold takeFree
  rw [if_neg h]
  by_cases h' : i ≤ 510
  · exact shiftLoop_erase _ _ h'
  · have hj' : i = 511 := by omega
    subst hj'
    rw [shiftLoop_last]
    funext x
    simp only [erasePair]
    by_cases hx : x < 2 * 511
    · rw [if_pos hx]
    · rw [if_neg hx, if_neg (by omega)]
      by_cases hx2 : x < 1024
      · rw [if_pos hx2]
        have : x = 1022 ∨ x = 1023 := by omega
        rcases this with rfl | rfl
        · exact h0
        · exact h1
      · rw [if_neg hx2]

/-- Every successful `release` removes the first pair `j` of `alloc_list` whose start field is
the address, after `free_page` has accepted each of its pages, and records the pair in the
first empty pair `m` of `free_list`. -/
theorem release_some_iff (pools : List VMPool) (p : VMPool) (addr : Nat) (p' : VMPool)
    (pages : List Nat) :
    p.release pools addr = some (p', pages) ↔
      ∃ j m, j < 512 ∧ (∀ k, k < j → p.alloc_list (2 * k) ≠ addr) ∧ p.alloc_list (2 * j) = addr ∧
        p.alloc_list (2 * j) % PAGE_SIZE = 0 ∧ p.alloc_list (2 * j + 1) % PAGE_SIZE = 0 ∧
        freeLoop pools (uadd (p.alloc_list (2 * j)) (p.alloc_list (2 * j + 1)))
          (ULONG / PAGE_SIZE + 1) (p.alloc_list (2 * j)) = some pages ∧
        m < 511 ∧ (∀ k, k < m → p.free_list (2 * k + 1) ≠ 0) ∧ p.free_list (2 * m + 1) = 0 ∧
        p' = { p with alloc_list := erasePair p.alloc_list (2 * j),
                      free_list := writePair p.free_list m (p.alloc_list (2 * j))
                        (p.alloc_list (2 * j + 1)) } := by
  unfold VMPool.release
  constructor
  · intro h
    cases h1 : scanPairs (fun iter => decide (p.alloc_list iter ≠ addr))
        (ENTRIES_PER_PAGE - 1) ENTRIES_PER_PAGE 0 with
    | none => rw [h1] at h; exact absurd h (by simp)
    | some iter =>
      rw [h1] at h
      obtain ⟨j, rfl, hj, hb, hst⟩ := (start_scan_iff _ _ _).1 h1
      simp only [] at h
      by_cases ha : p.alloc_list (2 * j) % PAGE_SIZE ≠ 0
      · rw [if_pos ha] at h; exact absurd h (by simp)
      rw [if_neg ha] at h
      by_cases hl : p.alloc_list (2 * j + 1) % PAGE_SIZE ≠ 0
      · rw [if_pos hl] at h; exact absurd h (by simp)
      rw [if_neg hl] at h
      cases h3 : freeLoop pools (uadd (p.alloc_list (2 * j)) (p.alloc_list (2 * j + 1)))
          (ULONG / PAGE_SIZE + 1) (p.alloc_list (2 * j)) with
      | none => rw [h3] at h; exact absurd h (by simp)
      | some pg =>
        rw [h3] at h
        simp only [] at h
        cases h2 : scanPairs (fun it => decide (p.free_list (it + 1) ≠ 0))
            (ENTRIES_PER_PAGE - 3) ENTRIES_PER_PAGE 0 with
        | none => rw [h2] at h; exact absurd h (by simp)
        | some it =>
          rw [h2] at h
          obtain ⟨m, rfl, hm, hlv, he⟩ := (empty_scan_iff _ _).1 h2
          simp only [Option.some.injEq, Prod.mk.injEq] at h
          refine ⟨j, m, hj, hb, hst, by simpa using ha, by simpa using hl, ?_, hm, hlv, he, ?_⟩
          · rw [← h.2]; exact h3
          · rw [← h.1]
            have := erase_after_zero p.alloc_list j hj
            simp only [writePair] at this ⊢
            rw [this]
  · rintro ⟨j, m, hj, hb, hst, ha, hl, hfree, hm, hlv, he, rfl⟩
    have h1 := (start_scan_iff p.alloc_list addr (2 * j)).2 ⟨j, rfl, hj, hb, hst⟩
    have h2 := (empty_scan_iff p.free_list (2 * m)).2 ⟨m, rfl, hm, hlv, he⟩
    rw [h1]
    simp only []
    rw [if_neg (by simpa using ha), if_neg (by simpa using hl), hfree]
    simp only []
    rw [h2]
    have := erase_after_zero p.alloc_list j hj
    simp only [writePair] at this ⊢
    rw [this]

theorem release_none_of_unknown (pools : List VMPool) (p : VMPool) (addr : Nat)
    (h : ∀ k, k < 512 → p.alloc_list (2 * k) ≠ addr) : p.release pools addr = none := by
  unfold VMPool.release
  rw [(start_scan_none_iff _ _).2 h]

/-! ## The constructor -/

theorem uadd_eq {a b : Nat} (h : a + b < ULONG) : uadd a b = a + b :=
  Nat.mod_eq_of_lt h

theorem usub_eq {a b : Nat} (hb : b ≤ a) (ha : a < ULONG) : usub a b = a - b := by
  have ha' : a < 4294967296 := ha
  show (a + 4294967296 - b) % 4294967296 = a - b
  omega

theorem roundUp_lt (n : Nat) (h : n < ULONG) : roundUp n < ULONG := by
  unfold roundUp
  split_ifs
  · exact Nat.mod_lt _ (by decide)
  · exact h

theorem roundUp_mod (n : Nat) : roundUp n % PAGE_SIZE = 0 := by
  unfold roundUp
  split_ifs with h
  · show (n / 4096 + 1) * 4096 % 4294967296 % 4096 = 0
    omega
  · simpa using h

theorem roundUp_exact (n : Nat) (h : n ≤ ULONG - PAGE_SIZE) :
    n ≤ roundUp n ∧ roundUp n < n + PAGE_SIZE ∧ roundUp n ≤ ULONG - PAGE_SIZE := by
  have h' : n ≤ 4294967296 - 4096 := h
  unfold roundUp
  split_ifs with hc
  · have hc' : n % 4096 ≠ 0 := hc
    show n ≤ (n / 4096 + 1) * 4096 % 4294967296 ∧
      (n / 4096 + 1) * 4096 % 4294967296 < n + 4096 ∧
      (n / 4096 + 1) * 4096 % 4294967296 ≤ 4294967296 - 4096
    omega
  · show n ≤ n ∧ n < n + 4096 ∧ n ≤ 4294967296 - 4096
    omega

theorem roundUp_aligned (n : Nat) (h : n % PAGE_SIZE = 0) : roundUp n = n := by
  unfold roundUp
  rw [if_neg (by simpa using h)]

theorem construct_alloc (obj b s : Nat) (head : Option Nat) (ma mf : Nat → Nat) (j : Nat) :
    (VMPool.construct obj b s head ma mf).1.alloc_list j =
      if j = 0 then b else if j = 1 then PAGE_SIZE else if j = 2 then uadd b PAGE_SIZE
      else if j = 3 then PAGE_SIZE else if j < 1024 then 0 else ma j := by
  have hz : ∀ a, zeroLoop ENTRIES_PER_PAGE 4 a j = if 4 ≤ j ∧ j < 1024 then 0 else a j :=
    fun a => zeroLoop_apply ENTRIES_PER_PAGE 4 a j (by omega)
      (by show 1024 ≤ 2 * 1024 + 4; omega)
  simp only [VMPool.construct, hz, write]
  split_ifs <;> omega

theorem construct_free (obj b s : Nat) (head : Option Nat) (ma mf : Nat → Nat) (j : Nat) :
    (VMPool.construct obj b s head ma mf).1.free_list j =
      if j = 0 then uadd b (2 * PAGE_SIZE) else if j = 1 then usub (roundUp s) (2 * PAGE_SIZE)
      else if j < 1024 then 0 else mf j := by
  have hz : ∀ a, zeroLoop ENTRIES_PER_PAGE 2 a j = if 2 ≤ j ∧ j < 1024 then 0 else a j :=
    fun a => zeroLoop_apply ENTRIES_PER_PAGE 2 a j (by omega)
      (by show 1024 ≤ 2 * 1024 + 2; omega)
  simp only [VMPool.construct, hz, write]
  split_ifs <;> omega

theorem construct_post (obj b s : Nat) (head : Option Nat) (ma mf : Nat → Nat)
    (hb : b + 2 * PAGE_SIZE < ULONG) (hs : s ≤ ULONG - PAGE_SIZE) (h2 : PAGE_SIZE < s) :
    ConstructPost obj b s head (VMPool.construct obj b s head ma mf) := by
  have hb' : b + 2 * 4096 < 4294967296 := hb
  have hs' : s ≤ 4294967296 - 4096 := hs
  have h2' : 4096 < s := h2
  obtain ⟨r1, r2, r3⟩ := roundUp_exact s hs
  have r4 := roundUp_mod s
  have r1' : s ≤ roundUp s := r1
  have r2' : roundUp s < s + 4096 := r2
  have r3' : roundUp s ≤ 4294967296 - 4096 := r3
  have r4' : roundUp s % 4096 = 0 := r4
  have hsz : (VMPool.construct obj b s head ma mf).1.size = roundUp s := rfl
  have e1 : uadd b PAGE_SIZE = b + PAGE_SIZE :=
    uadd_eq (by show b + 4096 < 4294967296; omega)
  have e2 : uadd b (2 * PAGE_SIZE) = b + 2 * PAGE_SIZE := uadd_eq hb
  have h2P : 2 * PAGE_SIZE ≤ roundUp s := by show 2 * 4096 ≤ roundUp s; omega
  have e3 : usub (roundUp s) (2 * PAGE_SIZE) = roundUp s - 2 * PAGE_SIZE :=
    usub_eq h2P (by show roundUp s < 4294967296; omega)
  have h2P' : 2 * 4096 ≤ roundUp s := h2P
  refine ⟨rfl, ⟨?_, ?_, ?_⟩, ?_, ?_, ?_, ?_, ?_, ?_, ?_, ?_, rfl, rfl⟩
  · rw [hsz]; exact r4
  · rw [hsz]; exact r1
  · rw [hsz]; exact r2
  · rw [construct_alloc]; simp
  · rw [construct_alloc]; simp
  · rw [construct_alloc]; simp [e1]
  · rw [construct_alloc]; simp
  · intro j h4 hj
    have hj' : j < 1024 := hj
    rw [construct_alloc, if_neg (by omega), if_neg (by omega), if_neg (by omega),
      if_neg (by omega), if_pos hj']
  · rw [construct_free]; simp [e2]
  · rw [construct_free, construct_free, hsz]
    simp only [if_true, if_neg (show (1 : Nat) ≠ 0 by omega), e2, e3]
    show b + 2 * 4096 + (roundUp s - 2 * 4096) = b + roundUp s
    omega
  · intro j h4 hj
    have hj' : j < 1024 := hj
    rw [construct_free, if_neg (by omega), if_neg (by omega), if_pos hj']

/-! ## Pairs and the shape of a metadata page -/

theorem pageCeil_eq_roundUp (n : Nat) (h : n ≤ ULONG - PAGE_SIZE) : roundUp n = pageCeil n := by
  have h' : n ≤ 4294967296 - 4096 := h
  unfold roundUp pageCeil
  split_ifs with hc
  · have hc' : n % 4096 ≠ 0 := hc
    show (n / 4096 + 1) * 4096 % 4294967296 = (n + 4096 - 1) / 4096 * 4096
    omega
  · have hc' : ¬ n % 4096 ≠ 0 := hc
    show n = (n + 4096 - 1) / 4096 * 4096
    omega

theorem pageCeil_spec (n : Nat) :
    pageCeil n % PAGE_SIZE = 0 ∧ n ≤ pageCeil n ∧ pageCeil n < n + PAGE_SIZE := by
  show (n + 4096 - 1) / 4096 * 4096 % 4096 = 0 ∧ n ≤ (n + 4096 - 1) / 4096 * 4096 ∧
    (n + 4096 - 1) / 4096 * 4096 < n + 4096
  omega

theorem startAt_writePair (a : Nat → Nat) (m s l k : Nat) :
    startAt (writePair a m s l) k = if k = m then s else startAt a k := by
  simp only [startAt, writePair, write]
  split_ifs <;> omega

theorem lenAt_writePair (a : Nat → Nat) (m s l k : Nat) :
    lenAt (writePair a m s l) k = if k = m then l else lenAt a k := by
  simp only [lenAt, writePair, write]
  split_ifs <;> omega

theorem startAt_erasePair (a : Nat → Nat) (i k : Nat) (hk : k < 512) :
    startAt (erasePair a (2 * i)) k =
      if k < i then startAt a k else if k < 511 then startAt a (k + 1) else 0 := by
  simp only [startAt, erasePair]
  have e : 2 * k + 2 = 2 * (k + 1) := by omega
  rw [e]
  split_ifs <;> omega

theorem lenAt_erasePair (a : Nat → Nat) (i k : Nat) (hk : k < 512) :
    lenAt (erasePair a (2 * i)) k =
      if k < i then lenAt a k else if k < 511 then lenAt a (k + 1) else 0 := by
  simp only [lenAt, erasePair]
  have e : 2 * k + 1 + 2 = 2 * (k + 1) + 1 := by omega
  rw [e]
  split_ifs <;> omega

theorem ListInv.erase {a : Nat → Nat} (h : ListInv a) (i : Nat) :
    ListInv (erasePair a (2 * i)) := by
  have hl := h.last
  refine ⟨?_, ?_, ?_⟩
  · intro k hk
    have w0 := h.words k hk
    have w1 := h.words (k + 1)
    have hU : (0 : Nat) < ULONG := by decide
    rw [startAt_erasePair a i k hk, lenAt_erasePair a i k hk]
    split_ifs <;> omega
  · intro k hk
    have s0 := h.shape k hk
    have s1 := h.shape (k + 1)
    rw [lenAt_erasePair a i k (by omega), startAt_erasePair a i (k + 1) (by omega),
      lenAt_erasePair a i (k + 1) (by omega)]
    have e : k + 1 = 511 → startAt a (k + 1) = 0 ∧ lenAt a (k + 1) = 0 := by
      intro hk'; rw [hk']; exact hl
    split_ifs <;> omega
  · rw [startAt_erasePair a i 511 (by omega), lenAt_erasePair a i 511 (by omega)]
    split_ifs <;> omega

/-- Appending `(s, l)` to the first pair whose length field is 0. -/
theorem ListInv.append {a : Nat → Nat} (h : ListInv a) (m s l : Nat) (hm : m < 511)
    (hlive : ∀ k, k < m → lenAt a k ≠ 0) (hempty : lenAt a m = 0)
    (hs : s < ULONG) (hl : l < ULONG) : ListInv (writePair a m s l) := by
  have hlast := h.last
  refine ⟨?_, ?_, ?_⟩
  · intro k hk
    have w0 := h.words k hk
    rw [startAt_writePair, lenAt_writePair]
    split_ifs <;> omega
  · intro k hk
    have s0 := h.shape k hk
    have sm := h.shape m hm hempty
    have hlv := hlive k
    rw [lenAt_writePair, startAt_writePair, lenAt_writePair]
    split_ifs with c1 c2 c2
    · omega
    · subst c1; intro _; exact sm
    · subst c2; intro h0; have := hlv (by omega); omega
    · exact s0
  · rw [startAt_writePair, lenAt_writePair, if_neg (by omega), if_neg (by omega)]
    exact hlast

/-- Shrinking a live pair `i` to a pair that is still live. -/
theorem ListInv.shrink {a : Nat → Nat} (h : ListInv a) (i s l : Nat)
    (hi : lenAt a i ≠ 0) (hs : s < ULONG) (hl : l < ULONG) (hl0 : l ≠ 0) :
    ListInv (writePair a i s l) := by
  have hlast := h.last
  refine ⟨?_, ?_, ?_⟩
  · intro k hk
    have w0 := h.words k hk
    rw [startAt_writePair, lenAt_writePair]
    split_ifs <;> omega
  · intro k hk
    have s0 := h.shape k hk
    rw [lenAt_writePair, startAt_writePair, lenAt_writePair]
    split_ifs with c1 c2 c2
    · omega
    · omega
    · subst c2; intro h0; have := s0 h0; omega
    · exact s0
  · have : i ≠ 511 := by rintro rfl; exact hi hlast.2
    rw [startAt_writePair, lenAt_writePair, if_neg (by omega), if_neg (by omega)]
    exact hlast

/-! ## Reachable states keep the page shape -/

theorem takeFree_eq {fl : Nat → Nat} (hf : ListInv fl) (i r : Nat) (hi : i < 512) :
    takeFree fl i r =
      if r < lenAt fl i then writePair fl i (uadd (startAt fl i) r) (lenAt fl i - r)
      else erasePair fl (2 * i) := by
  by_cases h : r < lenAt fl i
  · rw [if_pos h]
    have h' : fl (2 * i + 1) > r := h
    unfold takeFree
    rw [if_pos h']
    have hw := (hf.words i hi).2
    have : usub (fl (2 * i + 1)) r = lenAt fl i - r := usub_eq (Nat.le_of_lt h') hw
    rw [this]
    rfl
  · rw [if_neg h]
    have h' : ¬ fl (2 * i + 1) > r := h
    exact takeFree_exact fl i r hi h' hf.last.1 hf.last.2

theorem allocate_inv {p p' : VMPool} {n va : Nat} (hp : PoolInv p) (hn : n < ULONG)
    (h : p.allocate n = some (p', va)) : PoolInv p' := by
  obtain ⟨i, m, hi, _, hfit, hm, hlive, hempty, _, rfl⟩ := (allocate_some_iff p n p' va).1 h
  have hr := roundUp_lt n hn
  constructor
  · exact hp.1.append m _ _ hm hlive hempty (hp.2.words i hi).1 hr
  · show ListInv (takeFree p.free_list i (roundUp n))
    rw [takeFree_eq hp.2 i _ hi]
    have hw := hp.2.words i hi
    split_ifs with c
    · apply hp.2.shrink i
      · omega
      · exact Nat.mod_lt _ (by decide)
      · omega
      · omega
    · exact hp.2.erase i

theorem release_inv {p p' : VMPool} {pools : List VMPool} {a : Nat} {pages : List Nat}
    (hp : PoolInv p) (h : p.release pools a = some (p', pages)) : PoolInv p' := by
  obtain ⟨j, m, hj, _, _, _, _, _, hm, hlive, hempty, rfl⟩ :=
    (release_some_iff pools p a p' pages).1 h
  have hw := hp.1.words j hj
  exact ⟨hp.1.erase j, hp.2.append m _ _ hm hlive hempty hw.1 hw.2⟩

theorem construct_startAt_alloc (obj b s : Nat) (head : Option Nat) (ma mf : Nat → Nat)
    (k : Nat) (hk : k < 512) :
    startAt (VMPool.construct obj b s head ma mf).1.alloc_list k =
      if k = 0 then b else if k = 1 then uadd b PAGE_SIZE else 0 := by
  unfold startAt
  rw [construct_alloc]
  split_ifs <;> omega

theorem construct_lenAt_alloc (obj b s : Nat) (head : Option Nat) (ma mf : Nat → Nat)
    (k : Nat) (hk : k < 512) :
    lenAt (VMPool.construct obj b s head ma mf).1.alloc_list k =
      if k = 0 then PAGE_SIZE else if k = 1 then PAGE_SIZE else 0 := by
  unfold lenAt
  rw [construct_alloc]
  split_ifs <;> first | omega | (exfalso; assumption)

theorem construct_startAt_free (obj b s : Nat) (head : Option Nat) (ma mf : Nat → Nat)
    (k : Nat) (hk : k < 512) :
    startAt (VMPool.construct obj b s head ma mf).1.free_list k =
      if k = 0 then uadd b (2 * PAGE_SIZE) else 0 := by
  unfold startAt
  rw [construct_free]
  split_ifs <;> omega

theorem construct_lenAt_free (obj b s : Nat) (head : Option Nat) (ma mf : Nat → Nat)
    (k : Nat) (hk : k < 512) :
    lenAt (VMPool.construct obj b s head ma mf).1.free_list k =
      if k = 0 then usub (roundUp s) (2 * PAGE_SIZE) else 0 := by
  unfold lenAt
  rw [construct_free]
  split_ifs <;> first | omega | (exfalso; assumption)

theorem construct_inv (obj b s : Nat) (head : Option Nat) (ma mf : Nat → Nat) (hb : b < ULONG) :
    PoolInv (VMPool.construct obj b s head ma mf).1 := by
  have hP : PAGE_SIZE < ULONG := by decide
  have hU : 0 < ULONG := by decide
  have h1 : uadd b PAGE_SIZE < ULONG := Nat.mod_lt _ hU
  have h2 : uadd b (2 * PAGE_SIZE) < ULONG := Nat.mod_lt _ hU
  have h3 : usub (roundUp s) (2 * PAGE_SIZE) < ULONG := Nat.mod_lt _ hU
  have hP0 : PAGE_SIZE ≠ 0 := by decide
  constructor
  · refine ⟨?_, ?_, ?_⟩
    · intro k hk
      rw [construct_startAt_alloc _ _ _ _ _ _ k hk, construct_lenAt_alloc _ _ _ _ _ _ k hk]
      split_ifs <;> first | omega | (exfalso; assumption)
    · intro k hk
      rw [construct_lenAt_alloc _ _ _ _ _ _ k (by omega),
        construct_startAt_alloc _ _ _ _ _ _ (k + 1) (by omega),
        construct_lenAt_alloc _ _ _ _ _ _ (k + 1) (by omega)]
      split_ifs <;> intro h0 <;> first | omega | (exfalso; assumption)
    · rw [construct_startAt_alloc _ _ _ _ _ _ 511 (by omega),
        construct_lenAt_alloc _ _ _ _ _ _ 511 (by omega)]
      split_ifs <;> first | omega | (exfalso; assumption)
  · refine ⟨?_, ?_, ?_⟩
    · intro k hk
      rw [construct_startAt_free _ _ _ _ _ _ k hk, construct_lenAt_free _ _ _ _ _ _ k hk]
      split_ifs <;> first | omega | (exfalso; assumption)
    · intro k hk
      rw [construct_lenAt_free _ _ _ _ _ _ k (by omega),
        construct_startAt_free _ _ _ _ _ _ (k + 1) (by omega),
        construct_lenAt_free _ _ _ _ _ _ (k + 1) (by omega)]
      split_ifs <;> intro h0 <;> first | omega | (exfalso; assumption)
    · rw [construct_startAt_free _ _ _ _ _ _ 511 (by omega),
        construct_lenAt_free _ _ _ _ _ _ 511 (by omega)]
      split_ifs <;> first | omega | (exfalso; assumption)

theorem Reach.inv {p0 p : VMPool} (h0 : PoolInv p0) (h : Reach p0 p) : PoolInv p := by
  induction h with
  | init => exact h0
  | allocate _ hn ha ih => exact allocate_inv ih hn ha
  | release _ hr ih => exact release_inv ih hr

theorem Run.reach {p0 p : VMPool} {tr : List Event} (h : Run p0 tr p) : Reach p0 p := by
  induction h with
  | init => exact Reach.init
  | allocate _ hn ha ih => exact Reach.allocate ih hn ha
  | release _ _ hr ih => exact Reach.release ih hr

/-- The live entries of a page of shape `ListInv` are the pairs below some `n ≤ 511`; the
pair `n` has length field 0 and every later pair is `(0,0)`. -/
theorem ListInv.live_entries {a : Nat → Nat} (h : ListInv a) :
    ∃ n, n ≤ 511 ∧ (∀ k, k < n → lenAt a k ≠ 0) ∧ lenAt a n = 0 ∧
      ∀ k, n < k → k < 512 → startAt a k = 0 ∧ lenAt a k = 0 := by
  classical
  have hex : ∃ k, lenAt a k = 0 := ⟨511, h.last.2⟩
  refine ⟨Nat.find hex, ?_, ?_, Nat.find_spec hex, ?_⟩
  · exact Nat.find_min' hex h.last.2
  · intro k hk; exact Nat.find_min hex hk
  · have hn := Nat.find_spec hex
    have hle : Nat.find hex ≤ 511 := Nat.find_min' hex h.last.2
    intro k hk
    induction k with
    | zero => omega
    | succ k ih =>
      intro hk2
      by_cases hc : Nat.find hex = k
      · have := h.shape k (by omega) (by rw [← hc]; exact hn)
        exact this
      · have := ih (by omega) (by omega)
        exact h.shape k (by omega) this.2

theorem liveCount_eq_min (a : Nat → Nat) (n : Nat) (hl : ∀ k, k < n → lenAt a k ≠ 0)
    (hz : ∀ k, n ≤ k → k < 512 → lenAt a k = 0) :
    ∀ N, N ≤ 512 → liveCount a N = min N n := by
  intro N
  induction N with
  | zero => intro _; simp [liveCount]
  | succ N ih =>
    intro hN
    have := ih (by omega)
    simp only [liveCount, this]
    by_cases c : N < n
    · have := hl N c
      rw [if_pos this]
      omega
    · have := hz N (by omega) (by omega)
      rw [if_neg (by simpa using this)]
      omega

theorem ListInv.liveCount_full {a : Nat → Nat} (h : ListInv a) :
    liveCount a 512 = 511 ↔ ∀ k, k < 511 → lenAt a k ≠ 0 := by
  obtain ⟨n, hn, hl, h0, hz⟩ := h.live_entries
  have hz' : ∀ k, n ≤ k → k < 512 → lenAt a k = 0 := by
    intro k h1 h2
    by_cases c : k = n
    · rw [c]; exact h0
    · exact (hz k (by omega) h2).2
  rw [liveCount_eq_min a n hl hz' 512 (Nat.le_refl _)]
  constructor
  · intro hc k hk
    exact hl k (by omega)
  · intro hall
    by_cases c : n < 511
    · exact absurd h0 (hall n c)
    · omega

/-! ## The scenario pool -/

/-- First allocation from a freshly constructed pool whose free span fits the request. -/
theorem construct_allocate (obj b s : Nat) (head : Option Nat) (ma mf : Nat → Nat) (n : Nat)
    (hfit : roundUp n ≤ usub (roundUp s) (2 * PAGE_SIZE)) :
    (VMPool.construct obj b s head ma mf).1.allocate n =
      some ({ (VMPool.construct obj b s head ma mf).1 with
                alloc_list := writePair (VMPool.construct obj b s head ma mf).1.alloc_list 2
                  (uadd b (2 * PAGE_SIZE)) (roundUp n),
                free_list := takeFree (VMPool.construct obj b s head ma mf).1.free_list 0
                  (roundUp n) },
            uadd b (2 * PAGE_SIZE)) := by
  have hst : startAt (VMPool.construct obj b s head ma mf).1.free_list 0
      = uadd b (2 * PAGE_SIZE) := by
    rw [construct_startAt_free _ _ _ _ _ _ 0 (by omega), if_pos rfl]
  have hst' : (VMPool.construct obj b s head ma mf).1.free_list (2 * 0)
      = uadd b (2 * PAGE_SIZE) := hst
  rw [allocate_some_iff]
  refine ⟨0, 2, by omega, by intro k hk; omega, ?_, by omega, ?_, ?_, hst'.symm, ?_⟩
  · show roundUp n ≤ lenAt (VMPool.construct obj b s head ma mf).1.free_list 0
    rw [construct_lenAt_free _ _ _ _ _ _ 0 (by omega), if_pos rfl]
    exact hfit
  · intro k hk
    show lenAt (VMPool.construct obj b s head ma mf).1.alloc_list k ≠ 0
    rw [construct_lenAt_alloc _ _ _ _ _ _ k (by omega)]
    have : PAGE_SIZE ≠ 0 := by decide
    split_ifs <;> omega
  · show lenAt (VMPool.construct obj b s head ma mf).1.alloc_list 2 = 0
    rw [construct_lenAt_alloc _ _ _ _ _ _ 2 (by omega)]
    rfl
  · rw [hst']

theorem pool0_inv : PoolInv pool0 := construct_inv _ _ _ _ _ _ (by decide)

/-- `allocate_some_iff` in terms of pairs. -/
theorem allocate_some (p : VMPool) (n : Nat) (p' : VMPool) (va : Nat) :
    p.allocate n = some (p', va) ↔
      ∃ i m, i < 512 ∧ (∀ k, k < i → lenAt p.free_list k < roundUp n) ∧
        roundUp n ≤ lenAt p.free_list i ∧
        m < 511 ∧ (∀ k, k < m → lenAt p.alloc_list k ≠ 0) ∧ lenAt p.alloc_list m = 0 ∧
        va = startAt p.free_list i ∧
        p' = { p with alloc_list := writePair p.alloc_list m (startAt p.free_list i) (roundUp n),
                      free_list := takeFree p.free_list i (roundUp n) } :=
  allocate_some_iff p n p' va

/-- `allocate_none_iff` in terms of pairs. -/
theorem allocate_none (p : VMPool) (n : Nat) :
    p.allocate n = none ↔
      (∀ k, k < 512 → lenAt p.free_list k < roundUp n) ∨
      (∀ k, k < 511 → lenAt p.alloc_list k ≠ 0) :=
  allocate_none_iff p n

/-- `release_some_iff` in terms of pairs. -/
theorem release_some (pools : List VMPool) (p : VMPool) (addr : Nat) (p' : VMPool)
    (pages : List Nat) :
    p.release pools addr = some (p', pages) ↔
      ∃ j m, j < 512 ∧ (∀ k, k < j → startAt p.alloc_list k ≠ addr) ∧
        startAt p.alloc_list j = addr ∧
        startAt p.alloc_list j % PAGE_SIZE = 0 ∧ lenAt p.alloc_list j % PAGE_SIZE = 0 ∧
        freeLoop pools (uadd (startAt p.alloc_list j) (lenAt p.alloc_list j))
          (ULONG / PAGE_SIZE + 1) (startAt p.alloc_list j) = some pages ∧
        m < 511 ∧ (∀ k, k < m → lenAt p.free_list k ≠ 0) ∧ lenAt p.free_list m = 0 ∧
        p' = { p with alloc_list := erasePair p.alloc_list (2 * j),
                      free_list := writePair p.free_list m (startAt p.alloc_list j)
                        (lenAt p.alloc_list j) } :=
  release_some_iff pools p addr p' pages

/-- The scan of `release` fails its assertion exactly when no pair has the start field. -/
theorem release_none_unknown (pools : List VMPool) (p : VMPool) (addr : Nat)
    (h : ∀ k, k < 512 → startAt p.alloc_list k ≠ addr) : p.release pools addr = none :=
  release_none_of_unknown pools p addr h


theorem pool0_alloc_start (k : Nat) (hk : k < 512) :
    startAt pool0.alloc_list k = if k = 0 then 1073741824 else if k = 1 then 1073745920 else 0 :=
  construct_startAt_alloc 1 0x40000000 0x01000000 none (fun _ => 0) (fun _ => 0) k hk

theorem pool0_alloc_len (k : Nat) (hk : k < 512) :
    lenAt pool0.alloc_list k = if k = 0 then 4096 else if k = 1 then 4096 else 0 :=
  construct_lenAt_alloc 1 0x40000000 0x01000000 none (fun _ => 0) (fun _ => 0) k hk

theorem pool0_free_start (k : Nat) (hk : k < 512) :
    startAt pool0.free_list k = if k = 0 then 1073750016 else 0 :=
  construct_startAt_free 1 0x40000000 0x01000000 none (fun _ => 0) (fun _ => 0) k hk

theorem pool0_free_len (k : Nat) (hk : k < 512) :
    lenAt pool0.free_list k = if k = 0 then 16769024 else 0 :=
  construct_lenAt_free 1 0x40000000 0x01000000 none (fun _ => 0) (fun _ => 0) k hk

/-! ## Counting the recorded ranges that contain a byte -/

theorem coverCount_congr (a a' : Nat → Nat) (x lo : Nat) : ∀ n,
    (∀ k, lo ≤ k → k < lo + n → startAt a' k = startAt a k ∧ lenAt a' k = lenAt a k) →
    coverCount a' x lo n = coverCount a x lo n := by
  intro n
  induction n with
  | zero => intro _; rfl
  | succ n ih =>
    intro h
    have h1 := h (lo + n) (by omega) (by omega)
    simp only [coverCount, ih (fun k hk1 hk2 => h k hk1 (by omega)), h1.1, h1.2]

theorem coverCount_zero (a : Nat → Nat) (x lo : Nat) : ∀ n,
    (∀ k, lo ≤ k → k < lo + n → lenAt a k = 0) → coverCount a x lo n = 0 := by
  intro n
  induction n with
  | zero => intro _; rfl
  | succ n ih =>
    intro h
    have h1 := h (lo + n) (by omega) (by omega)
    simp only [coverCount, ih (fun k hk1 hk2 => h k hk1 (by omega)), h1]
    rw [if_neg (by omega)]

theorem coverCount_pos (a : Nat → Nat) (x lo : Nat) : ∀ n k, lo ≤ k → k < lo + n →
    startAt a k ≤ x → x < startAt a k + lenAt a k → 1 ≤ coverCount a x lo n := by
  intro n
  induction n with
  | zero => intro k h1 h2; omega
  | succ n ih =>
    intro k h1 h2 h3 h4
    simp only [coverCount]
    by_cases hk : k = lo + n
    · subst hk
      rw [if_pos ⟨h3, h4⟩]
      omega
    · have := ih k h1 (by omega) h3 h4
      omega

/-- Replacing pair `m` by `(s, l)` trades the old range of pair `m` for `[s, s + l)`. -/
theorem coverCount_write (a : Nat → Nat) (x lo m s l : Nat) : ∀ n, lo ≤ m → m < lo + n →
    coverCount (writePair a m s l) x lo n +
        (if startAt a m ≤ x ∧ x < startAt a m + lenAt a m then 1 else 0) =
      coverCount a x lo n + (if s ≤ x ∧ x < s + l then 1 else 0) := by
  intro n
  induction n with
  | zero => intro h1 h2; omega
  | succ n ih =>
    intro h1 h2
    simp only [coverCount]
    by_cases hk : m = lo + n
    · have hc : coverCount (writePair a m s l) x lo n = coverCount a x lo n := by
        apply coverCount_congr
        intro k hk1 hk2
        have hne : ¬ k = m := by omega
        rw [startAt_writePair, lenAt_writePair]
        simp only [if_neg hne, and_self]
      rw [hc, ← hk, startAt_writePair, lenAt_writePair]
      simp only [if_true]
      omega
    · have := ih h1 (by omega)
      have hne : ¬ lo + n = m := by omega
      rw [startAt_writePair, lenAt_writePair]
      simp only [if_neg hne]
      omega

/-- Below the erased pair nothing changes. -/
theorem coverCount_erase_below (a : Nat → Nat) (x lo i : Nat) (n : Nat) (h : lo + n ≤ i)
    (h2 : lo + n ≤ 512) :
    coverCount (erasePair a (2 * i)) x lo n = coverCount a x lo n := by
  apply coverCount_congr
  intro k hk1 hk2
  have hlt : k < i := by omega
  rw [startAt_erasePair a i k (by omega), lenAt_erasePair a i k (by omega)]
  simp only [if_pos hlt, and_self]

/-- Above the erased pair `i` the pairs move down by one. -/
theorem coverCount_erase_above (a : Nat → Nat) (x lo i : Nat) (hlo : lo ≤ i) : ∀ n,
    i ≤ lo + n → lo + n ≤ 511 →
    coverCount (erasePair a (2 * i)) x lo n +
        (if startAt a i ≤ x ∧ x < startAt a i + lenAt a i then 1 else 0) =
      coverCount a x lo (n + 1) := by
  intro n
  induction n with
  | zero =>
    intro h1 h2
    have : i = lo := by omega
    subst this
    simp only [coverCount, Nat.add_zero]
  | succ n ih =>
    intro h1 h2
    by_cases hk : i = lo + (n + 1)
    · have hb := coverCount_erase_below a x lo i (n + 1) (by omega) (by omega)
      rw [hb, hk]
      rfl
    · have := ih (by omega) (by omega)
      have e : coverCount (erasePair a (2 * i)) x lo (n + 1) =
          coverCount (erasePair a (2 * i)) x lo n +
            (if startAt a (lo + n + 1) ≤ x ∧
                x < startAt a (lo + n + 1) + lenAt a (lo + n + 1) then 1 else 0) := by
        simp only [coverCount]
        have c1 : ¬ lo + n < i := by omega
        have c2 : lo + n < 511 := by omega
        rw [startAt_erasePair a i (lo + n) (by omega), lenAt_erasePair a i (lo + n) (by omega)]
        simp only [if_neg c1, if_pos c2]
      have e2 : coverCount a x lo (n + 1 + 1) = coverCount a x lo (n + 1) +
          (if startAt a (lo + (n + 1)) ≤ x ∧
              x < startAt a (lo + (n + 1)) + lenAt a (lo + (n + 1)) then 1 else 0) := rfl
      rw [e, e2]
      have e3 : lo + n + 1 = lo + (n + 1) := by omega
      rw [e3]
      omega

/-- Erasing pair `i` removes its range from the count over the pairs `lo .. 511`. -/
theorem coverCount_erase (a : Nat → Nat) (x lo i : Nat) (hlo : lo ≤ i) (hi : i < 512) :
    coverCount (erasePair a (2 * i)) x lo (512 - lo) +
        (if startAt a i ≤ x ∧ x < startAt a i + lenAt a i then 1 else 0) =
      coverCount a x lo (512 - lo) := by
  obtain ⟨n, hn⟩ : ∃ n, 512 - lo = n + 1 := ⟨511 - lo, by omega⟩
  rw [hn]
  have h1 := coverCount_erase_above a x lo i hlo n (by omega) (by omega)
  have e : coverCount (erasePair a (2 * i)) x lo (n + 1) =
      coverCount (erasePair a (2 * i)) x lo n := by
    simp only [coverCount]
    have e511 : lo + n = 511 := by omega
    have c1 : ¬ 511 < i := by omega
    rw [e511, startAt_erasePair a i 511 (by omega), lenAt_erasePair a i 511 (by omega)]
    simp only [if_neg c1, Nat.lt_irrefl, if_false]
    rw [if_neg (by omega)]
    rfl
  rw [e]
  exact h1

/-! ## The bookkeeping invariant -/

theorem Consistent.free_bounds {b s : Nat} {p : VMPool} (h : Consistent b s p) (k : Nat)
    (hk : k < 512) (hl : lenAt p.free_list k ≠ 0) :
    b + 2 * PAGE_SIZE ≤ startAt p.free_list k ∧
      startAt p.free_list k + lenAt p.free_list k ≤ b + s := by
  have c1 := h.cover (startAt p.free_list k)
  have c2 := h.cover (startAt p.free_list k + lenAt p.free_list k - 1)
  have p1 := coverCount_pos p.free_list (startAt p.free_list k) 0 512 k (by omega) (by omega)
    (Nat.le_refl _) (by omega)
  have p2 := coverCount_pos p.free_list (startAt p.free_list k + lenAt p.free_list k - 1) 0 512 k
    (by omega) (by omega) (by omega) (by omega)
  split_ifs at c1 c2 <;> omega

theorem Consistent.alloc_bounds {b s : Nat} {p : VMPool} (h : Consistent b s p) (k : Nat)
    (hk2 : 2 ≤ k) (hk : k < 512) (hl : lenAt p.alloc_list k ≠ 0) :
    b + 2 * PAGE_SIZE ≤ startAt p.alloc_list k ∧
      startAt p.alloc_list k + lenAt p.alloc_list k ≤ b + s := by
  have c1 := h.cover (startAt p.alloc_list k)
  have c2 := h.cover (startAt p.alloc_list k + lenAt p.alloc_list k - 1)
  have p1 := coverCount_pos p.alloc_list (startAt p.alloc_list k) 2 510 k (by omega) (by omega)
    (Nat.le_refl _) (by omega)
  have p2 := coverCount_pos p.alloc_list (startAt p.alloc_list k + lenAt p.alloc_list k - 1)
    2 510 k (by omega) (by omega) (by omega) (by omega)
  split_ifs at c1 c2 <;> omega

theorem consistent_allocate {b s : Nat} {p p' : VMPool} {n va : Nat} (h : Consistent b s p)
    (hp : PoolInv p) (hb : 0 < b) (hbs : b + s ≤ ULONG)
    (ha : p.allocate n = some (p', va)) :
    Consistent b s p' ∧ va ≠ b ∧ va ≠ b + PAGE_SIZE := by
  obtain ⟨i, m, hi, _, hfit, hm, hlive, hempty, rfl, rfl⟩ := (allocate_some p n p' va).1 ha
  have hP : PAGE_SIZE = 4096 := rfl
  have hm2 : 2 ≤ m := by
    have h0 := h.meta0.2
    have h1 := h.meta1.2
    by_contra hc
    have : m = 0 ∨ m = 1 := by omega
    rcases this with rfl | rfl
    · rw [hempty] at h0; omega
    · rw [hempty] at h1; omega
  have hfs := h.fstart i hi
  refine ⟨⟨h.base, ?_, ?_, ?_, ?_, ?_⟩, hfs.1, hfs.2⟩
  · show startAt (writePair _ _ _ _) 0 = b ∧ lenAt (writePair _ _ _ _) 0 = PAGE_SIZE
    rw [startAt_writePair, lenAt_writePair, if_neg (by omega), if_neg (by omega)]
    exact h.meta0
  · show startAt (writePair _ _ _ _) 1 = b + PAGE_SIZE ∧ lenAt (writePair _ _ _ _) 1 = PAGE_SIZE
    rw [startAt_writePair, lenAt_writePair, if_neg (by omega), if_neg (by omega)]
    exact h.meta1
  · intro x
    show coverCount (writePair p.alloc_list m (startAt p.free_list i) (roundUp n)) x 2 510 +
      coverCount (takeFree p.free_list i (roundUp n)) x 0 512 = _
    have hc := h.cover x
    have hA := coverCount_write p.alloc_list x 2 m (startAt p.free_list i) (roundUp n) 510
      hm2 (by omega)
    rw [hempty] at hA
    rw [takeFree_eq hp.2 i _ hi]
    by_cases hlt : roundUp n < lenAt p.free_list i
    · rw [if_pos hlt]
      have hbd := h.free_bounds i hi (by omega)
      have hu : uadd (startAt p.free_list i) (roundUp n) = startAt p.free_list i + roundUp n :=
        uadd_eq (by omega)
      rw [hu]
      have hB := coverCount_write p.free_list x 0 i (startAt p.free_list i + roundUp n)
        (lenAt p.free_list i - roundUp n) 512 (by omega) (by omega)
      rw [← hc]
      split_ifs at hA hB <;> omega
    · rw [if_neg hlt]
      have hC := coverCount_erase p.free_list x 0 i (by omega) hi
      have e0 : 512 - 0 = 512 := rfl
      rw [e0] at hC
      have hL : lenAt p.free_list i = roundUp n := by omega
      rw [hL] at hC
      rw [← hc]
      split_ifs at hA hC <;> omega
  · intro k hk
    show startAt (takeFree p.free_list i (roundUp n)) k ≠ b ∧
      startAt (takeFree p.free_list i (roundUp n)) k ≠ b + PAGE_SIZE
    rw [takeFree_eq hp.2 i _ hi]
    have f0 := h.fstart k hk
    have f1 := h.fstart (k + 1)
    by_cases hlt : roundUp n < lenAt p.free_list i
    · rw [if_pos hlt, startAt_writePair]
      have hbd := h.free_bounds i hi (by omega)
      have hu : uadd (startAt p.free_list i) (roundUp n) = startAt p.free_list i + roundUp n :=
        uadd_eq (by omega)
      rw [hu]
      split_ifs <;> omega
    · rw [if_neg hlt, startAt_erasePair _ _ _ hk]
      split_ifs <;> omega
  · intro k hk2 hk
    show startAt (writePair _ _ _ _) k ≠ b ∧ startAt (writePair _ _ _ _) k ≠ b + PAGE_SIZE
    rw [startAt_writePair]
    have a0 := h.astart k hk2 hk
    split_ifs <;> omega

theorem consistent_release {b s : Nat} {p p' : VMPool} {pools : List VMPool} {a : Nat}
    {pages : List Nat} (h : Consistent b s p) (hb : 0 < b)
    (ha1 : a ≠ b) (ha2 : a ≠ b + PAGE_SIZE)
    (hr : p.release pools a = some (p', pages)) : Consistent b s p' := by
  obtain ⟨j, m, hj, hbefore, hst, _, _, _, hm, hlive, hempty, rfl⟩ :=
    (release_some pools p a p' pages).1 hr
  have hj2 : 2 ≤ j := by
    have h0 := h.meta0.1
    have h1 := h.meta1.1
    by_contra hc
    have : j = 0 ∨ j = 1 := by omega
    rcases this with rfl | rfl
    · omega
    · omega
  refine ⟨h.base, ?_, ?_, ?_, ?_, ?_⟩
  · show startAt (erasePair _ _) 0 = b ∧ lenAt (erasePair _ _) 0 = PAGE_SIZE
    rw [startAt_erasePair _ _ _ (by omega), lenAt_erasePair _ _ _ (by omega),
      if_pos (by omega), if_pos (by omega)]
    exact h.meta0
  · show startAt (erasePair _ _) 1 = b + PAGE_SIZE ∧ lenAt (erasePair _ _) 1 = PAGE_SIZE
    rw [startAt_erasePair _ _ _ (by omega), lenAt_erasePair _ _ _ (by omega),
      if_pos (by omega), if_pos (by omega)]
    exact h.meta1
  · intro x
    show coverCount (erasePair p.alloc_list (2 * j)) x 2 510 +
      coverCount (writePair p.free_list m (startAt p.alloc_list j) (lenAt p.alloc_list j))
        x 0 512 = _
    have hc := h.cover x
    have hA := coverCount_erase p.alloc_list x 2 j hj2 hj
    have hB := coverCount_write p.free_list x 0 m (startAt p.alloc_list j)
      (lenAt p.alloc_list j) 512 (by omega) (by omega)
    rw [hempty] at hB
    rw [← hc]
    have e : 512 - 2 = 510 := rfl
    rw [e] at hA
    split_ifs at hA hB <;> omega
  · intro k hk
    show startAt (writePair _ _ _ _) k ≠ b ∧ startAt (writePair _ _ _ _) k ≠ b + PAGE_SIZE
    rw [startAt_writePair]
    have f0 := h.fstart k hk
    split_ifs <;> omega
  · intro k hk2 hk
    show startAt (erasePair _ _) k ≠ b ∧ startAt (erasePair _ _) k ≠ b + PAGE_SIZE
    rw [startAt_erasePair _ _ _ hk]
    have a0 := h.astart k hk2 hk
    have a1 := h.astart (k + 1) (by omega)
    split_ifs <;> omega

theorem coverCount_single (a : Nat → Nat) (x lo : Nat) : ∀ n,
    (∀ k, lo < k → k < lo + (n + 1) → lenAt a k = 0) →
    coverCount a x lo (n + 1) =
      if startAt a lo ≤ x ∧ x < startAt a lo + lenAt a lo then 1 else 0 := by
  intro n
  induction n with
  | zero => intro _; simp [coverCount]
  | succ n ih =>
    intro h
    have h1 := h (lo + (n + 1)) (by omega) (by omega)
    have e : coverCount a x lo (n + 1 + 1) = coverCount a x lo (n + 1) +
        (if startAt a (lo + (n + 1)) ≤ x ∧
            x < startAt a (lo + (n + 1)) + lenAt a (lo + (n + 1)) then 1 else 0) := rfl
    have hn : ¬ (startAt a (lo + (n + 1)) ≤ x ∧ x < startAt a (lo + (n + 1)) + 0) := by omega
    rw [e, ih (fun k hk1 hk2 => h k hk1 (by omega)), h1, if_neg hn]
    rfl

theorem construct_consistent (obj b s : Nat) (head : Option Nat) (ma mf : Nat → Nat)
    (hb0 : 0 < b) (hs : s % PAGE_SIZE = 0) (h2 : 2 * PAGE_SIZE ≤ s) (hbs : b + s ≤ ULONG) :
    Consistent b s (VMPool.construct obj b s head ma mf).1 := by
  have hb0' : 0 < b := hb0
  have hs' : s % 4096 = 0 := hs
  have h2' : 2 * 4096 ≤ s := h2
  have hbs' : b + s ≤ 4294967296 := hbs
  have hP : PAGE_SIZE = 4096 := rfl
  have hr : roundUp s = s := roundUp_aligned s hs
  have e1 : uadd b PAGE_SIZE = b + 4096 := by
    show (b + 4096) % 4294967296 = b + 4096
    omega
  have e3 : usub s (2 * PAGE_SIZE) = s - 8192 := by
    show (s + 4294967296 - 2 * 4096) % 4294967296 = s - 8192
    omega
  have e2 : s ≠ 8192 → uadd b (2 * PAGE_SIZE) = b + 8192 := by
    intro h
    show (b + 2 * 4096) % 4294967296 = b + 8192
    omega
  have e2' : uadd b (2 * PAGE_SIZE) ≠ b ∧ uadd b (2 * PAGE_SIZE) ≠ b + 4096 := by
    show (b + 2 * 4096) % 4294967296 ≠ b ∧ (b + 2 * 4096) % 4294967296 ≠ b + 4096
    omega
  refine ⟨rfl, ?_, ?_, ?_, ?_, ?_⟩
  · rw [construct_startAt_alloc _ _ _ _ _ _ 0 (by omega),
      construct_lenAt_alloc _ _ _ _ _ _ 0 (by omega)]
    exact ⟨rfl, rfl⟩
  · rw [construct_startAt_alloc _ _ _ _ _ _ 1 (by omega),
      construct_lenAt_alloc _ _ _ _ _ _ 1 (by omega)]
    exact ⟨e1, rfl⟩
  · intro x
    have hA : coverCount (VMPool.construct obj b s head ma mf).1.alloc_list x 2 510 = 0 := by
      apply coverCount_zero
      intro k hk1 hk2
      have c0 : ¬ k = 0 := by omega
      have c1 : ¬ k = 1 := by omega
      rw [construct_lenAt_alloc _ _ _ _ _ _ k (by omega), if_neg c0, if_neg c1]
    have hB := coverCount_single (VMPool.construct obj b s head ma mf).1.free_list x 0 511
      (by
        intro k hk1 hk2
        have c0 : ¬ k = 0 := by omega
        rw [construct_lenAt_free _ _ _ _ _ _ k (by omega), if_neg c0])
    have hs0 : startAt (VMPool.construct obj b s head ma mf).1.free_list 0
        = uadd b (2 * PAGE_SIZE) := by
      rw [construct_startAt_free _ _ _ _ _ _ 0 (by omega), if_pos rfl]
    have hl0 : lenAt (VMPool.construct obj b s head ma mf).1.free_list 0 = s - 8192 := by
      rw [construct_lenAt_free _ _ _ _ _ _ 0 (by omega), if_pos rfl, hr, e3]
    rw [hA, hB, hs0, hl0]
    show (0 + if uadd b (2 * PAGE_SIZE) ≤ x ∧ x < uadd b (2 * PAGE_SIZE) + (s - 8192)
      then 1 else 0) = if b + 2 * 4096 ≤ x ∧ x < b + s then 1 else 0
    by_cases h8 : s = 8192
    · subst h8
      split_ifs <;> omega
    · rw [e2 h8]
      split_ifs <;> omega
  · intro k hk
    rw [construct_startAt_free _ _ _ _ _ _ k hk]
    split_ifs <;> omega
  · intro k hk2 hk
    rw [construct_startAt_alloc _ _ _ _ _ _ k hk]
    split_ifs <;> omega

/-- States reached by a run from a consistent pool are consistent, keep the page shape, and
`allocate` never returned the start of a metadata page. -/
theorem Run.consistent {b s : Nat} {p0 p : VMPool} {tr : List Event} (hb0 : 0 < b)
    (hbs : b + s ≤ ULONG) (h0 : Consistent b s p0) (i0 : PoolInv p0) (h : Run p0 tr p) :
    Consistent b s p ∧ PoolInv p ∧
      ∀ n va, Event.allocate n va ∈ tr → va ≠ b ∧ va ≠ b + PAGE_SIZE := by
  induction h with
  | init => exact ⟨h0, i0, by intro n va hm; exact absurd hm (by simp)⟩
  | allocate _ hn ha ih =>
    obtain ⟨c, i, r⟩ := ih
    have := consistent_allocate c i hb0 hbs ha
    refine ⟨this.1, allocate_inv i hn ha, ?_⟩
    intro n' va' hm
    rcases List.mem_cons.1 hm with e | e
    · cases e
      exact this.2
    · exact r n' va' e
  | release _ hmem hr ih =>
    obtain ⟨c, i, r⟩ := ih
    obtain ⟨n0, hn0⟩ := hmem
    have hva := r n0 _ hn0
    refine ⟨consistent_release c hb0 hva.1 hva.2 hr, release_inv i hr, ?_⟩
    intro n' va' hm
    rcases List.mem_cons.1 hm with e | e
    · cases e
    · exact r n' va' e

theorem onePagePool_free_start (k : Nat) (hk : k < 512) :
    startAt onePagePool.free_list k = if k = 0 then 1073750016 else 0 :=
  construct_startAt_free 1 0x40000000 4096 none (fun _ => 0) (fun _ => 0) k hk

theorem onePagePool_free_len (k : Nat) (hk : k < 512) :
    lenAt onePagePool.free_list k = if k = 0 then 4294963200 else 0 :=
  construct_lenAt_free 1 0x40000000 4096 none (fun _ => 0) (fun _ => 0) k hk

theorem pool0_allocate (n : Nat) (h : roundUp n ≤ 16769024) :
    pool0.allocate n = some (pool0_after n, 0x40002000) := by
  have := construct_allocate 1 0x40000000 0x01000000 none (fun _ => 0) (fun _ => 0) n
    (by
      have e : usub (roundUp 0x01000000) (2 * PAGE_SIZE) = 16769024 := by decide
      rw [e]; exact h)
  have e2 : uadd 0x40000000 (2 * PAGE_SIZE) = 0x40002000 := by decide
  rw [e2] at this
  exact this

theorem pool0_consistent : Consistent 0x40000000 0x01000000 pool0 :=
  construct_consistent 1 0x40000000 0x01000000 none (fun _ => 0) (fun _ => 0)
    (by decide) (by decide) (by decide) (by decide)

theorem pool0_after_alloc_start (n k : Nat) :
    startAt (pool0_after n).alloc_list k =
      if k = 2 then 0x40002000 else startAt pool0.alloc_list k :=
  startAt_writePair _ _ _ _ _

theorem pool0_after_alloc_len (n k : Nat) :
    lenAt (pool0_after n).alloc_list k = if k = 2 then roundUp n else lenAt pool0.alloc_list k :=
  lenAt_writePair _ _ _ _ _

/-! ## First fit -/

theorem first_fit_of_allocate {p p' : VMPool} {n va : Nat}
    (hlast : lenAt p.free_list 511 = 0)
    (hspan : ∀ k, k < 512 → lenAt p.free_list k < ULONG ∧
      startAt p.free_list k + lenAt p.free_list k ≤ ULONG)
    (hn : n ≤ ULONG - PAGE_SIZE) (h : p.allocate n = some (p', va)) : FirstFit p n p' va := by
  obtain ⟨i, m, hi, hbefore, hfit, hm, hlive, hempty, rfl, rfl⟩ := (allocate_some p n p' va).1 h
  have hsp := hspan i hi
  unfold FirstFit
  rw [← pageCeil_eq_roundUp n hn]
  refine ⟨i, m, hi, hbefore, hfit, rfl, ?_, ?_, by omega, hlive, hempty, ?_⟩
  · intro hlt k hk
    show startAt (takeFree p.free_list i (roundUp n)) k = _ ∧
      lenAt (takeFree p.free_list i (roundUp n)) k = _
    have hgt : p.free_list (2 * i + 1) > roundUp n := hlt
    have e1 : uadd (p.free_list (2 * i)) (roundUp n) = startAt p.free_list i + roundUp n :=
      uadd_eq (by
        show startAt p.free_list i + roundUp n < ULONG
        omega)
    have e2 : usub (p.free_list (2 * i + 1)) (roundUp n) = lenAt p.free_list i - roundUp n :=
      usub_eq (Nat.le_of_lt hgt) hsp.1
    unfold takeFree
    rw [if_pos hgt, e1, e2, startAt_writePair, lenAt_writePair]
    exact ⟨rfl, rfl⟩
  · intro heq k hk
    show startAt (takeFree p.free_list i (roundUp n)) k = _ ∧
      lenAt (takeFree p.free_list i (roundUp n)) k = _
    have hngt : ¬ p.free_list (2 * i + 1) > roundUp n := by
      show ¬ lenAt p.free_list i > roundUp n
      omega
    have hi' : i ≤ 510 := by
      by_contra hc
      have h511 : i = 511 := by omega
      subst h511
      have := hbefore 0 (by omega)
      omega
    unfold takeFree
    rw [if_neg hngt, shiftLoop_erase _ _ hi', startAt_erasePair _ _ _ hk,
      lenAt_erasePair _ _ _ hk]
    exact ⟨rfl, rfl⟩
  · intro k hk
    show startAt (writePair _ _ _ _) k = _ ∧ lenAt (writePair _ _ _ _) k = _
    rw [startAt_writePair, lenAt_writePair]
    exact ⟨rfl, rfl⟩

/-! ## Metadata pages as lists of pairs -/

theorem entry_of_le (l : List (Nat × Nat)) (k : Nat) (h : l.length ≤ k) : entry l k = (0, 0) := by
  unfold entry
  rw [List.getElem?_eq_none h]
  rfl

theorem entry_append_left (l l' : List (Nat × Nat)) (k : Nat) (h : k < l.length) :
    entry (l ++ l') k = entry l k := by
  unfold entry
  rw [List.getElem?_append_left h]

theorem entry_append_single (l : List (Nat × Nat)) (e : Nat × Nat) (k : Nat) :
    entry (l ++ [e]) k = if k = l.length then e else entry l k := by
  unfold entry
  by_cases h : k < l.length
  · rw [List.getElem?_append_left h, if_neg (by omega)]
  · rw [List.getElem?_append_right (by omega)]
    by_cases h2 : k = l.length
    · rw [if_pos h2, h2, Nat.sub_self]
      rfl
    · rw [if_neg h2, List.getElem?_eq_none (by simp; omega), List.getElem?_eq_none (by omega)]

theorem entry_set (l : List (Nat × Nat)) (i : Nat) (e : Nat × Nat) (k : Nat)
    (hi : i < l.length) : entry (l.set i e) k = if k = i then e else entry l k := by
  unfold entry
  rw [List.getElem?_set]
  by_cases h : i = k
  · rw [if_pos h, if_pos hi, if_pos h.symm]
    rfl
  · rw [if_neg h, if_neg (by omega)]

theorem entry_eraseIdx (l : List (Nat × Nat)) (i k : Nat) :
    entry (l.eraseIdx i) k = if k < i then entry l k else entry l (k + 1) := by
  unfold entry
  rw [List.getElem?_eraseIdx]
  split_ifs <;> rfl

theorem Rep.snoc {a : Nat → Nat} {l : List (Nat × Nat)} (h : Rep a l) (s r : Nat) :
    Rep (writePair a l.length s r) (l ++ [(s, r)]) := by
  intro k hk
  rw [startAt_writePair, lenAt_writePair, entry_append_single]
  have := h k hk
  split_ifs
  · exact ⟨rfl, rfl⟩
  · exact this

theorem Rep.set {a : Nat → Nat} {l : List (Nat × Nat)} (h : Rep a l) (i s r : Nat)
    (hi : i < l.length) : Rep (writePair a i s r) (l.set i (s, r)) := by
  intro k hk
  rw [startAt_writePair, lenAt_writePair, entry_set _ _ _ _ hi]
  have := h k hk
  split_ifs
  · exact ⟨rfl, rfl⟩
  · exact this

theorem Rep.eraseIdx {a : Nat → Nat} {l : List (Nat × Nat)} (h : Rep a l) (i : Nat)
    (hl : l.length ≤ 512) : Rep (erasePair a (2 * i)) (l.eraseIdx i) := by
  intro k hk
  rw [startAt_erasePair _ _ _ hk, lenAt_erasePair _ _ _ hk, entry_eraseIdx]
  have h0 := h k hk
  have h1 := h (k + 1)
  by_cases c1 : k < i
  · rw [if_pos c1, if_pos c1, if_pos c1]; exact h0
  · rw [if_neg c1, if_neg c1, if_neg c1]
    by_cases c2 : k < 511
    · rw [if_pos c2, if_pos c2]; exact h1 (by omega)
    · rw [if_neg c2, if_neg c2, entry_of_le l (k + 1) (by omega)]
      exact ⟨rfl, rfl⟩

theorem Rep.len_zero {a : Nat → Nat} {l : List (Nat × Nat)} (h : Rep a l) (k : Nat)
    (hk : k < 512) (hl : l.length ≤ k) : startAt a k = 0 ∧ lenAt a k = 0 := by
  have := h k hk
  rw [entry_of_le l k hl] at this
  exact this

theorem construct_rep_alloc (obj b s : Nat) (head : Option Nat) (ma mf : Nat → Nat) :
    Rep (VMPool.construct obj b s head ma mf).1.alloc_list
      [(b, PAGE_SIZE), (uadd b PAGE_SIZE, PAGE_SIZE)] := by
  intro k hk
  rw [construct_startAt_alloc _ _ _ _ _ _ k hk, construct_lenAt_alloc _ _ _ _ _ _ k hk]
  match k with
  | 0 => simp [entry]
  | 1 => simp [entry]
  | k + 2 => simp [entry]

theorem construct_rep_free (obj b s : Nat) (head : Option Nat) (ma mf : Nat → Nat) :
    Rep (VMPool.construct obj b s head ma mf).1.free_list
      [(uadd b (2 * PAGE_SIZE), usub (roundUp s) (2 * PAGE_SIZE))] := by
  intro k hk
  rw [construct_startAt_free _ _ _ _ _ _ k hk, construct_lenAt_free _ _ _ _ _ _ k hk]
  match k with
  | 0 => simp [entry]
  | k + 1 => simp [entry]

theorem entry_pos_lt (l : List (Nat × Nat)) (k : Nat) (h : (entry l k).2 ≠ 0) : k < l.length := by
  by_contra hc
  rw [entry_of_le l k (by omega)] at h
  exact h rfl

/-- One `allocate` on a pool whose metadata pages hold the lists `A` and `F`: first fit at
entry `i` of `F`. -/
theorem rep_allocate {p : VMPool} {A F : List (Nat × Nat)} (n i : Nat)
    (hA : Rep p.alloc_list A) (hF : Rep p.free_list F)
    (hAlive : ∀ k, k < A.length → (entry A k).2 ≠ 0) (hAlen : A.length ≤ 510)
    (hFlen : F.length ≤ 511) (hi : i < 512)
    (hbefore : ∀ k, k < i → (entry F k).2 < roundUp n) (hfit : roundUp n ≤ (entry F i).2)
    (hword : (entry F i).2 < ULONG) (hspan : (entry F i).1 + (entry F i).2 ≤ ULONG) :
    ∃ p', p.allocate n = some (p', (entry F i).1) ∧
      Rep p'.alloc_list (A ++ [((entry F i).1, roundUp n)]) ∧
      Rep p'.free_list
        (if roundUp n < (entry F i).2 then
          F.set i ((entry F i).1 + roundUp n, (entry F i).2 - roundUp n)
        else F.eraseIdx i) ∧
      p'.base_address = p.base_address ∧ p'.size = p.size := by
  have hFi := hF i hi
  have hst : startAt p.free_list i = (entry F i).1 := hFi.1
  have hln : lenAt p.free_list i = (entry F i).2 := hFi.2
  have hsome : p.allocate n = some
      ({ p with alloc_list := writePair p.alloc_list A.length (startAt p.free_list i) (roundUp n),
                free_list := takeFree p.free_list i (roundUp n) }, startAt p.free_list i) := by
    rw [allocate_some]
    refine ⟨i, A.length, hi, ?_, ?_, by omega, ?_, ?_, rfl, rfl⟩
    · intro k hk
      rw [(hF k (by omega)).2]; exact hbefore k hk
    · rw [hln]; exact hfit
    · intro k hk
      rw [(hA k (by omega)).2]; exact hAlive k hk
    · exact (hA.len_zero A.length (by omega) (Nat.le_refl _)).2
  rw [hst] at hsome
  refine ⟨_, hsome, ?_, ?_, rfl, rfl⟩
  · show Rep (writePair p.alloc_list A.length (entry F i).1 (roundUp n)) _
    exact hA.snoc _ _
  · show Rep (takeFree p.free_list i (roundUp n)) _
    by_cases hlt : roundUp n < (entry F i).2
    · rw [if_pos hlt]
      have hgt : p.free_list (2 * i + 1) > roundUp n := by
        show lenAt p.free_list i > roundUp n
        omega
      have e1 : uadd (p.free_list (2 * i)) (roundUp n) = (entry F i).1 + roundUp n := by
        show uadd (startAt p.free_list i) (roundUp n) = _
        rw [hst]
        exact uadd_eq (by omega)
      have e2 : usub (p.free_list (2 * i + 1)) (roundUp n) = (entry F i).2 - roundUp n := by
        show usub (lenAt p.free_list i) (roundUp n) = _
        rw [hln]
        exact usub_eq (by omega) hword
      unfold takeFree
      rw [if_pos hgt, e1, e2]
      exact hF.set i _ _ (entry_pos_lt F i (by omega))
    · rw [if_neg hlt]
      have hngt : ¬ p.free_list (2 * i + 1) > roundUp n := by
        show ¬ lenAt p.free_list i > roundUp n
        omega
      have hz := hF.len_zero 511 (by omega) hFlen
      rw [takeFree_exact p.free_list i (roundUp n) hi hngt hz.1 hz.2]
      exact hF.eraseIdx i (by omega)

theorem freeLoop_of_mem {pools : List VMPool} {p : VMPool} (hp : p ∈ pools) (j st len : Nat)
    (hj : j < 512) (h1 : startAt p.alloc_list j = st) (h2 : lenAt p.alloc_list j = len)
    (ha : st % PAGE_SIZE = 0) (hl : len % PAGE_SIZE = 0) (hlt : st + len < ULONG) :
    freeLoop pools (uadd st len) (ULONG / PAGE_SIZE + 1) st =
      some (List.range' (st / PAGE_SIZE) (len / PAGE_SIZE)) := by
  have ha' : st % 4096 = 0 := ha
  have hl' : len % 4096 = 0 := hl
  have hlt' : st + len < 4294967296 := hlt
  have hu : uadd st len = st + len := uadd_eq hlt
  rw [hu]
  apply freeLoop_eq pools (st + len) (len / PAGE_SIZE) (ULONG / PAGE_SIZE + 1) st ha
  · show st + len / 4096 * 4096 = st + len
    omega
  · exact hlt
  · show len / 4096 < 4294967296 / 4096 + 1
    omega
  · intro t ht
    have ht' : t < len / 4096 := ht
    unfold free_page_check
    rw [List.any_eq_true]
    refine ⟨p, hp, ?_⟩
    have hm : umul (st / PAGE_SIZE + t) PAGE_SIZE = st + t * 4096 := by
      show (st / 4096 + t) * 4096 % 4294967296 = st + t * 4096
      omega
    rw [hm, is_legitimate_iff]
    right; right
    refine ⟨j, hj, ?_, ?_⟩
    · show startAt p.alloc_list j ≤ _
      rw [h1]; omega
    · show _ < uadd (startAt p.alloc_list j) (lenAt p.alloc_list j)
      rw [h1, h2, hu]
      omega

/-- One `release` on a pool whose metadata pages hold the lists `A` and `F`: the entry `j` of
`A` is the first with start field `addr`. -/
theorem rep_release {p : VMPool} {A F : List (Nat × Nat)} (pools : List VMPool)
    (addr j : Nat) (pages : List Nat)
    (hA : Rep p.alloc_list A) (hF : Rep p.free_list F)
    (hFlive : ∀ k, k < F.length → (entry F k).2 ≠ 0) (hFlen : F.length ≤ 510)
    (hAlen : A.length ≤ 512) (hj : j < 512)
    (hbefore : ∀ k, k < j → (entry A k).1 ≠ addr) (hst : (entry A j).1 = addr)
    (hal1 : (entry A j).1 % PAGE_SIZE = 0) (hal2 : (entry A j).2 % PAGE_SIZE = 0)
    (hfree : freeLoop pools (uadd (entry A j).1 (entry A j).2) (ULONG / PAGE_SIZE + 1)
      (entry A j).1 = some pages) :
    ∃ p', p.release pools addr = some (p', pages) ∧
      Rep p'.alloc_list (A.eraseIdx j) ∧ Rep p'.free_list (F ++ [entry A j]) ∧
      p'.base_address = p.base_address ∧ p'.size = p.size := by
  have hAj := hA j hj
  have hs : startAt p.alloc_list j = (entry A j).1 := hAj.1
  have hl : lenAt p.alloc_list j = (entry A j).2 := hAj.2
  have hsome : p.release pools addr = some
      ({ p with alloc_list := erasePair p.alloc_list (2 * j),
                free_list := writePair p.free_list F.length (startAt p.alloc_list j)
                  (lenAt p.alloc_list j) }, pages) := by
    rw [release_some]
    refine ⟨j, F.length, hj, ?_, ?_, ?_, ?_, ?_, by omega, ?_, ?_, rfl⟩
    · intro k hk
      rw [(hA k (by omega)).1]; exact hbefore k hk
    · rw [hs]; exact hst
    · rw [hs]; exact hal1
    · rw [hl]; exact hal2
    · rw [hs, hl]; exact hfree
    · intro k hk
      rw [(hF k (by omega)).2]; exact hFlive k hk
    · exact (hF.len_zero F.length (by omega) (Nat.le_refl _)).2
  refine ⟨_, hsome, hA.eraseIdx j hAlen, ?_, rfl, rfl⟩
  show Rep (writePair p.free_list F.length (startAt p.alloc_list j) (lenAt p.alloc_list j)) _
  rw [hs, hl]
  exact hF.snoc _ _

/-! ## Scenario S2 -/

/-- The state a returning `release` leaves does not depend on the registered pools. -/
theorem release_state_indep {p p1 p2 : VMPool} {pools1 pools2 : List VMPool} {a : Nat}
    {pg1 pg2 : List Nat} (h1 : p.release pools1 a = some (p1, pg1))
    (h2 : p.release pools2 a = some (p2, pg2)) : p1 = p2 := by
  obtain ⟨j, m, _, hb, hs, _, _, _, _, hl, he, rfl⟩ := (release_some pools1 p a p1 pg1).1 h1
  obtain ⟨j', m', _, hb', hs', _, _, _, _, hl', he', rfl⟩ := (release_some pools2 p a p2 pg2).1 h2
  have hj : j = j' := by
    rcases Nat.lt_trichotomy j j' with c | c | c
    · exact absurd hs (hb' j c)
    · exact c
    · exact absurd hs' (hb j' c)
  have hm : m = m' := by
    rcases Nat.lt_trichotomy m m' with c | c | c
    · exact absurd he (hl' m c)
    · exact c
    · exact absurd he' (hl m' c)
  subst hj; subst hm
  rfl

theorem ScenarioS2.unique {p0 : VMPool} {a3 a a3' a' : Nat} (h : ScenarioS2 p0 a3 a)
    (h' : ScenarioS2 p0 a3' a') : a3 = a3' ∧ a = a' := by
  obtain ⟨p1, a1, p2, a2, p3, p4, a4, p5, a5, pools, p6, pages, p7,
    e1, e2, e3, e4, e5, _, e6, e7⟩ := h
  obtain ⟨q1, b1, q2, b2, q3, q4, b4, q5, b5, pools', q6, pages', q7,
    f1, f2, f3, f4, f5, _, f6, f7⟩ := h'
  rw [e1] at f1
  obtain ⟨rfl, rfl⟩ := Prod.mk.inj (Option.some.inj f1)
  rw [e2] at f2
  obtain ⟨rfl, rfl⟩ := Prod.mk.inj (Option.some.inj f2)
  rw [e3] at f3
  obtain ⟨rfl, rfl⟩ := Prod.mk.inj (Option.some.inj f3)
  rw [e4] at f4
  obtain ⟨rfl, rfl⟩ := Prod.mk.inj (Option.some.inj f4)
  rw [e5] at f5
  obtain ⟨rfl, rfl⟩ := Prod.mk.inj (Option.some.inj f5)
  have := release_state_indep e6 f6
  subst this
  rw [e7] at f7
  obtain ⟨rfl, rfl⟩ := Prod.mk.inj (Option.some.inj f7)
  exact ⟨rfl, rfl⟩

theorem alive_of_forall (A : List (Nat × Nat)) (h : ∀ e ∈ A, e.2 ≠ 0) :
    ∀ k, k < A.length → (entry A k).2 ≠ 0 := by
  intro k hk
  unfold entry
  rw [List.getElem?_eq_getElem hk]
  exact h _ (List.getElem_mem hk)

theorem construct_rep (obj b s : Nat) (head : Option Nat) (ma mf : Nat → Nat)
    (hs : s % PAGE_SIZE = 0) (h2 : 2 * PAGE_SIZE ≤ s) (hbs : b + s ≤ ULONG) (h3 : s ≠ 2 * PAGE_SIZE) :
    Rep (VMPool.construct obj b s head ma mf).1.alloc_list [(b, 4096), (b + 4096, 4096)] ∧
    Rep (VMPool.construct obj b s head ma mf).1.free_list [(b + 8192, s - 8192)] := by
  have hs' : s % 4096 = 0 := hs
  have h2' : 2 * 4096 ≤ s := h2
  have hbs' : b + s ≤ 4294967296 := hbs
  have h3' : s ≠ 2 * 4096 := h3
  have e1 : uadd b PAGE_SIZE = b + 4096 := by
    show (b + 4096) % 4294967296 = b + 4096
    omega
  have e2 : uadd b (2 * PAGE_SIZE) = b + 8192 := by
    show (b + 2 * 4096) % 4294967296 = b + 8192
    omega
  have e3 : usub (roundUp s) (2 * PAGE_SIZE) = s - 8192 := by
    rw [roundUp_aligned s hs]
    show (s + 4294967296 - 2 * 4096) % 4294967296 = s - 8192
    omega
  have hA := construct_rep_alloc obj b s head ma mf
  have hF := construct_rep_free obj b s head ma mf
  rw [e1] at hA
  rw [e2, e3] at hF
  exact ⟨hA, hF⟩

/-- `allocate` taking `r` bytes from the head entry of the free list, which is larger. -/
theorem rep_allocate_head {p : VMPool} {A F : List (Nat × Nat)} {st L : Nat} (n r : Nat)
    (hA : Rep p.alloc_list A) (hF : Rep p.free_list ((st, L) :: F))
    (hAlive : ∀ e ∈ A, e.2 ≠ 0) (hAlen : A.length ≤ 510) (hFlen : F.length ≤ 510)
    (hr : roundUp n = r) (hlt : r < L) (hL : L < ULONG) (hsp : st + L ≤ ULONG) :
    ∃ p', p.allocate n = some (p', st) ∧ Rep p'.alloc_list (A ++ [(st, r)]) ∧
      Rep p'.free_list ((st + r, L - r) :: F) := by
  have h0 : entry ((st, L) :: F) 0 = (st, L) := by simp [entry]
  obtain ⟨p', e, hA', hF', -, -⟩ := rep_allocate n 0 hA hF (alive_of_forall A hAlive) hAlen
    (by simp only [List.length_cons]; omega) (by omega) (by intro k hk; omega)
    (by rw [h0, hr]; exact Nat.le_of_lt hlt) (by rw [h0]; exact hL) (by rw [h0]; exact hsp)
  simp only [h0, hr, if_pos hlt, List.set_cons_zero] at e hA' hF'
  exact ⟨p', e, hA', hF'⟩

/-- `release` of the region recorded in entry `j` of the allocation list by a pool that is
registered with its page table. -/
theorem rep_release_entry {p : VMPool} {A F : List (Nat × Nat)} {pools : List VMPool}
    (j st len : Nat) (hp : p ∈ pools)
    (hA : Rep p.alloc_list A) (hF : Rep p.free_list F)
    (hFlive : ∀ e ∈ F, e.2 ≠ 0) (hFlen : F.length ≤ 510) (hAlen : A.length ≤ 512)
    (hj : j < 512) (he : entry A j = (st, len))
    (hbefore : ∀ k, k < j → (entry A k).1 ≠ st)
    (hal1 : st % PAGE_SIZE = 0) (hal2 : len % PAGE_SIZE = 0) (hlt : st + len < ULONG) :
    ∃ p', p.release pools st =
        some (p', List.range' (st / PAGE_SIZE) (len / PAGE_SIZE)) ∧
      Rep p'.alloc_list (A.eraseIdx j) ∧ Rep p'.free_list (F ++ [(st, len)]) := by
  have hAj := hA j hj
  rw [he] at hAj
  have hfree := freeLoop_of_mem hp j st len hj hAj.1 hAj.2 hal1 hal2 hlt
  obtain ⟨p', e, hA', hF', -, -⟩ := rep_release pools st j _ hA hF (alive_of_forall F hFlive)
    hFlen hAlen hj hbefore (by rw [he]) (by rw [he]; exact hal1) (by rw [he]; exact hal2)
    (by rw [he]; exact hfree)
  rw [he] at hF'
  exact ⟨p', e, hA', hF'⟩

theorem scenarioS2_runs (obj b s : Nat) (head : Option Nat) (ma mf : Nat → Nat)
    (hb : b % PAGE_SIZE = 0) (hs : s % PAGE_SIZE = 0) (h33 : 33 * PAGE_SIZE ≤ s)
    (hbs : b + s ≤ ULONG) :
    ScenarioS2 (VMPool.construct obj b s head ma mf).1 (b + 14 * PAGE_SIZE)
      (b + 30 * PAGE_SIZE) := by
  have hb' : b % 4096 = 0 := hb
  have hs' : s % 4096 = 0 := hs
  have h33' : 33 * 4096 ≤ s := h33
  have hbs' : b + s ≤ 4294967296 := hbs
  have r4 : roundUp (4 * PAGE_SIZE) = 16384 := by decide
  have r8 : roundUp (8 * PAGE_SIZE) = 32768 := by decide
  have r3 : roundUp (3 * PAGE_SIZE) = 12288 := by decide
  obtain ⟨hA0, hF0⟩ := construct_rep obj b s head ma mf hs
    (by show 2 * 4096 ≤ s; omega) hbs (by show s ≠ 2 * 4096; omega)
  obtain ⟨p1, e1, hA1, hF1⟩ := rep_allocate_head (4 * PAGE_SIZE) 16384 hA0 hF0
    (by simp) (by simp) (by simp) r4 (by omega)
    (by show s - 8192 < 4294967296; omega) (by show b + 8192 + (s - 8192) ≤ 4294967296; omega)
  obtain ⟨p2, e2, hA2, hF2⟩ := rep_allocate_head (8 * PAGE_SIZE) 32768 hA1 hF1
    (by simp) (by simp) (by simp) r8 (by omega)
    (by show s - 8192 - 16384 < 4294967296; omega)
    (by show b + 8192 + 16384 + (s - 8192 - 16384) ≤ 4294967296; omega)
  obtain ⟨p3, e3, hA3, hF3⟩ := rep_allocate_head (4 * PAGE_SIZE) 16384 hA2 hF2
    (by simp) (by simp) (by simp) r4 (by omega)
    (by show s - 8192 - 16384 - 32768 < 4294967296; omega)
    (by show b + 8192 + 16384 + 32768 + (s - 8192 - 16384 - 32768) ≤ 4294967296; omega)
  obtain ⟨p4, e4, hA4, hF4⟩ := rep_allocate_head (4 * PAGE_SIZE) 16384 hA3 hF3
    (by simp) (by simp) (by simp) r4 (by omega)
    (by show s - 8192 - 16384 - 32768 - 16384 < 4294967296; omega)
    (by
      show b + 8192 + 16384 + 32768 + 16384 + (s - 8192 - 16384 - 32768 - 16384) ≤ 4294967296
      omega)
  obtain ⟨p5, e5, hA5, hF5⟩ := rep_allocate_head (8 * PAGE_SIZE) 32768 hA4 hF4
    (by simp) (by simp) (by simp) r8 (by omega)
    (by show s - 8192 - 16384 - 32768 - 16384 - 16384 < 4294967296; omega)
    (by
      show b + 8192 + 16384 + 32768 + 16384 + 16384 +
        (s - 8192 - 16384 - 32768 - 16384 - 16384) ≤ 4294967296
      omega)
  simp only [List.cons_append, List.nil_append] at hA5
  obtain ⟨p6, e6, hA6, hF6⟩ := rep_release_entry 4 (b + 8192 + 16384 + 32768)
    16384 (show p5 ∈ [p5] from List.mem_singleton.2 rfl) hA5 hF5 (by intro e he; rw [List.mem_singleton] at he; subst he; show s - 8192 - 16384 - 32768 - 16384 - 16384 - 32768 ≠ 0; omega) (by simp) (by simp) (by omega)
    (by simp only [entry, List.getElem?_cons_succ, List.getElem?_cons_zero, Option.getD_some])
    (by
      intro k hk
      have : k = 0 ∨ k = 1 ∨ k = 2 ∨ k = 3 := by omega
      rcases this with rfl | rfl | rfl | rfl <;>
        simp only [entry, List.getElem?_cons_succ, List.getElem?_cons_zero, Option.getD_some] <;>
        omega)
    (by show (b + 8192 + 16384 + 32768) % 4096 = 0; omega)
    (by decide)
    (by show b + 8192 + 16384 + 32768 + 16384 < 4294967296; omega)
  simp only [List.eraseIdx_cons_succ, List.eraseIdx_cons_zero, List.cons_append,
    List.nil_append] at hA6 hF6
  obtain ⟨p7, e7, -, -, -, -⟩ := rep_allocate (3 * PAGE_SIZE) 0 hA6 hF6
    (alive_of_forall _ (by simp)) (by simp) (by simp) (by omega) (by intro k hk; omega)
    (by
      simp only [entry, List.getElem?_cons_zero, Option.getD_some, r3]
      omega)
    (by
      simp only [entry, List.getElem?_cons_zero, Option.getD_some]
      show s - 8192 - 16384 - 32768 - 16384 - 16384 - 32768 < 4294967296
      omega)
    (by
      simp only [entry, List.getElem?_cons_zero, Option.getD_some]
      show b + 8192 + 16384 + 32768 + 16384 + 16384 + 32768 +
        (s - 8192 - 16384 - 32768 - 16384 - 16384 - 32768) ≤ 4294967296
      omega)
  simp only [entry, List.getElem?_cons_zero, Option.getD_some] at e7
  have ha3 : b + 8192 + 16384 + 32768 = b + 14 * PAGE_SIZE := by
    show _ = b + 14 * 4096
    omega
  have ha : b + 8192 + 16384 + 32768 + 16384 + 16384 + 32768 = b + 30 * PAGE_SIZE := by
    show _ = b + 30 * 4096
    omega
  rw [ha3] at e3 e6
  rw [ha] at e7
  exact ⟨p1, _, p2, _, p3, p4, _, p5, _, [p5], p6, _, p7, e1, e2, e3, e4, e5,
    List.mem_singleton.2 rfl, e6, e7⟩

theorem pool0_scenario : ScenarioS2 pool0 0x4000E000 0x4001E000 := by
  have h := scenarioS2_runs 1 0x40000000 0x01000000 none (fun _ => 0) (fun _ => 0)
    (by decide) (by decide) (by decide) (by decide)
  have h14 : 0x40000000 + 14 * PAGE_SIZE = 0x4000E000 := by decide
  have h30 : 0x40000000 + 30 * PAGE_SIZE = 0x4001E000 := by decide
  rw [h14, h30] at h
  exact h

theorem pool0_free_span (k : Nat) (hk : k < 512) :
    lenAt pool0.free_list k < ULONG ∧
      startAt pool0.free_list k + lenAt pool0.free_list k ≤ ULONG := by
  rw [pool0_free_len k hk, pool0_free_start k hk]
  have hU : ULONG = 4294967296 := rfl
  split_ifs <;> omega

theorem pool0_free_last : lenAt pool0.free_list 511 = 0 := by
  rw [pool0_free_len 511 (by omega)]
  rfl

/-! ## Alignment -/

theorem aligned_allocate {p p' : VMPool} {n va : Nat} (h : Aligned p) (hp : PoolInv p)
    (ha : p.allocate n = some (p', va)) : Aligned p' := by
  obtain ⟨i, m, hi, _, hfit, hm, _, _, rfl, rfl⟩ := (allocate_some p n p' va).1 ha
  have hr : roundUp n % 4096 = 0 := roundUp_mod n
  have hi0 := h i hi
  have hu : uadd (startAt p.free_list i) (roundUp n) % 4096 = 0 := by
    have h1 : startAt p.free_list i % 4096 = 0 := hi0.2.1
    show (startAt p.free_list i + roundUp n) % 4294967296 % 4096 = 0
    omega
  have hl : lenAt p.free_list i % 4096 = 0 := hi0.2.2
  intro k hk
  have hk0 := h k hk
  have hk1 := h (k + 1)
  constructor
  · show startAt (writePair _ _ _ _) k % 4096 = 0 ∧ lenAt (writePair _ _ _ _) k % 4096 = 0
    rw [startAt_writePair, lenAt_writePair]
    have a1 : startAt p.alloc_list k % 4096 = 0 := hk0.1.1
    have a2 : lenAt p.alloc_list k % 4096 = 0 := hk0.1.2
    have a3 : startAt p.free_list i % 4096 = 0 := hi0.2.1
    split_ifs <;> omega
  · show startAt (takeFree p.free_list i (roundUp n)) k % 4096 = 0 ∧
      lenAt (takeFree p.free_list i (roundUp n)) k % 4096 = 0
    rw [takeFree_eq hp.2 i _ hi]
    have a1 : startAt p.free_list k % 4096 = 0 := hk0.2.1
    have a2 : lenAt p.free_list k % 4096 = 0 := hk0.2.2
    have b1 : k + 1 < 512 → startAt p.free_list (k + 1) % 4096 = 0 := fun c => (hk1 c).2.1
    have b2 : k + 1 < 512 → lenAt p.free_list (k + 1) % 4096 = 0 := fun c => (hk1 c).2.2
    by_cases hlt : roundUp n < lenAt p.free_list i
    · rw [if_pos hlt, startAt_writePair, lenAt_writePair]
      split_ifs <;> omega
    · rw [if_neg hlt, startAt_erasePair _ _ _ hk, lenAt_erasePair _ _ _ hk]
      split_ifs <;> omega

theorem aligned_release {p p' : VMPool} {pools : List VMPool} {a : Nat} {pages : List Nat}
    (h : Aligned p) (hr : p.release pools a = some (p', pages)) : Aligned p' := by
  obtain ⟨j, m, hj, _, _, hs, hl, _, hm, _, _, rfl⟩ := (release_some pools p a p' pages).1 hr
  have hs' : startAt p.alloc_list j % 4096 = 0 := hs
  have hl' : lenAt p.alloc_list j % 4096 = 0 := hl
  intro k hk
  have hk0 := h k hk
  have hk1 := h (k + 1)
  constructor
  · show startAt (erasePair _ _) k % 4096 = 0 ∧ lenAt (erasePair _ _) k % 4096 = 0
    rw [startAt_erasePair _ _ _ hk, lenAt_erasePair _ _ _ hk]
    have a1 : startAt p.alloc_list k % 4096 = 0 := hk0.1.1
    have a2 : lenAt p.alloc_list k % 4096 = 0 := hk0.1.2
    have b1 : k + 1 < 512 → startAt p.alloc_list (k + 1) % 4096 = 0 := fun c => (hk1 c).1.1
    have b2 : k + 1 < 512 → lenAt p.alloc_list (k + 1) % 4096 = 0 := fun c => (hk1 c).1.2
    split_ifs <;> omega
  · show startAt (writePair _ _ _ _) k % 4096 = 0 ∧ lenAt (writePair _ _ _ _) k % 4096 = 0
    rw [startAt_writePair, lenAt_writePair]
    have a1 : startAt p.free_list k % 4096 = 0 := hk0.2.1
    have a2 : lenAt p.free_list k % 4096 = 0 := hk0.2.2
    split_ifs <;> omega

theorem construct_aligned (obj b s : Nat) (head : Option Nat) (ma mf : Nat → Nat)
    (hb : b % PAGE_SIZE = 0) : Aligned (VMPool.construct obj b s head ma mf).1 := by
  have hb' : b % 4096 = 0 := hb
  have hr : roundUp s % 4096 = 0 := roundUp_mod s
  have e1 : uadd b 4096 % 4096 = 0 := by
    show (b + 4096) % 4294967296 % 4096 = 0
    omega
  have e2 : uadd b (2 * 4096) % 4096 = 0 := by
    show (b + 2 * 4096) % 4294967296 % 4096 = 0
    omega
  have e3 : usub (roundUp s) (2 * 4096) % 4096 = 0 := by
    show (roundUp s + 4294967296 - 2 * 4096) % 4294967296 % 4096 = 0
    omega
  have hP : PAGE_SIZE = 4096 := rfl
  intro k hk
  rw [construct_startAt_alloc _ _ _ _ _ _ k hk, construct_lenAt_alloc _ _ _ _ _ _ k hk,
    construct_startAt_free _ _ _ _ _ _ k hk, construct_lenAt_free _ _ _ _ _ _ k hk]
  simp only [hP]
  refine ⟨⟨?_, ?_⟩, ?_, ?_⟩ <;> split_ifs <;> omega

theorem Run.aligned {p0 p : VMPool} {tr : List Event} (h0 : Aligned p0) (i0 : PoolInv p0)
    (h : Run p0 tr p) : Aligned p ∧ PoolInv p := by
  induction h with
  | init => exact ⟨h0, i0⟩
  | allocate _ hn ha ih => exact ⟨aligned_allocate ih.1 ih.2 ha, allocate_inv ih.2 hn ha⟩
  | release _ _ hr ih => exact ⟨aligned_release ih.1 hr, release_inv ih.2 hr⟩

theorem coverCount_two (a : Nat → Nat) (x lo : Nat) : ∀ n k1 k2, lo ≤ k1 → k1 < k2 →
    k2 < lo + n →
    (startAt a k1 ≤ x ∧ x < startAt a k1 + lenAt a k1) →
    (startAt a k2 ≤ x ∧ x < startAt a k2 + lenAt a k2) → 2 ≤ coverCount a x lo n := by
  intro n
  induction n with
  | zero => intro k1 k2 h1 h2 h3; omega
  | succ n ih =>
    intro k1 k2 h1 h2 h3 c1 c2
    simp only [coverCount]
    by_cases hk : k2 = lo + n
    · subst hk
      have := coverCount_pos a x lo n k1 h1 h2 c1.1 c1.2
      rw [if_pos c2]
      omega
    · have := ih k1 k2 h1 h2 (by omega) c1 c2
      omega

/-! ## The effect of release -/

/-- In a consistent pool no earlier pair of `alloc_list` has the start field of a live
entry. -/
theorem Consistent.first_match {b s : Nat} {p : VMPool} (h : Consistent b s p)
    (hp : PoolInv p) (j : Nat) (hj : j < 512) (hl : lenAt p.alloc_list j ≠ 0) :
    ∀ k, k < j → startAt p.alloc_list k ≠ startAt p.alloc_list j := by
  intro k hk heq
  obtain ⟨n0, _, hlive, h0, hz⟩ := hp.1.live_entries
  have hjn : j < n0 := by
    by_contra hc
    by_cases c : j = n0
    · rw [c] at hl; exact hl h0
    · exact hl (hz j (by omega) hj).2
  have hkl : lenAt p.alloc_list k ≠ 0 := hlive k (by omega)
  have hP : PAGE_SIZE = 4096 := rfl
  by_cases hj2 : 2 ≤ j
  · have aj := h.astart j hj2 hj
    by_cases hk2 : 2 ≤ k
    · have hc := h.cover (startAt p.alloc_list j)
      have h2 := coverCount_two p.alloc_list (startAt p.alloc_list j) 2 510 k j hk2 hk
        (by omega) (by rw [heq]; omega) (by omega)
      split_ifs at hc <;> omega
    · have : k = 0 ∨ k = 1 := by omega
      rcases this with rfl | rfl
      · have := h.meta0.1; omega
      · have := h.meta1.1; omega
  · have hj1 : j = 1 := by omega
    have hk0 : k = 0 := by omega
    subst hj1; subst hk0
    have m0 := h.meta0.1
    have m1 := h.meta1.1
    omega

theorem release_effect_of_inv {b s : Nat} {p : VMPool} {pools : List VMPool}
    (h : Consistent b s p) (hp : PoolInv p) (hal : Aligned p) (h2 : 2 * PAGE_SIZE ≤ s)
    (hbs : b + s < ULONG) (hmem : p ∈ pools) (j : Nat) (hj : j < 512)
    (hl : lenAt p.alloc_list j ≠ 0) (hfull : liveCount p.free_list 512 < 511) :
    ReleaseEffect pools p j := by
  have hP : PAGE_SIZE = 4096 := rfl
  have hU : ULONG = 4294967296 := rfl
  obtain ⟨m, hm, hlive, h0, hz⟩ := hp.2.live_entries
  have hz' : ∀ k, m ≤ k → k < 512 → lenAt p.free_list k = 0 := by
    intro k h1 h2
    by_cases c : k = m
    · rw [c]; exact h0
    · exact (hz k (by omega) h2).2
  have hcount := liveCount_eq_min p.free_list m hlive hz' 512 (Nat.le_refl _)
  have hm510 : m < 511 := by omega
  have hbound : startAt p.alloc_list j + lenAt p.alloc_list j < ULONG := by
    by_cases hj2 : 2 ≤ j
    · have := h.alloc_bounds j hj2 hj hl
      omega
    · have : j = 0 ∨ j = 1 := by omega
      rcases this with rfl | rfl
      · have := h.meta0; omega
      · have := h.meta1; omega
  have haj := (hal j hj).1
  have hfree := freeLoop_of_mem hmem j _ _ hj rfl rfl haj.1 haj.2 hbound
  have hsome := (release_some pools p (startAt p.alloc_list j) _ _).2
    ⟨j, m, hj, h.first_match hp j hj hl, rfl, haj.1, haj.2, hfree, hm510, hlive, h0, rfl⟩
  refine ⟨_, m, hsome, ?_, by omega, hlive, h0, ?_, ?_, ?_⟩
  · intro k hk
    show startAt (erasePair _ _) k = _ ∧ lenAt (erasePair _ _) k = _
    rw [startAt_erasePair _ _ _ hk, lenAt_erasePair _ _ _ hk]
    exact ⟨rfl, rfl⟩
  · show startAt (writePair _ _ _ _) m = _
    rw [startAt_writePair, if_pos rfl]
  · show lenAt (writePair _ _ _ _) m = _
    rw [lenAt_writePair, if_pos rfl]
  · intro k hk
    show startAt (writePair _ _ _ _) k = _ ∧ lenAt (writePair _ _ _ _) k = _
    rw [startAt_writePair, lenAt_writePair, if_neg (by omega), if_neg (by omega)]
    exact ⟨rfl, rfl⟩

/-! ## Fragmenting the free list -/

theorem singles_succ (i : Nat) : singles (i + 1) = singles i ++ [(1073750016 + i * 4096, 4096)] := by
  simp only [singles, List.range_succ, List.map_append, List.map_cons, List.map_nil]

theorem singles_length (i : Nat) : (singles i).length = i := by
  simp only [singles, List.length_map, List.length_range]

theorem singles_live (i : Nat) : ∀ e ∈ singles i, e.2 ≠ 0 := by
  intro e he
  simp only [singles, List.mem_map] at he
  obtain ⟨t, _, rfl⟩ := he
  show (4096 : Nat) ≠ 0
  omega

theorem pool0_rep :
    Rep pool0.alloc_list [(1073741824, 4096), (1073741824 + 4096, 4096)] ∧
      Rep pool0.free_list [(1073741824 + 8192, 16777216 - 8192)] :=
  construct_rep 1 0x40000000 0x01000000 none (fun _ => 0) (fun _ => 0)
    (by decide) (by decide) (by decide) (by decide)

/-- After `i` rounds of `allocate(PAGE_SIZE)` followed by `release` of the result, the free list
of the scenario pool holds `i + 1` live entries. -/
theorem pool0_fragmented : ∀ i, i ≤ 510 → ∃ tr q, Run pool0 tr q ∧
    Rep q.alloc_list [(1073741824, 4096), (1073741824 + 4096, 4096)] ∧
    Rep q.free_list ((1073750016 + i * 4096, 16769024 - i * 4096) :: singles i) := by
  intro i
  induction i with
  | zero =>
    intro _
    exact ⟨[], pool0, Run.init, pool0_rep.1, pool0_rep.2⟩
  | succ i ih =>
    intro hi
    obtain ⟨tr, q, hrun, hA, hF⟩ := ih (by omega)
    have r1 : roundUp 4096 = 4096 := by decide
    obtain ⟨p1, e1, hA1, hF1⟩ := rep_allocate_head 4096 4096 hA hF
      (by
        intro e he
        simp only [List.mem_cons, List.mem_singleton, List.not_mem_nil, or_false] at he
        rcases he with rfl | rfl <;> (show (4096 : Nat) ≠ 0; omega))
      (by simp) (by rw [singles_length]; omega) r1 (by omega)
      (by show 16769024 - i * 4096 < 4294967296; omega)
      (by show 1073750016 + i * 4096 + (16769024 - i * 4096) ≤ 4294967296; omega)
    have hrun1 := Run.allocate hrun (by decide) e1
    simp only [List.cons_append, List.nil_append] at hA1
    obtain ⟨p2, e2, hA2, hF2⟩ := rep_release_entry 2 (1073750016 + i * 4096) 4096
      (show p1 ∈ [p1] from List.mem_singleton.2 rfl) hA1 hF1
      (by
        intro e he
        rcases List.mem_cons.1 he with rfl | h'
        · show 16769024 - i * 4096 - 4096 ≠ 0; omega
        · exact singles_live i e h')
      (by simp only [List.length_cons, singles_length]; omega)
      (by simp) (by omega)
      (by simp only [entry, List.getElem?_cons_succ, List.getElem?_cons_zero, Option.getD_some])
      (by
        intro k hk
        have : k = 0 ∨ k = 1 := by omega
        rcases this with rfl | rfl <;>
          simp only [entry, List.getElem?_cons_succ, List.getElem?_cons_zero,
            Option.getD_some] <;> omega)
      (by show (1073750016 + i * 4096) % 4096 = 0; omega)
      (by decide)
      (by show 1073750016 + i * 4096 + 4096 < 4294967296; omega)
    have hrun2 := Run.release hrun1 ⟨4096, List.mem_cons_self _ _⟩ e2
    simp only [List.eraseIdx_cons_succ, List.eraseIdx_cons_zero, List.cons_append] at hA2 hF2
    refine ⟨_, p2, hrun2, hA2, ?_⟩
    rw [singles_succ]
    have e3 : 1073750016 + (i + 1) * 4096 = 1073750016 + i * 4096 + 4096 := by omega
    have e4 : 16769024 - (i + 1) * 4096 = 16769024 - i * 4096 - 4096 := by omega
    rw [e3, e4]
    exact hF2

/-! ## A full free list and a pool ending at the top of the address space -/

theorem Rep.liveCount {a : Nat → Nat} {l : List (Nat × Nat)} (h : Rep a l)
    (hlive : ∀ e ∈ l, e.2 ≠ 0) (hlen : l.length ≤ 512) : liveCount a 512 = l.length := by
  have h1 : ∀ k, k < l.length → lenAt a k ≠ 0 := by
    intro k hk
    rw [(h k (by omega)).2]
    exact alive_of_forall l hlive k hk
  have h2 : ∀ k, l.length ≤ k → k < 512 → lenAt a k = 0 := by
    intro k hk1 hk2
    exact (h.len_zero k hk2 hk1).2
  rw [liveCount_eq_min a l.length h1 h2 512 (Nat.le_refl _)]
  omega

/-- After 510 rounds of `allocate(PAGE_SIZE)` and `release`, and one more `allocate(PAGE_SIZE)`,
the free list of the scenario pool holds 511 live entries and `release` of the outstanding
region aborts whatever pools are registered. -/
theorem pool0_full_free_list : ∃ tr p, Run pool0 tr p ∧ lenAt p.alloc_list 2 ≠ 0 ∧
    ∀ pools, p.release pools (startAt p.alloc_list 2) = none := by
  obtain ⟨tr, q, hrun, hA, hF⟩ := pool0_fragmented 510 (Nat.le_refl _)
  have r1 : roundUp 4096 = 4096 := by decide
  obtain ⟨p1, e1, hA1, hF1⟩ := rep_allocate_head 4096 4096 hA hF
    (by
      intro e he
      simp only [List.mem_cons, List.mem_singleton, List.not_mem_nil, or_false] at he
      rcases he with rfl | rfl <;> (show (4096 : Nat) ≠ 0; omega))
    (by simp) (by rw [singles_length]) r1 (by omega)
    (by show 16769024 - 510 * 4096 < 4294967296; omega)
    (by show 1073750016 + 510 * 4096 + (16769024 - 510 * 4096) ≤ 4294967296; omega)
  simp only [List.cons_append, List.nil_append] at hA1
  have h2 := hA1 2 (by omega)
  simp only [entry, List.getElem?_cons_succ, List.getElem?_cons_zero, Option.getD_some] at h2
  refine ⟨_, p1, Run.allocate hrun (by decide) e1, by rw [h2.2]; omega, ?_⟩
  intro pools
  cases hrel : p1.release pools (startAt p1.alloc_list 2) with
  | none => rfl
  | some r =>
    obtain ⟨p', pages⟩ := r
    obtain ⟨j, m, _, _, _, _, _, _, hm, _, hempty, _⟩ :=
      (release_some pools p1 _ p' pages).1 hrel
    have hlive : ∀ e ∈ ((1073750016 + 510 * 4096 + 4096, 16769024 - 510 * 4096 - 4096) ::
        singles 510), e.2 ≠ 0 := by
      intro e he
      rcases List.mem_cons.1 he with rfl | h'
      · show 16769024 - 510 * 4096 - 4096 ≠ 0; omega
      · exact singles_live 510 e h'
    have := alive_of_forall _ hlive m (by simp only [List.length_cons, singles_length]; omega)
    rw [← (hF1 m (by omega)).2] at this
    exact absurd hempty this

theorem topPool_rep :
    Rep topPool.alloc_list [(4278190080, 4096), (4278190080 + 4096, 4096)] ∧
      Rep topPool.free_list [(4278190080 + 8192, 16777216 - 8192)] :=
  construct_rep 1 0xFF000000 0x01000000 none (fun _ => 0) (fun _ => 0)
    (by decide) (by decide) (by decide) (by decide)

/-- When the pool ends at `2^32`, `release` of the region that ends there returns without a
single `free_page` call: the loop bound `start + length` wraps to 0. -/
theorem topPool_release_no_pages : ∃ tr p, Run topPool tr p ∧ lenAt p.alloc_list 2 = 16769024 ∧
    startAt p.alloc_list 2 = 4278198272 ∧
    ∃ p', p.release [p] (startAt p.alloc_list 2) = some (p', []) := by
  obtain ⟨hA, hF⟩ := topPool_rep
  have r1 : roundUp 16769024 = 16769024 := by decide
  obtain ⟨p1, e1, hA1, hF1, -, -⟩ := rep_allocate 16769024 0 hA hF
    (alive_of_forall _ (by
      intro e he
      simp only [List.mem_cons, List.mem_singleton, List.not_mem_nil, or_false] at he
      rcases he with rfl | rfl <;> (show (4096 : Nat) ≠ 0; omega)))
    (by simp) (by simp) (by omega) (by intro k hk; omega)
    (by simp only [entry, List.getElem?_cons_zero, Option.getD_some, r1]; omega)
    (by
      simp only [entry, List.getElem?_cons_zero, Option.getD_some]
      show 16777216 - 8192 < 4294967296; omega)
    (by
      simp only [entry, List.getElem?_cons_zero, Option.getD_some]
      show 4278190080 + 8192 + (16777216 - 8192) ≤ 4294967296; omega)
  simp only [entry, List.getElem?_cons_zero, Option.getD_some, r1, List.cons_append,
    List.nil_append] at e1 hA1 hF1
  rw [if_neg (by omega)] at hF1
  simp only [List.eraseIdx_cons_zero] at hF1
  have h2 := hA1 2 (by omega)
  simp only [entry, List.getElem?_cons_succ, List.getElem?_cons_zero, Option.getD_some] at h2
  have hst : startAt p1.alloc_list 2 = 4278198272 := by rw [h2.1]
  have hln : lenAt p1.alloc_list 2 = 16769024 := h2.2
  have hw : uadd 4278198272 16769024 = 0 := by decide
  obtain ⟨p2, e2, -, -, -, -⟩ := rep_release [p1] 4278198272 2 [] hA1 hF1
    (by intro k hk; simp at hk) (by simp) (by simp) (by omega)
    (by
      intro k hk
      have : k = 0 ∨ k = 1 := by omega
      rcases this with rfl | rfl <;>
        simp only [entry, List.getElem?_cons_succ, List.getElem?_cons_zero,
          Option.getD_some] <;> omega)
    (by simp only [entry, List.getElem?_cons_succ, List.getElem?_cons_zero, Option.getD_some])
    (by
      simp only [entry, List.getElem?_cons_succ, List.getElem?_cons_zero, Option.getD_some]
      decide)
    (by
      simp only [entry, List.getElem?_cons_succ, List.getElem?_cons_zero, Option.getD_some]
      decide)
    (by
      simp only [entry, List.getElem?_cons_succ, List.getElem?_cons_zero, Option.getD_some]
      show freeLoop [p1] (uadd 4278198272 16769024) (ULONG / PAGE_SIZE + 1) 4278198272 = some []
      rw [hw]
      exact freeLoop_stop _ _ _ _ (by omega))
  refine ⟨_, p1, Run.allocate Run.init (by decide) e1, hln, hst, p2, ?_⟩
  rw [hst]
  exact e2

theorem pool0_after_rep (n : Nat) (h : roundUp n < 16769024) :
    Rep (pool0_after n).alloc_list
        [(1073741824, 4096), (1073741824 + 4096, 4096), (1073750016, roundUp n)] ∧
      Rep (pool0_after n).free_list [(1073750016 + roundUp n, 16769024 - roundUp n)] := by
  obtain ⟨hA, hF⟩ := pool0_rep
  obtain ⟨p1, e1, hA1, hF1⟩ := rep_allocate_head n (roundUp n) hA hF
    (by
      intro e he
      simp only [List.mem_cons, List.mem_singleton, List.not_mem_nil, or_false] at he
      rcases he with rfl | rfl <;> (show (4096 : Nat) ≠ 0; omega))
    (by simp) (by simp) rfl (by omega)
    (by show 16777216 - 8192 < 4294967296; omega)
    (by show 1073741824 + 8192 + (16777216 - 8192) ≤ 4294967296; omega)
  have e0 := pool0_allocate n (by omega)
  rw [e0] at e1
  obtain ⟨rfl, _⟩ := Prod.mk.inj (Option.some.inj e1)
  simp only [List.cons_append, List.nil_append] at hA1
  exact ⟨hA1, hF1⟩

/-! ## Release inverted, and the round trip -/

/-- `construct_rep` for every size from two pages on. -/
theorem construct_rep_any (obj b s : Nat) (head : Option Nat) (ma mf : Nat → Nat)
    (hs : s % PAGE_SIZE = 0) (h2 : 2 * PAGE_SIZE ≤ s) (hbs : b + s ≤ ULONG)
    (hb : b + 2 * PAGE_SIZE < ULONG) :
    Rep (VMPool.construct obj b s head ma mf).1.alloc_list [(b, 4096), (b + 4096, 4096)] ∧
    Rep (VMPool.construct obj b s head ma mf).1.free_list [(b + 8192, s - 8192)] := by
  have hs' : s % 4096 = 0 := hs
  have h2' : 2 * 4096 ≤ s := h2
  have hbs' : b + s ≤ 4294967296 := hbs
  have hb' : b + 2 * 4096 < 4294967296 := hb
  have e1 : uadd b PAGE_SIZE = b + 4096 := by
    show (b + 4096) % 4294967296 = b + 4096
    omega
  have e2 : uadd b (2 * PAGE_SIZE) = b + 8192 := by
    show (b + 2 * 4096) % 4294967296 = b + 8192
    omega
  have e3 : usub (roundUp s) (2 * PAGE_SIZE) = s - 8192 := by
    rw [roundUp_aligned s hs]
    show (s + 4294967296 - 2 * 4096) % 4294967296 = s - 8192
    omega
  have hA := construct_rep_alloc obj b s head ma mf
  have hF := construct_rep_free obj b s head ma mf
  rw [e1] at hA
  rw [e2, e3] at hF
  exact ⟨hA, hF⟩

/-- A returning `release(addr)` removes the first entry that starts at `addr` and appends it to
the free list. -/
theorem rep_release_of_some {p p' : VMPool} {A F : List (Nat × Nat)} {pools : List VMPool}
    {addr : Nat} {pages : List Nat} (j : Nat)
    (hA : Rep p.alloc_list A) (hF : Rep p.free_list F)
    (hFlive : ∀ k, k < F.length → (entry F k).2 ≠ 0) (hFlen : F.length ≤ 510)
    (hAlen : A.length ≤ 512) (hj : j < 512)
    (hbefore : ∀ k, k < j → (entry A k).1 ≠ addr) (hst : (entry A j).1 = addr)
    (h : p.release pools addr = some (p', pages)) :
    Rep p'.alloc_list (A.eraseIdx j) ∧ Rep p'.free_list (F ++ [entry A j]) := by
  obtain ⟨j', m, hj', hb', hs', a1, a2, hfree, -⟩ := (release_some pools p addr p' pages).1 h
  have e : j' = j := by
    rcases Nat.lt_trichotomy j' j with c | c | c
    · exact absurd ((hA j' hj').1.symm.trans hs') (hbefore j' c)
    · exact c
    · exact absurd ((hA j hj).1.trans hst) (hb' j c)
  subst e
  rw [(hA j' hj).1] at a1
  rw [(hA j' hj).2] at a2
  rw [(hA j' hj).1, (hA j' hj).2] at hfree
  obtain ⟨p'', e, rA, rF, -⟩ := rep_release pools addr j' pages hA hF hFlive hFlen hAlen hj
    hbefore hst a1 a2 hfree
  rw [h] at e
  obtain ⟨rfl, -⟩ := Prod.mk.inj (Option.some.inj e)
  exact ⟨rA, rF⟩

theorem round_trip_of_rep {p0 : VMPool} {pools : List VMPool} {b L n : Nat}
    (hA : Rep p0.alloc_list [(b, 4096), (b + 4096, 4096)])
    (hF : Rep p0.free_list [(b + 8192, L)]) (hbL : b + 8192 + L ≤ ULONG)
    (hn : n ≤ ULONG - PAGE_SIZE) (p1 : VMPool) (va : Nat) (p2 : VMPool) (pages : List Nat)
    (h1 : p0.allocate n = some (p1, va)) (h2 : p1.release pools va = some (p2, pages)) :
    ∃ p3 va' j, p2.allocate n = some (p3, va') ∧ j < 512 ∧ startAt p3.alloc_list j = va' ∧
      n ≤ lenAt p3.alloc_list j ∧ b + 8192 ≤ va' ∧ va' + lenAt p3.alloc_list j ≤ b + 8192 + L := by
  have hU : ULONG = 4294967296 := rfl
  have hr := roundUp_exact n hn
  have hA0 : ∀ e ∈ [(b, 4096), (b + 4096, 4096)], e.2 ≠ 0 := by
    intro e he
    simp only [List.mem_cons, List.mem_singleton, List.not_mem_nil, or_false] at he
    rcases he with rfl | rfl <;> (show (4096 : Nat) ≠ 0; omega)
  have hrL : roundUp n ≤ L := by
    obtain ⟨i, m, hi, -, hfit, -⟩ := (allocate_some p0 n p1 va).1 h1
    rw [(hF i hi).2] at hfit
    by_cases c : i = 0
    · subst c
      simpa [entry] using hfit
    · rw [entry_of_le _ _ (by simp only [List.length_singleton]; omega)] at hfit
      exact Nat.le_trans hfit (Nat.zero_le _)
  have h00 : entry [(b + 8192, L)] 0 = (b + 8192, L) := by simp [entry]
  obtain ⟨q1, e1, hA1, hF1, -, -⟩ := rep_allocate n 0 hA hF (alive_of_forall _ hA0) (by simp)
    (by simp) (by omega) (by intro k hk; omega) (by rw [h00]; exact hrL)
    (by rw [h00]; show L < ULONG; omega) (by rw [h00]; exact hbL)
  rw [h1, h00] at e1
  obtain ⟨rfl, rfl⟩ := Prod.mk.inj (Option.some.inj e1)
  simp only [h00, List.cons_append, List.nil_append, List.set_cons_zero,
    List.eraseIdx_cons_zero] at hA1 hF1
  have hj2 : entry [(b, 4096), (b + 4096, 4096), (b + 8192, roundUp n)] 2 =
      (b + 8192, roundUp n) := by simp [entry]
  have hbef : ∀ k, k < 2 →
      (entry [(b, 4096), (b + 4096, 4096), (b + 8192, roundUp n)] k).1 ≠ b + 8192 := by
    intro k hk
    have : k = 0 ∨ k = 1 := by omega
    rcases this with rfl | rfl <;>
      simp only [entry, List.getElem?_cons_succ, List.getElem?_cons_zero,
        Option.getD_some] <;> omega
  by_cases c : roundUp n < L
  · rw [if_pos c] at hF1
    obtain ⟨hA2, hF2⟩ := rep_release_of_some 2 hA1 hF1
      (by
        intro k hk
        simp only [List.length_singleton] at hk
        have : k = 0 := by omega
        subst this
        simp only [entry, List.getElem?_cons_zero, Option.getD_some]
        omega)
      (by simp) (by simp) (by omega) hbef (by rw [hj2]) h2
    simp only [hj2, List.eraseIdx_cons_succ, List.eraseIdx_cons_zero, List.cons_append,
      List.nil_append] at hA2 hF2
    by_cases d : roundUp n ≤ L - roundUp n
    · have h0 : entry [(b + 8192 + roundUp n, L - roundUp n), (b + 8192, roundUp n)] 0 =
          (b + 8192 + roundUp n, L - roundUp n) := by simp [entry]
      obtain ⟨p3, e3, hA3, -⟩ := rep_allocate n 0 hA2 hF2 (alive_of_forall _ hA0) (by simp)
        (by simp) (by omega) (by intro k hk; omega) (by rw [h0]; exact d)
        (by rw [h0]; show L - roundUp n < ULONG; omega)
        (by rw [h0]; show b + 8192 + roundUp n + (L - roundUp n) ≤ ULONG; omega)
      rw [h0] at e3 hA3
      simp only [List.cons_append, List.nil_append] at hA3
      have h3 := hA3 2 (by omega)
      simp only [entry, List.getElem?_cons_succ, List.getElem?_cons_zero,
        Option.getD_some] at h3
      refine ⟨p3, _, 2, e3, by omega, h3.1, ?_, by omega, ?_⟩
      · rw [h3.2]; exact hr.1
      · rw [h3.2]; omega
    · have h1' : entry [(b + 8192 + roundUp n, L - roundUp n), (b + 8192, roundUp n)] 1 =
          (b + 8192, roundUp n) := by simp [entry]
      obtain ⟨p3, e3, hA3, -⟩ := rep_allocate n 1 hA2 hF2 (alive_of_forall _ hA0) (by simp)
        (by simp) (by omega)
        (by
          intro k hk
          have : k = 0 := by omega
          subst this
          simp only [entry, List.getElem?_cons_zero, Option.getD_some]
          omega)
        (by rw [h1'])
        (by rw [h1']; show roundUp n < ULONG; omega)
        (by rw [h1']; show b + 8192 + roundUp n ≤ ULONG; omega)
      rw [h1'] at e3 hA3
      simp only [List.cons_append, List.nil_append] at hA3
      have h3 := hA3 2 (by omega)
      simp only [entry, List.getElem?_cons_succ, List.getElem?_cons_zero,
        Option.getD_some] at h3
      refine ⟨p3, _, 2, e3, by omega, h3.1, ?_, by omega, ?_⟩
      · rw [h3.2]; exact hr.1
      · rw [h3.2]; omega
  · rw [if_neg c] at hF1
    have hL : roundUp n = L := by omega
    obtain ⟨hA2, hF2⟩ := rep_release_of_some 2 hA1 hF1
      (by intro k hk; simp at hk) (by simp) (by simp) (by omega) hbef (by rw [hj2]) h2
    simp only [hj2, List.eraseIdx_cons_succ, List.eraseIdx_cons_zero, List.cons_append,
      List.nil_append] at hA2 hF2
    have h0 : entry [(b + 8192, roundUp n)] 0 = (b + 8192, roundUp n) := by simp [entry]
    obtain ⟨p3, e3, hA3, -⟩ := rep_allocate n 0 hA2 hF2 (alive_of_forall _ hA0) (by simp)
      (by simp) (by omega) (by intro k hk; omega) (by rw [h0])
      (by rw [h0]; show roundUp n < ULONG; omega)
      (by rw [h0]; show b + 8192 + roundUp n ≤ ULONG; omega)
    rw [h0] at e3 hA3
    simp only [List.cons_append, List.nil_append] at hA3
    have h3 := hA3 2 (by omega)
    simp only [entry, List.getElem?_cons_succ, List.getElem?_cons_zero,
      Option.getD_some] at h3
    refine ⟨p3, _, 2, e3, by omega, h3.1, ?_, by omega, ?_⟩
    · rw [h3.2]; exact hr.1
    · rw [h3.2]; omega

/-! ## Legitimacy of handed-out regions -/

/-- A region handed out by `allocate(n)` stays recorded in `alloc_list` until it is released. -/
theorem Run.tracks {p0 q : VMPool} {tr : List Event} (h : Run p0 tr q) :
    ∀ later earlier n va, tr = later ++ Event.allocate n va :: earlier →
      Event.release va ∉ later → roundUp n ≠ 0 →
      ∃ j, j < 512 ∧ startAt q.alloc_list j = va ∧ lenAt q.alloc_list j = roundUp n := by
  induction h with
  | init =>
    intro later earlier n va e
    exact absurd e (by simp)
  | @allocate tr' p p' n0 va0 _ _ ha ih =>
    intro later earlier n va e hnot hr
    obtain ⟨i, m, _, _, _, hm, _, hempty, hva, rfl⟩ := (allocate_some p n0 p' va0).1 ha
    cases later with
    | nil =>
      rw [List.nil_append] at e
      obtain ⟨e1, -⟩ := List.cons.inj e
      cases e1
      refine ⟨m, by omega, ?_, ?_⟩
      · show startAt (writePair _ _ _ _) m = _
        rw [startAt_writePair, if_pos rfl, hva]
      · show lenAt (writePair _ _ _ _) m = _
        rw [lenAt_writePair, if_pos rfl]
    | cons x later' =>
      rw [List.cons_append] at e
      obtain ⟨-, e2⟩ := List.cons.inj e
      obtain ⟨j, hj, h1, h2⟩ := ih later' earlier n va e2
        (fun hmem => hnot (List.mem_cons_of_mem _ hmem)) hr
      have hjm : ¬ j = m := by
        intro c
        rw [c, hempty] at h2
        exact hr h2.symm
      refine ⟨j, hj, ?_, ?_⟩
      · show startAt (writePair _ _ _ _) j = _
        rw [startAt_writePair, if_neg hjm, h1]
      · show lenAt (writePair _ _ _ _) j = _
        rw [lenAt_writePair, if_neg hjm, h2]
  | @release tr' p p' pools va0 pages _ _ hrel ih =>
    intro later earlier n va e hnot hr
    obtain ⟨j', m, hj', _, hst, _, _, _, _, _, _, rfl⟩ :=
      (release_some pools p va0 p' pages).1 hrel
    cases later with
    | nil =>
      rw [List.nil_append] at e
      obtain ⟨e1, -⟩ := List.cons.inj e
      cases e1
    | cons x later' =>
      rw [List.cons_append] at e
      obtain ⟨e1, e2⟩ := List.cons.inj e
      subst e1
      obtain ⟨j, hj, h1, h2⟩ := ih later' earlier n va e2
        (fun hmem => hnot (List.mem_cons_of_mem _ hmem)) hr
      have hne : va0 ≠ va := by
        intro c
        exact hnot (by rw [c]; exact List.mem_cons_self _ _)
      have hjj : j ≠ j' := by
        intro c
        rw [c, hst] at h1
        exact hne h1
      by_cases c : j < j'
      · refine ⟨j, hj, ?_, ?_⟩
        · show startAt (erasePair _ _) j = _
          rw [startAt_erasePair _ _ _ hj, if_pos c, h1]
        · show lenAt (erasePair _ _) j = _
          rw [lenAt_erasePair _ _ _ hj, if_pos c, h2]
      · have c1 : ¬ j - 1 < j' := by omega
        have c2 : j - 1 < 511 := by omega
        have c3 : j - 1 + 1 = j := by omega
        refine ⟨j - 1, by omega, ?_, ?_⟩
        · show startAt (erasePair _ _) (j - 1) = _
          rw [startAt_erasePair _ _ _ (by omega), if_neg c1, if_pos c2, c3, h1]
        · show lenAt (erasePair _ _) (j - 1) = _
          rw [lenAt_erasePair _ _ _ (by omega), if_neg c1, if_pos c2, c3, h2]

theorem uadd_le (a b : Nat) : uadd a b ≤ a + b := Nat.mod_le _ _

theorem legit_tracks_of_inv {b s : Nat} {p0 : VMPool} (h0 : Consistent b s p0)
    (i0 : PoolInv p0) (hb0 : 0 < b) (h2 : 2 * PAGE_SIZE ≤ s) (hbs : b + s < ULONG) :
    LegitTracks (ULONG - PAGE_SIZE) b p0 := by
  have hP : PAGE_SIZE = 4096 := rfl
  have hU : ULONG = 4294967296 := rfl
  have e1 : uadd b PAGE_SIZE = b + PAGE_SIZE := uadd_eq (by omega)
  have e2 : uadd (b + PAGE_SIZE) PAGE_SIZE = b + PAGE_SIZE + PAGE_SIZE := uadd_eq (by omega)
  constructor
  · intro later earlier n va q hn0 hn hrun hnot
    obtain ⟨cq, iq, hret⟩ := Run.consistent hb0 (Nat.le_of_lt hbs) h0 i0 hrun
    have hr := roundUp_exact n hn
    have hr0 : roundUp n ≠ 0 := by omega
    obtain ⟨j, hj, h1, hl⟩ := Run.tracks hrun later earlier n va rfl hnot hr0
    have hva := hret n va (List.mem_append_right _ (List.mem_cons_self _ _))
    have hj2 : 2 ≤ j := by
      by_contra hc
      have : j = 0 ∨ j = 1 := by omega
      rcases this with rfl | rfl
      · exact hva.1 (h1.symm.trans cq.meta0.1)
      · exact hva.2 (h1.symm.trans cq.meta1.1)
    have hbd := cq.alloc_bounds j hj2 hj (by rw [hl]; exact hr0)
    rw [h1, hl] at hbd
    constructor
    · intro k hk
      rw [is_legitimate_iff]
      refine Or.inr (Or.inr ⟨j, hj, ?_, ?_⟩)
      · show startAt q.alloc_list j ≤ va + k
        rw [h1]; omega
      · show va + k < uadd (startAt q.alloc_list j) (lenAt q.alloc_list j)
        rw [h1, hl, uadd_eq (by omega)]
        omega
    · intro pools q' pages hrel k hk
      have cq' := consistent_release cq hb0 hva.1 hva.2 hrel
      obtain ⟨j', m, hj', hbefore, hst, _, _, _, hm, _, hempty, hq'⟩ :=
        (release_some pools q va q' pages).1 hrel
      have hjj : j' = j := by
        rcases Nat.lt_trichotomy j' j with c | c | c
        · exact absurd (hst.trans h1.symm)
            (cq.first_match iq j hj (by rw [hl]; exact hr0) j' c)
        · exact c
        · exact absurd h1 (hbefore j c)
      subst hjj
      have hfs : startAt q'.free_list m = va := by
        rw [hq']
        show startAt (writePair _ _ _ _) m = _
        rw [startAt_writePair, if_pos rfl, h1]
      have hfl : lenAt q'.free_list m = roundUp n := by
        rw [hq']
        show lenAt (writePair _ _ _ _) m = _
        rw [lenAt_writePair, if_pos rfl, hl]
      have hfree := coverCount_pos q'.free_list (va + k) 0 512 m (by omega) (by omega)
        (by rw [hfs]; omega) (by rw [hfs, hfl]; omega)
      have hcov := cq'.cover (va + k)
      have hzero : coverCount q'.alloc_list (va + k) 2 510 = 0 := by
        split_ifs at hcov <;> omega
      cases hleg : q'.is_legitimate (va + k) with
      | false => rfl
      | true =>
        exfalso
        rw [is_legitimate_iff, cq'.base, e1, e2] at hleg
        rcases hleg with ⟨_, c⟩ | ⟨_, c⟩ | ⟨k0, hk0, c1, c2⟩
        · omega
        · omega
        · have c1' : startAt q'.alloc_list k0 ≤ va + k := c1
          have c2' : va + k < uadd (startAt q'.alloc_list k0) (lenAt q'.alloc_list k0) := c2
          have c3 := uadd_le (startAt q'.alloc_list k0) (lenAt q'.alloc_list k0)
          by_cases d : 2 ≤ k0
          · have := coverCount_pos q'.alloc_list (va + k) 2 510 k0 d (by omega) c1' (by omega)
            omega
          · have : k0 = 0 ∨ k0 = 1 := by omega
            rcases this with rfl | rfl
            · rw [cq'.meta0.1, cq'.meta0.2, e1] at c2'
              omega
            · rw [cq'.meta1.1, cq'.meta1.2, e2] at c2'
              omega
  · intro tr q a hrun ha1 ha2
    obtain ⟨cq, -, -⟩ := Run.consistent hb0 (Nat.le_of_lt hbs) h0 i0 hrun
    rw [is_legitimate_iff, cq.base, e1, e2]
    by_cases c : a < b + PAGE_SIZE
    · exact Or.inl ⟨ha1, c⟩
    · exact Or.inr (Or.inl ⟨by omega, by omega⟩)

/-! ## The page table -/



theorem umul_eq {a b : Nat} (h : a * b < ULONG) : umul a b = a * b := Nat.mod_eq_of_lt h

theorem identityLoop_spec (fpt : Nat) (hf : fpt + 4096 ≤ ULONG) (fuel : Nat) :
    ∀ (pno : Nat) (mem : Nat → Nat), 1024 ≤ fuel + pno →
      (∀ i, pno ≤ i → i < 1024 →
        identityLoop fpt fuel pno mem (fpt + 4 * i) = (i * 4096) ||| 3) ∧
      (∀ a, (∀ i, pno ≤ i → i < 1024 → a ≠ fpt + 4 * i) →
        identityLoop fpt fuel pno mem a = mem a) := by
  have hf' : fpt + 4096 ≤ 4294967296 := hf
  induction fuel with
  | zero =>
    intro pno mem h
    exact ⟨fun i h1 h2 => by omega, fun a _ => rfl⟩
  | succ n ih =>
    intro pno mem h
    unfold identityLoop
    by_cases hlt : pno < ENTRIES_PER_PAGE
    · have hlt' : pno < 1024 := hlt
      rw [if_pos hlt]
      have e1 : umul 4 pno = 4 * pno := umul_eq (by show 4 * pno < 4294967296; omega)
      have e2 : uadd fpt (4 * pno) = fpt + 4 * pno :=
        uadd_eq (by show fpt + 4 * pno < 4294967296; omega)
      have e3 : umul pno PAGE_SIZE = pno * 4096 :=
        umul_eq (by show pno * 4096 < 4294967296; omega)
      rw [e1, e2, e3]
      obtain ⟨ih1, ih2⟩ := ih (pno + 1) (write mem (fpt + 4 * pno) (pno * 4096 ||| 3)) (by omega)
      constructor
      · intro i h1 h2
        by_cases c : i = pno
        · subst c
          rw [ih2 _ (by intro j hj1 hj2; omega), write_same]
        · exact ih1 i (by omega) h2
      · intro a ha
        rw [ih2 a (fun i h1 h2 => ha i (by omega) h2),
          write_of_ne _ _ (ha pno (Nat.le_refl _) hlt')]
    · have hlt' : ¬ pno < 1024 := hlt
      rw [if_neg hlt]
      exact ⟨fun i h1 h2 => by omega, fun a _ => rfl⟩

theorem directoryLoop_spec (pd f : Nat) (hf : pd + 4096 ≤ ULONG) (fuel : Nat) :
    ∀ (pdno : Nat) (mem : Nat → Nat), 1024 ≤ fuel + pdno →
      (∀ i, pdno ≤ i → i < 1023 → directoryLoop pd f fuel pdno mem (pd + 4 * i) = 2) ∧
      (pdno ≤ 1023 →
        directoryLoop pd f fuel pdno mem (pd + 4 * 1023) = umul f PAGE_SIZE ||| 3) ∧
      (∀ a, (∀ i, pdno ≤ i → i < 1024 → a ≠ pd + 4 * i) →
        directoryLoop pd f fuel pdno mem a = mem a) := by
  have hf' : pd + 4096 ≤ 4294967296 := hf
  induction fuel with
  | zero =>
    intro pdno mem h
    exact ⟨fun i h1 h2 => by omega, fun h1 => by omega, fun a _ => rfl⟩
  | succ n ih =>
    intro pdno mem h
    unfold directoryLoop
    by_cases hlt : pdno < ENTRIES_PER_PAGE
    · have hlt' : pdno < 1024 := hlt
      rw [if_pos hlt]
      have e1 : umul 4 pdno = 4 * pdno := umul_eq (by show 4 * pdno < 4294967296; omega)
      have e2 : uadd pd (4 * pdno) = pd + 4 * pdno :=
        uadd_eq (by show pd + 4 * pdno < 4294967296; omega)
      have e0 : (0 ||| 2 : Nat) = 2 := by decide
      simp only [e1, e2, e0]
      have hE : ENTRIES_PER_PAGE - 1 = 1023 := rfl
      rw [hE]
      by_cases c : pdno = 1023
      · subst c
        rw [if_pos rfl]
        obtain ⟨-, -, ih3⟩ := ih (1023 + 1)
          (write (write mem (pd + 4 * 1023) 2) (pd + 4 * 1023) (umul f PAGE_SIZE ||| 3))
          (by omega)
        refine ⟨fun i h1 h2 => by omega, fun _ => ?_, fun a ha => ?_⟩
        · rw [ih3 _ (by intro j hj1 hj2; omega), write_same]
        · rw [ih3 a (fun i h1 h2 => ha i (by omega) h2),
            write_of_ne _ _ (ha 1023 (Nat.le_refl _) (by omega)),
            write_of_ne _ _ (ha 1023 (Nat.le_refl _) (by omega))]
      · rw [if_neg c]
        obtain ⟨ih1, ih2, ih3⟩ := ih (pdno + 1) (write mem (pd + 4 * pdno) 2) (by omega)
        refine ⟨fun i h1 h2 => ?_, fun _ => ih2 (by omega), fun a ha => ?_⟩
        · by_cases d : i = pdno
          · subst d
            rw [ih3 _ (by intro j hj1 hj2; omega), write_same]
          · exact ih1 i (by omega) h2
        · rw [ih3 a (fun i h1 h2 => ha i (by omega) h2),
            write_of_ne _ _ (ha pdno (Nat.le_refl _) hlt')]
    · have hlt' : ¬ pdno < 1024 := hlt
      rw [if_neg hlt]
      exact ⟨fun i h1 h2 => by omega, fun h1 => by omega, fun a _ => rfl⟩

theorem construct_machine (m : Machine) (pd pt : Nat) (rest : List Nat)
    (hpool : m.process_frames = pd :: pt :: rest) (hpd0 : pd ≠ 0) (hpt0 : pt ≠ 0) :
    PageTable.construct m =
      (Result.ok { m with
          process_frames := rest,
          mem := directoryLoop (umul pd PAGE_SIZE) pd ENTRIES_PER_PAGE 1
            (identityLoop (umul pt PAGE_SIZE) ENTRIES_PER_PAGE 0
              (write m.mem (umul pd PAGE_SIZE) (umul pt PAGE_SIZE ||| 3))) },
        some { page_directory := umul pd PAGE_SIZE, head_pool := none }) := by
  unfold PageTable.construct
  simp only [hpool, get_frames, if_neg hpd0, if_neg hpt0]

theorem construct_post_of_frames (m : Machine) (pd pt : Nat) (rest : List Nat)
    (hpool : m.process_frames = pd :: pt :: rest) (hpd0 : pd ≠ 0) (hpt0 : pt ≠ 0)
    (hpd : pd < 1048576) (hpt : pt < 1048576) (hne : pd ≠ pt) :
    ∃ m', PageTable.construct m =
        (Result.ok m', some { page_directory := pd * PAGE_SIZE, head_pool := none }) ∧
      m'.mem (pd * PAGE_SIZE) = (pt * PAGE_SIZE) ||| 3 ∧
      (∀ i, 1 ≤ i → i ≤ 1022 → m'.mem (pd * PAGE_SIZE + 4 * i) = 2) ∧
      m'.mem (pd * PAGE_SIZE + 4 * 1023) = (pd * PAGE_SIZE) ||| 3 ∧
      (∀ i, i < 1024 → m'.mem (pt * PAGE_SIZE + 4 * i) = (i * PAGE_SIZE) ||| 3) ∧
      m'.process_frames = rest ∧ m'.kernel_frames = m.kernel_frames := by
  have hP : PAGE_SIZE = 4096 := rfl
  have e1 : umul pd PAGE_SIZE = pd * 4096 := umul_eq (by show pd * 4096 < 4294967296; omega)
  have e2 : umul pt PAGE_SIZE = pt * 4096 := umul_eq (by show pt * 4096 < 4294967296; omega)
  have hc := construct_machine m pd pt rest hpool hpd0 hpt0
  rw [e1, e2] at hc
  rw [hP]
  refine ⟨_, hc, ?_, ?_, ?_, ?_, rfl, rfl⟩
  all_goals simp only []
  · obtain ⟨-, -, d3⟩ := directoryLoop_spec (pd * 4096) pd
      (by show pd * 4096 + 4096 ≤ 4294967296; omega) ENTRIES_PER_PAGE 1
      (identityLoop (pt * 4096) ENTRIES_PER_PAGE 0
        (write m.mem (pd * 4096) (pt * 4096 ||| 3))) (by show 1024 ≤ 1024 + 1; omega)
    obtain ⟨-, i2⟩ := identityLoop_spec (pt * 4096)
      (by show pt * 4096 + 4096 ≤ 4294967296; omega) ENTRIES_PER_PAGE 0
      (write m.mem (pd * 4096) (pt * 4096 ||| 3)) (by show 1024 ≤ 1024 + 0; omega)
    rw [d3 _ (by intro i h1 h2; omega), i2 _ (by intro i h1 h2; omega), write_same]
  · intro i h1 h2
    obtain ⟨d1, -, -⟩ := directoryLoop_spec (pd * 4096) pd
      (by show pd * 4096 + 4096 ≤ 4294967296; omega) ENTRIES_PER_PAGE 1
      (identityLoop (pt * 4096) ENTRIES_PER_PAGE 0
        (write m.mem (pd * 4096) (pt * 4096 ||| 3))) (by show 1024 ≤ 1024 + 1; omega)
    exact d1 i h1 (by omega)
  · obtain ⟨-, d2, -⟩ := directoryLoop_spec (pd * 4096) pd
      (by show pd * 4096 + 4096 ≤ 4294967296; omega) ENTRIES_PER_PAGE 1
      (identityLoop (pt * 4096) ENTRIES_PER_PAGE 0
        (write m.mem (pd * 4096) (pt * 4096 ||| 3))) (by show 1024 ≤ 1024 + 1; omega)
    rw [d2 (by omega), e1]
  · intro i hi
    obtain ⟨-, -, d3⟩ := directoryLoop_spec (pd * 4096) pd
      (by show pd * 4096 + 4096 ≤ 4294967296; omega) ENTRIES_PER_PAGE 1
      (identityLoop (pt * 4096) ENTRIES_PER_PAGE 0
        (write m.mem (pd * 4096) (pt * 4096 ||| 3))) (by show 1024 ≤ 1024 + 1; omega)
    obtain ⟨i1, -⟩ := identityLoop_spec (pt * 4096)
      (by show pt * 4096 + 4096 ≤ 4294967296; omega) ENTRIES_PER_PAGE 0
      (write m.mem (pd * 4096) (pt * 4096 ||| 3)) (by show 1024 ≤ 1024 + 0; omega)
    rw [d3 _ (by intro j h1 h2; omega), i1 i (Nat.zero_le _) hi]

theorem shr_eq_div (x n : Nat) : x >>> n = x / 2 ^ n := Nat.shiftRight_eq_div_pow x n

theorem and_1023 (x : Nat) : x &&& 1023 = x % 1024 := Nat.and_pow_two_sub_one_eq_mod x 10

theorem and_4095 (x : Nat) : x &&& 4095 = x % 4096 := Nat.and_pow_two_sub_one_eq_mod x 12

theorem and_frame_mask (x : Nat) (h : x < 4294967296) :
    x &&& 4294963200 = x / 4096 * 4096 := by
  apply Nat.eq_of_testBit_eq
  intro i
  have hM : (4294963200 : Nat) = 2 ^ 12 * (2 ^ 20 - 1) := by norm_num
  have hD : x / 4096 * 4096 = 2 ^ 12 * (x >>> 12) := by
    rw [Nat.shiftRight_eq_div_pow]
    norm_num
    exact Nat.mul_comm _ _
  rw [Nat.testBit_and, hM, hD, Nat.testBit_mul_pow_two, Nat.testBit_mul_pow_two,
    Nat.testBit_two_pow_sub_one, Nat.testBit_shiftRight]
  by_cases c : 12 ≤ i
  · have e : 12 + (i - 12) = i := by omega
    rw [e]
    by_cases d : i < 32
    · have : i - 12 < 20 := by omega
      simp [c, this]
    · have hx : x.testBit i = false :=
        Nat.testBit_lt_two_pow (Nat.lt_of_lt_of_le h
          (by
            have : (4294967296 : Nat) = 2 ^ 32 := by norm_num
            rw [this]
            exact Nat.pow_le_pow_right (by omega) (by omega)))
      simp [hx]
  · simp [c]

theorem and_clear_bit0 (x : Nat) (h : x < 4294967296) :
    x &&& 4294967294 = x / 2 * 2 := by
  apply Nat.eq_of_testBit_eq
  intro i
  have hM : (4294967294 : Nat) = 2 ^ 1 * (2 ^ 31 - 1) := by norm_num
  have hD : x / 2 * 2 = 2 ^ 1 * (x >>> 1) := by
    rw [Nat.shiftRight_eq_div_pow]
    norm_num
    exact Nat.mul_comm _ _
  rw [Nat.testBit_and, hM, hD, Nat.testBit_mul_pow_two, Nat.testBit_mul_pow_two,
    Nat.testBit_two_pow_sub_one, Nat.testBit_shiftRight]
  by_cases c : 1 ≤ i
  · have e : 1 + (i - 1) = i := by omega
    rw [e]
    by_cases d : i < 32
    · have : i - 1 < 31 := by omega
      simp [c, this]
    · have hx : x.testBit i = false :=
        Nat.testBit_lt_two_pow (Nat.lt_of_lt_of_le h
          (by
            have : (4294967296 : Nat) = 2 ^ 32 := by norm_num
            rw [this]
            exact Nat.pow_le_pow_right (by omega) (by omega)))
      simp [hx]
  · simp [c]

/-- `a | b` is `a + b` when `a` is a multiple of `2^12` and `b` is below `2^12`. -/
theorem or_page_low (f b : Nat) (hb : b < 4096) : (f * 4096) ||| b = f * 4096 + b := by
  have := Nat.mul_add_lt_is_or (show b < 2 ^ 12 by norm_num; exact hb) f
  norm_num at this
  rw [Nat.mul_comm] at this
  exact this.symm

theorem or_top_window (b : Nat) (hb : b < 4096) : b ||| 4294963200 = 4294963200 + b := by
  rw [Nat.lor_comm]
  have := or_page_low 1048575 b hb
  norm_num at this
  exact this

theorem or_table_window (b : Nat) (hb : b < 4194304) : b ||| 4290772992 = 4290772992 + b := by
  rw [Nat.lor_comm]
  have := Nat.mul_add_lt_is_or (show b < 2 ^ 22 by norm_num; exact hb) 1023
  norm_num at this
  exact this.symm

theorem and_one_cases (x : Nat) : x &&& 1 = 0 ∨ x &&& 1 = 1 := by
  rw [Nat.and_one_is_mod]
  omega

theorem RecursiveMapped.cr3_mask {m : Machine} (h : RecursiveMapped m) :
    m.cr3 &&& 4294963200 = m.cr3 := by
  obtain ⟨h1, h2, -, -⟩ := h
  have h1' : m.cr3 % 4096 = 0 := h1
  rw [and_frame_mask _ h2]
  omega

/-- Through the recursive window, `0xFFFFF000 + 4 * j` is entry `j` of the directory. -/
theorem translate_directory_window {m : Machine} (h : RecursiveMapped m) (j : Nat)
    (hj : j < 1024) : translate m (4294963200 + 4 * j) = some (m.cr3 + 4 * j) := by
  have hm := h.cr3_mask
  obtain ⟨-, -, h3, h4⟩ := h
  have e1 : (4294963200 + 4 * j) >>> 22 = 1023 := by
    rw [shr_eq_div]
    norm_num
    omega
  have e2 : ((4294963200 + 4 * j) >>> 12) &&& 1023 = 1023 := by
    rw [shr_eq_div, and_1023]
    norm_num
    omega
  have e3 : (4294963200 + 4 * j) &&& 4095 = 4 * j := by
    rw [and_4095]
    omega
  unfold translate
  simp only [hm, e1, e2, e3, h3, h4]
  simp

/-- Through the recursive window, `0xFFC00000 + 4096 * j + 4 * i` is entry `i` of the page
table that the present directory entry `j` references. -/
theorem translate_table_window {m : Machine} (h : RecursiveMapped m) (j i : Nat)
    (hj : j < 1024) (hi : i < 1024) (hp : m.mem (m.cr3 + 4 * j) &&& 1 = 1) :
    translate m (4290772992 + 4096 * j + 4 * i) =
      some ((m.mem (m.cr3 + 4 * j) &&& 4294963200) + 4 * i) := by
  have hm := h.cr3_mask
  obtain ⟨-, -, h3, h4⟩ := h
  have e1 : (4290772992 + 4096 * j + 4 * i) >>> 22 = 1023 := by
    rw [shr_eq_div]
    norm_num
    omega
  have e2 : ((4290772992 + 4096 * j + 4 * i) >>> 12) &&& 1023 = j := by
    rw [shr_eq_div, and_1023]
    norm_num
    omega
  have e3 : (4290772992 + 4096 * j + 4 * i) &&& 4095 = 4 * i := by
    rw [and_4095]
    omega
  unfold translate
  simp only [hm, e1, e2, e3, h3, h4, hp]
  simp

/-- The three window addresses that the handler and `free_page` compute. -/
theorem pde_address (cr2 : Nat) (h : cr2 < 4294967296) :
    ushl (cr2 >>> 22) 2 ||| 4294963200 = 4294963200 + 4 * (cr2 >>> 22) := by
  have hj : cr2 >>> 22 < 1024 := by
    rw [shr_eq_div]
    norm_num
    omega
  have e : ushl (cr2 >>> 22) 2 = 4 * (cr2 >>> 22) := by
    unfold ushl
    rw [Nat.shiftLeft_eq]
    show (cr2 >>> 22) * 2 ^ 2 % 4294967296 = 4 * (cr2 >>> 22)
    norm_num
    omega
  rw [e, or_top_window _ (by omega)]

theorem table_address (cr2 : Nat) (h : cr2 < 4294967296) :
    ushl (cr2 >>> 22) 12 ||| 4290772992 = 4290772992 + 4096 * (cr2 >>> 22) + 4 * 0 := by
  have hj : cr2 >>> 22 < 1024 := by
    rw [shr_eq_div]
    norm_num
    omega
  have e : ushl (cr2 >>> 22) 12 = 4096 * (cr2 >>> 22) := by
    unfold ushl
    rw [Nat.shiftLeft_eq]
    show (cr2 >>> 22) * 2 ^ 12 % 4294967296 = 4096 * (cr2 >>> 22)
    norm_num
    omega
  rw [e, or_table_window _ (by omega)]
  omega

theorem pte_address (cr2 : Nat) (h : cr2 < 4294967296) :
    ushl (cr2 >>> 12) 2 ||| 4290772992 =
      4290772992 + 4096 * (cr2 >>> 22) + 4 * ((cr2 >>> 12) &&& 1023) := by
  have hq : cr2 >>> 12 < 1048576 := by
    rw [shr_eq_div]
    norm_num
    omega
  have e : ushl (cr2 >>> 12) 2 = 4 * (cr2 >>> 12) := by
    unfold ushl
    rw [Nat.shiftLeft_eq]
    show (cr2 >>> 12) * 2 ^ 2 % 4294967296 = 4 * (cr2 >>> 12)
    norm_num
    omega
  rw [e, or_table_window _ (by omega), and_1023]
  have e2 : cr2 >>> 22 = (cr2 >>> 12) / 1024 := by
    rw [shr_eq_div, shr_eq_div]
    norm_num
    omega
  rw [e2]
  omega

theorem index_bounds (cr2 : Nat) (h : cr2 < 4294967296) :
    cr2 >>> 22 < 1024 ∧ (cr2 >>> 12) &&& 1023 < 1024 := by
  constructor
  · rw [shr_eq_div]
    norm_num
    omega
  · rw [and_1023]
    omega

theorem vwrite_of_translate {m : Machine} {p pa : Nat} (v : Nat) (h : translate m p = some pa) :
    vwrite m p v = some { m with mem := write m.mem pa v } := by
  unfold vwrite
  rw [h]
  rfl

theorem vread_of_translate {m : Machine} {p pa : Nat} (h : translate m p = some pa) :
    vread m p = some (m.mem pa) := by
  unfold vread
  rw [h]
  rfl

/-- The recursive mapping depends on the directory page only. -/
theorem RecursiveMapped.of_mem {m : Machine} (h : RecursiveMapped m) (g : Nat → Nat)
    (hg : g (m.cr3 + 4 * 1023) = m.mem (m.cr3 + 4 * 1023)) :
    RecursiveMapped { m with mem := g } := by
  obtain ⟨h1, h2, h3, h4⟩ := h
  refine ⟨h1, h2, ?_, ?_⟩
  · show g (m.cr3 + 4 * 1023) &&& 1 = 1
    rw [hg]; exact h3
  · show g (m.cr3 + 4 * 1023) &&& 0xFFFFF000 = m.cr3
    rw [hg]; exact h4

theorem tableLoop_spec (f : Nat) (hf : f < 1048576) (m0 : Machine) (hrec : RecursiveMapped m0)
    (j : Nat) (hj : j < 1024) (hp : m0.mem (m0.cr3 + 4 * j) &&& 1 = 1)
    (hb : m0.mem (m0.cr3 + 4 * j) &&& 4294963200 = f * 4096) (hne : f * 4096 ≠ m0.cr3)
    (fuel : Nat) :
    ∀ (i p : Nat) (g : Nat → Nat), 1024 ≤ fuel + i →
      (i < 1024 → p = 4290772992 + 4096 * j + 4 * i) →
      (∀ t, t < 1024 → g (m0.cr3 + 4 * t) = m0.mem (m0.cr3 + 4 * t)) →
      ∃ g', tableLoop f fuel i p { m0 with mem := g } = some { m0 with mem := g' } ∧
        (∀ t, i ≤ t → t < 1023 → g' (f * 4096 + 4 * t) = 6) ∧
        (i ≤ 1023 → g' (f * 4096 + 4 * 1023) = (f * 4096) ||| 7) ∧
        (∀ a, (∀ t, i ≤ t → t < 1024 → a ≠ f * 4096 + 4 * t) → g' a = g a) := by
  have hc : m0.cr3 % 4096 = 0 := hrec.1
  have hc2 : m0.cr3 < 4294967296 := hrec.2.1
  have e6 : (2 ||| 4 : Nat) = 6 := by decide
  have e7 : umul f PAGE_SIZE = f * 4096 := umul_eq (by show f * 4096 < 4294967296; omega)
  induction fuel with
  | zero =>
    intro i p g h _ _
    exact ⟨g, rfl, fun t h1 h2 => by omega, fun h1 => by omega, fun a _ => rfl⟩
  | succ n ih =>
    intro i p g h hp' hg
    unfold tableLoop
    by_cases hlt : i < ENTRIES_PER_PAGE
    · have hlt' : i < 1024 := hlt
      rw [if_pos hlt, hp' hlt']
      have hrec1 : RecursiveMapped { m0 with mem := g } :=
        hrec.of_mem g (hg 1023 (by omega))
      have ht := translate_table_window hrec1 j i hj hlt'
        (by show g (m0.cr3 + 4 * j) &&& 1 = 1; rw [hg j hj]; exact hp)
      have hbase : g (m0.cr3 + 4 * j) &&& 4294963200 = f * 4096 := by rw [hg j hj]; exact hb
      simp only [hbase] at ht
      rw [vwrite_of_translate _ ht]
      simp only [e6]
      have hg1 : ∀ t, t < 1024 →
          write g (f * 4096 + 4 * i) 6 (m0.cr3 + 4 * t) = m0.mem (m0.cr3 + 4 * t) := by
        intro t ht'
        rw [write_of_ne _ _ (by omega), hg t ht']
      have hE : ENTRIES_PER_PAGE - 1 = 1023 := rfl
      rw [hE]
      by_cases c : i = 1023
      · subst c
        rw [if_pos rfl]
        have hrec2 : RecursiveMapped { m0 with mem := write g (f * 4096 + 4 * 1023) 6 } :=
          hrec.of_mem _ (hg1 1023 (by omega))
        have ht2 := translate_table_window hrec2 j 1023 hj (by omega)
          (by
            show write g (f * 4096 + 4 * 1023) 6 (m0.cr3 + 4 * j) &&& 1 = 1
            rw [hg1 j hj]; exact hp)
        have hbase2 : write g (f * 4096 + 4 * 1023) 6 (m0.cr3 + 4 * j) &&& 4294963200 =
            f * 4096 := by rw [hg1 j hj]; exact hb
        simp only [hbase2] at ht2
        rw [vwrite_of_translate _ ht2, e7]
        simp only []
        obtain ⟨g', hl, -, -, h3⟩ := ih (1023 + 1) (uadd (4290772992 + 4096 * j + 4 * 1023) 4)
          (write (write g (f * 4096 + 4 * 1023) 6) (f * 4096 + 4 * 1023) (f * 4096 ||| 7))
          (by omega) (by intro hh; omega)
          (by
            intro t ht'
            rw [write_of_ne _ _ (by omega), hg1 t ht'])
        refine ⟨g', hl, fun t h1 h2 => by omega, fun _ => ?_, fun a ha => ?_⟩
        · rw [h3 _ (by intro t h1 h2; omega), write_same]
        · rw [h3 a (fun t h1 h2 => ha t (by omega) h2),
            write_of_ne _ _ (ha 1023 (Nat.le_refl _) (by omega)),
            write_of_ne _ _ (ha 1023 (Nat.le_refl _) (by omega))]
      · rw [if_neg c]
        simp only []
        have hu : uadd (4290772992 + 4096 * j + 4 * i) 4 =
            4290772992 + 4096 * j + 4 * (i + 1) := by
          rw [uadd_eq (by show 4290772992 + 4096 * j + 4 * i + 4 < 4294967296; omega)]
          omega
        obtain ⟨g', hl, h1, h2, h3⟩ := ih (i + 1) (uadd (4290772992 + 4096 * j + 4 * i) 4)
          (write g (f * 4096 + 4 * i) 6) (by omega) (fun _ => hu) hg1
        refine ⟨g', hl, fun t ht1 ht2 => ?_, fun _ => h2 (by omega), fun a ha => ?_⟩
        · by_cases d : t = i
          · subst d
            rw [h3 _ (by intro s hs1 hs2; omega), write_same]
          · exact h1 t (by omega) ht2
        · rw [h3 a (fun t h1 h2 => ha t (by omega) h2),
            write_of_ne _ _ (ha i (Nat.le_refl _) hlt')]
    · have hlt' : ¬ i < 1024 := hlt
      rw [if_neg hlt]
      exact ⟨g, rfl, fun t h1 h2 => by omega, fun h1 => by omega, fun a _ => rfl⟩

theorem entry_present (f : Nat) (hf : f < 1048576) :
    (f * 4096 ||| 7) &&& 1 = 1 ∧ (f * 4096 ||| 7) &&& 4294963200 = f * 4096 := by
  rw [or_page_low f 7 (by omega), Nat.and_one_is_mod,
    and_frame_mask _ (by show f * 4096 + 7 < 4294967296; omega)]
  omega

theorem handle_fault_present (m : Machine) (err_code : Nat) (herr : err_code &&& 1 = 0)
    (hrec : RecursiveMapped m) (hcr2 : m.cr2 < ULONG)
    (hp : m.mem (m.cr3 + 4 * (m.cr2 >>> 22)) &&& 1 = 1) (f : Nat) (rest : List Nat)
    (hpool : m.process_frames = f :: rest) (hf0 : f ≠ 0) (hf : f < 1048576) :
    PageTable.handle_fault m err_code =
      Result.ok { m with
        process_frames := rest,
        mem := write m.mem
          ((m.mem (m.cr3 + 4 * (m.cr2 >>> 22)) &&& 0xFFFFF000) +
            4 * ((m.cr2 >>> 12) &&& 0x3FF))
          ((f * PAGE_SIZE) ||| 7) } := by
  obtain ⟨hj, hk⟩ := index_bounds m.cr2 hcr2
  have e7 : umul f PAGE_SIZE = f * 4096 := umul_eq (by show f * 4096 < 4294967296; omega)
  have hinst : PageTable.install_table m (ushl (m.cr2 >>> 22) 2 ||| 0xFFFFF000) =
      Result.ok m := by
    unfold PageTable.install_table
    rw [pde_address m.cr2 hcr2,
      vread_of_translate (translate_directory_window hrec _ hj)]
    simp only [hp]
    simp
  unfold PageTable.handle_fault
  rw [if_neg (by rw [herr]; simp)]
  simp only [hinst, hpool, get_frames, if_neg hf0]
  rw [pte_address m.cr2 hcr2]
  have hrec1 : RecursiveMapped { m with process_frames := rest } := hrec
  rw [vwrite_of_translate _ (translate_table_window hrec1 _ _ hj hk hp), e7]
  rfl

theorem handle_fault_absent (m : Machine) (err_code : Nat) (herr : err_code &&& 1 = 0)
    (hrec : RecursiveMapped m) (hcr2 : m.cr2 < ULONG)
    (hp : m.mem (m.cr3 + 4 * (m.cr2 >>> 22)) &&& 1 = 0) (f1 f2 : Nat) (rest : List Nat)
    (hpool : m.process_frames = f1 :: f2 :: rest) (hf10 : f1 ≠ 0) (hf1 : f1 < 1048576)
    (hne : f1 * PAGE_SIZE ≠ m.cr3) (hf20 : f2 ≠ 0) (hf2 : f2 < 1048576) :
    ∃ g, PageTable.handle_fault m err_code =
        Result.ok { m with process_frames := rest, mem := g } ∧
      g (m.cr3 + 4 * (m.cr2 >>> 22)) = (f1 * PAGE_SIZE) ||| 7 ∧
      g (f1 * PAGE_SIZE + 4 * ((m.cr2 >>> 12) &&& 0x3FF)) = (f2 * PAGE_SIZE) ||| 7 ∧
      ((m.cr2 >>> 12) &&& 0x3FF ≠ 1023 →
        g (f1 * PAGE_SIZE + 4 * 1023) = (f1 * PAGE_SIZE) ||| 7) ∧
      (∀ i, i < 1024 → i ≠ (m.cr2 >>> 12) &&& 0x3FF → i ≠ 1023 →
        g (f1 * PAGE_SIZE + 4 * i) = 6) ∧
      (∀ a, a ≠ m.cr3 + 4 * (m.cr2 >>> 22) → (∀ t, t < 1024 → a ≠ f1 * PAGE_SIZE + 4 * t) →
        g a = m.mem a) := by
  obtain ⟨hj, hk⟩ := index_bounds m.cr2 hcr2
  have hP : PAGE_SIZE = 4096 := rfl
  have hne' : f1 * 4096 ≠ m.cr3 := hne
  have hc : m.cr3 % 4096 = 0 := hrec.1
  have hc2 : m.cr3 < 4294967296 := hrec.2.1
  have e71 : umul f1 PAGE_SIZE = f1 * 4096 := umul_eq (by show f1 * 4096 < 4294967296; omega)
  have e72 : umul f2 PAGE_SIZE = f2 * 4096 := umul_eq (by show f2 * 4096 < 4294967296; omega)
  have hj1023 : m.cr2 >>> 22 ≠ 1023 := by
    intro c
    rw [c, hrec.2.2.1] at hp
    exact absurd hp (by decide)
  obtain ⟨p1, p2⟩ := entry_present f1 hf1
  -- the machine after the frame is taken and the directory entry is stored
  have hrec2 : RecursiveMapped
      { m with process_frames := f2 :: rest,
               mem := write m.mem (m.cr3 + 4 * (m.cr2 >>> 22)) (f1 * 4096 ||| 7) } :=
    RecursiveMapped.of_mem (m := { m with process_frames := f2 :: rest }) hrec _
      (write_of_ne _ _
        (by show m.cr3 + 4 * 1023 ≠ m.cr3 + 4 * (m.cr2 >>> 22); omega))
  obtain ⟨g', hl, t1, t2, t3⟩ := tableLoop_spec f1 hf1 _ hrec2 (m.cr2 >>> 22) hj
    (by
      show write m.mem (m.cr3 + 4 * (m.cr2 >>> 22)) (f1 * 4096 ||| 7)
        (m.cr3 + 4 * (m.cr2 >>> 22)) &&& 1 = 1
      rw [write_same]; exact p1)
    (by
      show write m.mem (m.cr3 + 4 * (m.cr2 >>> 22)) (f1 * 4096 ||| 7)
        (m.cr3 + 4 * (m.cr2 >>> 22)) &&& 4294963200 = f1 * 4096
      rw [write_same]; exact p2)
    hne' ENTRIES_PER_PAGE 0 (4290772992 + 4096 * (m.cr2 >>> 22) + 4 * 0)
    (write m.mem (m.cr3 + 4 * (m.cr2 >>> 22)) (f1 * 4096 ||| 7))
    (by show 1024 ≤ 1024 + 0; omega) (fun _ => rfl) (fun t _ => rfl)
  have hdir : ∀ t, t < 1024 → g' (m.cr3 + 4 * t) =
      write m.mem (m.cr3 + 4 * (m.cr2 >>> 22)) (f1 * 4096 ||| 7) (m.cr3 + 4 * t) := by
    intro t ht
    exact t3 _ (by intro s hs1 hs2; omega)
  have hinst : PageTable.install_table m (ushl (m.cr2 >>> 22) 2 ||| 0xFFFFF000) =
      Result.ok { m with process_frames := f2 :: rest, mem := g' } := by
    unfold PageTable.install_table
    rw [pde_address m.cr2 hcr2,
      vread_of_translate (translate_directory_window hrec _ hj)]
    simp only [hp, hpool, get_frames, if_neg hf10, if_true]
    have hrec1 : RecursiveMapped { m with process_frames := f2 :: rest } := hrec
    rw [vwrite_of_translate _ (translate_directory_window hrec1 _ hj), e71]
    simp only []
    rw [table_address m.cr2 hcr2]
    erw [hl]
  have hrec3 : RecursiveMapped { m with process_frames := rest, mem := g' } :=
    RecursiveMapped.of_mem (m := { m with process_frames := rest }) hrec _
      (by
        show g' (m.cr3 + 4 * 1023) = m.mem (m.cr3 + 4 * 1023)
        rw [hdir 1023 (by omega), write_of_ne _ _ (by omega)])
  have hpde3 : g' (m.cr3 + 4 * (m.cr2 >>> 22)) = f1 * 4096 ||| 7 := by
    rw [hdir _ hj, write_same]
  have ht := translate_table_window hrec3 _ _ hj hk
    (by show g' (m.cr3 + 4 * (m.cr2 >>> 22)) &&& 1 = 1; rw [hpde3]; exact p1)
  have hbase : g' (m.cr3 + 4 * (m.cr2 >>> 22)) &&& 4294963200 = f1 * 4096 := by
    rw [hpde3]; exact p2
  simp only [hbase] at ht
  refine ⟨write g' (f1 * 4096 + 4 * ((m.cr2 >>> 12) &&& 1023)) (f2 * 4096 ||| 7),
    ?_, ?_, ?_, ?_, ?_, ?_⟩
  · unfold PageTable.handle_fault
    rw [if_neg (by rw [herr]; simp)]
    simp only [hinst, get_frames, if_neg hf20]
    rw [pte_address m.cr2 hcr2, vwrite_of_translate _ ht, e72]
  · rw [hP, write_of_ne _ _ (by omega), hpde3]
  · rw [hP, write_same]
  · intro hk'
    rw [hP, write_of_ne _ _ (by omega), t2 (by omega)]
  · intro i hi hik hi2
    rw [hP, write_of_ne _ _ (by omega), t1 i (Nat.zero_le _) (by omega)]
  · intro a ha1 ha2
    rw [hP] at ha2
    rw [write_of_ne _ _ (ha2 _ hk), t3 a (fun t _ ht' => ha2 t ht'), write_of_ne _ _ ha1]

theorem clear_bit0_testBit (v : Nat) (h : v < 4294967296) (i : Nat) :
    (v &&& 4294967294).testBit i = (decide (i ≠ 0) && v.testBit i) := by
  have hM : (4294967294 : Nat) = 2 ^ 1 * (2 ^ 31 - 1) := by norm_num
  rw [Nat.testBit_and, hM, Nat.testBit_mul_pow_two, Nat.testBit_two_pow_sub_one]
  by_cases c : 1 ≤ i
  · by_cases d : i < 32
    · have : i - 1 < 31 := by omega
      have c' : i ≠ 0 := by omega
      simp [c, this, c']
    · have hx : v.testBit i = false :=
        Nat.testBit_lt_two_pow (Nat.lt_of_lt_of_le h
          (by
            have : (4294967296 : Nat) = 2 ^ 32 := by norm_num
            rw [this]
            exact Nat.pow_le_pow_right (by omega) (by omega)))
      simp [hx]
  · have : i = 0 := by omega
    subst this
    simp

theorem free_page_address (n : Nat) (hn : n < 1048576) :
    ushl (umul n PAGE_SIZE >>> 12) 2 ||| 4290772992 =
      4290772992 + 4096 * (n / 1024) + 4 * (n % 1024) := by
  have e : umul n PAGE_SIZE = n * 4096 := umul_eq (by show n * 4096 < 4294967296; omega)
  have h1 := pte_address (n * 4096) (by omega)
  have e1 : (n * 4096) >>> 12 = n := by
    rw [shr_eq_div]
    norm_num
  have e2 : (n * 4096) >>> 22 = n / 1024 := by
    rw [shr_eq_div]
    norm_num
    omega
  rw [e1, e2, and_1023] at h1
  rw [e, e1]
  exact h1

theorem free_page_present (pt : PageTable) (pools : List VMPool) (m : Machine) (n : Nat)
    (hn : n < 1048576) (hcheck : free_page_check pools n = true) (hrec : RecursiveMapped m)
    (hpde : m.mem (m.cr3 + 4 * (n / 1024)) &&& 1 = 1)
    (hpte : m.mem ((m.mem (m.cr3 + 4 * (n / 1024)) &&& 0xFFFFF000) + 4 * (n % 1024)) &&& 1
      = 1) :
    PageTable.free_page pt pools m n =
      Result.ok (pt.load { m with
        released := m.released ++
          [m.mem ((m.mem (m.cr3 + 4 * (n / 1024)) &&& 0xFFFFF000) + 4 * (n % 1024))
            / PAGE_SIZE],
        mem := write m.mem ((m.mem (m.cr3 + 4 * (n / 1024)) &&& 0xFFFFF000) + 4 * (n % 1024))
          (m.mem ((m.mem (m.cr3 + 4 * (n / 1024)) &&& 0xFFFFF000) + 4 * (n % 1024))
            &&& 0xFFFFFFFE) }) := by
  have ht := translate_table_window hrec (n / 1024) (n % 1024) (by omega) (by omega) hpde
  unfold PageTable.free_page
  rw [if_neg (by rw [hcheck]; simp)]
  simp only [free_page_address n hn, vread_of_translate ht, hpte, if_true]
  have hrec1 : RecursiveMapped { m with released := m.released ++
      [m.mem ((m.mem (m.cr3 + 4 * (n / 1024)) &&& 0xFFFFF000) + 4 * (n % 1024))
        / PAGE_SIZE] } := hrec
  rw [vwrite_of_translate _
    (translate_table_window hrec1 (n / 1024) (n % 1024) (by omega) (by omega) hpde)]

theorem free_page_clear (pt : PageTable) (pools : List VMPool) (m : Machine) (n : Nat)
    (hn : n < 1048576) (hcheck : free_page_check pools n = true) (hrec : RecursiveMapped m)
    (hpde : m.mem (m.cr3 + 4 * (n / 1024)) &&& 1 = 1)
    (hpte : m.mem ((m.mem (m.cr3 + 4 * (n / 1024)) &&& 0xFFFFF000) + 4 * (n % 1024)) &&& 1
      = 0) :
    PageTable.free_page pt pools m n = Result.ok m := by
  have ht := translate_table_window hrec (n / 1024) (n % 1024) (by omega) (by omega) hpde
  unfold PageTable.free_page
  rw [if_neg (by rw [hcheck]; simp)]
  simp only [free_page_address n hn, vread_of_translate ht, hpte]
  simp

theorem free_page_unknown (pt : PageTable) (pools : List VMPool) (m : Machine) (n : Nat)
    (hcheck : free_page_check pools n = false) :
    PageTable.free_page pt pools m n = Result.abort m := by
  unfold PageTable.free_page
  rw [if_pos hcheck]

theorem demoMachine_mapped : RecursiveMapped demoMachine := by
  refine ⟨by decide, by decide, ?_, ?_⟩ <;> decide

theorem handle_fault_post_of_frames (m : Machine) (err_code f1 f2 : Nat) (rest : List Nat)
    (herr : err_code &&& 1 = 0) (hrec : RecursiveMapped m) (hcr2 : m.cr2 < ULONG)
    (hpool : m.process_frames = f1 :: f2 :: rest)
    (hf1 : f1 ≠ 0 ∧ f1 < 1048576 ∧ f1 * PAGE_SIZE ≠ m.cr3) (hf2 : f2 ≠ 0 ∧ f2 < 1048576) :
    ∃ m', PageTable.handle_fault m err_code = Result.ok m' ∧ HandleFaultPost m m' := by
  rcases and_one_cases (m.mem (m.cr3 + 4 * (m.cr2 >>> 22))) with hp | hp
  · obtain ⟨g, hg, g1, g2, g3, g4, -⟩ := handle_fault_absent m err_code herr hrec hcr2 hp
      f1 f2 rest hpool hf1.1 hf1.2.1 hf1.2.2 hf2.1 hf2.2
    refine ⟨_, hg, ?_, ?_, rfl⟩
    · intro _
      exact ⟨f1, f2, rest, hpool, rfl, g1, g2, g3, g4⟩
    · intro h1
      rw [hp] at h1
      exact absurd h1 (by decide)
  · refine ⟨_, handle_fault_present m err_code herr hrec hcr2 hp f1 (f2 :: rest) hpool
      hf1.1 hf1.2.1, ?_, ?_, rfl⟩
    · intro h0
      rw [hp] at h0
      exact absurd h0 (by decide)
    · intro _
      exact ⟨f1, f2 :: rest, hpool, rfl, write_same _ _ _⟩

theorem free_page_effect_of_mapped (pt : PageTable) (pools : List VMPool) (m : Machine)
    (n : Nat) (hn : n < 1048576) (hcheck : free_page_check pools n = true)
    (hrec : RecursiveMapped m) (hpde : m.mem (m.cr3 + 4 * (n / 1024)) &&& 1 = 1)
    (hw : m.mem (pte_pa m n) < ULONG) : FreePageEffect pt pools m n := by
  constructor
  · intro hpte
    refine ⟨_, free_page_present pt pools m n hn hcheck hrec hpde hpte, rfl, ?_, ?_, rfl, rfl,
      rfl, rfl⟩
    · intro i
      show (write m.mem (pte_pa m n) (m.mem (pte_pa m n) &&& 0xFFFFFFFE)
        (pte_pa m n)).testBit i = _
      rw [write_same]
      exact clear_bit0_testBit _ hw i
    · intro b hb
      exact write_of_ne _ _ hb
  · intro hpte
    exact free_page_clear pt pools m n hn hcheck hrec hpde hpte

theorem pool0_metadata_page_checked : free_page_check [pool0] 0x40000 = true := by
  have h := (legit_tracks_of_inv pool0_consistent pool0_inv (by decide) (by decide)
    (by decide)).2 [] pool0 0x40000000 Run.init (by decide) (by decide)
  have e : umul 0x40000 PAGE_SIZE = 0x40000000 := by decide
  simp only [free_page_check, List.any_cons, List.any_nil, e, h, Bool.or_false]

/-! ## The schedulers and the non-blocking disk -/



theorem Chain.same_links {h h' : Nat → ThreadNode} : ∀ {as : List Nat},
    (∀ a ∈ as, (h' a).next = (h a).next) → Chain h as → Chain h' as
  | [], _, _ => trivial
  | [_], _, _ => trivial
  | a :: b :: rest, he, hc => by
    refine ⟨?_, Chain.same_links (fun x hx => he x (List.mem_cons_of_mem _ hx)) hc.2⟩
    rw [he a (List.mem_cons_self _ _)]
    exact hc.1

theorem Chain.tail {h : Nat → ThreadNode} {a : Nat} : ∀ {rest : List Nat},
    Chain h (a :: rest) → Chain h rest
  | [], _ => trivial
  | _ :: _, hc => hc.2

theorem Chain.append_node {h h' : Nat → ThreadNode} (node : Nat) : ∀ {as : List Nat},
    Chain h as → as.Nodup →
    (∀ a ∈ as, some a ≠ as.getLast? → (h' a).next = (h a).next) →
    (∀ t, as.getLast? = some t → (h' t).next = some node) →
    Chain h' (as ++ [node])
  | [], _, _, _, _ => trivial
  | [a], _, _, _, hl => ⟨hl a rfl, trivial⟩
  | a :: b :: rest, hc, hn, he, hl => by
    have hn' : (b :: rest).Nodup := (List.nodup_cons.1 hn).2
    have hlast : (a :: b :: rest).getLast? = (b :: rest).getLast? := by
      simp [List.getLast?_cons_cons]
    refine ⟨?_, Chain.append_node node hc.2 hn' ?_ ?_⟩
    · have : some a ≠ (a :: b :: rest).getLast? := by
        rw [hlast]
        intro hc'
        have hmem : a ∈ b :: rest := List.mem_of_getLast?_eq_some hc'.symm
        exact (List.nodup_cons.1 hn).1 hmem
      rw [he a (List.mem_cons_self _ _) this]
      exact hc.1
    · intro x hx hne
      exact he x (List.mem_cons_of_mem _ hx) (by rw [hlast]; exact hne)
    · intro t ht
      exact hl t (by rw [hlast]; exact ht)

theorem singleton_of_head_last {a : Nat} {rest : List Nat} (hn : (a :: rest).Nodup)
    (h : (a :: rest).head? = (a :: rest).getLast?) : rest = [] := by
  cases rest with
  | nil => rfl
  | cons b r =>
    exfalso
    have h1 : (a :: b :: r).getLast? = (b :: r).getLast? := by
      simp [List.getLast?_cons_cons]
    rw [h1] at h
    have hmem : a ∈ b :: r := List.mem_of_getLast?_eq_some h.symm
    exact (List.nodup_cons.1 hn).1 hmem

theorem getLast?_snoc (as : List Nat) (node : Nat) : (as ++ [node]).getLast? = some node := by
  simp

theorem head?_snoc (as : List Nat) (node : Nat) :
    (as ++ [node]).head? = if as = [] then some node else as.head? := by
  cases as <;> simp

theorem diskbuild_resume_eq (w : World) (t : Option Nat) (node : Nat) :
    DiskBuild.Scheduler.resume w t node = Scheduler.resume w t node := rfl

theorem diskbuild_terminate_eq (w : World) (t : Option Nat) :
    DiskBuild.Scheduler.terminate w t = Scheduler.terminate w t := rfl

/-- What `resume` leaves alone. -/
theorem resume_frame (w : World) (t : Option Nat) (node : Nat) :
    (Scheduler.resume w t node).current = w.current ∧
    (Scheduler.resume w t node).currThread = w.currThread ∧
    (Scheduler.resume w t node).zombieThread = w.zombieThread ∧
    (Scheduler.resume w t node).io_head = w.io_head ∧
    (Scheduler.resume w t node).io_tail = w.io_tail ∧
    (Scheduler.resume w t node).hw_locked = w.hw_locked ∧
    (Scheduler.resume w t node).queue_locked = w.queue_locked ∧
    (Scheduler.resume w t node).busy = w.busy ∧
    (Scheduler.resume w t node).polls = w.polls ∧
    (Scheduler.resume w t node).destroyed = w.destroyed ∧
    (Scheduler.resume w t node).interrupts = true := by
  unfold Scheduler.resume
  cases hi : w.interrupts <;> cases ht : w.tail <;>
    simp [hi, ht, new_node, set_head, set_tail, set_next, set_prev, World.emit,
      disable_interrupts, enable_interrupts]

theorem resume_pointers (w : World) (t : Option Nat) (node : Nat) :
    (Scheduler.resume w t node).tail = some node ∧
    (Scheduler.resume w t node).head = (if w.tail = none then some node else w.head) := by
  unfold Scheduler.resume
  cases hi : w.interrupts <;> cases ht : w.tail <;>
    simp [hi, ht, new_node, set_head, set_tail, set_next, set_prev, World.emit,
      disable_interrupts, enable_interrupts]

theorem resume_heap_other (w : World) (t : Option Nat) (node a : Nat) (h1 : a ≠ node)
    (h2 : some a ≠ w.tail) : (Scheduler.resume w t node).heap a = w.heap a := by
  unfold Scheduler.resume
  cases hi : w.interrupts <;> cases ht : w.tail <;>
    simp [hi, ht, new_node, set_head, set_tail, set_next, set_prev, World.emit,
      disable_interrupts, enable_interrupts, h1]
  all_goals
    intro c
    rw [ht, c] at h2
    exact absurd rfl h2

theorem resume_heap_node (w : World) (t : Option Nat) (node : Nat) :
    ((Scheduler.resume w t node).heap node).thread = t := by
  unfold Scheduler.resume
  cases hi : w.interrupts <;> cases ht : w.tail <;>
    simp [hi, ht, new_node, set_head, set_tail, set_next, set_prev, World.emit,
      disable_interrupts, enable_interrupts]
  all_goals split_ifs <;> rfl

theorem resume_heap_tail (w : World) (t : Option Nat) (node tl : Nat) (h : w.tail = some tl)
    (hne : tl ≠ node) :
    ((Scheduler.resume w t node).heap tl).next = some node ∧
      ((Scheduler.resume w t node).heap tl).thread = (w.heap tl).thread := by
  unfold Scheduler.resume
  cases hi : w.interrupts <;>
    simp [hi, h, new_node, set_head, set_tail, set_next, set_prev, World.emit,
      disable_interrupts, enable_interrupts, hne]

/-- `resume` appends the new node to the ready queue. -/
theorem resume_queue {w : World} {as : List Nat} (t : Option Nat) (node : Nat)
    (hq : IsQueue w.heap w.head w.tail as) (hfresh : node ∉ as) :
    IsQueue (Scheduler.resume w t node).heap (Scheduler.resume w t node).head
        (Scheduler.resume w t node).tail (as ++ [node]) ∧
      threadsOf (Scheduler.resume w t node).heap (as ++ [node]) =
        threadsOf w.heap as ++ [t] := by
  obtain ⟨hp1, hp2⟩ := resume_pointers w t node
  have hnt : some node ≠ w.tail := by
    rw [hq.tail_eq]
    intro c
    exact hfresh (List.mem_of_getLast?_eq_some c.symm)
  have hmem : ∀ a ∈ as, a ≠ node := fun a ha c => hfresh (c ▸ ha)
  constructor
  · refine ⟨?_, ?_, ?_, ?_⟩
    · rw [hp2, head?_snoc, hq.tail_eq]
      cases as with
      | nil => simp
      | cons a r =>
        have : (a :: r).getLast? ≠ none := by simp
        simp [this, hq.head_eq]
    · rw [hp1, getLast?_snoc]
    · exact List.nodup_append.2 ⟨hq.nodup, List.nodup_singleton _,
        by
          intro a ha hb
          rw [List.mem_singleton] at hb
          exact hfresh (hb ▸ ha)⟩
    · refine Chain.append_node node hq.chain hq.nodup ?_ ?_
      · intro a ha hne
        rw [resume_heap_other w t node a (hmem a ha) (by rw [hq.tail_eq]; exact hne)]
      · intro tl htl
        have hmt : tl ∈ as := List.mem_of_getLast?_eq_some htl
        exact (resume_heap_tail w t node tl (by rw [hq.tail_eq]; exact htl) (hmem tl hmt)).1
  · unfold threadsOf
    rw [List.map_append, List.map_singleton, resume_heap_node w t node]
    congr 1
    apply List.map_congr_left
    intro a ha
    by_cases c : some a = w.tail
    · exact (resume_heap_tail w t node a c.symm (hmem a ha)).2
    · rw [resume_heap_other w t node a (hmem a ha) c]

theorem unlink_head_single (w : World) (a : Nat) (h : w.head = w.tail) :
    unlink_head w a = some (set_tail (set_head w none) none) := by
  unfold unlink_head
  rw [if_pos h]

theorem unlink_head_more (w : World) (a b : Nat) (h : w.head ≠ w.tail)
    (hn : (w.heap a).next = some b) :
    unlink_head w a = some (set_head (set_prev w b none) (some b)) := by
  unfold unlink_head
  rw [if_neg h, hn]

/-- `dispatch_ready` on an empty ready queue returns. -/
theorem dispatch_ready_nil (w : World) (h : w.head = none) :
    dispatch_ready w = Outcome.returned w := by
  unfold dispatch_ready
  rw [h]

/-- `dispatch_ready` on a non-empty ready queue unlinks the first node and dispatches its
thread; the other nodes stay queued in order. -/
theorem dispatch_ready_cons {w : World} {a : Nat} {rest : List Nat}
    (hq : IsQueue w.heap w.head w.tail (a :: rest)) :
    ∃ w', dispatch_ready w = Outcome.switched w' a ∧
      w'.current = (w.heap a).thread ∧
      IsQueue w'.heap w'.head w'.tail rest ∧
      (∀ x, (w'.heap x).next = (w.heap x).next ∧ (w'.heap x).thread = (w.heap x).thread) ∧
      w'.interrupts = true ∧ w'.currThread = w.currThread ∧
      w'.zombieThread = w.zombieThread ∧ w'.io_head = w.io_head ∧ w'.io_tail = w.io_tail ∧
      w'.hw_locked = w.hw_locked ∧ w'.queue_locked = w.queue_locked ∧
      w'.busy = w.busy ∧ w'.polls = w.polls ∧ w'.destroyed = w.destroyed := by
  have hh : w.head = some a := by rw [hq.head_eq]; rfl
  unfold dispatch_ready
  simp only [hh]
  cases rest with
  | nil =>
    have ht : w.tail = some a := by rw [hq.tail_eq]; rfl
    simp only [unlink_head_single w a (by rw [hh, ht])]
    refine ⟨_, rfl, ?_, ?_, ?_, ?_⟩
    · cases hi : w.interrupts <;>
        simp [hi, set_head, set_tail, World.emit, dispatch_to, enable_interrupts]
    · refine ⟨?_, ?_, List.nodup_nil, trivial⟩ <;>
      · cases hi : w.interrupts <;>
          simp [hi, set_head, set_tail, World.emit, dispatch_to, enable_interrupts]
    · intro x
      cases hi : w.interrupts <;>
        simp [hi, set_head, set_tail, World.emit, dispatch_to, enable_interrupts]
    · cases hi : w.interrupts <;>
        simp [hi, set_head, set_tail, World.emit, dispatch_to, enable_interrupts]
  | cons b r =>
    have hne : w.head ≠ w.tail := by
      intro c
      have := singleton_of_head_last hq.nodup (by rw [← hq.head_eq, ← hq.tail_eq]; exact c)
      exact absurd this (by simp)
    simp only [unlink_head_more w a b hne hq.chain.1]
    have hx : ∀ x, ((if x = b then ({ w.heap x with prev := none } : ThreadNode)
        else w.heap x).next = (w.heap x).next) ∧
        ((if x = b then ({ w.heap x with prev := none } : ThreadNode)
        else w.heap x).thread = (w.heap x).thread) := by
      intro x
      by_cases c : x = b <;> simp [c]
    have htail : w.tail = (b :: r).getLast? := by
      rw [hq.tail_eq]
      simp [List.getLast?_cons_cons]
    refine ⟨_, rfl, ?_, ?_, ?_, ?_⟩
    · cases hi : w.interrupts <;>
        simp [hi, set_head, set_prev, World.emit, dispatch_to, enable_interrupts] <;>
        exact (hx a).2
    · refine ⟨?_, ?_, (List.nodup_cons.1 hq.nodup).2, ?_⟩
      · cases hi : w.interrupts <;>
          simp [hi, set_head, set_prev, World.emit, dispatch_to, enable_interrupts]
      · cases hi : w.interrupts <;>
          simp [hi, set_head, set_prev, World.emit, dispatch_to, enable_interrupts, htail]
      · refine Chain.same_links ?_ hq.chain.2
        intro x _
        cases hi : w.interrupts <;>
          simp [hi, set_head, set_prev, World.emit, dispatch_to, enable_interrupts] <;>
          exact (hx x).1
    · intro x
      cases hi : w.interrupts <;>
        simp [hi, set_head, set_prev, World.emit, dispatch_to, enable_interrupts] <;>
        exact hx x
    · cases hi : w.interrupts <;>
        simp [hi, set_head, set_prev, World.emit, dispatch_to, enable_interrupts]

theorem yield_of_current (w : World) (c : Nat) (h : w.current = some c) :
    Scheduler.yield w = dispatch_ready
      { (if w.interrupts then disable_interrupts w else w) with currThread := some c } := by
  unfold Scheduler.yield
  cases hi : w.interrupts <;> simp [hi, h, disable_interrupts]

theorem yield_of_null (w : World) (h : w.current = none) :
    Scheduler.yield w = Outcome.aborted
      { (if w.interrupts then disable_interrupts w else w) with currThread := none } := by
  unfold Scheduler.yield
  cases hi : w.interrupts <;> simp [hi, h, disable_interrupts]

/-- One `yield` of the base build on a non-empty ready queue. -/
theorem yield_cons {w : World} {a : Nat} {rest : List Nat} (c : Nat) (hc : w.current = some c)
    (hq : IsQueue w.heap w.head w.tail (a :: rest)) :
    ∃ w', Scheduler.yield w = Outcome.switched w' a ∧
      w'.current = (w.heap a).thread ∧
      IsQueue w'.heap w'.head w'.tail rest ∧
      (∀ x, (w'.heap x).next = (w.heap x).next ∧ (w'.heap x).thread = (w.heap x).thread) ∧
      w'.zombieThread = w.zombieThread := by
  rw [yield_of_current w c hc]
  have hq' : IsQueue
      ({ (if w.interrupts then disable_interrupts w else w) with currThread := some c }).heap
      ({ (if w.interrupts then disable_interrupts w else w) with currThread := some c }).head
      ({ (if w.interrupts then disable_interrupts w else w) with currThread := some c }).tail
      (a :: rest) := by
    cases hi : w.interrupts <;> simpa [hi, disable_interrupts] using hq
  obtain ⟨w', h1, h2, h3, h4, -, -, h5, -⟩ := dispatch_ready_cons hq'
  refine ⟨w', h1, ?_, h3, ?_, ?_⟩
  · rw [h2]
    cases hi : w.interrupts <;> simp [hi, disable_interrupts]
  · intro x
    rw [(h4 x).1, (h4 x).2]
    cases hi : w.interrupts <;> simp [hi, disable_interrupts]
  · rw [h5]
    cases hi : w.interrupts <;> simp [hi, disable_interrupts]

theorem threadsOf_congr {h h' : Nat → ThreadNode} (as : List Nat)
    (he : ∀ x, (h' x).thread = (h x).thread) : threadsOf h' as = threadsOf h as := by
  unfold threadsOf
  exact List.map_congr_left (fun a _ => he a)

/-- `n` calls of `yield` drain a ready queue of `n` threads in queue order. -/
theorem yields_drain : ∀ (as : List Nat) (w : World) (c : Nat), w.current = some c →
    IsQueue w.heap w.head w.tail as → (∀ t ∈ threadsOf w.heap as, t ≠ none) →
    ∃ w', yields as.length w = some (threadsOf w.heap as, w') ∧
      w'.head = none ∧ w'.tail = none
  | [], w, _, _, hq, _ => ⟨w, rfl, by rw [hq.head_eq]; rfl, by rw [hq.tail_eq]; rfl⟩
  | a :: rest, w, c, hc, hq, hall => by
    obtain ⟨w1, h1, h2, h3, h4, -⟩ := yield_cons c hc hq
    have hthr : threadsOf w1.heap rest = threadsOf w.heap rest :=
      threadsOf_congr rest (fun x => (h4 x).2)
    have ha : (w.heap a).thread ≠ none :=
      hall _ (by unfold threadsOf; exact List.mem_map.2 ⟨a, List.mem_cons_self _ _, rfl⟩)
    obtain ⟨c1, hc1⟩ := Option.ne_none_iff_exists'.1 ha
    obtain ⟨w', h5, h6, h7⟩ := yields_drain rest w1 c1 (by rw [h2, hc1]) h3
      (by
        intro t ht
        rw [hthr] at ht
        exact hall t (by
          unfold threadsOf at ht ⊢
          exact List.mem_cons_of_mem _ ht))
    refine ⟨w', ?_, h6, h7⟩
    show yields (rest.length + 1) w = _
    unfold yields
    rw [h1]
    simp only [h5, Option.map_some', hthr, h2]
    rfl

/-- The calls of `enqueueAll` append their nodes to the ready queue in call order. -/
theorem enqueueAll_queue : ∀ (calls : List (Bool × Nat × Nat)) (w : World) (as : List Nat),
    IsQueue w.heap w.head w.tail as →
    (calls.map (fun c => c.2.2)).Nodup → (∀ c ∈ calls, c.2.2 ∉ as) →
    IsQueue (enqueueAll w calls).heap (enqueueAll w calls).head (enqueueAll w calls).tail
        (as ++ calls.map (fun c => c.2.2)) ∧
      threadsOf (enqueueAll w calls).heap (as ++ calls.map (fun c => c.2.2)) =
        threadsOf w.heap as ++ calls.map (fun c => some c.2.1) ∧
      (enqueueAll w calls).current = w.current
  | [], w, as, hq, _, _ => by
    simp only [enqueueAll, List.map_nil, List.append_nil]
    exact ⟨hq, trivial, trivial⟩
  | (viaAdd, t, node) :: rest, w, as, hq, hn, hf => by
    have hstep : (if viaAdd then Scheduler.add w (some t) node
        else Scheduler.resume w (some t) node) = Scheduler.resume w (some t) node := by
      cases viaAdd <;> rfl
    simp only [enqueueAll, hstep, List.map_cons]
    have hfresh : node ∉ as := hf (viaAdd, t, node) (List.mem_cons_self _ _)
    obtain ⟨q1, q2⟩ := resume_queue (some t) node hq hfresh
    have hn' := List.nodup_cons.1 hn
    obtain ⟨r1, r2, r3⟩ := enqueueAll_queue rest (Scheduler.resume w (some t) node)
      (as ++ [node]) q1 hn'.2
      (by
        intro c hc hmem
        rcases List.mem_append.1 hmem with h | h
        · exact hf c (List.mem_cons_of_mem _ hc) h
        · rw [List.mem_singleton] at h
          exact hn'.1 (List.mem_map.2 ⟨c, hc, h⟩))
    have e : as ++ [node] ++ rest.map (fun c => c.2.2) =
        as ++ node :: rest.map (fun c => c.2.2) := by simp
    rw [e] at r1 r2
    refine ⟨r1, ?_, ?_⟩
    · rw [r2, q2]
      simp
    · rw [r3, (resume_frame w (some t) node).1]

theorem isQueue_nil (w : World) (h1 : w.head = none) (h2 : w.tail = none) :
    IsQueue w.heap w.head w.tail [] :=
  ⟨by rw [h1]; rfl, by rw [h2]; rfl, List.nodup_nil, trivial⟩

theorem fifo_of_empty (w : World) (c : Nat) (calls : List (Bool × Nat × Nat))
    (h1 : w.head = none) (h2 : w.tail = none) (hc : w.current = some c)
    (hn : (calls.map (fun c => c.2.2)).Nodup) :
    ∃ w', yields calls.length (enqueueAll w calls) =
        some (calls.map (fun c => some c.2.1), w') ∧ w'.head = none ∧ w'.tail = none := by
  obtain ⟨q1, q2, q3⟩ := enqueueAll_queue calls w [] (isQueue_nil w h1 h2) hn
    (fun _ _ h => by simp at h)
  simp only [List.nil_append] at q1 q2
  have hthr : threadsOf (enqueueAll w calls).heap (calls.map (fun c => c.2.2)) =
      calls.map (fun c => some c.2.1) := by
    rw [q2]; rfl
  obtain ⟨w', h3, h4, h5⟩ := yields_drain _ (enqueueAll w calls) c (by rw [q3, hc]) q1
    (by
      intro t ht
      rw [hthr] at ht
      obtain ⟨x, -, rfl⟩ := List.mem_map.1 ht
      simp)
  rw [List.length_map, hthr] at h3
  exact ⟨w', h3, h4, h5⟩

theorem terminate_zombie (w : World) (t : Option Nat) :
    (Scheduler.terminate w t).zombieThread = t ∧
      (Scheduler.terminate w t).destroyed =
        (match w.zombieThread with
         | some z => z :: w.destroyed
         | none => w.destroyed) := by
  unfold Scheduler.terminate
  cases w.zombieThread <;> exact ⟨rfl, rfl⟩

theorem terminateAll_from_zombie (t : Nat) : ∀ (ts : List Nat) (w : World) (z : Nat),
    w.zombieThread = some z →
    (terminateAll w (ts ++ [t])).zombieThread = some t ∧
      (terminateAll w (ts ++ [t])).destroyed = (z :: ts).reverse ++ w.destroyed
  | [], w, z, hz => by
    obtain ⟨h1, h2⟩ := terminate_zombie w (some t)
    rw [hz] at h2
    exact ⟨h1, by simpa [terminateAll] using h2⟩
  | x :: r, w, z, hz => by
    obtain ⟨h1, h2⟩ := terminate_zombie w (some x)
    rw [hz] at h2
    obtain ⟨i1, i2⟩ := terminateAll_from_zombie t r (Scheduler.terminate w (some x)) x h1
    refine ⟨i1, ?_⟩
    show (terminateAll (Scheduler.terminate w (some x)) (r ++ [t])).destroyed = _
    rw [i2, h2]
    simp

theorem terminateAll_fresh (t : Nat) (ts : List Nat) (w : World) (hz : w.zombieThread = none) :
    (terminateAll w (ts ++ [t])).zombieThread = some t ∧
      (terminateAll w (ts ++ [t])).destroyed = ts.reverse ++ w.destroyed := by
  cases ts with
  | nil =>
    obtain ⟨h1, h2⟩ := terminate_zombie w (some t)
    rw [hz] at h2
    exact ⟨h1, by simpa [terminateAll] using h2⟩
  | cons x r =>
    obtain ⟨h1, h2⟩ := terminate_zombie w (some x)
    rw [hz] at h2
    obtain ⟨i1, i2⟩ := terminateAll_from_zombie t r (Scheduler.terminate w (some x)) x h1
    refine ⟨i1, ?_⟩
    show (terminateAll (Scheduler.terminate w (some x)) (r ++ [t])).destroyed = _
    rw [i2, h2]

theorem diskbuild_terminateAll_eq : ∀ (ts : List Nat) (w : World),
    DiskBuild.terminateAll w ts = terminateAll w ts
  | [], _ => rfl
  | t :: r, w => by
    show DiskBuild.terminateAll (DiskBuild.Scheduler.terminate w (some t)) r = _
    rw [diskbuild_terminateAll_eq r, diskbuild_terminate_eq]
    rfl

theorem zombie_after_terminates (w0 : World) (ts : List Nat) (t : Nat)
    (hn : (ts ++ [t]).Nodup) :
    (terminateAll (Scheduler.construct w0) (ts ++ [t])).zombieThread = some t ∧
      ∃ d, (terminateAll (Scheduler.construct w0) (ts ++ [t])).destroyed = d ++ w0.destroyed ∧
        (∀ x ∈ ts, d.count x = 1) ∧ d.count t = 0 := by
  obtain ⟨h1, h2⟩ := terminateAll_fresh t ts (Scheduler.construct w0) rfl
  have hn1 : ts.Nodup := (List.nodup_append.1 hn).1
  have hn2 : t ∉ ts := by
    intro hm
    exact (List.nodup_append.1 hn).2.2 hm (List.mem_singleton.2 rfl)
  refine ⟨h1, ts.reverse, h2, ?_, ?_⟩
  · intro x hx
    rw [List.count_reverse]
    exact List.count_eq_one_of_mem hn1 hx
  · rw [List.count_reverse]
    exact List.count_eq_zero_of_not_mem hn2

/-- `DiskLock::lock` on a free lock takes it and returns with interrupts enabled. -/
theorem lock_queue_free (y : World → Outcome) (f : Nat) (w : World)
    (h : w.queue_locked = false) :
    DiskLock.lock LockId.queue_lock y (f + 1) w =
      Outcome.returned { w with trace := Ev.lock LockId.queue_lock :: w.trace,
                                interrupts := true, queue_locked := true } := by
  unfold DiskLock.lock lockLoop
  cases hi : w.interrupts <;>
    simp [hi, h, locked, set_locked, World.emit, disable_interrupts, enable_interrupts]

theorem lock_hw_free (y : World → Outcome) (f : Nat) (w : World) (h : w.hw_locked = false) :
    DiskLock.lock LockId.hw_lock y (f + 1) w =
      Outcome.returned { w with trace := Ev.lock LockId.hw_lock :: w.trace,
                                interrupts := true, hw_locked := true } := by
  unfold DiskLock.lock lockLoop
  cases hi : w.interrupts <;>
    simp [hi, h, locked, set_locked, World.emit, disable_interrupts, enable_interrupts]

theorem unlock_queue_eq (w : World) :
    DiskLock.unlock LockId.queue_lock w =
      { w with interrupts := true, queue_locked := false } := by
  unfold DiskLock.unlock
  cases hi : w.interrupts <;> simp [hi, set_locked, disable_interrupts, enable_interrupts]

theorem unlock_hw_eq (w : World) :
    DiskLock.unlock LockId.hw_lock w = { w with interrupts := true, hw_locked := false } := by
  unfold DiskLock.unlock
  cases hi : w.interrupts <;> simp [hi, set_locked, disable_interrupts, enable_interrupts]

/-- The disk build's `yield` with `queue_lock` free and a thread running: the state in which
the dispatch branch is chosen, and the choice. -/
theorem diskbuild_yield_free (f : Nat) (w : World) (i : Int) (c : Nat)
    (hc : w.current = some c) (hq : w.queue_locked = false) :
    DiskBuild.Scheduler.yield (f + 2) w i =
      if ((if i = 0 then w.busy w.polls else false) || decide (w.io_head = none)) = true then
        dispatch_ready
          { w with trace := Ev.lock LockId.queue_lock :: Ev.yield w.hw_locked false :: w.trace,
                   currThread := some c, interrupts := true,
                   polls := if i = 0 then w.polls + 1 else w.polls }
      else
        dispatch_waiter (fun x => DiskBuild.Scheduler.yield (f + 1) x 0) (f + 1)
          { w with trace := Ev.lock LockId.queue_lock :: Ev.yield w.hw_locked false :: w.trace,
                   currThread := some c, interrupts := true,
                   polls := if i = 0 then w.polls + 1 else w.polls } := by
  conv_lhs => unfold DiskBuild.Scheduler.yield
  by_cases h0 : i = 0
  · cases hi : w.interrupts <;>
      simp [hi, hc, hq, h0, World.emit, disable_interrupts, is_busy, lock_queue_free,
        unlock_queue_eq]
  · cases hi : w.interrupts <;>
      simp [hi, hc, hq, h0, World.emit, disable_interrupts, is_busy, lock_queue_free,
        unlock_queue_eq]

theorem unlink_io_single (w : World) (a : Nat) (h : w.io_head = w.io_tail) :
    unlink_io_head w a = some { w with io_head := none, io_tail := none } := by
  unfold unlink_io_head
  rw [if_pos h]

theorem unlink_io_more (w : World) (a b : Nat) (h : w.io_head ≠ w.io_tail)
    (hn : (w.heap a).next = some b) :
    unlink_io_head w a =
      some { w with
        heap := fun x => if x = b then { w.heap x with prev := none } else w.heap x,
        io_head := some b } := by
  unfold unlink_io_head
  rw [if_neg h, hn]

/-- `dispatch_waiter` with `queue_lock` free on a non-empty waiter queue unlinks the first
waiter and dispatches its thread; the other waiters stay queued in order. -/
theorem dispatch_waiter_cons (y : World → Outcome) (f : Nat) {w : World} {b : Nat}
    {rest : List Nat} (hl : w.queue_locked = false)
    (hq : IsQueue w.heap w.io_head w.io_tail (b :: rest)) :
    ∃ w', dispatch_waiter y (f + 1) w = Outcome.switched w' b ∧
      w'.current = (w.heap b).thread ∧
      IsQueue w'.heap w'.io_head w'.io_tail rest ∧
      (∀ x, (w'.heap x).next = (w.heap x).next ∧ (w'.heap x).thread = (w.heap x).thread) ∧
      w'.head = w.head ∧ w'.tail = w.tail ∧ w'.interrupts = true ∧
      w'.currThread = w.currThread ∧ w'.zombieThread = w.zombieThread ∧
      w'.hw_locked = w.hw_locked ∧ w'.queue_locked = false ∧
      w'.busy = w.busy ∧ w'.polls = w.polls ∧ w'.destroyed = w.destroyed := by
  have hh : w.io_head = some b := by rw [hq.head_eq]; rfl
  unfold dispatch_waiter
  rw [lock_queue_free y f w hl]
  cases rest with
  | nil =>
    have ht : w.io_tail = some b := by rw [hq.tail_eq]; rfl
    simp only [hh, unlink_io_head, ht, if_true, unlock_queue_eq]
    refine ⟨_, rfl, ?_, ?_, ?_, ?_⟩
    · simp [dispatch_to, World.emit]
    · exact ⟨rfl, rfl, List.nodup_nil, trivial⟩
    · intro x
      simp [dispatch_to, World.emit]
    · simp [dispatch_to, World.emit]
  | cons a r =>
    have hne : ¬ (some b = w.io_tail) := by
      intro c
      have := singleton_of_head_last hq.nodup
        (by rw [← hq.head_eq, ← hq.tail_eq, hh]; exact c)
      exact absurd this (by simp)
    have hnext : (w.heap b).next = some a := hq.chain.1
    have hx : ∀ x, ((if x = a then ({ w.heap x with prev := none } : ThreadNode)
        else w.heap x).next = (w.heap x).next) ∧
        ((if x = a then ({ w.heap x with prev := none } : ThreadNode)
        else w.heap x).thread = (w.heap x).thread) := by
      intro x
      by_cases c : x = a <;> simp [c]
    have htail : w.io_tail = (a :: r).getLast? := by
      rw [hq.tail_eq]
      simp [List.getLast?_cons_cons]
    simp only [hh, unlink_io_head, if_neg hne, hnext, unlock_queue_eq]
    refine ⟨_, rfl, ?_, ?_, ?_, ?_⟩
    · simp [dispatch_to, World.emit]
      exact (hx b).2
    · refine ⟨rfl, ?_, (List.nodup_cons.1 hq.nodup).2, ?_⟩
      · simp [dispatch_to, World.emit, htail]
      · refine Chain.same_links ?_ hq.chain.2
        intro x _
        simp [dispatch_to, World.emit]
        exact (hx x).1
    · intro x
      simp [dispatch_to, World.emit]
      exact hx x
    · simp [dispatch_to, World.emit]

/-- With `queue_lock` held, the disk build's `yield` never dispatches and never returns: the
spin in `DiskLock::lock` calls `yield` again, which takes the same path. -/
theorem diskbuild_yield_locked : ∀ (fuel : Nat) (w : World) (i : Int) (c : Nat),
    w.current = some c → w.queue_locked = true →
    DiskBuild.Scheduler.yield fuel w i = Outcome.diverged
  | 0, _, _, _, _, _ => rfl
  | fuel + 1, w, i, c, hc, hl => by
    unfold DiskBuild.Scheduler.yield
    have hloop : ∀ (v : World), v.current = some c → v.queue_locked = true →
        DiskLock.lock LockId.queue_lock (fun x => DiskBuild.Scheduler.yield fuel x 0) fuel v =
          Outcome.diverged := by
      intro v hv1 hv2
      unfold DiskLock.lock
      cases fuel with
      | zero => rfl
      | succ n =>
        unfold lockLoop
        have := diskbuild_yield_locked (n + 1)
          (enable_interrupts (if (v.emit (Ev.lock LockId.queue_lock)).interrupts = true then
            disable_interrupts (v.emit (Ev.lock LockId.queue_lock))
            else v.emit (Ev.lock LockId.queue_lock))) 0 c
          (by cases hi : v.interrupts <;>
                simp [hi, hv1, World.emit, enable_interrupts, disable_interrupts])
          (by cases hi : v.interrupts <;>
                simp [hi, hv2, World.emit, enable_interrupts, disable_interrupts])
        cases hi : v.interrupts <;>
          simp [hi, hv2, locked, World.emit, disable_interrupts] at this ⊢ <;>
          rw [this]
    by_cases h0 : i = 0
    · cases hi : w.interrupts <;>
        simp [hi, hc, h0, World.emit, disable_interrupts, is_busy] <;>
        rw [hloop _ (by simp [hc]) (by simp [hl])]
    · cases hi : w.interrupts <;>
        simp [hi, hc, h0, World.emit, disable_interrupts, is_busy] <;>
        rw [hloop _ (by simp [hc]) (by simp [hl])]

/-- The disk build's `yield` that serves the ready queue (disk busy or no waiter), on a
non-empty ready queue. -/
theorem diskbuild_yield_ready (f : Nat) {w : World} (i : Int) (c : Nat) {a : Nat}
    {rest : List Nat} (hc : w.current = some c) (hl : w.queue_locked = false)
    (hb : ((if i = 0 then w.busy w.polls else false) || decide (w.io_head = none)) = true)
    (hq : IsQueue w.heap w.head w.tail (a :: rest)) :
    ∃ w', DiskBuild.Scheduler.yield (f + 2) w i = Outcome.switched w' a ∧
      w'.current = (w.heap a).thread ∧
      IsQueue w'.heap w'.head w'.tail rest ∧
      (∀ x, (w'.heap x).next = (w.heap x).next ∧ (w'.heap x).thread = (w.heap x).thread) ∧
      w'.io_head = w.io_head ∧ w'.io_tail = w.io_tail ∧ w'.interrupts = true ∧
      w'.zombieThread = w.zombieThread ∧ w'.hw_locked = w.hw_locked ∧
      w'.queue_locked = false ∧ w'.busy = w.busy ∧
      w'.polls = (if i = 0 then w.polls + 1 else w.polls) ∧ w'.destroyed = w.destroyed := by
  rw [diskbuild_yield_free f w i c hc hl, if_pos hb]
  obtain ⟨w', h1, h2, h3, h4, h5, -, h6, h7, h8, h9, h10, h11, h12, h13⟩ :=
    dispatch_ready_cons
      (w := { w with
        trace := Ev.lock LockId.queue_lock :: Ev.yield w.hw_locked false :: w.trace,
        currThread := some c, interrupts := true,
        polls := if i = 0 then w.polls + 1 else w.polls }) hq
  exact ⟨w', h1, h2, h3, h4, h7, h8, h5, h6, h9, by rw [h10, hl], h11, h12, h13⟩

/-- The disk build's `yield` that serves the ready queue, on an empty ready queue: it
returns. -/
theorem diskbuild_yield_ready_nil (f : Nat) {w : World} (i : Int) (c : Nat)
    (hc : w.current = some c) (hl : w.queue_locked = false)
    (hb : ((if i = 0 then w.busy w.polls else false) || decide (w.io_head = none)) = true)
    (hh : w.head = none) :
    DiskBuild.Scheduler.yield (f + 2) w i = Outcome.returned
      { w with trace := Ev.lock LockId.queue_lock :: Ev.yield w.hw_locked false :: w.trace,
               currThread := some c, interrupts := true,
               polls := if i = 0 then w.polls + 1 else w.polls } := by
  rw [diskbuild_yield_free f w i c hc hl, if_pos hb]
  exact dispatch_ready_nil _ hh

/-- The disk build's `yield` that serves the waiter queue (disk not busy, a waiter queued). -/
theorem diskbuild_yield_waiter (f : Nat) {w : World} (i : Int) (c : Nat) {b : Nat}
    {rest : List Nat} (hc : w.current = some c) (hl : w.queue_locked = false)
    (hb : (if i = 0 then w.busy w.polls else false) = false)
    (hq : IsQueue w.heap w.io_head w.io_tail (b :: rest)) :
    ∃ w', DiskBuild.Scheduler.yield (f + 2) w i = Outcome.switched w' b ∧
      w'.current = (w.heap b).thread ∧
      IsQueue w'.heap w'.io_head w'.io_tail rest ∧
      (∀ x, (w'.heap x).next = (w.heap x).next ∧ (w'.heap x).thread = (w.heap x).thread) ∧
      w'.head = w.head ∧ w'.tail = w.tail ∧ w'.interrupts = true ∧
      w'.zombieThread = w.zombieThread ∧ w'.hw_locked = w.hw_locked ∧
      w'.queue_locked = false ∧ w'.busy = w.busy ∧
      w'.polls = (if i = 0 then w.polls + 1 else w.polls) ∧ w'.destroyed = w.destroyed := by
  have hio : w.io_head = some b := by rw [hq.head_eq]; rfl
  rw [diskbuild_yield_free f w i c hc hl, if_neg (by rw [hb, hio]; simp)]
  obtain ⟨w', h1, h2, h3, h4, h5, h6, h7, -, h8, h9, h10, h11, h12, h13⟩ :=
    dispatch_waiter_cons (fun x => DiskBuild.Scheduler.yield (f + 1) x 0) f
      (w := { w with
        trace := Ev.lock LockId.queue_lock :: Ev.yield w.hw_locked false :: w.trace,
        currThread := some c, interrupts := true,
        polls := if i = 0 then w.polls + 1 else w.polls }) hl hq
  exact ⟨w', h1, h2, h3, h4, h5, h6, h7, h8, h9, h10, h11, h12, h13⟩

theorem IsQueue.transfer {h h' : Nat → ThreadNode} {hd tl hd' tl' : Option Nat} {as : List Nat}
    (hq : IsQueue h hd tl as) (e1 : hd' = hd) (e2 : tl' = tl)
    (e3 : ∀ a ∈ as, (h' a).next = (h a).next) : IsQueue h' hd' tl' as :=
  ⟨by rw [e1]; exact hq.head_eq, by rw [e2]; exact hq.tail_eq, hq.nodup,
    Chain.same_links e3 hq.chain⟩

theorem dispatch_choice_of_free (f : Nat) (w : World) (i : Int) (c : Nat)
    (ready waiters : List Nat) (hc : w.current = some c) (hl : w.queue_locked = false)
    (hr : IsQueue w.heap w.head w.tail ready)
    (hw : IsQueue w.heap w.io_head w.io_tail waiters) :
    DispatchChoice (f + 2) w i ready waiters := by
  have hio : waiters = [] → w.io_head = none := by
    intro h; rw [hw.head_eq, h]; rfl
  have hbusy : (if i ≠ 0 then false else w.busy w.polls) =
      (if i = 0 then w.busy w.polls else false) := by
    by_cases h0 : i = 0 <;> simp [h0]
  rw [DispatchChoice, hbusy]
  constructor
  · intro hb
    have hb' : ((if i = 0 then w.busy w.polls else false) || decide (w.io_head = none))
        = true := by
      rcases hb with h | h
      · rw [h]; rfl
      · rw [hio h]; simp
    constructor
    · intro hnil
      refine ⟨_, diskbuild_yield_ready_nil f i c hc hl hb' (by rw [hr.head_eq, hnil]; rfl),
        hw, rfl⟩
    · intro a rest hcons
      subst hcons
      obtain ⟨w', h1, h2, h3, h4, h5, h6, -⟩ := diskbuild_yield_ready f i c hc hl hb' hr
      exact ⟨w', h1, h2, h3, hw.transfer h5 h6 (fun x _ => (h4 x).1),
        threadsOf_congr _ (fun x => (h4 x).2)⟩
  · intro hb b rest hcons
    subst hcons
    obtain ⟨w', h1, h2, h3, h4, -⟩ := diskbuild_yield_waiter f i c hc hl hb.1 hw
    exact ⟨w', h1, h2, h3, threadsOf_congr _ (fun x => (h4 x).2)⟩

theorem handle_interrupt_eq (fuel : Nat) (w : World) (node : Nat) :
    NonBlockingDisk.handle_interrupt fuel w node =
      DiskBuild.Scheduler.yield fuel (Scheduler.resume w w.current node) 1 := rfl

theorem interrupt_dispatch_of_free (f : Nat) (w : World) (c node : Nat)
    (ready waiters : List Nat) (hc : w.current = some c) (hl : w.queue_locked = false)
    (hr : IsQueue w.heap w.head w.tail ready)
    (hw : IsQueue w.heap w.io_head w.io_tail waiters)
    (hfresh : node ∉ ready ∧ node ∉ waiters) (hd : ∀ a ∈ waiters, a ∉ ready) :
    InterruptDispatch (f + 2) w node ready waiters := by
  intro b rest hcons
  subst hcons
  obtain ⟨q1, q2⟩ := resume_queue w.current node hr hfresh.1
  obtain ⟨f1, -, -, f4, f5, -, f7, -⟩ := resume_frame w w.current node
  have hother : ∀ a ∈ b :: rest,
      (Scheduler.resume w w.current node).heap a = w.heap a := by
    intro a ha
    refine resume_heap_other w w.current node a (fun e => hfresh.2 (e ▸ ha)) ?_
    rw [hr.tail_eq]
    intro e
    exact hd a ha (List.mem_of_getLast?_eq_some e.symm)
  have hw1 : IsQueue (Scheduler.resume w w.current node).heap
      (Scheduler.resume w w.current node).io_head (Scheduler.resume w w.current node).io_tail
      (b :: rest) :=
    hw.transfer f4 f5 (fun a ha => by rw [hother a ha])
  obtain ⟨w', h1, h2, h3, h4, h5, h6, -⟩ := diskbuild_yield_waiter f 1 c
    (by rw [f1, hc]) (by rw [f7, hl]) (by simp) hw1
  rw [handle_interrupt_eq]
  refine ⟨w', h1, ?_, h3, ?_, q1.transfer h5 h6 (fun x _ => (h4 x).1), ?_⟩
  · rw [h2, hother b (List.mem_cons_self _ _)]
  · rw [threadsOf_congr _ (fun x => (h4 x).2)]
    unfold threadsOf
    exact List.map_congr_left
      (fun a ha => by rw [hother a (List.mem_cons_of_mem _ ha)])
  · rw [threadsOf_congr _ (fun x => (h4 x).2), q2]

theorem lockedWorld_ready : IsQueue lockedWorld.heap lockedWorld.head lockedWorld.tail [10] :=
  ⟨rfl, rfl, by decide, trivial⟩

theorem lockedWorld_waiters :
    IsQueue lockedWorld.heap lockedWorld.io_head lockedWorld.io_tail [20] :=
  ⟨rfl, rfl, by decide, trivial⟩

theorem wait_not_busy (f : Nat) (w : World) (h : w.busy w.polls = false) :
    NonBlockingDisk.wait_while_busy (f + 1) w =
      Outcome.returned { w with polls := w.polls + 1 } := by
  unfold NonBlockingDisk.wait_while_busy
  simp [is_busy, h]

/-- `read` with both locks free, no waiter queued and a controller that is not busy when the
raw read polls it: the state in which the final `yield` is called. -/
theorem read_eq (f : Nat) (w : World) (io_node ready_node : Nat)
    (hio : w.io_tail = none) (hhw : w.hw_locked = false) (hq : w.queue_locked = false)
    (hb : w.busy w.polls = false) :
    NonBlockingDisk.read (f + 1) w io_node ready_node =
      DiskBuild.Scheduler.yield (f + 1)
        (Scheduler.resume
          { w with
            heap := (new_node w io_node w.current).heap,
            io_head := some io_node, io_tail := some io_node,
            interrupts := true, polls := w.polls + 1,
            trace := Ev.lock LockId.hw_lock :: Ev.lock LockId.queue_lock :: w.trace }
          w.current ready_node) 0 := by
  unfold NonBlockingDisk.read
  simp only [lock_queue_free, lock_hw_free, wait_not_busy, io_append, new_node, hio, hq, hhw,
    hb, unlock_queue_eq, unlock_hw_eq, SimpleDisk.read, diskbuild_resume_eq]

theorem diskbuild_yield_one (w : World) (i : Int) (c : Nat) (hc : w.current = some c) :
    DiskBuild.Scheduler.yield 1 w i = Outcome.diverged := by
  unfold DiskBuild.Scheduler.yield
  by_cases h0 : i = 0
  · cases hi : w.interrupts <;>
      simp [hi, hc, h0, World.emit, disable_interrupts, is_busy, DiskLock.lock, lockLoop]
  · cases hi : w.interrupts <;>
      simp [hi, hc, h0, World.emit, disable_interrupts, is_busy, DiskLock.lock, lockLoop]

theorem read_zero (w : World) (io_node ready_node : Nat) :
    NonBlockingDisk.read 0 w io_node ready_node = Outcome.diverged := by
  unfold NonBlockingDisk.read
  simp [DiskLock.lock, lockLoop]

/-- The state of `read` when its final `yield` is called, under the hypotheses of `read_eq`:
`A` waits in `io_node`, the ready queue holds `nb` and then `ready_node` with `A`. -/
theorem read_before_yield (w : World) (A B nb io_node ready_node : Nat)
    (hs : S5Start w A B nb) (hfresh : io_node ≠ nb ∧ ready_node ≠ nb ∧ ready_node ≠ io_node) :
    ∃ v, (∀ f, w.busy w.polls = false →
        NonBlockingDisk.read (f + 1) w io_node ready_node =
          DiskBuild.Scheduler.yield (f + 1) v 0) ∧
      v.current = some A ∧ v.queue_locked = false ∧ v.busy = w.busy ∧
      v.polls = w.polls + 1 ∧
      IsQueue v.heap v.head v.tail [nb, ready_node] ∧
      (v.heap nb).thread = some B ∧ (v.heap ready_node).thread = some A ∧
      IsQueue v.heap v.io_head v.io_tail [io_node] ∧ (v.heap io_node).thread = some A := by
  obtain ⟨hc, hr, hB, hio1, hio2, hhw, hq⟩ := hs
  let s : World :=
    { w with
      heap := (new_node w io_node w.current).heap,
      io_head := some io_node, io_tail := some io_node,
      interrupts := true, polls := w.polls + 1,
      trace := Ev.lock LockId.hw_lock :: Ev.lock LockId.queue_lock :: w.trace }
  have hsnext : ∀ x, (s.heap x).next = (w.heap x).next := by
    intro x
    show ((new_node w io_node w.current).heap x).next = _
    unfold new_node
    by_cases c : x = io_node <;> simp [c]
  have hsthr : ∀ x, x ≠ io_node → (s.heap x).thread = (w.heap x).thread := by
    intro x hx
    show ((new_node w io_node w.current).heap x).thread = _
    unfold new_node
    simp [hx]
  have hsio : (s.heap io_node).thread = some A := by
    show ((new_node w io_node w.current).heap io_node).thread = _
    unfold new_node
    simp [hc]
  have hsr : IsQueue s.heap s.head s.tail [nb] := hr.transfer rfl rfl (fun x _ => hsnext x)
  have hstail : s.tail = some nb := by
    show w.tail = some nb
    rw [hr.tail_eq]; rfl
  obtain ⟨q1, q2⟩ := resume_queue (w := s) w.current ready_node hsr
    (by simp; exact hfresh.2.1)
  obtain ⟨f1, -, -, f4, f5, -, f7, f8, f9, -⟩ := resume_frame s w.current ready_node
  have hio_same : (Scheduler.resume s w.current ready_node).heap io_node = s.heap io_node :=
    resume_heap_other s w.current ready_node io_node (Ne.symm hfresh.2.2)
      (by rw [hstail]; intro e; exact hfresh.1 (Option.some.inj e))
  refine ⟨Scheduler.resume s w.current ready_node, ?_, ?_, ?_, ?_, ?_, q1, ?_, ?_, ?_, ?_⟩
  · intro f hb
    exact read_eq f w io_node ready_node hio2 hhw hq hb
  · rw [f1]; exact hc
  · rw [f7]; exact hq
  · rw [f8]
  · rw [f9]
  · rw [(resume_heap_tail s w.current ready_node nb hstail (Ne.symm hfresh.2.1)).2,
      hsthr nb (Ne.symm hfresh.1), hB]
  · rw [resume_heap_node, hc]
  · exact ⟨by rw [f4]; rfl, by rw [f5]; rfl, by simp, trivial⟩
  · rw [hio_same, hsio]

/-- With an idle disk the `yield` at the end of `read` dispatches the reader itself, taken
from the waiter queue. -/
theorem read_idle (f : Nat) (w : World) (A B nb io_node ready_node : Nat)
    (hs : S5Start w A B nb) (hfresh : io_node ≠ nb ∧ ready_node ≠ nb ∧ ready_node ≠ io_node)
    (hb0 : w.busy w.polls = false) (hb1 : w.busy (w.polls + 1) = false) :
    ∃ w1, NonBlockingDisk.read (f + 2) w io_node ready_node = Outcome.switched w1 io_node ∧
      w1.current = some A := by
  obtain ⟨v, hv, v1, v2, v3, v4, -, -, -, v8, v9⟩ :=
    read_before_yield w A B nb io_node ready_node hs hfresh
  obtain ⟨w1, h1, h2, -⟩ := diskbuild_yield_waiter f 0 A v1 v2
    (by simp only [if_true]; rw [v3, v4]; exact hb1) v8
  exact ⟨w1, by rw [hv (f + 1) hb0]; exact h1, by rw [h2, v9]⟩

/-- Scenario S5 when the controller is not busy at the poll of the raw read and busy at the
poll of the `yield` that ends `read`. -/
theorem scenario_s5_of_polls (f : Nat) (w : World) (A B nb io_node ready_node irq_node : Nat)
    (hs : S5Start w A B nb)
    (hfresh : io_node ≠ nb ∧ ready_node ≠ nb ∧ ready_node ≠ io_node ∧
      irq_node ≠ ready_node ∧ irq_node ≠ io_node)
    (hb0 : w.busy w.polls = false) (hb1 : w.busy (w.polls + 1) = true) :
    ScenarioS5 (f + 2) w A B io_node ready_node irq_node := by
  obtain ⟨v, hv, v1, v2, v3, v4, v5, v6, v7, v8, v9⟩ :=
    read_before_yield w A B nb io_node ready_node hs ⟨hfresh.1, hfresh.2.1, hfresh.2.2.1⟩
  obtain ⟨w1, h1, h2, h3, h4, h5, h6, -, -, -, h10, -⟩ := diskbuild_yield_ready f 0 A v1 v2
    (by simp only [if_true]; rw [v3, v4, hb1]; rfl) v5
  have hw1io : IsQueue w1.heap w1.io_head w1.io_tail [io_node] :=
    v8.transfer h5 h6 (fun x _ => (h4 x).1)
  have hint := interrupt_dispatch_of_free f w1 B irq_node [ready_node] [io_node]
    (by rw [h2, v6]) h10 h3 hw1io
    ⟨by simp; exact hfresh.2.2.2.1, by simp; exact hfresh.2.2.2.2⟩
    (by
      intro a ha hb
      rw [List.mem_singleton] at ha hb
      exact hfresh.2.2.1 (hb.symm.trans ha))
  obtain ⟨w2, i1, i2, -⟩ := hint io_node [] rfl
  refine ⟨w1, nb, w2, by rw [hv (f + 1) hb0]; exact h1, by rw [h2, v6],
    ⟨[ready_node], h3, ?_⟩, i1, by rw [i2, (h4 io_node).2, v9]⟩
  simp only [threadsOf, List.map_cons, List.map_nil, List.getLast?_singleton]
  rw [(h4 ready_node).2, v7]

/-! ## Traces of the schedulers and the disk driver -/



theorem Appends.refl (P : Ev → Prop) (w : World) : Appends P w w :=
  ⟨[], rfl, fun _ h => absurd h (List.not_mem_nil _)⟩

theorem Appends.trans {P : Ev → Prop} {w1 w2 w3 : World} (h1 : Appends P w1 w2)
    (h2 : Appends P w2 w3) : Appends P w1 w3 := by
  obtain ⟨e1, t1, p1⟩ := h1
  obtain ⟨e2, t2, p2⟩ := h2
  refine ⟨e2 ++ e1, by rw [t2, t1, List.append_assoc], fun e he => ?_⟩
  rcases List.mem_append.1 he with h | h
  · exact p2 e h
  · exact p1 e h

theorem Appends.mono {P Q : Ev → Prop} {w w' : World} (h : Appends P w w')
    (hpq : ∀ e, P e → Q e) : Appends Q w w' := by
  obtain ⟨evs, t, p⟩ := h
  exact ⟨evs, t, fun e he => hpq e (p e he)⟩

theorem Appends.of_trace {P : Ev → Prop} {w w' : World} (evs : List Ev)
    (h : w'.trace = evs ++ w.trace) (hp : ∀ e ∈ evs, P e) : Appends P w w' :=
  ⟨evs, h, hp⟩

theorem dispatch_to_trace (w : World) (t : Option Nat) :
    (dispatch_to w t).trace = Ev.dispatch t :: w.trace := rfl

theorem enable_if_trace (w : World) :
    (if w.interrupts = false then enable_interrupts w else w).trace = w.trace := by
  split <;> rfl

theorem yieldEvent_dispatch_stores (hw : Bool) (t : Option Nat) :
    ∀ e ∈ [Ev.dispatch t, Ev.store true, Ev.store true], YieldEvent hw e := by
  intro e he
  simp only [List.mem_cons, List.mem_singleton, List.not_mem_nil, or_false] at he
  rcases he with h | h | h
  · exact Or.inr (Or.inr (Or.inr ⟨_, h⟩))
  · exact Or.inr (Or.inr (Or.inl h))
  · exact Or.inr (Or.inr (Or.inl h))

theorem appends_dispatch (hw : Bool) (w x : World) (t : Option Nat)
    (hx : x.trace = Ev.store true :: Ev.store true :: w.trace) :
    Appends (YieldEvent hw) w
      (dispatch_to (if x.interrupts = false then enable_interrupts x else x) t) :=
  ⟨[Ev.dispatch t, Ev.store true, Ev.store true],
    by rw [dispatch_to_trace, enable_if_trace, hx]; rfl, yieldEvent_dispatch_stores hw t⟩

/-- The events of `dispatch_ready` in a state with interrupts enabled. -/
theorem dispatch_ready_events (w : World) (hi : w.interrupts = true) (hw : Bool) :
    ∃ w', (dispatch_ready w).world = some w' ∧ Appends (YieldEvent hw) w w' ∧
      (∀ v, dispatch_ready w = Outcome.returned v → v = w) := by
  unfold dispatch_ready
  cases hh : w.head with
  | none => exact ⟨w, rfl, Appends.refl _ _, fun v hv => by injection hv with e; exact e.symm⟩
  | some node =>
    simp only []
    unfold unlink_head
    by_cases ht : w.head = w.tail
    · rw [if_pos ht]
      refine ⟨_, rfl, appends_dispatch hw w _ _ ?_, ?_⟩
      · simp only [set_tail, set_head, World.emit, hi]
      · intro v hv
        exact Outcome.noConfusion hv
    · rw [if_neg ht]
      cases hn : (w.heap node).next with
      | none =>
        exact ⟨w, rfl, Appends.refl _ _, fun v hv => Outcome.noConfusion hv⟩
      | some nx =>
        refine ⟨_, rfl, appends_dispatch hw w _ _ ?_, ?_⟩
        · simp only [set_prev, set_head, World.emit, hi]
        · intro v hv
          exact Outcome.noConfusion hv

theorem yieldEvent_dispatch_lock (hw : Bool) (t : Option Nat) :
    ∀ e ∈ [Ev.dispatch t, Ev.lock LockId.queue_lock], YieldEvent hw e := by
  intro e he
  simp only [List.mem_cons, List.mem_singleton, List.not_mem_nil, or_false] at he
  rcases he with h | h
  · exact Or.inr (Or.inr (Or.inr ⟨_, h⟩))
  · exact Or.inr (Or.inl h)

theorem appends_waiter (hw : Bool) (w x : World) (t : Option Nat)
    (hx : x.trace = Ev.lock LockId.queue_lock :: w.trace) :
    Appends (YieldEvent hw) w
      (dispatch_to (if x.interrupts = false then enable_interrupts x else x) t) :=
  ⟨[Ev.dispatch t, Ev.lock LockId.queue_lock],
    by rw [dispatch_to_trace, enable_if_trace, hx]; rfl, yieldEvent_dispatch_lock hw t⟩

theorem appends_lock (hw : Bool) (w x : World)
    (hx : x.trace = Ev.lock LockId.queue_lock :: w.trace) : Appends (YieldEvent hw) w x :=
  ⟨[Ev.lock LockId.queue_lock], hx, fun _ he => Or.inr (Or.inl (List.mem_singleton.1 he))⟩

/-- The events of `dispatch_waiter` entered with `queue_lock` free; the call does not
return. -/
theorem dispatch_waiter_events (y : World → Outcome) (f : Nat) (w : World)
    (hl : w.queue_locked = false) (hw : Bool) :
    ∃ w', (dispatch_waiter y (f + 1) w).world = some w' ∧ Appends (YieldEvent hw) w w' ∧
      ∀ v, dispatch_waiter y (f + 1) w ≠ Outcome.returned v := by
  unfold dispatch_waiter
  rw [lock_queue_free y f w hl]
  simp only []
  cases hh : w.io_head with
  | none => exact ⟨_, rfl, appends_lock hw w _ rfl, fun v hv => Outcome.noConfusion hv⟩
  | some node =>
    simp only []
    unfold unlink_io_head
    by_cases ht : w.io_head = w.io_tail
    · rw [if_pos (show some node = w.io_tail from hh ▸ ht)]
      refine ⟨_, rfl, appends_waiter hw w _ _ ?_, fun v hv => Outcome.noConfusion hv⟩
      rw [unlock_queue_eq]
    · rw [if_neg (show ¬ some node = w.io_tail from hh ▸ ht)]
      cases hn : (w.heap node).next with
      | none => exact ⟨_, rfl, appends_lock hw w _ rfl, fun v hv => Outcome.noConfusion hv⟩
      | some nx =>
        refine ⟨_, rfl, appends_waiter hw w _ _ ?_, fun v hv => Outcome.noConfusion hv⟩
        rw [unlock_queue_eq]

/-- One call of the disk build's `yield` with a thread running and `queue_lock` free ends;
`v` is the state after the first `lock_queue(); unlock_queue();` pair.  The call records its
entry and the lock call, then the events of the branch taken; when it returns, it returns
in state `v`. -/
theorem diskbuild_yield_events (f : Nat) (w : World) (i : Int) (c : Nat)
    (hc : w.current = some c) (hl : w.queue_locked = false) :
    ∃ w' v, (DiskBuild.Scheduler.yield (f + 2) w i).world = some w' ∧
      v.trace = Ev.lock LockId.queue_lock :: Ev.yield w.hw_locked false :: w.trace ∧
      Appends (YieldEvent w.hw_locked) v w' ∧
      v.hw_locked = w.hw_locked ∧ v.queue_locked = false ∧ v.interrupts = true ∧
      (∀ x, DiskBuild.Scheduler.yield (f + 2) w i = Outcome.returned x → x = v) := by
  rw [diskbuild_yield_free f w i c hc hl]
  by_cases hb : ((if i = 0 then w.busy w.polls else false) || decide (w.io_head = none)) = true
  · rw [if_pos hb]
    obtain ⟨w', h1, h2, h3⟩ := dispatch_ready_events
      { w with trace := Ev.lock LockId.queue_lock :: Ev.yield w.hw_locked false :: w.trace,
               currThread := some c, interrupts := true,
               polls := if i = 0 then w.polls + 1 else w.polls } rfl w.hw_locked
    exact ⟨w', _, h1, rfl, h2, rfl, hl, rfl, h3⟩
  · rw [if_neg hb]
    obtain ⟨w', h1, h2, h3⟩ := dispatch_waiter_events
      (fun x => DiskBuild.Scheduler.yield (f + 1) x 0) f
      { w with trace := Ev.lock LockId.queue_lock :: Ev.yield w.hw_locked false :: w.trace,
               currThread := some c, interrupts := true,
               polls := if i = 0 then w.polls + 1 else w.polls } hl w.hw_locked
    exact ⟨w', _, h1, rfl, h2, rfl, hl, rfl, fun x hx => absurd hx (h3 x)⟩

/-- The ways a call of the disk build's `yield` can go: it never ends; or no thread is
running and the assertion fails right after the entry; or a thread is running, `queue_lock`
is free and the iteration budget is at least 2. -/
theorem diskbuild_yield_cases (fuel : Nat) (w : World) (i : Int) :
    DiskBuild.Scheduler.yield fuel w i = Outcome.diverged ∨
    (∃ w', DiskBuild.Scheduler.yield fuel w i = Outcome.aborted w' ∧
      w'.trace = Ev.yield w.hw_locked w.queue_locked :: w.trace) ∨
    (∃ f c, fuel = f + 2 ∧ w.current = some c ∧ w.queue_locked = false) := by
  match fuel with
  | 0 => exact Or.inl rfl
  | n + 1 =>
    cases hc : w.current with
    | none =>
      refine Or.inr (Or.inl ⟨{ w with
        trace := Ev.yield w.hw_locked w.queue_locked :: w.trace, interrupts := false,
        currThread := none }, ?_, rfl⟩)
      unfold DiskBuild.Scheduler.yield
      cases hi : w.interrupts <;> simp [hi, hc, World.emit, disable_interrupts]
    | some c =>
      cases hq : w.queue_locked with
      | true => exact Or.inl (diskbuild_yield_locked _ w i c hc hq)
      | false =>
        match n with
        | 0 => exact Or.inl (diskbuild_yield_one w i c hc)
        | f + 1 => exact Or.inr (Or.inr ⟨f, c, rfl, rfl, rfl⟩)

theorem yieldEvent_ne_lock_hw (hw : Bool) (e : Ev) (h : YieldEvent hw e) :
    e ≠ Ev.lock LockId.hw_lock := by
  rcases h with h | h | h | ⟨t, h⟩ <;> rw [h] <;> intro h' <;> cases h'

/-- Every call of the disk build's `yield` that ends has recorded its entry, with the state of
the two locks at that time, and apart from it only events of `YieldEvent`; a call that
returns has left both lock flags as they were, with `queue_lock` free. -/
theorem diskbuild_yield_appends (fuel : Nat) (w : World) (i : Int) (w' : World)
    (h : (DiskBuild.Scheduler.yield fuel w i).world = some w') :
    Appends (fun e => e = Ev.yield w.hw_locked w.queue_locked ∨ YieldEvent w.hw_locked e) w w' ∧
      (DiskBuild.Scheduler.yield fuel w i = Outcome.returned w' →
        w.queue_locked = false ∧ w'.hw_locked = w.hw_locked ∧ w'.queue_locked = false) := by
  rcases diskbuild_yield_cases fuel w i with hd | ⟨x, hx, ht⟩ | ⟨f, c, hf, hc, hl⟩
  · rw [hd] at h
    cases h
  · rw [hx] at h
    have e : x = w' := by injection h
    subst e
    refine ⟨⟨[Ev.yield w.hw_locked w.queue_locked], ht, fun e he => ?_⟩, fun hr => ?_⟩
    · exact Or.inl (List.mem_singleton.1 he)
    · rw [hx] at hr
      cases hr
  · subst hf
    obtain ⟨x, v, h1, h2, h3, h4, h5, -, h7⟩ := diskbuild_yield_events f w i c hc hl
    rw [h1] at h
    have e : x = w' := by injection h
    subst e
    refine ⟨?_, fun hr => ?_⟩
    · have hv : Appends (fun e => e = Ev.yield w.hw_locked w.queue_locked ∨
          YieldEvent w.hw_locked e) w v := by
        refine ⟨[Ev.lock LockId.queue_lock, Ev.yield w.hw_locked false], h2, fun e he => ?_⟩
        simp only [List.mem_cons, List.mem_singleton, List.not_mem_nil, or_false] at he
        rcases he with he | he
        · exact Or.inr (Or.inr (Or.inl he))
        · exact Or.inr (Or.inl he)
      exact hv.trans (h3.mono (fun e he => Or.inr he))
    · have e := h7 x hr
      rw [e]
      exact ⟨hl, h4, h5⟩

/-- The stores of `resume` are made with interrupts disabled. -/
theorem resume_appends (w : World) (t : Option Nat) (node : Nat) :
    Appends (fun e => e = Ev.store false) w (Scheduler.resume w t node) := by
  unfold Scheduler.resume
  cases hi : w.interrupts <;> cases ht : w.tail <;>
    simp only [hi, ht, new_node, set_head, set_tail, set_next, set_prev, World.emit,
      disable_interrupts, enable_interrupts, Appends, if_true, if_false, Bool.false_eq_true] <;>
    first
    | exact ⟨[Ev.store false, Ev.store false], rfl, by simp⟩
    | exact ⟨[Ev.store false, Ev.store false, Ev.store false], rfl, by simp⟩

/-- No execution of `handle_interrupt` that ends has called `hw_lock.lock()`. -/
theorem handle_interrupt_no_hw (fuel : Nat) (w : World) (node : Nat) (w' : World)
    (h : (NonBlockingDisk.handle_interrupt fuel w node).world = some w') :
    Appends (fun e => e ≠ Ev.lock LockId.hw_lock) w w' := by
  rw [handle_interrupt_eq] at h
  have h1 := (resume_appends w w.current node).mono
    (fun e (he : e = Ev.store false) => show e ≠ Ev.lock LockId.hw_lock by
      rw [he]; intro h'; cases h')
  refine h1.trans ((diskbuild_yield_appends fuel _ 1 w' h).1.mono ?_)
  intro e he
  rcases he with he | he
  · rw [he]
    intro h'
    cases h'
  · exact yieldEvent_ne_lock_hw _ e he

/-- With a thread running and `queue_lock` free, `handle_interrupt` ends and has called
`queue_lock.lock()` but not `hw_lock.lock()`. -/
theorem handle_interrupt_queue_lock (f : Nat) (w : World) (c node : Nat)
    (hc : w.current = some c) (hl : w.queue_locked = false) :
    ∃ w' evs, (NonBlockingDisk.handle_interrupt (f + 2) w node).world = some w' ∧
      w'.trace = evs ++ w.trace ∧ Ev.lock LockId.hw_lock ∉ evs ∧
      Ev.lock LockId.queue_lock ∈ evs := by
  have hc' : (Scheduler.resume w w.current node).current = some c := by
    rw [(resume_frame w w.current node).1, hc]
  have hl' : (Scheduler.resume w w.current node).queue_locked = false := by
    rw [(resume_frame w w.current node).2.2.2.2.2.2.1, hl]
  obtain ⟨w', v, h1, h2, ⟨e2, t2, p2⟩, -⟩ :=
    diskbuild_yield_events f (Scheduler.resume w w.current node) 1 c hc' hl'
  obtain ⟨e1, t1, p1⟩ := resume_appends w w.current node
  rw [← handle_interrupt_eq] at h1
  refine ⟨w', e2 ++ Ev.lock LockId.queue_lock ::
    Ev.yield (Scheduler.resume w w.current node).hw_locked false :: e1, h1, ?_, ?_, ?_⟩
  · rw [t2, h2, t1]
    simp
  · intro hm
    simp only [List.mem_append, List.mem_cons] at hm
    rcases hm with hm | hm | hm | hm
    · exact yieldEvent_ne_lock_hw _ _ (p2 _ hm) rfl
    · cases hm
    · cases hm
    · have := p1 _ hm
      cases this
  · simp

theorem yieldsWith_of_event (hw : Bool) (e : Ev)
    (h : e = Ev.yield hw false ∨ YieldEvent hw e) : YieldsWith hw e := by
  intro a b hab
  rcases h with h | h | h | h | ⟨t, h⟩ <;> rw [h] at hab <;> cases hab <;> exact ⟨rfl, rfl⟩

theorem yieldsWith_of_store (hw : Bool) (e : Ev) (h : e = Ev.store false) :
    YieldsWith hw e := by
  intro a b hab
  rw [h] at hab
  cases hab

/-- The yields of `wait_while_busy`, called with `hw_lock` held and `queue_lock` free, are
all made with `hw_lock` held and `queue_lock` free; when the wait returns, the locks are as
they were. -/
theorem wait_appends : ∀ (fuel : Nat) (v v' : World), v.hw_locked = true →
    v.queue_locked = false → (NonBlockingDisk.wait_while_busy fuel v).world = some v' →
    Appends (YieldsWith true) v v' ∧
      (NonBlockingDisk.wait_while_busy fuel v = Outcome.returned v' →
        v'.hw_locked = true ∧ v'.queue_locked = false)
  | 0, v, v', _, _, h => by
    cases h
  | fuel + 1, v, v', hh, hq, h => by
    unfold NonBlockingDisk.wait_while_busy at h ⊢
    simp only [is_busy] at h ⊢
    by_cases hb : v.busy v.polls = true
    · rw [if_pos hb] at h ⊢
      have key : ∀ x, (DiskBuild.Scheduler.yield fuel { v with polls := v.polls + 1 } 0).world
          = some x → Appends (YieldsWith true) v x := by
        intro x hx
        have := (diskbuild_yield_appends fuel _ 0 x hx).1
        obtain ⟨evs, t, p⟩ := this
        refine ⟨evs, t, fun e he => yieldsWith_of_event true e ?_⟩
        have := p e he
        simp only [hh, hq] at this
        exact this
      cases ho : DiskBuild.Scheduler.yield fuel { v with polls := v.polls + 1 } 0 with
      | returned w1 =>
        rw [ho] at h
        simp only [] at h ⊢
        have h1 := diskbuild_yield_appends fuel _ 0 w1 (by rw [ho]; rfl)
        obtain ⟨-, e2, e3⟩ := h1.2 ho
        have ih := wait_appends fuel w1 v' (by rw [e2]; exact hh) e3 h
        exact ⟨(key w1 (by rw [ho]; rfl)).trans ih.1, ih.2⟩
      | switched w1 n =>
        rw [ho] at h
        simp only [] at h ⊢
        have e : w1 = v' := by injection h
        subst e
        exact ⟨key w1 (by rw [ho]; rfl), fun hr => Outcome.noConfusion hr⟩
      | aborted w1 =>
        rw [ho] at h
        simp only [] at h ⊢
        have e : w1 = v' := by injection h
        subst e
        exact ⟨key w1 (by rw [ho]; rfl), fun hr => Outcome.noConfusion hr⟩
      | crashed w1 =>
        rw [ho] at h
        simp only [] at h ⊢
        have e : w1 = v' := by injection h
        subst e
        exact ⟨key w1 (by rw [ho]; rfl), fun hr => Outcome.noConfusion hr⟩
      | diverged =>
        rw [ho] at h
        cases h
    · rw [if_neg hb] at h ⊢
      have e : { v with polls := v.polls + 1 } = v' := by injection h
      subst e
      exact ⟨⟨[], rfl, fun _ he => absurd he (List.not_mem_nil _)⟩, fun _ => ⟨hh, hq⟩⟩

theorem io_append_frame (w : World) (node : Nat) :
    (io_append w node).trace = w.trace ∧ (io_append w node).hw_locked = w.hw_locked ∧
      (io_append w node).queue_locked = w.queue_locked := by
  unfold io_append
  cases w.io_tail <;> exact ⟨rfl, rfl, rfl⟩

/-- `read` with both locks free, up to the raw read: `w5` is the state in which
`SimpleDisk::read` is called, with `hw_lock` held and `queue_lock` free again. -/
theorem read_raw (f : Nat) (w : World) (io_node ready_node : Nat)
    (hq : w.queue_locked = false) (hh : w.hw_locked = false) :
    ∃ w5, w5.hw_locked = true ∧ w5.queue_locked = false ∧
      w5.trace = Ev.lock LockId.hw_lock :: Ev.lock LockId.queue_lock :: w.trace ∧
      (∀ w6, NonBlockingDisk.wait_while_busy (f + 1) w5 = Outcome.returned w6 →
        NonBlockingDisk.read (f + 1) w io_node ready_node =
          DiskBuild.Scheduler.yield (f + 1)
            (Scheduler.resume (DiskLock.unlock LockId.hw_lock w6)
              (DiskLock.unlock LockId.hw_lock w6).current ready_node) 0) ∧
      (∀ o, NonBlockingDisk.wait_while_busy (f + 1) w5 = o → (∀ w6, o ≠ Outcome.returned w6) →
        NonBlockingDisk.read (f + 1) w io_node ready_node = o) := by
  unfold NonBlockingDisk.read
  simp only []
  rw [lock_queue_free _ f _ (show (new_node w io_node w.current).queue_locked = false from hq)]
  simp only []
  rw [unlock_queue_eq]
  rw [lock_hw_free _ f _ (by
    show (io_append _ io_node).hw_locked = false
    rw [(io_append_frame _ io_node).2.1]
    exact hh)]
  simp only []
  refine ⟨{ (io_append { (new_node w io_node w.current) with
      trace := Ev.lock LockId.queue_lock :: w.trace, interrupts := true,
      queue_locked := true } io_node) with
    trace := Ev.lock LockId.hw_lock :: (io_append { (new_node w io_node w.current) with
      trace := Ev.lock LockId.queue_lock :: w.trace, interrupts := true,
      queue_locked := true } io_node).trace,
    interrupts := true, hw_locked := true, queue_locked := false }, rfl, rfl, ?_, ?_, ?_⟩
  · show Ev.lock LockId.hw_lock :: (io_append _ io_node).trace = _
    rw [(io_append_frame _ io_node).1]
  · intro w6 h6
    rw [SimpleDisk.read]
    erw [h6]
    simp only [diskbuild_resume_eq]
  · intro o ho hne
    rw [SimpleDisk.read]
    erw [ho]
    cases o with
    | returned w6 => exact absurd rfl (hne w6)
    | switched _ _ => rfl
    | aborted _ => rfl
    | crashed _ => rfl
    | diverged => rfl

theorem write_eq_read : NonBlockingDisk.write = NonBlockingDisk.read := rfl

theorem unlock_hw_frame (w : World) :
    (DiskLock.unlock LockId.hw_lock w).trace = w.trace ∧
      (DiskLock.unlock LockId.hw_lock w).hw_locked = false ∧
      (DiskLock.unlock LockId.hw_lock w).queue_locked = w.queue_locked := by
  rw [unlock_hw_eq]
  exact ⟨rfl, rfl, rfl⟩

/-- The yields of `read`, called with both locks free: those recorded first (`evs1`, up to the
end of the raw read) found `hw_lock` held and `queue_lock` free, those recorded afterwards
(`evs2`) found both locks free. -/
theorem read_yields (fuel : Nat) (w w' : World) (io_node ready_node : Nat)
    (hq : w.queue_locked = false) (hh : w.hw_locked = false)
    (h : (NonBlockingDisk.read fuel w io_node ready_node).world = some w') :
    ∃ evs1 evs2, w'.trace = evs2 ++ evs1 ++ w.trace ∧ (∀ e ∈ evs1, YieldsWith true e) ∧
      ∀ e ∈ evs2, YieldsWith false e := by
  match fuel with
  | 0 =>
    rw [read_zero] at h
    cases h
  | f + 1 =>
    obtain ⟨w5, h5h, h5q, h5t, hret, hoth⟩ := read_raw f w io_node ready_node hq hh
    have hlocks : ∀ e ∈ [Ev.lock LockId.hw_lock, Ev.lock LockId.queue_lock],
        YieldsWith true e := by
      intro e he a b hab
      simp only [List.mem_cons, List.mem_singleton, List.not_mem_nil, or_false] at he
      rcases he with he | he <;> rw [he] at hab <;> cases hab
    by_cases hr : ∃ w6, NonBlockingDisk.wait_while_busy (f + 1) w5 = Outcome.returned w6
    · obtain ⟨w6, h6⟩ := hr
      rw [hret w6 h6] at h
      obtain ⟨⟨e1, t1, p1⟩, hfl⟩ := wait_appends (f + 1) w5 w6 h5h h5q (by rw [h6]; rfl)
      obtain ⟨-, f6q⟩ := hfl h6
      obtain ⟨e2, t2, p2⟩ := resume_appends (DiskLock.unlock LockId.hw_lock w6)
        (DiskLock.unlock LockId.hw_lock w6).current ready_node
      have hfr := resume_frame (DiskLock.unlock LockId.hw_lock w6)
        (DiskLock.unlock LockId.hw_lock w6).current ready_node
      obtain ⟨e3, t3, p3⟩ := (diskbuild_yield_appends (f + 1) _ 0 w' h).1
      obtain ⟨u1, u2, u3⟩ := unlock_hw_frame w6
      rw [hfr.2.2.2.2.2.1, hfr.2.2.2.2.2.2.1, u2, u3, f6q] at p3
      refine ⟨e1 ++ [Ev.lock LockId.hw_lock, Ev.lock LockId.queue_lock], e3 ++ e2, ?_, ?_, ?_⟩
      · rw [t3, t2, u1, t1, h5t]
        simp
      · intro e he
        rcases List.mem_append.1 he with he | he
        · exact p1 e he
        · exact hlocks e he
      · intro e he
        rcases List.mem_append.1 he with he | he
        · exact yieldsWith_of_event false e (p3 e he)
        · exact yieldsWith_of_store false e (p2 e he)
    · have hread := hoth _ rfl (fun w6 h6 => hr ⟨w6, h6⟩)
      rw [hread] at h
      obtain ⟨⟨e1, t1, p1⟩, -⟩ := wait_appends (f + 1) w5 w' h5h h5q h
      refine ⟨e1 ++ [Ev.lock LockId.hw_lock, Ev.lock LockId.queue_lock], [], ?_, ?_, ?_⟩
      · rw [t1, h5t]
        simp
      · intro e he
        rcases List.mem_append.1 he with he | he
        · exact p1 e he
        · exact hlocks e he
      · intro e he
        exact absurd he (List.not_mem_nil _)

theorem terminate_only_zombie (w : World) (t : Option Nat) :
    OnlyZombie w (Scheduler.terminate w t) := by
  unfold Scheduler.terminate
  cases w.zombieThread <;> exact ⟨rfl, rfl, rfl, rfl, rfl, rfl, rfl, rfl, rfl, rfl, rfl, rfl, rfl⟩

theorem readyWorld_queue : IsQueue readyWorld.heap readyWorld.head readyWorld.tail [10] :=
  ⟨rfl, rfl, by decide, trivial⟩

/-! ## The recursive window -/

theorem frame_mask_aligned (x : Nat) : (x &&& 4294963200) % 4096 = 0 := by
  have h : (x &&& 4294963200) % 2 ^ 12 = (x &&& 4294963200) &&& (2 ^ 12 - 1) :=
    (Nat.and_pow_two_sub_one_eq_mod _ 12).symm
  have e : (4294963200 : Nat) &&& (2 ^ 12 - 1) = 0 := by decide
  rw [Nat.and_assoc, e, Nat.and_zero] at h
  exact h

theorem frame_mask_lt (x : Nat) : x &&& 4294963200 ≤ 4294963200 := Nat.and_le_right

/-- The window addresses as the specification writes them. -/
theorem window_forms (va : Nat) (h : va < 4294967296) :
    4294963200 ||| ((va >>> 22) <<< 2) = 4294963200 + 4 * (va >>> 22) ∧
    4290772992 ||| ((va >>> 22) <<< 12) ||| (((va >>> 12) &&& 1023) <<< 2) =
      4290772992 + 4096 * (va >>> 22) + 4 * ((va >>> 12) &&& 1023) := by
  obtain ⟨hj, hk⟩ := index_bounds va h
  constructor
  · rw [Nat.lor_comm, Nat.shiftLeft_eq, or_top_window _ (by omega)]
    omega
  · rw [Nat.shiftLeft_eq, Nat.shiftLeft_eq, Nat.lor_comm 4290772992,
      or_table_window _ (by omega)]
    have e : 4290772992 + (va >>> 22) * 2 ^ 12 = (1047552 + (va >>> 22)) * 4096 := by omega
    rw [e, or_page_low _ _ (by omega)]
    omega

/-! ## The assertions of release -/

/-- `free_page` accepts every page of a region recorded in `alloc_list` of a registered
pool. -/
theorem free_page_check_of_entry {pools : List VMPool} {p : VMPool} (hp : p ∈ pools)
    (j : Nat) (hj : j < 512) (ha : startAt p.alloc_list j % PAGE_SIZE = 0)
    (hlt : startAt p.alloc_list j + lenAt p.alloc_list j < ULONG) (t : Nat)
    (ht : t < lenAt p.alloc_list j / PAGE_SIZE) :
    free_page_check pools (startAt p.alloc_list j / PAGE_SIZE + t) = true := by
  have ha' : startAt p.alloc_list j % 4096 = 0 := ha
  have hlt' : startAt p.alloc_list j + lenAt p.alloc_list j < 4294967296 := hlt
  have ht' : t < lenAt p.alloc_list j / 4096 := ht
  have hu : uadd (startAt p.alloc_list j) (lenAt p.alloc_list j) =
      startAt p.alloc_list j + lenAt p.alloc_list j := uadd_eq hlt
  unfold free_page_check
  rw [List.any_eq_true]
  refine ⟨p, hp, ?_⟩
  have hm : umul (startAt p.alloc_list j / PAGE_SIZE + t) PAGE_SIZE =
      startAt p.alloc_list j + t * 4096 := by
    show (startAt p.alloc_list j / 4096 + t) * 4096 % 4294967296 = _
    omega
  rw [hm, is_legitimate_iff]
  right; right
  refine ⟨j, hj, ?_, ?_⟩
  · show startAt p.alloc_list j ≤ _
    omega
  · show _ < uadd (startAt p.alloc_list j) (lenAt p.alloc_list j)
    rw [hu]
    omega

theorem release_safe_of_inv {b s : Nat} {p : VMPool} {pools : List VMPool}
    (h : Consistent b s p) (hp : PoolInv p) (hal : Aligned p) (h2 : 2 * PAGE_SIZE ≤ s)
    (hbs : b + s < ULONG) (hmem : p ∈ pools) (j : Nat) (hj : j < 512)
    (hl : lenAt p.alloc_list j ≠ 0) (hfull : liveCount p.free_list 512 < 511) :
    ReleaseSafe pools p (startAt p.alloc_list j) := by
  have hP : PAGE_SIZE = 4096 := rfl
  have hU : ULONG = 4294967296 := rfl
  obtain ⟨p', m, hrel, -, -, hlive, h0, -⟩ :=
    release_effect_of_inv h hp hal h2 hbs hmem j hj hl hfull
  have hm : m < 511 := by
    obtain ⟨_, pg, hr⟩ : ∃ q pg, p.release pools (startAt p.alloc_list j) = some (q, pg) :=
      ⟨_, _, hrel⟩
    obtain ⟨j', m', -, -, -, -, -, -, hm', hl', h0', -⟩ := (release_some pools p _ _ _).1 hr
    by_contra hc
    exact hlive m' (by omega) h0'
  have hbound : startAt p.alloc_list j + lenAt p.alloc_list j < ULONG := by
    by_cases hj2 : 2 ≤ j
    · have := h.alloc_bounds j hj2 hj hl
      omega
    · have : j = 0 ∨ j = 1 := by omega
      rcases this with rfl | rfl
      · have := h.meta0; omega
      · have := h.meta1; omega
  have haj := (hal j hj).1
  exact ⟨j, m, hj, h.first_match hp j hj hl, rfl, haj.1, haj.2,
    fun t ht => free_page_check_of_entry hmem j hj haj.1 hbound t ht, hm, hlive, h0, p', hrel⟩

/-- After 510 rounds of `allocate(PAGE_SIZE)` and `release`, one more `allocate(PAGE_SIZE)`
on the scenario pool returns `0x40002000 + 510 * PAGE_SIZE`, and `release` of that address
aborts whatever pools are registered: the free list holds 511 live entries. -/
theorem pool0_full_outstanding :
    ∃ tr p, Run pool0 (Event.allocate 4096 (1073750016 + 510 * 4096) :: tr) p ∧
      ∀ pools, p.release pools (1073750016 + 510 * 4096) = none := by
  obtain ⟨tr, q, hrun, hA, hF⟩ := pool0_fragmented 510 (Nat.le_refl _)
  have r1 : roundUp 4096 = 4096 := by decide
  obtain ⟨p1, e1, -, hF1⟩ := rep_allocate_head 4096 4096 hA hF
    (by
      intro e he
      simp only [List.mem_cons, List.mem_singleton, List.not_mem_nil, or_false] at he
      rcases he with rfl | rfl <;> (show (4096 : Nat) ≠ 0; omega))
    (by simp) (by rw [singles_length]) r1 (by omega)
    (by show 16769024 - 510 * 4096 < 4294967296; omega)
    (by show 1073750016 + 510 * 4096 + (16769024 - 510 * 4096) ≤ 4294967296; omega)
  refine ⟨tr, p1, Run.allocate hrun (by decide) e1, ?_⟩
  intro pools
  cases hrel : p1.release pools (1073750016 + 510 * 4096) with
  | none => rfl
  | some r =>
    obtain ⟨p', pages⟩ := r
    obtain ⟨j, m, _, _, _, _, _, _, hm, _, hempty, _⟩ :=
      (release_some pools p1 _ p' pages).1 hrel
    have hlive : ∀ e ∈ ((1073750016 + 510 * 4096 + 4096, 16769024 - 510 * 4096 - 4096) ::
        singles 510), e.2 ≠ 0 := by
      intro e he
      rcases List.mem_cons.1 he with rfl | h'
      · show 16769024 - 510 * 4096 - 4096 ≠ 0; omega
      · exact singles_live 510 e h'
    have := alive_of_forall _ hlive m (by simp only [List.length_cons, singles_length]; omega)
    rw [← (hF1 m (by omega)).2] at this
    exact absurd hempty this

/-- A region of size 0 can lose its entry.  On the scenario pool: `allocate(PAGE_SIZE)`
returns `a1 = 0x40002000`, `allocate` of the rest returns `a2 = 0x40003000`; both are
released; `allocate(0)` returns `a1` again, recorded as `(a1, 0)`, and `allocate(2 *
PAGE_SIZE)` returns `a2` and overwrites that pair, whose length field is 0.  `release(a1)`
then finds no entry and aborts. -/
theorem pool0_zero_entry_lost :
    ∃ tr p, Run pool0 (Event.allocate 8192 (1073741824 + 8192 + 4096) ::
        Event.allocate 0 (1073741824 + 8192) :: tr) p ∧
      ∀ pools, p.release pools (1073741824 + 8192) = none := by
  have hU : ULONG = 4294967296 := rfl
  have r1 : roundUp 4096 = 4096 := by decide
  have r2 : roundUp (16777216 - 8192 - 4096) = 16777216 - 8192 - 4096 := by decide
  have r0 : roundUp 0 = 0 := by decide
  have r8 : roundUp 8192 = 8192 := by decide
  obtain ⟨hA0, hF0⟩ := pool0_rep
  obtain ⟨p1, e1, hA1, hF1⟩ := rep_allocate_head 4096 4096 hA0 hF0
    (by simp) (by simp) (by simp) r1 (by omega) (by omega) (by omega)
  simp only [List.cons_append, List.nil_append] at hA1
  obtain ⟨p2, e2, hA2, hF2, -, -⟩ := rep_allocate (16777216 - 8192 - 4096) 0 hA1 hF1
    (alive_of_forall _ (by simp)) (by simp) (by simp) (by omega) (by intro k hk; omega)
    (by
      simp only [entry, List.getElem?_cons_zero, Option.getD_some, r2]
      omega)
    (by
      simp only [entry, List.getElem?_cons_zero, Option.getD_some]
      omega)
    (by
      simp only [entry, List.getElem?_cons_zero, Option.getD_some]
      omega)
  simp only [entry, List.getElem?_cons_zero, Option.getD_some, r2, lt_irrefl, if_false,
    List.eraseIdx_cons_zero, List.cons_append, List.nil_append] at e2 hA2 hF2
  have hrun1 := Run.allocate Run.init (by decide) e1
  have hrun2 := Run.allocate hrun1 (by decide) e2
  obtain ⟨p3, e3, hA3, hF3⟩ := rep_release_entry 2 (1073741824 + 8192) 4096
    (show p2 ∈ [p2] from List.mem_singleton.2 rfl) hA2 hF2 (by simp) (by simp) (by simp)
    (by omega)
    (by simp only [entry, List.getElem?_cons_succ, List.getElem?_cons_zero, Option.getD_some])
    (by
      intro k hk
      have : k = 0 ∨ k = 1 := by omega
      rcases this with rfl | rfl <;>
        simp only [entry, List.getElem?_cons_succ, List.getElem?_cons_zero,
          Option.getD_some] <;> omega)
    (by decide) (by decide) (by omega)
  simp only [List.eraseIdx_cons_succ, List.eraseIdx_cons_zero, List.nil_append] at hA3 hF3
  have hrun3 := Run.release hrun2
    ⟨4096, List.mem_cons_of_mem _ (List.mem_cons_self _ _)⟩ e3
  obtain ⟨p4, e4, hA4, hF4⟩ := rep_release_entry 2 (1073741824 + 8192 + 4096)
    (16777216 - 8192 - 4096)
    (show p3 ∈ [p3] from List.mem_singleton.2 rfl) hA3 hF3
    (by
      intro e he
      rw [List.mem_singleton] at he
      subst he
      show (4096 : Nat) ≠ 0
      omega)
    (by simp) (by simp) (by omega)
    (by simp only [entry, List.getElem?_cons_succ, List.getElem?_cons_zero, Option.getD_some])
    (by
      intro k hk
      have : k = 0 ∨ k = 1 := by omega
      rcases this with rfl | rfl <;>
        simp only [entry, List.getElem?_cons_succ, List.getElem?_cons_zero,
          Option.getD_some] <;> omega)
    (by decide) (by decide) (by omega)
  simp only [List.eraseIdx_cons_succ, List.eraseIdx_cons_zero, List.cons_append,
    List.nil_append] at hA4 hF4
  have hrun4 := Run.release hrun3
    ⟨16777216 - 8192 - 4096, List.mem_cons_of_mem _ (List.mem_cons_self _ _)⟩ e4
  obtain ⟨p5, e5, hA5, hF5, -, -⟩ := rep_allocate 0 0 hA4 hF4
    (alive_of_forall _ (by simp)) (by simp) (by simp) (by omega) (by intro k hk; omega)
    (by
      simp only [entry, List.getElem?_cons_zero, Option.getD_some, r0]
      omega)
    (by
      simp only [entry, List.getElem?_cons_zero, Option.getD_some]
      omega)
    (by
      simp only [entry, List.getElem?_cons_zero, Option.getD_some]
      omega)
  simp only [entry, List.getElem?_cons_zero, Option.getD_some, r0, List.cons_append,
    List.nil_append] at e5 hA5 hF5
  rw [if_pos (by omega)] at hF5
  simp only [List.set_cons_zero] at hF5
  have hrun5 := Run.allocate hrun4 (by decide) e5
  have f0 := hF5 0 (by omega)
  have f1 := hF5 1 (by omega)
  have a0 := hA5 0 (by omega)
  have a1 := hA5 1 (by omega)
  have a2 := hA5 2 (by omega)
  simp only [entry, List.getElem?_cons_succ, List.getElem?_cons_zero, Option.getD_some]
    at f0 f1 a0 a1 a2
  have e6 : p5.allocate 8192 = some
      ({ p5 with alloc_list := writePair p5.alloc_list 2 (startAt p5.free_list 1) (roundUp 8192),
                 free_list := takeFree p5.free_list 1 (roundUp 8192) },
        1073741824 + 8192 + 4096) := by
    refine (allocate_some p5 8192 _ _).2 ⟨1, 2, by omega, ?_, ?_, by omega, ?_, a2.2, f1.1.symm, rfl⟩
    · intro k hk
      have : k = 0 := by omega
      subst this
      rw [f0.2, r8]
      omega
    · rw [f1.2, r8]
      omega
    · intro k hk
      have : k = 0 ∨ k = 1 := by omega
      rcases this with rfl | rfl
      · rw [a0.2]; omega
      · rw [a1.2]; omega
  have hrun6 := Run.allocate hrun5 (by decide) e6
  refine ⟨_, _, hrun6, fun pools => release_none_unknown pools _ _ ?_⟩
  intro k hk
  show startAt (writePair p5.alloc_list 2 (startAt p5.free_list 1) (roundUp 8192)) k ≠ _
  rw [startAt_writePair]
  by_cases hk2 : k = 2
  · rw [if_pos hk2, f1.1]
    omega
  · rw [if_neg hk2]
    by_cases hk3 : 3 ≤ k
    · rw [(hA5.len_zero k hk (by simpa using hk3)).1]
      omega
    · have : k = 0 ∨ k = 1 := by omega
      rcases this with rfl | rfl
      · rw [a0.1]; omega
      · rw [a1.1]; omega

/-! ## The metadata pages and pages without a page table: `free_page` evaluated -/

/-- Evaluation of `free_page` on a page whose table entry is reachable through the recursive
window at physical address `pa` and present: the frame is released, bit 0 of the entry is
cleared and the directory is reloaded. -/
theorem free_page_mapped_eval (pt : PageTable) (pools : List VMPool) (m : Machine)
    (n v pa : Nat) (hc : free_page_check pools n = true)
    (ht : translate m (ushl (umul n PAGE_SIZE >>> 12) 2 ||| 0xFFC00000) = some pa)
    (hv : m.mem pa = v) (hp : v &&& 1 = 1) :
    PageTable.free_page pt pools m n =
      Result.ok (pt.load { m with released := m.released ++ [v / PAGE_SIZE],
                                  mem := write m.mem pa (v &&& 0xFFFFFFFE) }) := by
  subst hv
  have ht1 : translate { m with released := m.released ++ [m.mem pa / PAGE_SIZE] }
      (ushl (umul n PAGE_SIZE >>> 12) 2 ||| 0xFFC00000) = some pa := ht
  unfold PageTable.free_page
  rw [if_neg (by rw [hc]; decide)]
  simp only [vread, vwrite, ht, ht1, Option.map, hp, if_true]

set_option maxRecDepth 100000 in
/-- In the fresh pool at `0x40000000`, `release(0x40000000)` finds the pool's own first
metadata entry and passes the page of `alloc_list` to `free_page`. -/
theorem pool0_release_base_pages :
    startAt pool0.alloc_list 0 = 0x40000000 ∧ lenAt pool0.alloc_list 0 ≠ 0 ∧
      ∃ p', pool0.release [pool0] 0x40000000 = some (p', [0x40000]) :=
  ⟨rfl, by decide, _, rfl⟩

set_option maxRecDepth 100000 in
/-- On `demoMachine`, where the page of `alloc_list` of the pool at `0x40000000` is mapped,
`free_page(0x40000)` returns and leaves that page unmapped: a load from `alloc_list` no longer
translates. -/
theorem demo_free_page_unmaps_lists :
    ∃ m', PageTable.free_page { page_directory := 0x400000, head_pool := none } [pool0]
        demoMachine 0x40000 = Result.ok m' ∧
      translate demoMachine 0x40000000 = some 0x403000 ∧
      translate m' 0x40000000 = none ∧ vread m' 0x40000000 = none :=
  ⟨_, free_page_mapped_eval _ [pool0] demoMachine 0x40000 0x403007 0x402000
      pool0_metadata_page_checked (by decide) (by decide) (by decide),
    by decide, by decide, by decide⟩

set_option maxRecDepth 1000000 in
/-- Page `0x40400` lies in the region `allocate(0x800000)` returns on the fresh pool at
`0x40000000`, so `free_page` accepts it. -/
theorem pool0_after_page_checked : free_page_check [pool0_after 0x800000] 0x40400 = true := by
  rfl



/-! ## The handler of MP_3 and the handler of the VM-pool build on one machine -/

theorem MP3.fillLoop_spec (m0 m1 : Machine) (g j : Nat) (hg : g < 1048576)
    (hd : MP3.DirectMapped m0 g j) (h1 : m1.cr3 = m0.cr3) (fuel : Nat) :
    ∀ (i : Nat) (gm : Nat → Nat), 1024 ≤ fuel + i →
      (∀ b, b / PAGE_SIZE ≠ g → b ≠ m0.cr3 + 4 * j → gm b = m0.mem b) →
      ∃ g', MP3.fillLoop (g * 4096) fuel i { m1 with mem := gm } = some { m1 with mem := g' } ∧
        (∀ t, i ≤ t → t < 1024 → g' (g * 4096 + 4 * t) = 6) ∧
        (∀ a, (∀ t, i ≤ t → t < 1024 → a ≠ g * 4096 + 4 * t) → g' a = gm a) := by
  have e6 : (2 ||| 4 : Nat) = 6 := by decide
  have hP : PAGE_SIZE = 4096 := rfl
  induction fuel with
  | zero =>
    intro i gm h _
    exact ⟨gm, rfl, fun t h1 h2 => by omega, fun a _ => rfl⟩
  | succ n ih =>
    intro i gm h hgm
    unfold MP3.fillLoop
    by_cases hlt : i < ENTRIES_PER_PAGE
    · have hlt' : i < 1024 := hlt
      rw [if_pos hlt]
      have e1 : umul 4 i = 4 * i := umul_eq (by show 4 * i < 4294967296; omega)
      have e2 : uadd (g * 4096) (4 * i) = g * 4096 + 4 * i :=
        uadd_eq (by show g * 4096 + 4 * i < 4294967296; omega)
      have ht : translate { m1 with mem := gm } (g * 4096 + 4 * i) =
          some (g * 4096 + 4 * i) := by
        have := (hd gm hgm).2 i hlt
        rw [hP] at this
        unfold translate at this ⊢
        simp only [h1]
        exact this
      rw [e1, e2, vwrite_of_translate _ ht, e6]
      simp only []
      obtain ⟨g', hl, h2, h3⟩ := ih (i + 1) (write gm (g * 4096 + 4 * i) 6) (by omega)
        (by
          intro b hb1 hb2
          rw [write_of_ne _ _ (by rw [hP] at hb1; omega), hgm b hb1 hb2])
      refine ⟨g', hl, fun t ht1 ht2 => ?_, fun a ha => ?_⟩
      · by_cases d : t = i
        · subst d
          rw [h3 _ (by intro s hs1 hs2; omega), write_same]
        · exact h2 t (by omega) ht2
      · rw [h3 a (fun t h1 h2 => ha t (by omega) h2),
          write_of_ne _ _ (ha i (Nat.le_refl _) hlt')]
    · have hlt' : ¬ i < 1024 := hlt
      rw [if_neg hlt]
      exact ⟨gm, rfl, fun t h1 h2 => by omega, fun a _ => rfl⟩

theorem MP3.direct_now {m : Machine} {frame j : Nat} (hd : MP3.DirectMapped m frame j) :
    translate m (m.cr3 + 4 * j) = some (m.cr3 + 4 * j) ∧
    ∀ i, i < 1024 → translate m (frame * 4096 + 4 * i) = some (frame * 4096 + 4 * i) :=
  hd m.mem (fun _ _ _ => rfl)

/-- The `MP_3` handler on a fault whose directory entry is present: one frame is taken from
the process pool and stored into entry `k` of the table the entry references. -/
theorem mp3_handle_fault_present (m : Machine) (err_code : Nat) (herr : err_code &&& 1 = 0)
    (hc1 : m.cr3 % PAGE_SIZE = 0) (hc2 : m.cr3 < ULONG) (hcr2 : m.cr2 < ULONG)
    (cpt : PageTable) (hcpt : m.current_page_table = some cpt)
    (hdir : cpt.page_directory = m.cr3)
    (hp : m.mem (m.cr3 + 4 * (m.cr2 >>> 22)) &&& 1 = 1) (f : Nat) (rest : List Nat)
    (hpool : m.process_frames = f :: rest) (hf0 : f ≠ 0) (hf : f < 1048576)
    (hd : MP3.DirectMapped m ((m.mem (m.cr3 + 4 * (m.cr2 >>> 22)) &&& 0xFFFFF000) / PAGE_SIZE)
      (m.cr2 >>> 22)) :
    MP3.PageTable.handle_fault m err_code =
      Result.ok { m with
        process_frames := rest,
        mem := write m.mem
          ((m.mem (m.cr3 + 4 * (m.cr2 >>> 22)) &&& 0xFFFFF000) +
            4 * ((m.cr2 >>> 12) &&& 0x3FF))
          ((f * PAGE_SIZE) ||| 7) } := by
  obtain ⟨hj, hk⟩ := index_bounds m.cr2 hcr2
  have hc1' : m.cr3 % 4096 = 0 := hc1
  have hc2' : m.cr3 < 4294967296 := hc2
  have e7 : umul f PAGE_SIZE = f * 4096 := umul_eq (by show f * 4096 < 4294967296; omega)
  have e1 : umul 4 (m.cr2 >>> 22) = 4 * (m.cr2 >>> 22) :=
    umul_eq (by show 4 * (m.cr2 >>> 22) < 4294967296; omega)
  have e2 : uadd m.cr3 (4 * (m.cr2 >>> 22)) = m.cr3 + 4 * (m.cr2 >>> 22) :=
    uadd_eq (by show m.cr3 + 4 * (m.cr2 >>> 22) < 4294967296; omega)
  have e3 : umul 4 ((m.cr2 >>> 12) &&& 1023) = 4 * ((m.cr2 >>> 12) &&& 1023) :=
    umul_eq (by show 4 * ((m.cr2 >>> 12) &&& 1023) < 4294967296; omega)
  have hT1 := frame_mask_aligned (m.mem (m.cr3 + 4 * (m.cr2 >>> 22)))
  have hT2 := frame_mask_lt (m.mem (m.cr3 + 4 * (m.cr2 >>> 22)))
  have e4 : uadd (m.mem (m.cr3 + 4 * (m.cr2 >>> 22)) &&& 4294963200)
      (4 * ((m.cr2 >>> 12) &&& 1023)) =
      (m.mem (m.cr3 + 4 * (m.cr2 >>> 22)) &&& 4294963200) + 4 * ((m.cr2 >>> 12) &&& 1023) :=
    uadd_eq (by
      show (m.mem (m.cr3 + 4 * (m.cr2 >>> 22)) &&& 4294963200) +
        4 * ((m.cr2 >>> 12) &&& 1023) < 4294967296
      omega)
  obtain ⟨d1, d2⟩ := MP3.direct_now hd
  have d2' := d2 _ hk
  have eT : (m.mem (m.cr3 + 4 * (m.cr2 >>> 22)) &&& 4294963200) / PAGE_SIZE * 4096 =
      m.mem (m.cr3 + 4 * (m.cr2 >>> 22)) &&& 4294963200 := by
    show (m.mem (m.cr3 + 4 * (m.cr2 >>> 22)) &&& 4294963200) / 4096 * 4096 = _
    omega
  rw [eT] at d2'
  have hinst : MP3.PageTable.install_table m m.cr3 = Result.ok m := by
    unfold MP3.PageTable.install_table
    rw [e1, e2, vread_of_translate d1]
    simp only [hp]
    simp
  unfold MP3.PageTable.handle_fault
  rw [if_neg (by rw [herr]; simp), hcpt]
  simp only [hdir, hinst, e1, e2, vread_of_translate d1, hpool, get_frames, if_neg hf0,
    e3, e4]
  have d3 : translate { m with process_frames := rest }
      ((m.mem (m.cr3 + 4 * (m.cr2 >>> 22)) &&& 4294963200) + 4 * ((m.cr2 >>> 12) &&& 1023)) =
      some ((m.mem (m.cr3 + 4 * (m.cr2 >>> 22)) &&& 4294963200) +
        4 * ((m.cr2 >>> 12) &&& 1023)) := d2'
  rw [vwrite_of_translate _ d3, e7]
  simp only [hcpt]
  rfl

theorem translate_same {m m' : Machine} (h1 : m'.mem = m.mem) (h2 : m'.cr3 = m.cr3) (a : Nat) :
    translate m' a = translate m a := by
  unfold translate
  rw [h1, h2]

/-- The `MP_3` handler on a fault whose directory entry is not present: a frame `g` of the
kernel pool becomes the page table, every entry of it is set to 6, directory entry `j`
references it, and a frame `f` of the process pool is stored into its entry `k`. -/
theorem mp3_handle_fault_absent (m : Machine) (err_code : Nat) (herr : err_code &&& 1 = 0)
    (hc1 : m.cr3 % PAGE_SIZE = 0) (hc2 : m.cr3 < ULONG) (hcr2 : m.cr2 < ULONG)
    (cpt : PageTable) (hcpt : m.current_page_table = some cpt)
    (hdir : cpt.page_directory = m.cr3)
    (hp : m.mem (m.cr3 + 4 * (m.cr2 >>> 22)) &&& 1 = 0) (g : Nat) (krest : List Nat)
    (hker : m.kernel_frames = g :: krest) (hg0 : g ≠ 0) (hg : g < 1048576)
    (f : Nat) (rest : List Nat) (hpool : m.process_frames = f :: rest) (hf0 : f ≠ 0)
    (hf : f < 1048576) (hd : MP3.DirectMapped m g (m.cr2 >>> 22))
    (hne : g * PAGE_SIZE ≠ m.cr3) :
    ∃ gm, MP3.PageTable.handle_fault m err_code =
        Result.ok { m with kernel_frames := krest, process_frames := rest, mem := gm } ∧
      gm (m.cr3 + 4 * (m.cr2 >>> 22)) = (g * PAGE_SIZE) ||| 7 ∧
      gm (g * PAGE_SIZE + 4 * ((m.cr2 >>> 12) &&& 0x3FF)) = (f * PAGE_SIZE) ||| 7 ∧
      (∀ i, i < 1024 → i ≠ (m.cr2 >>> 12) &&& 0x3FF → gm (g * PAGE_SIZE + 4 * i) = 6) ∧
      (∀ a, a ≠ m.cr3 + 4 * (m.cr2 >>> 22) → (∀ t, t < 1024 → a ≠ g * PAGE_SIZE + 4 * t) →
        gm a = m.mem a) := by
  obtain ⟨hj, hk⟩ := index_bounds m.cr2 hcr2
  have hP : PAGE_SIZE = 4096 := rfl
  have hc1' : m.cr3 % 4096 = 0 := hc1
  have hc2' : m.cr3 < 4294967296 := hc2
  have hne' : g * 4096 ≠ m.cr3 := hne
  have e7 : umul f PAGE_SIZE = f * 4096 := umul_eq (by show f * 4096 < 4294967296; omega)
  have e8 : umul g PAGE_SIZE = g * 4096 := umul_eq (by show g * 4096 < 4294967296; omega)
  have e1 : umul 4 (m.cr2 >>> 22) = 4 * (m.cr2 >>> 22) :=
    umul_eq (by show 4 * (m.cr2 >>> 22) < 4294967296; omega)
  have e2 : uadd m.cr3 (4 * (m.cr2 >>> 22)) = m.cr3 + 4 * (m.cr2 >>> 22) :=
    uadd_eq (by show m.cr3 + 4 * (m.cr2 >>> 22) < 4294967296; omega)
  have e3 : umul 4 ((m.cr2 >>> 12) &&& 1023) = 4 * ((m.cr2 >>> 12) &&& 1023) :=
    umul_eq (by show 4 * ((m.cr2 >>> 12) &&& 1023) < 4294967296; omega)
  have e4 : uadd (g * 4096) (4 * ((m.cr2 >>> 12) &&& 1023)) =
      g * 4096 + 4 * ((m.cr2 >>> 12) &&& 1023) :=
    uadd_eq (by show g * 4096 + 4 * ((m.cr2 >>> 12) &&& 1023) < 4294967296; omega)
  obtain ⟨p1, p2⟩ := entry_present g hg
  obtain ⟨d1, -⟩ := MP3.direct_now hd
  -- the fill loop
  obtain ⟨g1, hfill, hf1, hf2⟩ := MP3.fillLoop_spec m { m with kernel_frames := krest } g
    (m.cr2 >>> 22) hg hd rfl 1024 0 m.mem (by omega) (fun _ _ _ => rfl)
  have hfill' : MP3.fillLoop (g * 4096) ENTRIES_PER_PAGE 0 { m with kernel_frames := krest } =
      some { m with kernel_frames := krest, mem := g1 } := hfill
  -- memory after the directory entry is stored
  have hagree1 : ∀ b, b / PAGE_SIZE ≠ g → b ≠ m.cr3 + 4 * (m.cr2 >>> 22) → g1 b = m.mem b := by
    intro b hb1 _
    exact hf2 b (fun t _ ht => by rw [hP] at hb1; omega)
  have t1 : translate { m with kernel_frames := krest, mem := g1 }
      (m.cr3 + 4 * (m.cr2 >>> 22)) = some (m.cr3 + 4 * (m.cr2 >>> 22)) :=
    (translate_same rfl rfl _).trans (hd g1 hagree1).1
  have hagree2 : ∀ b, b / PAGE_SIZE ≠ g → b ≠ m.cr3 + 4 * (m.cr2 >>> 22) →
      write g1 (m.cr3 + 4 * (m.cr2 >>> 22)) (g * 4096 ||| 7) b = m.mem b := by
    intro b hb1 hb2
    rw [write_of_ne _ _ hb2, hagree1 b hb1 hb2]
  obtain ⟨t2, t3⟩ := hd _ hagree2
  have t3' := t3 _ hk
  rw [hP] at t3'
  have hinst : MP3.PageTable.install_table m m.cr3 =
      Result.ok
        { m with
          kernel_frames := krest
          mem := write g1 (m.cr3 + 4 * (m.cr2 >>> 22)) (g * 4096 ||| 7) } := by
    unfold MP3.PageTable.install_table
    rw [e1, e2, vread_of_translate d1]
    simp only [hp, hker, get_frames, if_neg hg0, e8, hfill', if_true]
    rw [vwrite_of_translate _ t1]
  have t2' : translate
      { m with
        kernel_frames := krest
        mem := write g1 (m.cr3 + 4 * (m.cr2 >>> 22)) (g * 4096 ||| 7) }
      (m.cr3 + 4 * (m.cr2 >>> 22)) = some (m.cr3 + 4 * (m.cr2 >>> 22)) :=
    (translate_same rfl rfl _).trans t2
  have t4 : translate
      { m with
        kernel_frames := krest
        process_frames := rest
        mem := write g1 (m.cr3 + 4 * (m.cr2 >>> 22)) (g * 4096 ||| 7) }
      (g * 4096 + 4 * ((m.cr2 >>> 12) &&& 1023)) =
      some (g * 4096 + 4 * ((m.cr2 >>> 12) &&& 1023)) :=
    (translate_same rfl rfl _).trans t3'
  refine ⟨write (write g1 (m.cr3 + 4 * (m.cr2 >>> 22)) (g * 4096 ||| 7))
    (g * 4096 + 4 * ((m.cr2 >>> 12) &&& 1023)) (f * 4096 ||| 7), ?_, ?_, ?_, ?_, ?_⟩
  · unfold MP3.PageTable.handle_fault
    rw [if_neg (by rw [herr]; simp), hcpt]
    simp only [hdir, hinst, e1, e2]
    rw [vread_of_translate t2']
    simp only [write_same, p2, hpool, get_frames, if_neg hf0, e3, e4]
    rw [vwrite_of_translate _ t4, e7]
    simp only [hcpt]
  · rw [write_of_ne _ _ (by omega), write_same]
    rfl
  · exact write_same _ _ _
  · intro i hi hik
    rw [hP, write_of_ne _ _ (by omega), write_of_ne _ _ (by omega)]
    exact hf1 i (by omega) hi
  · intro a ha1 ha2
    rw [hP] at ha2
    rw [write_of_ne _ _ (ha2 _ hk), write_of_ne _ _ ha1]
    exact hf2 a (fun t _ ht => ha2 t ht)

theorem translate_walk (m : Machine) (a pde pte : Nat)
    (h1 : m.mem ((m.cr3 &&& 0xFFFFF000) + 4 * (a >>> 22)) = pde) (hp1 : pde &&& 1 = 1)
    (h2 : m.mem ((pde &&& 0xFFFFF000) + 4 * ((a >>> 12) &&& 0x3FF)) = pte)
    (hp2 : pte &&& 1 = 1) :
    translate m a = some ((pte &&& 0xFFFFF000) + (a &&& 0xFFF)) := by
  unfold translate
  simp only [h1, h2, hp1, hp2]
  simp

theorem directMachine_mapped : RecursiveMapped directMachine := by
  refine ⟨by decide, by decide, by decide, by decide⟩

theorem directMachineAbsent_mapped : RecursiveMapped directMachineAbsent := directMachine_mapped

/-- In `directMachine` the frames `0x202` and `0x203` and the directory entries are
identity-mapped through entry 0 of the directory and the page table of frame `0x201`. -/
theorem directMachine_direct (frame j : Nat) (hfr : frame = 0x202 ∨ frame = 0x203)
    (hj : 0 < j ∧ j < 1023) : MP3.DirectMapped directMachine frame j := by
  intro mem' hag
  have hP : PAGE_SIZE = 4096 := rfl
  have hc : directMachine.cr3 = 0x200000 := rfl
  have a0 : mem' 0x200000 = 0x201003 :=
    (hag 0x200000 (by rw [hP]; rcases hfr with h | h <;> omega) (by rw [hc]; omega)).trans rfl
  have a1 : mem' (0x201000 + 4 * 0x200) = 0x200003 :=
    (hag _ (by rw [hP]; rcases hfr with h | h <;> omega) (by rw [hc]; omega)).trans rfl
  have a2 : mem' (0x201000 + 4 * 0x202) = 0x202003 :=
    (hag _ (by rw [hP]; rcases hfr with h | h <;> omega) (by rw [hc]; omega)).trans rfl
  have a3 : mem' (0x201000 + 4 * 0x203) = 0x203003 :=
    (hag _ (by rw [hP]; rcases hfr with h | h <;> omega) (by rw [hc]; omega)).trans rfl
  have m1 : (0x200000 : Nat) &&& 0xFFFFF000 = 0x200000 := by decide
  have m2 : (0x201003 : Nat) &&& 0xFFFFF000 = 0x201000 := by decide
  constructor
  · have s1 : (directMachine.cr3 + 4 * j) >>> 22 = 0 := by
      rw [hc, shr_eq_div]; norm_num; omega
    have s2 : ((directMachine.cr3 + 4 * j) >>> 12) &&& 0x3FF = 0x200 := by
      rw [hc, shr_eq_div, and_1023]; norm_num; omega
    have s3 : (directMachine.cr3 + 4 * j) &&& 0xFFF = 4 * j := by
      rw [hc, and_4095]; omega
    have := translate_walk { directMachine with mem := mem' } (directMachine.cr3 + 4 * j)
      0x201003 0x200003
      (by rw [s1]; show mem' ((0x200000 &&& 0xFFFFF000) + 4 * 0) = _; rw [m1]; exact a0) (by decide) (by rw [s2, m2]; exact a1) (by decide)
    rw [this, s3, hc]
    rfl
  · intro i hi
    have hi' : i < 1024 := hi
    rcases hfr with h | h
    · subst h
      have s1 : (0x202 * PAGE_SIZE + 4 * i) >>> 22 = 0 := by
        rw [hP, shr_eq_div]; norm_num; omega
      have s2 : ((0x202 * PAGE_SIZE + 4 * i) >>> 12) &&& 0x3FF = 0x202 := by
        rw [hP, shr_eq_div, and_1023]; norm_num; omega
      have s3 : (0x202 * PAGE_SIZE + 4 * i) &&& 0xFFF = 4 * i := by
        rw [hP, and_4095]; omega
      have := translate_walk { directMachine with mem := mem' } (0x202 * PAGE_SIZE + 4 * i)
        0x201003 0x202003
        (by rw [s1]; show mem' ((0x200000 &&& 0xFFFFF000) + 4 * 0) = _; rw [m1]; exact a0) (by decide) (by rw [s2, m2]; exact a2) (by decide)
      rw [this, s3]
      rfl
    · subst h
      have s1 : (0x203 * PAGE_SIZE + 4 * i) >>> 22 = 0 := by
        rw [hP, shr_eq_div]; norm_num; omega
      have s2 : ((0x203 * PAGE_SIZE + 4 * i) >>> 12) &&& 0x3FF = 0x203 := by
        rw [hP, shr_eq_div, and_1023]; norm_num; omega
      have s3 : (0x203 * PAGE_SIZE + 4 * i) &&& 0xFFF = 4 * i := by
        rw [hP, and_4095]; omega
      have := translate_walk { directMachine with mem := mem' } (0x203 * PAGE_SIZE + 4 * i)
        0x201003 0x203003
        (by rw [s1]; show mem' ((0x200000 &&& 0xFFFFF000) + 4 * 0) = _; rw [m1]; exact a0) (by decide) (by rw [s2, m2]; exact a3) (by decide)
      rw [this, s3]
      rfl

theorem same_edit_present (m : Machine) (err_code : Nat) (herr : err_code &&& 1 = 0)
    (hrec : RecursiveMapped m) (hcr2 : m.cr2 < ULONG)
    (cpt : PageTable) (hcpt : m.current_page_table = some cpt)
    (hdir : cpt.page_directory = m.cr3)
    (hp : m.mem (m.cr3 + 4 * (m.cr2 >>> 22)) &&& 1 = 1) (f : Nat) (rest : List Nat)
    (hpool : m.process_frames = f :: rest) (hf0 : f ≠ 0) (hf : f < 1048576)
    (hd : MP3.DirectMapped m ((m.mem (m.cr3 + 4 * (m.cr2 >>> 22)) &&& 0xFFFFF000) / PAGE_SIZE)
      (m.cr2 >>> 22)) : SameEditPresent m err_code :=
  ⟨f, rest, hpool, handle_fault_present m err_code herr hrec hcr2 hp f rest hpool hf0 hf,
    mp3_handle_fault_present m err_code herr hrec.1 hrec.2.1 hcr2 cpt hcpt hdir hp f rest hpool
      hf0 hf hd⟩

theorem same_edit_absent (m : Machine) (err_code : Nat) (herr : err_code &&& 1 = 0)
    (hrec : RecursiveMapped m) (hcr2 : m.cr2 < ULONG)
    (cpt : PageTable) (hcpt : m.current_page_table = some cpt)
    (hdir : cpt.page_directory = m.cr3)
    (hp : m.mem (m.cr3 + 4 * (m.cr2 >>> 22)) &&& 1 = 0) (f1 f2 : Nat) (rest : List Nat)
    (hpool : m.process_frames = f1 :: f2 :: rest) (hf10 : f1 ≠ 0) (hf1 : f1 < 1048576)
    (hne1 : f1 * PAGE_SIZE ≠ m.cr3) (hf20 : f2 ≠ 0) (hf2 : f2 < 1048576)
    (g : Nat) (krest : List Nat) (hker : m.kernel_frames = g :: krest) (hg0 : g ≠ 0)
    (hg : g < 1048576) (hne2 : g * PAGE_SIZE ≠ m.cr3)
    (hd : MP3.DirectMapped m g (m.cr2 >>> 22)) : SameEditAbsent m err_code := by
  have hP : PAGE_SIZE = 4096 := rfl
  obtain ⟨g1, h1, a1, a2, -, -, a5⟩ := handle_fault_absent m err_code herr hrec hcr2 hp f1 f2
    rest hpool hf10 hf1 hne1 hf20 hf2
  obtain ⟨g2, h2, b1, b2, -, b4⟩ := mp3_handle_fault_absent m err_code herr hrec.1 hrec.2.1 hcr2
    cpt hcpt hdir hp g krest hker hg0 hg f1 (f2 :: rest) hpool hf10 hf1 hd hne2
  refine ⟨f1, f2, rest, g, krest, _, _, hpool, hker, h1, h2, a1, b1, a2, b2, ?_, ?_, rfl, rfl,
    rfl, rfl⟩
  · intro a ha1 ha2
    exact a5 a ha1 (fun t ht => by rw [hP] at ha2 ⊢; omega)
  · intro a ha1 ha2
    exact b4 a ha1 (fun t ht => by rw [hP] at ha2 ⊢; omega)

/-! ## Whole calls: ownership of the locks and the thread's own record -/



theorem Extends.same (P : CallEv → Prop) (c : Caller) : Extends P c c :=
  ⟨[], rfl, fun _ h => absurd h (List.not_mem_nil _)⟩

theorem Extends.of_log {P : CallEv → Prop} {c c' : Caller} (h : c'.log = c.log) :
    Extends P c c' :=
  ⟨[], by rw [h]; rfl, fun _ h => absurd h (List.not_mem_nil _)⟩

theorem Extends.chain {P : CallEv → Prop} {a b c : Caller} (h1 : Extends P a b)
    (h2 : Extends P b c) : Extends P a c := by
  obtain ⟨e1, t1, p1⟩ := h1
  obtain ⟨e2, t2, p2⟩ := h2
  refine ⟨e2 ++ e1, by rw [t2, t1, List.append_assoc], ?_⟩
  intro e he
  rcases List.mem_append.1 he with h | h
  · exact p2 e h
  · exact p1 e h

theorem Extends.single {P : CallEv → Prop} {a b : Caller} (e : CallEv) (hb : b.log = e :: a.log)
    (he : P e) : Extends P a b :=
  ⟨[e], hb, fun x hx => by rw [List.mem_singleton] at hx; rw [hx]; exact he⟩

/-- The end of `yield` adds nothing to the thread's record and changes no ownership. -/
theorem Whole.dispatched_frame (env : World → Option World) (c : Caller) (o : Outcome) :
    (Whole.dispatched env c o).caller.log = c.log ∧
      (Whole.dispatched env c o).caller.holds_hw = c.holds_hw ∧
      (Whole.dispatched env c o).caller.holds_queue = c.holds_queue := by
  cases o with
  | returned w => exact ⟨rfl, rfl, rfl⟩
  | switched w node =>
    cases h : env w <;> simp [Whole.dispatched, h, CallEnd.caller]
  | aborted w => exact ⟨rfl, rfl, rfl⟩
  | crashed w => exact ⟨rfl, rfl, rfl⟩
  | diverged => exact ⟨rfl, rfl, rfl⟩

/-- The spin of `lock()`: the record grows by what the inner yields add, and on return the
thread holds the lock in addition to what it held. -/
theorem Whole.lockLoop_spec (l : LockId) (Y : Caller → CallEnd) (P : CallEv → Prop)
    (hh : Bool) (strict : Prop)
    (hY : ∀ x, Owns hh strict x → Extends P x (Y x).caller ∧
      ∀ x', Y x = CallEnd.returned x' → Owns hh strict x') :
    ∀ (fuel : Nat) (c : Caller), Owns hh strict c →
      Extends P c (Whole.lockLoop l Y fuel c).caller ∧
      ∀ c', Whole.lockLoop l Y fuel c = CallEnd.returned c' →
        ∃ x, Owns hh strict x ∧ c'.holds_hw = (x.grant l true).holds_hw ∧
          c'.holds_queue = (x.grant l true).holds_queue := by
  intro fuel
  induction fuel with
  | zero =>
    intro c _
    exact ⟨Extends.same _ _, fun c' h => CallEnd.noConfusion h⟩
  | succ n ih =>
    intro c hc
    unfold Whole.lockLoop
    simp only []
    generalize (if c.world.interrupts then disable_interrupts c.world else c.world) = w1
    by_cases hlk : locked l w1 = false
    · rw [if_pos hlk]
      refine ⟨Extends.of_log (by cases l <;> rfl), fun c' h => ?_⟩
      injection h with h
      subst h
      exact ⟨c, hc, by cases l <;> rfl, by cases l <;> rfl⟩
    · rw [if_neg hlk]
      have hx : Owns hh strict { c with world := enable_interrupts w1 } := hc
      obtain ⟨e1, r1⟩ := hY _ hx
      cases hy : Y { c with world := enable_interrupts w1 } with
      | returned c2 =>
        rw [hy] at e1
        obtain ⟨e2, r2⟩ := ih c2 (r1 c2 hy)
        exact ⟨(Extends.chain (a := c) e1 e2), r2⟩
      | parked c2 node =>
        rw [hy] at e1
        exact ⟨e1, fun c' h => CallEnd.noConfusion h⟩
      | aborted c2 =>
        rw [hy] at e1
        exact ⟨e1, fun c' h => CallEnd.noConfusion h⟩
      | crashed c2 =>
        rw [hy] at e1
        exact ⟨e1, fun c' h => CallEnd.noConfusion h⟩
      | budget c2 =>
        rw [hy] at e1
        exact ⟨e1, fun c' h => CallEnd.noConfusion h⟩

theorem Owns.of_eq {hh : Bool} {strict : Prop} {c c' : Caller} (h : Owns hh strict c)
    (e1 : c'.holds_hw = c.holds_hw) (e2 : c'.holds_queue = c.holds_queue) :
    Owns hh strict c' := by
  intro hs
  rw [e1, e2]
  exact h hs

/-- After `queue_lock.lock()` and `queue_lock.unlock()` the thread owns what it owned. -/
theorem Owns.after_unlock {hh : Bool} {strict : Prop} {x c3 : Caller} (hx : Owns hh strict x)
    (e1 : c3.holds_hw = (x.grant LockId.queue_lock true).holds_hw) (w : World) :
    Owns hh strict (Whole.DiskLock.unlock LockId.queue_lock { c3 with world := w }) := by
  intro hs
  exact ⟨e1.trans (hx hs).1, rfl⟩

/-- `lock()` with its call recorded: the call itself is the first new event of the thread. -/
theorem Whole.lock_spec (l : LockId) (Y : Caller → CallEnd) (P : CallEv → Prop)
    (hh : Bool) (strict : Prop)
    (hY : ∀ x, Owns hh strict x → Extends P x (Y x).caller ∧
      ∀ x', Y x = CallEnd.returned x' → Owns hh strict x')
    (fuel : Nat) (c : Caller) (hc : Owns hh strict c) :
    Extends P (c.note (CallEv.lock l)) (Whole.DiskLock.lock l Y fuel c).caller ∧
      ∀ c', Whole.DiskLock.lock l Y fuel c = CallEnd.returned c' →
        ∃ x, Owns hh strict x ∧ c'.holds_hw = (x.grant l true).holds_hw ∧
          c'.holds_queue = (x.grant l true).holds_queue := by
  have h := Whole.lockLoop_spec l Y P hh strict hY fuel
    ({ c with world := c.world.emit (Ev.lock l) }.note (CallEv.lock l)) hc
  exact ⟨⟨h.1.choose, h.1.choose_spec.1, h.1.choose_spec.2⟩, h.2⟩

theorem Extends.of_note {P : CallEv → Prop} {c c' : Caller} {e : CallEv}
    (h : Extends P (c.note e) c') (he : P e) : Extends P c c' := by
  obtain ⟨evs, t, p⟩ := h
  refine ⟨evs ++ [e], by rw [t]; simp [Caller.note], ?_⟩
  intro x hx
  rcases List.mem_append.1 hx with h | h
  · exact p x h
  · rw [List.mem_singleton] at h
    rw [h]
    exact he

theorem Whole.dispatch_waiter_spec (env : World → Option World) (Y : Caller → CallEnd)
    (P : CallEv → Prop) (hh : Bool) (strict : Prop)
    (hY : ∀ x, Owns hh strict x → Extends P x (Y x).caller ∧
      ∀ x', Y x = CallEnd.returned x' → Owns hh strict x')
    (hl : P (CallEv.lock LockId.queue_lock))
    (fuel : Nat) (c : Caller) (hc : Owns hh strict c) :
    Extends P c (Whole.dispatch_waiter env Y fuel c).caller ∧
      ∀ c', Whole.dispatch_waiter env Y fuel c = CallEnd.returned c' → Owns hh strict c' := by
  obtain ⟨e1, r1⟩ := Whole.lock_spec LockId.queue_lock Y P hh strict hY fuel c hc
  have e1' := e1.of_note hl
  unfold Whole.dispatch_waiter
  cases hk : Whole.DiskLock.lock LockId.queue_lock Y fuel c with
  | returned c1 =>
    rw [hk] at e1'
    obtain ⟨x, hx, h1, -⟩ := r1 c1 hk
    simp only []
    cases hio : c1.world.io_head with
    | none => exact ⟨e1', fun c' h => CallEnd.noConfusion h⟩
    | some node =>
      simp only []
      cases hu : unlink_io_head c1.world node with
      | none => exact ⟨e1', fun c' h => CallEnd.noConfusion h⟩
      | some w2 =>
        simp only []
        have ho := Owns.after_unlock hx h1 w2
        obtain ⟨f1, f2, f3⟩ := Whole.dispatched_frame env
          (Whole.DiskLock.unlock LockId.queue_lock { c1 with world := w2 })
          (Outcome.switched
            (dispatch_to
              (if (Whole.DiskLock.unlock LockId.queue_lock
                  { c1 with world := w2 }).world.interrupts = false
                then enable_interrupts
                  (Whole.DiskLock.unlock LockId.queue_lock { c1 with world := w2 }).world
                else (Whole.DiskLock.unlock LockId.queue_lock { c1 with world := w2 }).world)
              ((if (Whole.DiskLock.unlock LockId.queue_lock
                  { c1 with world := w2 }).world.interrupts = false
                then enable_interrupts
                  (Whole.DiskLock.unlock LockId.queue_lock { c1 with world := w2 }).world
                else (Whole.DiskLock.unlock LockId.queue_lock
                  { c1 with world := w2 }).world).heap node).thread) node)
        refine ⟨e1'.chain (Extends.of_log (f1.trans rfl)), fun c' h => ?_⟩
        rw [h] at f2 f3
        exact ho.of_eq f2 f3
  | parked c1 node =>
    rw [hk] at e1'
    exact ⟨e1', fun c' h => CallEnd.noConfusion h⟩
  | aborted c1 =>
    rw [hk] at e1'
    exact ⟨e1', fun c' h => CallEnd.noConfusion h⟩
  | crashed c1 =>
    rw [hk] at e1'
    exact ⟨e1', fun c' h => CallEnd.noConfusion h⟩
  | budget c1 =>
    rw [hk] at e1'
    exact ⟨e1', fun c' h => CallEnd.noConfusion h⟩

theorem yieldStep_lock (site : Site) (hh : Bool) (strict : Prop) :
    YieldStep site hh strict (CallEv.lock LockId.queue_lock) := Or.inl rfl

theorem yieldStep_entry (site : Site) (hh : Bool) (strict : Prop) (c : Caller)
    (hc : Owns hh strict c) :
    YieldStep site hh strict (CallEv.yield site c.holds_hw c.holds_queue) :=
  Or.inr ⟨_, _, rfl, hc⟩

/-- A whole call of `yield`: the entry is the first new event of the thread, every further
event is a call of `queue_lock.lock()` or an entry into `yield` made with the same
ownership, and on return the thread owns what it owned. -/
theorem Whole.yield_spec (env : World → Option World) (site : Site) (hh : Bool)
    (strict : Prop) :
    ∀ (fuel : Nat) (c : Caller) (i : Int), Owns hh strict c →
      (fuel = 0 ∨ Extends (YieldStep site hh strict)
        (c.note (CallEv.yield site c.holds_hw c.holds_queue))
        (Whole.Scheduler.yield env site fuel c i).caller) ∧
      Extends (YieldStep site hh strict) c (Whole.Scheduler.yield env site fuel c i).caller ∧
      ∀ c', Whole.Scheduler.yield env site fuel c i = CallEnd.returned c' →
        Owns hh strict c' := by
  intro fuel
  induction fuel with
  | zero =>
    intro c i _
    exact ⟨Or.inl rfl, Extends.same _ _, fun c' h => CallEnd.noConfusion h⟩
  | succ n ih =>
    intro c i hc
    have hY : ∀ x, Owns hh strict x →
        Extends (YieldStep site hh strict) x (Whole.Scheduler.yield env site n x 0).caller ∧
        ∀ x', Whole.Scheduler.yield env site n x 0 = CallEnd.returned x' →
          Owns hh strict x' := fun x hx => (ih x 0 hx).2
    have key : Extends (YieldStep site hh strict)
        (c.note (CallEv.yield site c.holds_hw c.holds_queue))
        (Whole.Scheduler.yield env site (n + 1) c i).caller ∧
        ∀ c', Whole.Scheduler.yield env site (n + 1) c i = CallEnd.returned c' →
          Owns hh strict c' := by
      unfold Whole.Scheduler.yield
      simp only []
      generalize (if (c.world.emit (Ev.yield c.world.hw_locked c.world.queue_locked)).interrupts
        then disable_interrupts (c.world.emit (Ev.yield c.world.hw_locked c.world.queue_locked))
        else c.world.emit (Ev.yield c.world.hw_locked c.world.queue_locked)) = w1
      by_cases hcur : w1.current = none
      · rw [if_pos hcur]
        exact ⟨Extends.same _ _, fun c' h => CallEnd.noConfusion h⟩
      · rw [if_neg hcur]
        generalize (if i = 0 then is_busy { w1 with currThread := w1.current }
          else (false, { w1 with currThread := w1.current })) = b
        have hc0 : Owns hh strict
            { (c.note (CallEv.yield site c.holds_hw c.holds_queue)) with world := b.2 } := hc
        obtain ⟨e1, r1⟩ := Whole.lock_spec LockId.queue_lock _ _ hh strict hY n _ hc0
        have e1' : Extends (YieldStep site hh strict)
            (c.note (CallEv.yield site c.holds_hw c.holds_queue))
            (Whole.DiskLock.lock LockId.queue_lock
              (fun x => Whole.Scheduler.yield env site n x 0) n
              { (c.note (CallEv.yield site c.holds_hw c.holds_queue)) with
                world := b.2 }).caller :=
          Extends.chain (Extends.of_log rfl) (e1.of_note (yieldStep_lock site hh strict))
        cases hk : Whole.DiskLock.lock LockId.queue_lock
            (fun x => Whole.Scheduler.yield env site n x 0) n
            { (c.note (CallEv.yield site c.holds_hw c.holds_queue)) with world := b.2 } with
        | returned c3 =>
          rw [hk] at e1'
          obtain ⟨x, hx, h1, -⟩ := r1 c3 hk
          simp only []
          have ho : Owns hh strict (Whole.DiskLock.unlock LockId.queue_lock c3) :=
            Owns.after_unlock hx h1 c3.world
          by_cases hb : (b.1 || decide (c3.world.io_head = none)) = true
          · rw [if_pos hb]
            obtain ⟨f1, f2, f3⟩ := Whole.dispatched_frame env
              (Whole.DiskLock.unlock LockId.queue_lock c3)
              (dispatch_ready (Whole.DiskLock.unlock LockId.queue_lock c3).world)
            refine ⟨e1'.chain (Extends.of_log (f1.trans rfl)), fun c' h => ?_⟩
            rw [h] at f2 f3
            exact ho.of_eq f2 f3
          · rw [if_neg hb]
            obtain ⟨g1, g2⟩ := Whole.dispatch_waiter_spec env _ _ hh strict hY
              (yieldStep_lock site hh strict) n _ ho
            exact ⟨e1'.chain (Extends.chain (Extends.of_log rfl) g1), g2⟩
        | parked c1 node =>
          rw [hk] at e1'
          exact ⟨e1', fun c' h => CallEnd.noConfusion h⟩
        | aborted c1 =>
          rw [hk] at e1'
          exact ⟨e1', fun c' h => CallEnd.noConfusion h⟩
        | crashed c1 =>
          rw [hk] at e1'
          exact ⟨e1', fun c' h => CallEnd.noConfusion h⟩
        | budget c1 =>
          rw [hk] at e1'
          exact ⟨e1', fun c' h => CallEnd.noConfusion h⟩
    exact ⟨Or.inr key.1, key.1.of_note (yieldStep_entry site hh strict c hc), key.2⟩

theorem owns_any (hh : Bool) (x : Caller) : Owns hh False x :=
  fun h => absurd h id

/-- A whole call of `yield` with budget left: without a running thread it ends at its
assertion, having recorded its entry only; with one it calls `queue_lock.lock()` right after
its entry. -/
theorem Whole.yield_locks (env : World → Option World) (site : Site) (n : Nat) (c : Caller)
    (i : Int) :
    (c.world.current = none →
      (Whole.Scheduler.yield env site (n + 1) c i).caller.log =
        CallEv.yield site c.holds_hw c.holds_queue :: c.log) ∧
    (c.world.current ≠ none →
      Extends (YieldStep site false False)
        ((c.note (CallEv.yield site c.holds_hw c.holds_queue)).note
          (CallEv.lock LockId.queue_lock))
        (Whole.Scheduler.yield env site (n + 1) c i).caller) := by
  have hY : ∀ x, Owns false False x →
      Extends (YieldStep site false False) x (Whole.Scheduler.yield env site n x 0).caller ∧
      ∀ x', Whole.Scheduler.yield env site n x 0 = CallEnd.returned x' →
        Owns false False x' := fun x hx => (Whole.yield_spec env site false False n x 0 hx).2
  have hw1 : (if (c.world.emit (Ev.yield c.world.hw_locked c.world.queue_locked)).interrupts
      then disable_interrupts (c.world.emit (Ev.yield c.world.hw_locked c.world.queue_locked))
      else c.world.emit (Ev.yield c.world.hw_locked c.world.queue_locked)).current =
      c.world.current := by
    split <;> rfl
  unfold Whole.Scheduler.yield
  simp only []
  generalize (if (c.world.emit (Ev.yield c.world.hw_locked c.world.queue_locked)).interrupts
    then disable_interrupts (c.world.emit (Ev.yield c.world.hw_locked c.world.queue_locked))
    else c.world.emit (Ev.yield c.world.hw_locked c.world.queue_locked)) = w1 at hw1
  constructor
  · intro hcur
    rw [if_pos (hw1.trans hcur)]
    rfl
  · intro hcur
    rw [if_neg (by rw [hw1]; exact hcur)]
    generalize (if i = 0 then is_busy { w1 with currThread := w1.current }
      else (false, { w1 with currThread := w1.current })) = b
    obtain ⟨e1, r1⟩ := Whole.lock_spec LockId.queue_lock _ _ false False hY n
      { (c.note (CallEv.yield site c.holds_hw c.holds_queue)) with world := b.2 }
      (owns_any _ _)
    have e1' : Extends (YieldStep site false False)
        ((c.note (CallEv.yield site c.holds_hw c.holds_queue)).note
          (CallEv.lock LockId.queue_lock))
        (Whole.DiskLock.lock LockId.queue_lock
          (fun x => Whole.Scheduler.yield env site n x 0) n
          { (c.note (CallEv.yield site c.holds_hw c.holds_queue)) with
            world := b.2 }).caller :=
      Extends.chain (Extends.of_log rfl) e1
    cases hk : Whole.DiskLock.lock LockId.queue_lock
        (fun x => Whole.Scheduler.yield env site n x 0) n
        { (c.note (CallEv.yield site c.holds_hw c.holds_queue)) with world := b.2 } with
    | returned c3 =>
      rw [hk] at e1'
      simp only []
      by_cases hb : (b.1 || decide (c3.world.io_head = none)) = true
      · rw [if_pos hb]
        obtain ⟨f1, -, -⟩ := Whole.dispatched_frame env
          (Whole.DiskLock.unlock LockId.queue_lock c3)
          (dispatch_ready (Whole.DiskLock.unlock LockId.queue_lock c3).world)
        exact e1'.chain (Extends.of_log (f1.trans rfl))
      · rw [if_neg hb]
        obtain ⟨g1, -⟩ := Whole.dispatch_waiter_spec env _ _ false False hY
          (yieldStep_lock site false False) n (Whole.DiskLock.unlock LockId.queue_lock c3)
          (owns_any _ _)
        exact e1'.chain (Extends.chain (Extends.of_log rfl) g1)
    | parked c1 node =>
      rw [hk] at e1'
      exact e1'
    | aborted c1 =>
      rw [hk] at e1'
      exact e1'
    | crashed c1 =>
      rw [hk] at e1'
      exact e1'
    | budget c1 =>
      rw [hk] at e1'
      exact e1'

/-- A whole call of `handle_interrupt`, whatever the state, the environment and the budget:
the thread never calls `hw_lock.lock()`; it calls `queue_lock.lock()` if a thread is running
and no `lock()` otherwise. -/
theorem Whole.handle_interrupt_spec (env : World → Option World) (n : Nat) (c : Caller)
    (node : Nat) :
    ∃ evs, (Whole.NonBlockingDisk.handle_interrupt env (n + 1) c node).caller.log =
        evs ++ c.log ∧
      CallEv.lock LockId.hw_lock ∉ evs ∧
      (c.world.current ≠ none → CallEv.lock LockId.queue_lock ∈ evs) ∧
      (c.world.current = none → ∀ l, CallEv.lock l ∉ evs) := by
  have hcur : (DiskBuild.Scheduler.resume c.world c.world.current node).current =
      c.world.current := (resume_frame c.world c.world.current node).1
  obtain ⟨a1, a2⟩ := Whole.yield_locks env Site.irq n
    { c with world := DiskBuild.Scheduler.resume c.world c.world.current node } 1
  show ∃ evs, (Whole.Scheduler.yield env Site.irq (n + 1)
    { c with world := DiskBuild.Scheduler.resume c.world c.world.current node } 1).caller.log =
      evs ++ c.log ∧ _
  by_cases h0 : c.world.current = none
  · refine ⟨[CallEv.yield Site.irq c.holds_hw c.holds_queue], a1 (hcur.trans h0), ?_, ?_, ?_⟩
    · simp
    · intro h; exact absurd h0 h
    · intro _ l; simp
  · obtain ⟨evs, t, p⟩ := a2 (by rw [hcur]; exact h0)
    refine ⟨evs ++ [CallEv.lock LockId.queue_lock,
      CallEv.yield Site.irq c.holds_hw c.holds_queue], ?_, ?_, ?_, ?_⟩
    · rw [t]
      simp [Caller.note]
    · intro hmem
      rcases List.mem_append.1 hmem with h | h
      · rcases p _ h with h' | ⟨_, _, h', -⟩ <;> cases h'
      · simp at h
    · intro _
      simp
    · intro h; exact absurd h h0

theorem whole_lockLoop_outcome (l : LockId) (Y : Caller → CallEnd) (Y0 : World → Outcome)
    (hY : ∀ x, (Y x).outcome = Y0 x.world) :
    ∀ (fuel : Nat) (c : Caller),
      (Whole.lockLoop l Y fuel c).outcome = lockLoop l Y0 fuel c.world := by
  intro fuel
  induction fuel with
  | zero => intro c; rfl
  | succ n ih =>
    intro c
    unfold Whole.lockLoop lockLoop
    simp only []
    generalize (if c.world.interrupts then disable_interrupts c.world else c.world) = w1
    by_cases hlk : locked l w1 = false
    · rw [if_pos hlk, if_pos hlk]
      rfl
    · rw [if_neg hlk, if_neg hlk]
      have h := hY { c with world := enable_interrupts w1 }
      cases hy : Y { c with world := enable_interrupts w1 } with
      | returned c2 =>
        rw [hy] at h
        rw [← h]
        exact ih c2
      | parked c2 node => rw [hy] at h; rw [← h]; rfl
      | aborted c2 => rw [hy] at h; rw [← h]; rfl
      | crashed c2 => rw [hy] at h; rw [← h]; rfl
      | budget c2 => rw [hy] at h; rw [← h]; rfl

theorem whole_lock_outcome (l : LockId) (Y : Caller → CallEnd) (Y0 : World → Outcome)
    (hY : ∀ x, (Y x).outcome = Y0 x.world) (fuel : Nat) (c : Caller) :
    (Whole.DiskLock.lock l Y fuel c).outcome = DiskLock.lock l Y0 fuel c.world :=
  whole_lockLoop_outcome l Y Y0 hY fuel _

theorem whole_dispatched_outcome (c : Caller) (o : Outcome) :
    (Whole.dispatched (fun _ => none) c o).outcome = o := by
  cases o <;> rfl

theorem whole_dispatch_waiter_outcome (Y : Caller → CallEnd) (Y0 : World → Outcome)
    (hY : ∀ x, (Y x).outcome = Y0 x.world) (fuel : Nat) (c : Caller) :
    (Whole.dispatch_waiter (fun _ => none) Y fuel c).outcome =
      dispatch_waiter Y0 fuel c.world := by
  have h := whole_lock_outcome LockId.queue_lock Y Y0 hY fuel c
  unfold Whole.dispatch_waiter dispatch_waiter
  cases hk : Whole.DiskLock.lock LockId.queue_lock Y fuel c with
  | returned c1 =>
    rw [hk] at h
    rw [← h]
    simp only [CallEnd.outcome]
    cases c1.world.io_head with
    | none => rfl
    | some node =>
      simp only []
      cases unlink_io_head c1.world node with
      | none => rfl
      | some w2 => rfl
  | parked c1 node => rw [hk] at h; rw [← h]; rfl
  | aborted c1 => rw [hk] at h; rw [← h]; rfl
  | crashed c1 => rw [hk] at h; rw [← h]; rfl
  | budget c1 => rw [hk] at h; rw [← h]; rfl

/-- With an environment that never dispatches the thread again, the whole call of `yield`
ends as `DiskBuild.Scheduler.yield` does, in the same state. -/
theorem whole_yield_outcome (site : Site) :
    ∀ (fuel : Nat) (c : Caller) (i : Int),
      (Whole.Scheduler.yield (fun _ => none) site fuel c i).outcome =
        DiskBuild.Scheduler.yield fuel c.world i := by
  intro fuel
  induction fuel with
  | zero => intro c i; rfl
  | succ n ih =>
    intro c i
    have hY : ∀ x : Caller, (Whole.Scheduler.yield (fun _ => none) site n x 0).outcome =
        (fun w => DiskBuild.Scheduler.yield n w 0) x.world := fun x => ih x 0
    unfold Whole.Scheduler.yield DiskBuild.Scheduler.yield
    simp only []
    generalize (if (c.world.emit (Ev.yield c.world.hw_locked c.world.queue_locked)).interrupts
      then disable_interrupts (c.world.emit (Ev.yield c.world.hw_locked c.world.queue_locked))
      else c.world.emit (Ev.yield c.world.hw_locked c.world.queue_locked)) = w1
    by_cases hcur : w1.current = none
    · rw [if_pos hcur, if_pos hcur]
      rfl
    · rw [if_neg hcur, if_neg hcur]
      generalize (if i = 0 then is_busy { w1 with currThread := w1.current }
        else (false, { w1 with currThread := w1.current })) = b
      have h := whole_lock_outcome LockId.queue_lock
        (fun x => Whole.Scheduler.yield (fun _ => none) site n x 0)
        (fun w => DiskBuild.Scheduler.yield n w 0) hY n
        { (c.note (CallEv.yield site c.holds_hw c.holds_queue)) with world := b.2 }
      cases hk : Whole.DiskLock.lock LockId.queue_lock
          (fun x => Whole.Scheduler.yield (fun _ => none) site n x 0) n
          { (c.note (CallEv.yield site c.holds_hw c.holds_queue)) with world := b.2 } with
      | returned c3 =>
        rw [hk] at h
        have h' : DiskLock.lock LockId.queue_lock (fun w => DiskBuild.Scheduler.yield n w 0) n
            b.2 = Outcome.returned c3.world := h.symm
        rw [h']
        simp only []
        by_cases hb : (b.1 || decide (c3.world.io_head = none)) = true
        · rw [if_pos hb, if_pos hb]
          exact whole_dispatched_outcome _ _
        · rw [if_neg hb, if_neg hb]
          exact whole_dispatch_waiter_outcome
            (fun x => Whole.Scheduler.yield (fun _ => none) site n x 0)
            (fun w => DiskBuild.Scheduler.yield n w 0) hY n _
      | parked c1 node =>
        rw [hk] at h
        have h' : DiskLock.lock LockId.queue_lock (fun w => DiskBuild.Scheduler.yield n w 0) n
            b.2 = Outcome.switched c1.world node := h.symm
        rw [h']
        rfl
      | aborted c1 =>
        rw [hk] at h
        have h' : DiskLock.lock LockId.queue_lock (fun w => DiskBuild.Scheduler.yield n w 0) n
            b.2 = Outcome.aborted c1.world := h.symm
        rw [h']
        rfl
      | crashed c1 =>
        rw [hk] at h
        have h' : DiskLock.lock LockId.queue_lock (fun w => DiskBuild.Scheduler.yield n w 0) n
            b.2 = Outcome.crashed c1.world := h.symm
        rw [h']
        rfl
      | budget c1 =>
        rw [hk] at h
        have h' : DiskLock.lock LockId.queue_lock (fun w => DiskBuild.Scheduler.yield n w 0) n
            b.2 = Outcome.diverged := h.symm
        rw [h']
        rfl

theorem whole_wait_outcome :
    ∀ (fuel : Nat) (c : Caller),
      (Whole.NonBlockingDisk.wait_while_busy (fun _ => none) fuel c).outcome =
        NonBlockingDisk.wait_while_busy fuel c.world := by
  intro fuel
  induction fuel with
  | zero => intro c; rfl
  | succ n ih =>
    intro c
    unfold Whole.NonBlockingDisk.wait_while_busy NonBlockingDisk.wait_while_busy
    simp only []
    by_cases hb : (is_busy c.world).1 = true
    · rw [if_pos hb, if_pos hb]
      have h := whole_yield_outcome Site.transfer n { c with world := (is_busy c.world).2 } 0
      cases hk : Whole.Scheduler.yield (fun _ => none) Site.transfer n
          { c with world := (is_busy c.world).2 } 0 with
      | returned c1 =>
        rw [hk] at h
        have h' : DiskBuild.Scheduler.yield n (is_busy c.world).2 0 =
            Outcome.returned c1.world := h.symm
        rw [h']
        exact ih c1
      | parked c1 node =>
        rw [hk] at h
        have h' : DiskBuild.Scheduler.yield n (is_busy c.world).2 0 =
            Outcome.switched c1.world node := h.symm
        rw [h']
        rfl
      | aborted c1 =>
        rw [hk] at h
        have h' : DiskBuild.Scheduler.yield n (is_busy c.world).2 0 =
            Outcome.aborted c1.world := h.symm
        rw [h']
        rfl
      | crashed c1 =>
        rw [hk] at h
        have h' : DiskBuild.Scheduler.yield n (is_busy c.world).2 0 =
            Outcome.crashed c1.world := h.symm
        rw [h']
        rfl
      | budget c1 =>
        rw [hk] at h
        have h' : DiskBuild.Scheduler.yield n (is_busy c.world).2 0 =
            Outcome.diverged := h.symm
        rw [h']
        rfl
    · rw [if_neg hb, if_neg hb]
      rfl

/-- With an environment that never dispatches the thread again, the whole call of
`handle_interrupt` ends as `NonBlockingDisk.handle_interrupt` does. -/
theorem whole_handle_interrupt_outcome (fuel : Nat) (c : Caller) (node : Nat) :
    (Whole.NonBlockingDisk.handle_interrupt (fun _ => none) fuel c node).outcome =
      NonBlockingDisk.handle_interrupt fuel c.world node :=
  whole_yield_outcome Site.irq fuel _ 1

/-- With an environment that never dispatches the thread again, the whole call of `read`
ends as `NonBlockingDisk.read` does, in the same state. -/
theorem whole_read_outcome (fuel : Nat) (c : Caller) (io_node ready_node : Nat) :
    (Whole.NonBlockingDisk.read (fun _ => none) fuel c io_node ready_node).outcome =
      NonBlockingDisk.read fuel c.world io_node ready_node := by
  have hY1 : ∀ x : Caller,
      (Whole.Scheduler.yield (fun _ => none) Site.enqueue fuel x 0).outcome =
        (fun w => DiskBuild.Scheduler.yield fuel w 0) x.world :=
    fun x => whole_yield_outcome _ fuel x 0
  have hY2 : ∀ x : Caller,
      (Whole.Scheduler.yield (fun _ => none) Site.acquire fuel x 0).outcome =
        (fun w => DiskBuild.Scheduler.yield fuel w 0) x.world :=
    fun x => whole_yield_outcome _ fuel x 0
  unfold Whole.NonBlockingDisk.read NonBlockingDisk.read
  simp only []
  have h1 := whole_lock_outcome LockId.queue_lock
    (fun x => Whole.Scheduler.yield (fun _ => none) Site.enqueue fuel x 0)
    (fun w => DiskBuild.Scheduler.yield fuel w 0) hY1 fuel
    { c with world := new_node c.world io_node c.world.current }
  cases k1 : Whole.DiskLock.lock LockId.queue_lock
      (fun x => Whole.Scheduler.yield (fun _ => none) Site.enqueue fuel x 0) fuel
      { c with world := new_node c.world io_node c.world.current } with
  | returned c2 =>
    rw [k1] at h1
    have h1' : DiskLock.lock LockId.queue_lock (fun w => DiskBuild.Scheduler.yield fuel w 0)
        fuel (new_node c.world io_node c.world.current) = Outcome.returned c2.world := h1.symm
    rw [h1']
    simp only []
    have h2 := whole_lock_outcome LockId.hw_lock
      (fun x => Whole.Scheduler.yield (fun _ => none) Site.acquire fuel x 0)
      (fun w => DiskBuild.Scheduler.yield fuel w 0) hY2 fuel
      (Whole.DiskLock.unlock LockId.queue_lock { c2 with world := io_append c2.world io_node })
    cases k2 : Whole.DiskLock.lock LockId.hw_lock
        (fun x => Whole.Scheduler.yield (fun _ => none) Site.acquire fuel x 0) fuel
        (Whole.DiskLock.unlock LockId.queue_lock
          { c2 with world := io_append c2.world io_node }) with
    | returned c5 =>
      rw [k2] at h2
      have h2' : DiskLock.lock LockId.hw_lock (fun w => DiskBuild.Scheduler.yield fuel w 0)
          fuel (DiskLock.unlock LockId.queue_lock (io_append c2.world io_node)) =
          Outcome.returned c5.world := h2.symm
      rw [h2']
      simp only []
      have h3 : (Whole.SimpleDisk.read (fun _ => none) fuel c5).outcome =
          SimpleDisk.read fuel c5.world := whole_wait_outcome fuel c5
      cases k3 : Whole.SimpleDisk.read (fun _ => none) fuel c5 with
      | returned c6 =>
        rw [k3] at h3
        have h3' : SimpleDisk.read fuel c5.world = Outcome.returned c6.world := h3.symm
        rw [h3']
        exact whole_yield_outcome Site.finish fuel _ 0
      | parked c1 node =>
        rw [k3] at h3
        have h3' : SimpleDisk.read fuel c5.world = Outcome.switched c1.world node := h3.symm
        rw [h3']
        rfl
      | aborted c1 =>
        rw [k3] at h3
        have h3' : SimpleDisk.read fuel c5.world = Outcome.aborted c1.world := h3.symm
        rw [h3']
        rfl
      | crashed c1 =>
        rw [k3] at h3
        have h3' : SimpleDisk.read fuel c5.world = Outcome.crashed c1.world := h3.symm
        rw [h3']
        rfl
      | budget c1 =>
        rw [k3] at h3
        have h3' : SimpleDisk.read fuel c5.world = Outcome.diverged := h3.symm
        rw [h3']
        rfl
    | parked c1 node =>
      rw [k2] at h2
      have h2' : DiskLock.lock LockId.hw_lock (fun w => DiskBuild.Scheduler.yield fuel w 0)
          fuel (DiskLock.unlock LockId.queue_lock (io_append c2.world io_node)) =
          Outcome.switched c1.world node := h2.symm
      rw [h2']
      rfl
    | aborted c1 =>
      rw [k2] at h2
      have h2' : DiskLock.lock LockId.hw_lock (fun w => DiskBuild.Scheduler.yield fuel w 0)
          fuel (DiskLock.unlock LockId.queue_lock (io_append c2.world io_node)) =
          Outcome.aborted c1.world := h2.symm
      rw [h2']
      rfl
    | crashed c1 =>
      rw [k2] at h2
      have h2' : DiskLock.lock LockId.hw_lock (fun w => DiskBuild.Scheduler.yield fuel w 0)
          fuel (DiskLock.unlock LockId.queue_lock (io_append c2.world io_node)) =
          Outcome.crashed c1.world := h2.symm
      rw [h2']
      rfl
    | budget c1 =>
      rw [k2] at h2
      have h2' : DiskLock.lock LockId.hw_lock (fun w => DiskBuild.Scheduler.yield fuel w 0)
          fuel (DiskLock.unlock LockId.queue_lock (io_append c2.world io_node)) =
          Outcome.diverged := h2.symm
      rw [h2']
      rfl
  | parked c1 node =>
    rw [k1] at h1
    have h1' : DiskLock.lock LockId.queue_lock (fun w => DiskBuild.Scheduler.yield fuel w 0)
        fuel (new_node c.world io_node c.world.current) = Outcome.switched c1.world node :=
      h1.symm
    rw [h1']
    rfl
  | aborted c1 =>
    rw [k1] at h1
    have h1' : DiskLock.lock LockId.queue_lock (fun w => DiskBuild.Scheduler.yield fuel w 0)
        fuel (new_node c.world io_node c.world.current) = Outcome.aborted c1.world := h1.symm
    rw [h1']
    rfl
  | crashed c1 =>
    rw [k1] at h1
    have h1' : DiskLock.lock LockId.queue_lock (fun w => DiskBuild.Scheduler.yield fuel w 0)
        fuel (new_node c.world io_node c.world.current) = Outcome.crashed c1.world := h1.symm
    rw [h1']
    rfl
  | budget c1 =>
    rw [k1] at h1
    have h1' : DiskLock.lock LockId.queue_lock (fun w => DiskBuild.Scheduler.yield fuel w 0)
        fuel (new_node c.world io_node c.world.current) = Outcome.diverged := h1.symm
    rw [h1']
    rfl

/-! ## Runs keep clear of the metadata pages -/

theorem freeLoop_pages_ge (pools : List VMPool) (bound : Nat) (hbd : bound % PAGE_SIZE = 0)
    (hbU : bound < ULONG) :
    ∀ (fuel i : Nat) (pages : List Nat), i % PAGE_SIZE = 0 →
      freeLoop pools bound fuel i = some pages → ∀ n ∈ pages, i / PAGE_SIZE ≤ n := by
  have hP : PAGE_SIZE = 4096 := rfl
  have hU : ULONG = 4294967296 := rfl
  intro fuel
  induction fuel with
  | zero =>
    intro i pages _ h n hn
    have : pages = [] := (Option.some.inj h).symm
    rw [this] at hn
    exact absurd hn (List.not_mem_nil _)
  | succ f ih =>
    intro i pages hi h n hn
    unfold freeLoop at h
    by_cases hlt : i < bound
    · rw [if_pos hlt] at h
      simp only [] at h
      by_cases hc : free_page_check pools (i / PAGE_SIZE) = true
      · rw [if_pos hc] at h
        have hu : uadd i PAGE_SIZE = i + PAGE_SIZE :=
          uadd_eq (by
            have h1 : i % 4096 = 0 := hi
            have h2 : bound % 4096 = 0 := hbd
            have h3 : bound < 4294967296 := hbU
            show i + 4096 < 4294967296
            omega)
        rw [hu] at h
        cases hr : freeLoop pools bound f (i + PAGE_SIZE) with
        | none => rw [hr] at h; exact Option.noConfusion h
        | some l =>
          rw [hr] at h
          have hp : pages = i / PAGE_SIZE :: l := (Option.some.inj h).symm
          rw [hp] at hn
          rcases List.mem_cons.1 hn with e | e
          · rw [e]
          · have := ih (i + PAGE_SIZE) l (by rw [hP] at *; omega) hr n e
            rw [hP] at this ⊢
            omega
      · rw [if_neg hc] at h
        exact Option.noConfusion h
    · rw [if_neg hlt] at h
      have : pages = [] := (Option.some.inj h).symm
      rw [this] at hn
      exact absurd hn (List.not_mem_nil _)

/-- No `release` of a run passes one of the pool's two metadata pages to `free_page`: the
addresses released are results of `allocate`, whose regions lie above the metadata pages.
So on a run the lists `release` edits are mapped throughout the call. -/
theorem Run.release_spares_metadata {b s : Nat} {p0 p p' : VMPool} {tr : List Event}
    {pools : List VMPool} {va : Nat} {pages : List Nat} (hb0 : 0 < b) (hbs : b + s ≤ ULONG) (h0 : Consistent b s p0) (i0 : PoolInv p0)
    (hrun : Run p0 tr p) (hva : ∃ n, Event.allocate n va ∈ tr)
    (hrel : p.release pools va = some (p', pages)) :
    ∀ n ∈ pages, b / PAGE_SIZE + 2 ≤ n := by
  have hP : PAGE_SIZE = 4096 := rfl
  have hU : ULONG = 4294967296 := rfl
  obtain ⟨c, -, r⟩ := Run.consistent hb0 hbs h0 i0 hrun
  obtain ⟨k, hk⟩ := hva
  obtain ⟨v1, v2⟩ := r k va hk
  obtain ⟨j, m, hj, -, hst, ha1, ha2, hfree, -⟩ := (release_some pools p va p' pages).1 hrel
  have hj2 : 2 ≤ j := by
    by_contra hc
    have : j = 0 ∨ j = 1 := by omega
    rcases this with rfl | rfl
    · exact v1 (hst.symm.trans c.meta0.1)
    · exact v2 (hst.symm.trans c.meta1.1)
  intro n hn
  by_cases hl : lenAt p.alloc_list j = 0
  · rw [hl] at hfree
    have hu : uadd (startAt p.alloc_list j) 0 = startAt p.alloc_list j % ULONG := rfl
    rw [hu, freeLoop_stop _ _ _ _ (by
      have := Nat.mod_le (startAt p.alloc_list j) ULONG
      omega)] at hfree
    have : pages = [] := (Option.some.inj hfree).symm
    rw [this] at hn
    exact absurd hn (List.not_mem_nil _)
  · obtain ⟨lo, hi⟩ := c.alloc_bounds j hj2 hj hl
    by_cases hw : startAt p.alloc_list j + lenAt p.alloc_list j < ULONG
    · rw [uadd_eq hw] at hfree
      have := freeLoop_pages_ge pools _ (by rw [hP] at *; omega) hw _ _ pages ha1 hfree n hn
      rw [hP] at this lo ⊢
      omega
    · have he : startAt p.alloc_list j + lenAt p.alloc_list j = ULONG := by omega
      have hu : uadd (startAt p.alloc_list j) (lenAt p.alloc_list j) = 0 := by
        show (startAt p.alloc_list j + lenAt p.alloc_list j) % ULONG = 0
        rw [he]
        exact Nat.mod_self _
      rw [hu, freeLoop_stop _ _ _ _ (by omega)] at hfree
      have : pages = [] := (Option.some.inj hfree).symm
      rw [this] at hn
      exact absurd hn (List.not_mem_nil _)

/-! ## The claims -/

/-- C10 (as stated, refuted): after `allocate(0)` on the freshly constructed scenario pool the
pair of `alloc_list` that follows the two live entries holds `(0x40002000, 0)`, so the
pairs after the last live entry are not all `(0,0)`. -/
theorem list_shape_allocate_zero :
    Reach pool0 (pool0_after 0) ∧ pool0.allocate 0 = some (pool0_after 0, 0x40002000) ∧
      ¬ PrefixZero (pool0_after 0).alloc_list := by
  have ha := pool0_allocate 0 (by decide)
  refine ⟨Reach.allocate Reach.init (by decide) ha, ha, ?_⟩
  rintro ⟨n, _, hlive, hzero⟩
  have h2 : lenAt (pool0_after 0).alloc_list 2 = 0 := by
    rw [pool0_after_alloc_len, if_pos rfl]; rfl
  have h2s : startAt (pool0_after 0).alloc_list 2 = 0x40002000 := by
    rw [pool0_after_alloc_start, if_pos rfl]
  have hn : n ≤ 2 := by
    by_contra hc
    exact hlive 2 (by omega) h2
  have := (hzero 2 hn (by omega)).1
  rw [h2s] at this
  omega

/-- C10 (amended): in every state reachable from construction by `allocate` and `release`
calls of any sizes and addresses, in both `alloc_list` and `free_list` the live entries
(non-zero length field) are a prefix of at most 511 pairs, the pair right after them has
length field 0, and every later pair is exactly `(0,0)`. -/
theorem list_shape_reachable (obj b s : Nat) (head : Option Nat) (ma mf : Nat → Nat)
    (p : VMPool) (hb : b < ULONG) (h : Reach (VMPool.construct obj b s head ma mf).1 p) :
    PrefixLen p.alloc_list ∧ PrefixLen p.free_list := by
  have := h.inv (construct_inv obj b s head ma mf hb)
  exact ⟨this.1.live_entries, this.2.live_entries⟩

theorem list_shape_reachable_witness :
    (0x40000000 < ULONG ∧ Reach pool0 (pool0_after 0)) ∧
      PrefixLen (pool0_after 0).alloc_list ∧ PrefixLen (pool0_after 0).free_list :=
  ⟨⟨by decide, Reach.allocate Reach.init (by decide) (pool0_allocate 0 (by decide))⟩,
    list_shape_reachable 1 0x40000000 0x01000000 none (fun _ => 0) (fun _ => 0) _ (by decide)
      (Reach.allocate Reach.init (by decide) (pool0_allocate 0 (by decide)))⟩

/-- C9 (as stated, refuted): constructing a one-page pool (`size = PAGE_SIZE`) at the
page-aligned base `0x40000000` stores the length `PAGE_SIZE - 2 * PAGE_SIZE = 0xFFFFF000` in
`free_list[1]`, so the free span does not cover `[base + 2 * PAGE_SIZE, base + size)`. -/
theorem construct_one_page_pool :
    ¬ ConstructPost 1 0x40000000 4096 none
        (VMPool.construct 1 0x40000000 4096 none (fun _ => 0) (fun _ => 0)) := by
  intro h
  have h1 := h.2.2.2.2.2.2.2.2.1
  rw [construct_free, construct_free] at h1
  revert h1
  decide

/-- C9 (amended): for every base with `base + 2 * PAGE_SIZE < 2^32` and every size with
`PAGE_SIZE < size ≤ 2^32 - PAGE_SIZE` (so that the rounded size holds the two metadata pages
and the rounding does not wrap), the constructor leaves `alloc_list[0..1] = (base, PAGE_SIZE)`,
`alloc_list[2..3] = (base + PAGE_SIZE, PAGE_SIZE)`, every other `alloc_list` slot 0,
`free_list[0..1]` the span covering exactly `[base + 2 * PAGE_SIZE, base + size)`, every
other `free_list` slot 0, and the pool at the head of the page table's pool list. -/
theorem construct_post_state (obj b s : Nat) (head : Option Nat) (ma mf : Nat → Nat)
    (hb : b + 2 * PAGE_SIZE < ULONG) (hs : s ≤ ULONG - PAGE_SIZE) (h2 : PAGE_SIZE < s) :
    ConstructPost obj b s head (VMPool.construct obj b s head ma mf) :=
  construct_post obj b s head ma mf hb hs h2

theorem construct_post_state_witness :
    (0x40000000 + 2 * PAGE_SIZE < ULONG ∧ 0x01000000 ≤ ULONG - PAGE_SIZE ∧
      PAGE_SIZE < 0x01000000) ∧
    ConstructPost 1 0x40000000 0x01000000 none
      (VMPool.construct 1 0x40000000 0x01000000 none (fun _ => 0) (fun _ => 0)) :=
  ⟨by decide, construct_post_state 1 0x40000000 0x01000000 none (fun _ => 0) (fun _ => 0)
    (by decide) (by decide) (by decide)⟩

/-- C8 (as stated, refuted): on the freshly constructed scenario pool no `free_list` pair
has a length of at least the page-rounded size of `0xFFFFFFFF` (which is `2^32`), yet
`allocate(0xFFFFFFFF)` does not abort: the rounding wraps to 0 in `unsigned long`. -/
theorem allocate_rounding_wraps : ¬ AbortsExactly pool0 0xFFFFFFFF := by
  intro h
  have hall : ∀ k, k < 512 → lenAt pool0.free_list k < pageCeil 0xFFFFFFFF := by
    intro k hk
    rw [pool0_free_len k hk]
    have : pageCeil 0xFFFFFFFF = 4294967296 := by decide
    rw [this]
    split_ifs <;> omega
  have hnone := h.2 (Or.inl hall)
  rcases (allocate_none pool0 0xFFFFFFFF).1 hnone with h1 | h1
  · have := h1 0 (by omega)
    have hr : roundUp 0xFFFFFFFF = 0 := by decide
    rw [hr] at this
    omega
  · have := h1 2 (by omega)
    exact this (by rw [pool0_alloc_len 2 (by omega)]; rfl)

/-- C8 (amended): in every state reachable from construction and for every size up to
`2^32 - PAGE_SIZE` (so that the rounding does not wrap), `allocate(size)` aborts exactly
when no `free_list` pair has a length of at least the page-rounded size or `alloc_list`
holds 511 live entries; otherwise it returns. -/
theorem allocate_aborts_exactly (obj b s : Nat) (head : Option Nat) (ma mf : Nat → Nat)
    (p : VMPool) (n : Nat) (hb : b < ULONG)
    (h : Reach (VMPool.construct obj b s head ma mf).1 p) (hn : n ≤ ULONG - PAGE_SIZE) :
    AbortsExactly p n := by
  have hinv := h.inv (construct_inv obj b s head ma mf hb)
  unfold AbortsExactly
  rw [allocate_none, pageCeil_eq_roundUp n hn, hinv.1.liveCount_full]

theorem allocate_aborts_exactly_witness :
    (0x40000000 < ULONG ∧ Reach pool0 pool0 ∧ 12288 ≤ ULONG - PAGE_SIZE) ∧
      AbortsExactly pool0 12288 :=
  ⟨⟨by decide, Reach.init, by decide⟩,
    allocate_aborts_exactly 1 0x40000000 0x01000000 none (fun _ => 0) (fun _ => 0) pool0 12288
      (by decide) Reach.init (by decide)⟩

/-- C7 (as stated, refuted): on the freshly constructed scenario pool, address 0 is not the
start of any live `alloc_list` entry, yet `release(0)` returns: its scan stops at the first
empty pair, whose start field is 0. -/
theorem release_zero_returns : ¬ UnknownAborts [pool0] pool0 0 := by
  intro h
  have hnone := h (by
    intro k hk
    rw [pool0_alloc_len k hk, pool0_alloc_start k hk]
    split_ifs <;> omega)
  have h1 : startAt pool0.alloc_list 2 = 0 := by rw [pool0_alloc_start 2 (by omega)]; rfl
  have h2 : lenAt pool0.alloc_list 2 = 0 := by rw [pool0_alloc_len 2 (by omega)]; rfl
  have hsome : ∃ r, pool0.release [pool0] 0 = some r := by
    refine ⟨(_, []), (release_some [pool0] pool0 0 _ []).2
      ⟨2, 1, by omega, ?_, h1, ?_, ?_, ?_, by omega, ?_, ?_, rfl⟩⟩
    · intro k hk
      rw [pool0_alloc_start k (by omega)]
      split_ifs <;> omega
    · simp only [h1, Nat.zero_mod]
    · simp only [h2, Nat.zero_mod]
    · rw [h1, h2]
      exact freeLoop_stop _ _ _ _ (by decide)
    · intro k hk
      rw [pool0_free_len k (by omega)]
      split_ifs <;> omega
    · rw [pool0_free_len 1 (by omega)]; rfl
  obtain ⟨r, hr⟩ := hsome
  rw [hnone] at hr
  exact absurd hr (by simp)

/-- C7 (amended): for every pool state and every address that is not the start field of any
of the 512 pairs of `alloc_list` (empty pairs have start field 0, so the address is not 0),
`release` aborts on the assertion of its scanning loop. -/
theorem release_unknown_aborts (pools : List VMPool) (p : VMPool) (a : Nat)
    (h : ∀ k, k < 512 → startAt p.alloc_list k ≠ a) : p.release pools a = none :=
  release_none_unknown pools p a h

theorem release_unknown_aborts_witness :
    (∀ k, k < 512 → startAt pool0.alloc_list k ≠ 0x50000000) ∧
      pool0.release [pool0] 0x50000000 = none :=
  ⟨by intro k hk; rw [pool0_alloc_start k hk]; split_ifs <;> omega,
    release_unknown_aborts [pool0] pool0 0x50000000
      (by intro k hk; rw [pool0_alloc_start k hk]; split_ifs <;> omega)⟩

/-- C1 (as stated, refuted): the freshly constructed one-page pool at the page-aligned base
`0x40000000` records the free span `(0x40002000, 0xFFFFF000)`, which contains the byte
`0x40002000`, although `[base + 2 * PAGE_SIZE, base + size)` is empty. -/
theorem conservation_one_page_pool :
    Run onePagePool [] onePagePool ∧ ¬ Conserved 0x40000000 4096 onePagePool := by
  refine ⟨Run.init, fun h => ?_⟩
  have hc := h 0x40002000
  have hpos := coverCount_pos onePagePool.free_list 0x40002000 0 512 0 (by omega) (by omega)
    (by rw [onePagePool_free_start 0 (by omega)]; simp)
    (by rw [onePagePool_free_start 0 (by omega), onePagePool_free_len 0 (by omega)]; simp)
  have hP : PAGE_SIZE = 4096 := rfl
  rw [if_neg (by omega)] at hc
  omega

/-- C1 (amended): for every base `b > 0` and page-aligned size `s` with
`2 * PAGE_SIZE ≤ s` and `b + s ≤ 2^32`, after every finite sequence of returning `allocate`
calls and returning `release` calls on addresses that `allocate` returned, every byte of
`[b + 2 * PAGE_SIZE, b + s)` lies in exactly one of the ranges recorded for allocate
results in `alloc_list` and in `free_list`, and every other byte in none. -/
theorem pool_conservation (obj b s : Nat) (head : Option Nat) (ma mf : Nat → Nat)
    (tr : List Event) (p : VMPool) (hb0 : 0 < b) (hs : s % PAGE_SIZE = 0)
    (h2 : 2 * PAGE_SIZE ≤ s) (hbs : b + s ≤ ULONG)
    (h : Run (VMPool.construct obj b s head ma mf).1 tr p) : Conserved b s p :=
  (h.consistent hb0 hbs (construct_consistent obj b s head ma mf hb0 hs h2 hbs)
    (construct_inv obj b s head ma mf (by
      have : 0 < PAGE_SIZE := by decide
      omega))).1.cover

theorem pool_conservation_witness :
    (0 < 0x40000000 ∧ 0x01000000 % PAGE_SIZE = 0 ∧ 2 * PAGE_SIZE ≤ 0x01000000 ∧
      0x40000000 + 0x01000000 ≤ ULONG ∧
      Run pool0 [Event.allocate 16384 0x40002000] (pool0_after 16384)) ∧
    Conserved 0x40000000 0x01000000 (pool0_after 16384) :=
  ⟨⟨by decide, by decide, by decide, by decide,
      Run.allocate Run.init (by decide) (pool0_allocate 16384 (by decide))⟩,
    pool_conservation 1 0x40000000 0x01000000 none (fun _ => 0) (fun _ => 0) _ _
      (by decide) (by decide) (by decide) (by decide)
      (Run.allocate Run.init (by decide) (pool0_allocate 16384 (by decide)))⟩

/-- C2 (as stated, refuted): on the freshly constructed scenario pool `allocate(0xFFFFFFFF)`
returns `0x40002000` although no `free_list` entry has a length of at least `2^32`, the
least multiple of `PAGE_SIZE` above the request: the rounding wraps to 0. -/
theorem first_fit_rounding_wraps :
    pool0.allocate 0xFFFFFFFF = some (pool0_after 0xFFFFFFFF, 0x40002000) ∧
      ¬ FirstFit pool0 0xFFFFFFFF (pool0_after 0xFFFFFFFF) 0x40002000 := by
  refine ⟨pool0_allocate 0xFFFFFFFF (by decide), ?_⟩
  rintro ⟨i, m, hi, _, hfit, _⟩
  have hc : pageCeil 0xFFFFFFFF = 4294967296 := by decide
  rw [hc, pool0_free_len i hi] at hfit
  split_ifs at hfit <;> omega

/-- C2 (amended): for every pool state whose last `free_list` pair is empty and whose
`free_list` spans end at or below `2^32`, and every requested size up to `2^32 - PAGE_SIZE`,
a returning `allocate(size)` is first-fit as the claim states, with `r` the least multiple of
`PAGE_SIZE` not below the size. -/
theorem allocate_first_fit (p p' : VMPool) (n va : Nat)
    (hlast : lenAt p.free_list 511 = 0)
    (hspan : ∀ k, k < 512 → lenAt p.free_list k < ULONG ∧
      startAt p.free_list k + lenAt p.free_list k ≤ ULONG)
    (hn : n ≤ ULONG - PAGE_SIZE) (h : p.allocate n = some (p', va)) : FirstFit p n p' va :=
  first_fit_of_allocate hlast hspan hn h

theorem allocate_first_fit_witness :
    (lenAt pool0.free_list 511 = 0 ∧
      (∀ k, k < 512 → lenAt pool0.free_list k < ULONG ∧
        startAt pool0.free_list k + lenAt pool0.free_list k ≤ ULONG) ∧
      12288 ≤ ULONG - PAGE_SIZE ∧
      pool0.allocate 12288 = some (pool0_after 12288, 0x40002000)) ∧
    FirstFit pool0 12288 (pool0_after 12288) 0x40002000 :=
  ⟨⟨pool0_free_last, pool0_free_span, by decide, pool0_allocate 12288 (by decide)⟩,
    allocate_first_fit pool0 (pool0_after 12288) 12288 0x40002000 pool0_free_last
      pool0_free_span (by decide) (pool0_allocate 12288 (by decide))⟩

/-- C4 (as stated, refuted): on the scenario pool (`base 0x40000000`, `size 0x01000000`) the
seven calls of scenario S2 return, the released third region starts at `0x4000E000`, and the
final `allocate(3 * PAGE_SIZE)` returns `0x4001E000`, the address behind the fifth region. -/
theorem scenario_s2_returns_tail :
    ScenarioS2 pool0 0x4000E000 0x4001E000 ∧ (0x4001E000 : Nat) ≠ 0x4000E000 :=
  ⟨pool0_scenario, by decide⟩

/-- C4 (amended): for every freshly constructed pool with page-aligned base `b` and size `s`,
`33 * PAGE_SIZE ≤ s` and `b + s ≤ 2^32`, scenario S2 runs, the released third region is
`b + 14 * PAGE_SIZE`, and the final `allocate(3 * PAGE_SIZE)` returns `b + 30 * PAGE_SIZE`,
the head of the remaining initial free span, which precedes the released span in
`free_list`. -/
theorem scenario_s2_first_fit (obj b s : Nat) (head : Option Nat) (ma mf : Nat → Nat)
    (hb : b % PAGE_SIZE = 0) (hs : s % PAGE_SIZE = 0) (h33 : 33 * PAGE_SIZE ≤ s)
    (hbs : b + s ≤ ULONG) :
    ScenarioS2 (VMPool.construct obj b s head ma mf).1 (b + 14 * PAGE_SIZE)
        (b + 30 * PAGE_SIZE) ∧
      ∀ a3 a, ScenarioS2 (VMPool.construct obj b s head ma mf).1 a3 a →
        a3 = b + 14 * PAGE_SIZE ∧ a = b + 30 * PAGE_SIZE :=
  ⟨scenarioS2_runs obj b s head ma mf hb hs h33 hbs,
    fun _ _ h => h.unique (scenarioS2_runs obj b s head ma mf hb hs h33 hbs)⟩

theorem scenario_s2_first_fit_witness :
    (0x40000000 % PAGE_SIZE = 0 ∧ 0x01000000 % PAGE_SIZE = 0 ∧ 33 * PAGE_SIZE ≤ 0x01000000 ∧
      0x40000000 + 0x01000000 ≤ ULONG) ∧
    ScenarioS2 pool0 (0x40000000 + 14 * PAGE_SIZE) (0x40000000 + 30 * PAGE_SIZE) :=
  ⟨by decide,
    (scenario_s2_first_fit 1 0x40000000 0x01000000 none (fun _ => 0) (fun _ => 0)
      (by decide) (by decide) (by decide) (by decide)).1⟩

/-- C5 (counterexample): the release effect does not hold in every reachable state with a live
entry. (1) From the fresh pool at `0x40000000` of 16 MiB, 510 rounds of `allocate(PAGE_SIZE)`
and `release` followed by one `allocate(PAGE_SIZE)` reach a state whose `free_list` holds 511
live pairs; `alloc_list` pair 2 is live there and `release` of its start aborts on the
assertion of the free-list scan. (2) In the fresh pool at `0xFF000000` of 16 MiB, which ends
at `2^32`, `allocate(16769024)` followed by `release` of the returned start returns with no
`free_page` call although the region has 4094 pages, since `start + length` wraps to 0.
(3) Pair 0 of `alloc_list` of the fresh pool at `0x40000000` is the live entry
`(0x40000000, PAGE_SIZE)` of the pool's own first metadata page; `release(0x40000000)` passes
page `0x40000`, the page holding `alloc_list`, to `free_page`, and `free_page(0x40000)` on a
machine where that page is mapped returns with the page unmapped, so that the loads and
stores by which `release` then edits `alloc_list` no longer reach the list. -/
theorem release_effect_fails :
    (∃ tr p, Run pool0 tr p ∧ lenAt p.alloc_list 2 ≠ 0 ∧ ¬ ReleaseEffect [p] p 2) ∧
    (∃ tr p, Run topPool tr p ∧ lenAt p.alloc_list 2 ≠ 0 ∧ ¬ ReleaseEffect [p] p 2) ∧
    ((startAt pool0.alloc_list 0 = 0x40000000 ∧ lenAt pool0.alloc_list 0 ≠ 0 ∧
        ∃ p', pool0.release [pool0] 0x40000000 = some (p', [0x40000])) ∧
      ∃ m', PageTable.free_page { page_directory := 0x400000, head_pool := none } [pool0]
          demoMachine 0x40000 = Result.ok m' ∧
        translate demoMachine 0x40000000 = some 0x403000 ∧
        translate m' 0x40000000 = none ∧ vread m' 0x40000000 = none) := by
  refine ⟨?_, ?_, pool0_release_base_pages, demo_free_page_unmaps_lists⟩
  · obtain ⟨tr, p, hrun, hl, hnone⟩ := pool0_full_free_list
    refine ⟨tr, p, hrun, hl, ?_⟩
    rintro ⟨p', m, hrel, -⟩
    rw [hnone [p]] at hrel
    exact Option.noConfusion hrel
  · obtain ⟨tr, p, hrun, hl, hst, p', hrel⟩ := topPool_release_no_pages
    refine ⟨tr, p, hrun, by rw [hl]; omega, ?_⟩
    rintro ⟨p2, m, hrel2, -⟩
    rw [hrel] at hrel2
    have e := (Prod.mk.inj (Option.some.inj hrel2)).2
    have hlen := congrArg List.length e
    rw [List.length_range', hl] at hlen
    have : (16769024 : Nat) / PAGE_SIZE = 4094 := by decide
    rw [this] at hlen
    exact absurd hlen (by simp)

/-- C5 (amended): for a pool constructed at a page-aligned base `b > 0` with a size `s` that is
a multiple of `PAGE_SIZE`, `2 * PAGE_SIZE ≤ s` and `b + s < 2^32`, in every state `p` reached
by calls of `allocate` and `release` (of returned addresses) in which `free_list` holds fewer
than 511 live pairs, and with `p` registered with the page table, `release` of the start of
any live `alloc_list` pair `j ≥ 2`, that is of any live entry other than the two entries of
the pool's own metadata pages, has the stated effect: it returns after one `free_page` call
per page of the region in ascending order, pair `j` is removed with the later pairs moved
down, and the entry is written into the first empty `free_list` pair.  None of the pages
passed to `free_page` is one of the pool's two metadata pages (pages `b / PAGE_SIZE` and
`b / PAGE_SIZE + 1`), so both lists are still mapped when `release` edits them. -/
theorem release_effect (obj b s : Nat) (head : Option Nat) (ma mf : Nat → Nat)
    (tr : List Event) (p : VMPool) (pools : List VMPool) (j : Nat)
    (hb : b % PAGE_SIZE = 0) (hb0 : 0 < b) (hs : s % PAGE_SIZE = 0) (h2 : 2 * PAGE_SIZE ≤ s)
    (hbs : b + s < ULONG) (hrun : Run (VMPool.construct obj b s head ma mf).1 tr p)
    (hmem : p ∈ pools) (hj2 : 2 ≤ j) (hj : j < 512) (hl : lenAt p.alloc_list j ≠ 0)
    (hfull : liveCount p.free_list 512 < 511) :
    ReleaseEffect pools p j ∧
      ∀ n ∈ List.range' (startAt p.alloc_list j / PAGE_SIZE) (lenAt p.alloc_list j / PAGE_SIZE),
        b / PAGE_SIZE + 2 ≤ n := by
  have hbU : b < ULONG := by omega
  have i0 := construct_inv obj b s head ma mf hbU
  have c := Run.consistent hb0 (Nat.le_of_lt hbs)
    (construct_consistent obj b s head ma mf hb0 hs h2 (Nat.le_of_lt hbs)) i0 hrun
  have a := Run.aligned (construct_aligned obj b s head ma mf hb) i0 hrun
  refine ⟨release_effect_of_inv c.1 c.2.1 a.1 h2 hbs hmem j hj hl hfull, fun n hn => ?_⟩
  have hlo := (c.1.alloc_bounds j hj2 hj hl).1
  have hn1 := (List.mem_range'_1.1 hn).1
  have hP : PAGE_SIZE = 4096 := rfl
  rw [hP] at hlo hn1 ⊢
  omega

theorem release_effect_witness :
    ReleaseEffect [pool0_after 16384] (pool0_after 16384) 2 ∧
      ∀ n ∈ List.range' (startAt (pool0_after 16384).alloc_list 2 / PAGE_SIZE)
          (lenAt (pool0_after 16384).alloc_list 2 / PAGE_SIZE),
        0x40000000 / PAGE_SIZE + 2 ≤ n :=
  release_effect 1 0x40000000 0x01000000 none (fun _ => 0) (fun _ => 0)
    [Event.allocate 16384 0x40002000] (pool0_after 16384) [pool0_after 16384] 2
    (by decide) (by decide) (by decide) (by decide) (by decide)
    (Run.allocate Run.init (by decide) (pool0_allocate 16384 (by decide)))
    (List.mem_singleton.2 rfl) (by decide) (by decide)
    (by rw [pool0_after_alloc_len, if_pos rfl]; decide)
    (by
      have r : roundUp 16384 = 16384 := by decide
      have h := (pool0_after_rep 16384 (by rw [r]; omega)).2
      rw [h.liveCount (by
        intro e he
        rw [List.mem_singleton] at he
        subst he
        rw [r]
        show 16769024 - 16384 ≠ 0
        omega) (by simp)]
      simp)

/-- C6 (counterexample): on the fresh pool at `0x40000000` of 16 MiB, `allocate(0xFFFFFFFF)`
returns `0x40002000` (the rounded size wraps to 0), `release(0x40002000)` returns, and the
pool does not satisfy the round trip for `n = 0xFFFFFFFF`: the second `allocate(0xFFFFFFFF)`
records a region of length 0, and no pair of `alloc_list` is `0xFFFFFFFF` bytes long. -/
theorem round_trip_rounding_wraps :
    ¬ RoundTrip [pool0_after 0xFFFFFFFF] pool0 0xFFFFFFFF := by
  intro h
  have r0 : roundUp 0xFFFFFFFF = 0 := by decide
  have hal := pool0_allocate 0xFFFFFFFF (by rw [r0]; omega)
  obtain ⟨hA1, hF1⟩ := pool0_after_rep 0xFFFFFFFF (by rw [r0]; omega)
  rw [r0] at hA1 hF1
  have hu : uadd 1073750016 0 = 1073750016 := by decide
  obtain ⟨p2, e2, hA2, hF2, -, -⟩ := rep_release [pool0_after 0xFFFFFFFF] 1073750016 2 []
    hA1 hF1
    (by
      intro k hk
      simp only [List.length_singleton] at hk
      have : k = 0 := by omega
      subst this
      simp only [entry, List.getElem?_cons_zero, Option.getD_some]
      omega)
    (by simp) (by simp) (by omega)
    (by
      intro k hk
      have : k = 0 ∨ k = 1 := by omega
      rcases this with rfl | rfl <;>
        simp only [entry, List.getElem?_cons_succ, List.getElem?_cons_zero,
          Option.getD_some] <;> omega)
    (by simp only [entry, List.getElem?_cons_succ, List.getElem?_cons_zero, Option.getD_some])
    (by
      simp only [entry, List.getElem?_cons_succ, List.getElem?_cons_zero, Option.getD_some]
      decide)
    (by
      simp only [entry, List.getElem?_cons_succ, List.getElem?_cons_zero, Option.getD_some]
      decide)
    (by
      simp only [entry, List.getElem?_cons_succ, List.getElem?_cons_zero, Option.getD_some]
      rw [hu]
      exact freeLoop_stop _ _ _ _ (by omega))
  obtain ⟨p3, va', j, e3, hj, -, hlen, -⟩ := h _ _ _ _ hal e2
  simp only [entry, List.getElem?_cons_succ, List.getElem?_cons_zero, Option.getD_some,
    List.eraseIdx_cons_succ, List.eraseIdx_cons_zero, List.cons_append, List.nil_append]
    at hA2 hF2
  obtain ⟨q3, e3', hA3, -⟩ := rep_allocate 0xFFFFFFFF 0 hA2 hF2
    (alive_of_forall _ (by
      intro e he
      simp only [List.mem_cons, List.mem_singleton, List.not_mem_nil, or_false] at he
      rcases he with rfl | rfl <;> (show (4096 : Nat) ≠ 0; omega)))
    (by simp) (by simp) (by omega) (by intro k hk; omega)
    (by rw [r0]; exact Nat.zero_le _)
    (by
      simp only [entry, List.getElem?_cons_zero, Option.getD_some]
      show 16769024 - 0 < 4294967296; omega)
    (by
      simp only [entry, List.getElem?_cons_zero, Option.getD_some]
      show 1073750016 + 0 + (16769024 - 0) ≤ 4294967296; omega)
  rw [e3] at e3'
  obtain ⟨rfl, -⟩ := Prod.mk.inj (Option.some.inj e3')
  rw [r0] at hA3
  simp only [entry, List.getElem?_cons_zero, Option.getD_some, List.cons_append,
    List.nil_append] at hA3
  have h3 := (hA3 j hj).2
  rw [h3] at hlen
  have hle : (entry [(1073741824, 4096), (1073741824 + 4096, 4096), (1073750016 + 0, 0)] j).2
      ≤ 4096 := by
    by_cases c : j < 3
    · have : j = 0 ∨ j = 1 ∨ j = 2 := by omega
      rcases this with rfl | rfl | rfl <;>
        simp only [entry, List.getElem?_cons_succ, List.getElem?_cons_zero,
          Option.getD_some] <;> omega
    · rw [entry_of_le _ _ (by simp only [List.length_cons, List.length_nil]; omega)]
      exact Nat.zero_le _
  omega

/-- C6 (amended): for a pool constructed at base `b` with a size `s` that is a multiple of
`PAGE_SIZE`, `2 * PAGE_SIZE ≤ s`, `b + 2 * PAGE_SIZE < 2^32` and `b + s ≤ 2^32`, and every
`n ≤ 2^32 - PAGE_SIZE`: whenever `allocate(n)` returns `va` on the fresh pool and the following
`release(va)` returns, a second `allocate(n)` returns, and the region it hands out is at least
`n` bytes long and lies inside `[b + 2 * PAGE_SIZE, b + s)`. -/
theorem allocate_release_round_trip (obj b s : Nat) (head : Option Nat) (ma mf : Nat → Nat)
    (pools : List VMPool) (n : Nat) (hs : s % PAGE_SIZE = 0) (h2 : 2 * PAGE_SIZE ≤ s)
    (hb : b + 2 * PAGE_SIZE < ULONG) (hbs : b + s ≤ ULONG) (hn : n ≤ ULONG - PAGE_SIZE) :
    RoundTrip pools (VMPool.construct obj b s head ma mf).1 n := by
  obtain ⟨hA, hF⟩ := construct_rep_any obj b s head ma mf hs h2 hbs hb
  have h2' : 2 * 4096 ≤ s := h2
  have hbs' : b + s ≤ 4294967296 := hbs
  have hsz : (VMPool.construct obj b s head ma mf).1.size = s := roundUp_aligned s hs
  have hba : (VMPool.construct obj b s head ma mf).1.base_address = b := rfl
  intro p1 va p2 pages h1 hrel
  obtain ⟨p3, va', j, e3, hj, hst, hlen, hlo, hhi⟩ := round_trip_of_rep hA hF
    (by show b + 8192 + (s - 8192) ≤ 4294967296; omega) hn p1 va p2 pages h1 hrel
  refine ⟨p3, va', j, e3, hj, hst, hlen, ?_, ?_⟩
  · rw [hba]
    show b + 2 * 4096 ≤ va'
    omega
  · rw [hba, hsz]
    omega

theorem allocate_release_round_trip_witness :
    RoundTrip [pool0_after 16384] pool0 16384 ∧
      pool0.allocate 16384 = some (pool0_after 16384, 0x40002000) ∧
      ∃ p2 pages, (pool0_after 16384).release [pool0_after 16384] 0x40002000 =
        some (p2, pages) := by
  refine ⟨allocate_release_round_trip 1 0x40000000 0x01000000 none (fun _ => 0) (fun _ => 0)
    [pool0_after 16384] 16384 (by decide) (by decide) (by decide) (by decide) (by decide),
    pool0_allocate 16384 (by decide), ?_⟩
  have r : roundUp 16384 = 16384 := by decide
  obtain ⟨hA1, hF1⟩ := pool0_after_rep 16384 (by rw [r]; omega)
  rw [r] at hA1 hF1
  obtain ⟨p2, e2, -⟩ := rep_release_entry 2 1073750016 16384 (List.mem_singleton.2 rfl) hA1 hF1
    (by
      intro e he
      rw [List.mem_singleton] at he
      subst he
      show 16769024 - 16384 ≠ 0
      omega)
    (by simp) (by simp) (by omega)
    (by simp only [entry, List.getElem?_cons_succ, List.getElem?_cons_zero, Option.getD_some])
    (by
      intro k hk
      have : k = 0 ∨ k = 1 := by omega
      rcases this with rfl | rfl <;>
        simp only [entry, List.getElem?_cons_succ, List.getElem?_cons_zero,
          Option.getD_some] <;> omega)
    (by decide) (by decide) (by decide)
  exact ⟨p2, _, e2⟩

/-- C3 (counterexample): legitimacy does not track every allocation with `n > 0`. On the fresh
pool at `0x40000000` of 16 MiB, `allocate(0xFFFFF001)` returns `0x40002000` (the rounded size
wraps to 0 and the region recorded has length 0), and `is_legitimate(0x40002000 + 0)` is false
in the state right after the call. -/
theorem legitimacy_rounding_wraps : ¬ LegitTracks (ULONG - 1) 0x40000000 pool0 := by
  intro h
  have r0 : roundUp 0xFFFFF001 = 0 := by decide
  have hal := pool0_allocate 0xFFFFF001 (by rw [r0]; omega)
  have hrun : Run pool0 ([] ++ Event.allocate 0xFFFFF001 0x40002000 :: [])
      (pool0_after 0xFFFFF001) := Run.allocate Run.init (by decide) hal
  have ht := (h.1 [] [] 0xFFFFF001 0x40002000 (pool0_after 0xFFFFF001) (by omega) (by decide)
    hrun (List.not_mem_nil _)).1 0 (by omega)
  obtain ⟨hA, -⟩ := pool0_after_rep 0xFFFFF001 (by rw [r0]; omega)
  rw [r0] at hA
  have hb : (pool0_after 0xFFFFF001).base_address = 1073741824 := rfl
  have e1 : uadd 1073741824 PAGE_SIZE = 1073745920 := by decide
  have e2 : uadd 1073745920 PAGE_SIZE = 1073750016 := by decide
  rw [is_legitimate_iff, hb, e1, e2] at ht
  rcases ht with ⟨_, c⟩ | ⟨_, c⟩ | ⟨k0, hk0, c1, c2⟩
  · omega
  · omega
  · have c2' : 1073750016 + 0 < uadd (startAt (pool0_after 0xFFFFF001).alloc_list k0)
        (lenAt (pool0_after 0xFFFFF001).alloc_list k0) := c2
    rw [(hA k0 hk0).1, (hA k0 hk0).2] at c2'
    by_cases d : k0 < 3
    · have : k0 = 0 ∨ k0 = 1 ∨ k0 = 2 := by omega
      have e3 : uadd 1073741824 4096 = 1073745920 := by decide
      have e4 : uadd (1073741824 + 4096) 4096 = 1073750016 := by decide
      have e5 : uadd 1073750016 0 = 1073750016 := by decide
      rcases this with rfl | rfl | rfl <;>
        simp only [entry, List.getElem?_cons_succ, List.getElem?_cons_zero,
          Option.getD_some, e3, e4, e5] at c2' <;> omega
    · rw [entry_of_le _ _ (by simp only [List.length_cons, List.length_nil]; omega)] at c2'
      have e6 : uadd 0 0 = 0 := by decide
      simp only [e6] at c2'
      omega

/-- C3 (amended): for a pool constructed at base `b > 0` with a size `s` that is a multiple of
`PAGE_SIZE`, `2 * PAGE_SIZE ≤ s` and `b + s < 2^32`, and for request sizes
`0 < n ≤ 2^32 - PAGE_SIZE`: in every state reached by returning calls of `allocate` and
`release` (of returned addresses), for a `va` returned by `allocate(n)` and not released
since, `is_legitimate(va + k)` is true for every `k < n`; right after a returning
`release(va)` it is false for every `k < n`; and `is_legitimate(a)` is true in every state
for every `a` in `[b, b + 2 * PAGE_SIZE)`. -/
theorem legitimacy_tracks_allocation (obj b s : Nat) (head : Option Nat) (ma mf : Nat → Nat)
    (hb0 : 0 < b) (hs : s % PAGE_SIZE = 0) (h2 : 2 * PAGE_SIZE ≤ s) (hbs : b + s < ULONG) :
    LegitTracks (ULONG - PAGE_SIZE) b (VMPool.construct obj b s head ma mf).1 :=
  legit_tracks_of_inv (construct_consistent obj b s head ma mf hb0 hs h2 (Nat.le_of_lt hbs))
    (construct_inv obj b s head ma mf (by omega)) hb0 h2 hbs

theorem legitimacy_tracks_allocation_witness :
    LegitTracks (ULONG - PAGE_SIZE) 0x40000000 pool0 ∧
      (pool0_after 16384).is_legitimate (0x40002000 + 16383) = true :=
  have h := legitimacy_tracks_allocation 1 0x40000000 0x01000000 none (fun _ => 0)
    (fun _ => 0) (by decide) (by decide) (by decide) (by decide)
  ⟨h, (h.1 [] [] 16384 0x40002000 (pool0_after 16384) (by decide) (by decide)
    (Run.allocate Run.init (by decide) (pool0_allocate 16384 (by decide)))
    (List.not_mem_nil _)).1 16383 (by decide)⟩

/-- C11: the constructor `PageTable::PageTable()` of the VM-pool build.  When the process
pool hands out the frames `pd` and then `pt` (two frames: non-zero, distinct, frame numbers
of the 32-bit physical address space), the constructor returns with
`PDE[0] = pt * PAGE_SIZE | 3`, `PDE[i] = 2` for `1 ≤ i ≤ 1022`,
`PDE[1023] = pd * PAGE_SIZE | 3`, entry `i` of the first page table equal to
`i * PAGE_SIZE | 3` for every `i < 1024`, the two frames taken from the process pool and
the kernel pool untouched. -/
theorem pagetable_constructor_post (m : Machine) (pd pt : Nat) (rest : List Nat)
    (hpool : m.process_frames = pd :: pt :: rest) (hpd : pd ≠ 0 ∧ pd < 1048576)
    (hpt : pt ≠ 0 ∧ pt < 1048576) (hne : pd ≠ pt) :
    ∃ m', PageTable.construct m =
        (Result.ok m', some { page_directory := pd * PAGE_SIZE, head_pool := none }) ∧
      m'.mem (pd * PAGE_SIZE) = (pt * PAGE_SIZE) ||| 3 ∧
      (∀ i, 1 ≤ i → i ≤ 1022 → m'.mem (pd * PAGE_SIZE + 4 * i) = 2) ∧
      m'.mem (pd * PAGE_SIZE + 4 * 1023) = (pd * PAGE_SIZE) ||| 3 ∧
      (∀ i, i < 1024 → m'.mem (pt * PAGE_SIZE + 4 * i) = (i * PAGE_SIZE) ||| 3) ∧
      m'.process_frames = rest ∧ m'.kernel_frames = m.kernel_frames :=
  construct_post_of_frames m pd pt rest hpool hpd.1 hpt.1 hpd.2 hpt.2 hne

theorem pagetable_constructor_post_witness :
    ∃ m', PageTable.construct demoMachine =
        (Result.ok m', some { page_directory := 0x404 * PAGE_SIZE, head_pool := none }) ∧
      m'.mem (0x404 * PAGE_SIZE) = (0x405 * PAGE_SIZE) ||| 3 ∧
      (∀ i, 1 ≤ i → i ≤ 1022 → m'.mem (0x404 * PAGE_SIZE + 4 * i) = 2) ∧
      m'.mem (0x404 * PAGE_SIZE + 4 * 1023) = (0x404 * PAGE_SIZE) ||| 3 ∧
      (∀ i, i < 1024 → m'.mem (0x405 * PAGE_SIZE + 4 * i) = (i * PAGE_SIZE) ||| 3) ∧
      m'.process_frames = [] ∧ m'.kernel_frames = demoMachine.kernel_frames :=
  pagetable_constructor_post demoMachine 0x404 0x405 [] rfl (by decide) (by decide)
    (by decide)

/-- C12: `handle_fault` of the VM-pool build.  For a fault with `err_code.P = 0` at a 32-bit
address, with the recursive mapping installed in the current directory and the process pool
handing out frames (non-zero frame numbers of the 32-bit physical address space, the first
not the directory's own frame), the handler returns and the post-state is the one the
specification states: two frames, a new page table and its entries when `PDE[j]` was not
present, one frame and `PTE[j][k]` when it was; the kernel pool is untouched. -/
theorem handle_fault_postcondition (m : Machine) (err_code f1 f2 : Nat) (rest : List Nat)
    (herr : err_code &&& 1 = 0) (hrec : RecursiveMapped m) (hcr2 : m.cr2 < ULONG)
    (hpool : m.process_frames = f1 :: f2 :: rest)
    (hf1 : f1 ≠ 0 ∧ f1 < 1048576 ∧ f1 * PAGE_SIZE ≠ m.cr3) (hf2 : f2 ≠ 0 ∧ f2 < 1048576) :
    ∃ m', PageTable.handle_fault m err_code = Result.ok m' ∧ HandleFaultPost m m' :=
  handle_fault_post_of_frames m err_code f1 f2 rest herr hrec hcr2 hpool hf1 hf2

theorem handle_fault_postcondition_witness :
    ∃ m', PageTable.handle_fault demoMachine 0 = Result.ok m' ∧
      HandleFaultPost demoMachine m' :=
  handle_fault_postcondition demoMachine 0 0x404 0x405 [] (by decide) demoMachine_mapped
    (by decide) rfl (by decide) (by decide)

/-- C13 (the code at the failing input): `allocate(0x800000)` on the fresh pool at `0x40000000`
returns the region at `0x40002000`, and page `0x40400` of it is legitimate.  On `demoMachine`
no page of the second 4 MiB has been touched: the directory entry `0x101` is empty, the page
has no table entry, and the effect stated for `free_page` does not hold there.  The load
`*pte` of `free_page(0x40400)` is not mapped, so the call is interrupted by a page fault at the
entry's address `0xFFD01000`; `handle_fault` on that fault takes frame `0x404` from the
process pool and stores `0x404007` into directory entry `0x101`, after which the retried load
reads the first word of frame `0x404`, a frame no code has written. -/
theorem free_page_without_table :
    pool0.allocate 0x800000 = some (pool0_after 0x800000, 0x40002000) ∧
    free_page_check [pool0_after 0x800000] 0x40400 = true ∧
    demoMachine.mem (demoMachine.cr3 + 4 * (0x40400 / 1024)) = 0 ∧
    ¬ FreePageEffect { page_directory := 0x400000, head_pool := none }
        [pool0_after 0x800000] demoMachine 0x40400 ∧
    PageTable.free_page { page_directory := 0x400000, head_pool := none }
        [pool0_after 0x800000] demoMachine 0x40400 = Result.fault demoMachine ∧
    ushl (umul 0x40400 PAGE_SIZE >>> 12) 2 ||| 0xFFC00000 = 0xFFD01000 ∧
    ∃ m', PageTable.handle_fault { demoMachine with cr2 := 0xFFD01000 } 0 = Result.ok m' ∧
      m'.process_frames = [0x405] ∧ m'.mem (0x400000 + 4 * 0x101) = 0x404007 ∧
      translate m' 0xFFD01000 = some 0x404000 := by
  have hc : free_page_check [pool0_after 0x800000] 0x40400 = true :=
    pool0_after_page_checked
  have hf : PageTable.free_page { page_directory := 0x400000, head_pool := none }
      [pool0_after 0x800000] demoMachine 0x40400 = Result.fault demoMachine := by
    unfold PageTable.free_page
    rw [if_neg (by rw [hc]; decide)]
    have ht : translate demoMachine (ushl (umul 0x40400 PAGE_SIZE >>> 12) 2 ||| 0xFFC00000)
        = none := by decide
    simp only [vread, ht, Option.map]
  refine ⟨pool0_allocate 0x800000 (by decide), hc, by decide, ?_, hf, by decide, ?_⟩
  · intro h
    have h2 := h.2 (by decide)
    rw [hf] at h2
    exact Result.noConfusion h2
  · refine ⟨_, handle_fault_present { demoMachine with cr2 := 0xFFD01000 } 0 (by decide)
      demoMachine_mapped (by decide) (by decide) 0x404 [0x405] rfl (by decide) (by decide),
      rfl, by decide, by decide⟩

/-- C14: a protection fault is fatal in both builds.  When bit 0 of `err_code` is set,
`handle_fault` of the VM-pool build and of `MP_3` both stop at the first assertion, in the
state they were called in: no frame has been taken and no word of memory stored. -/
theorem protection_fault_aborts (m : Machine) (err_code : Nat) (h : err_code &&& 1 = 1) :
    PageTable.handle_fault m err_code = Result.abort m ∧
      MP3.PageTable.handle_fault m err_code = Result.abort m := by
  constructor
  · unfold PageTable.handle_fault
    rw [if_pos (by rw [h]; decide)]
  · unfold MP3.PageTable.handle_fault
    rw [if_pos (by rw [h]; decide)]

theorem protection_fault_aborts_witness :
    PageTable.handle_fault demoMachine 1 = Result.abort demoMachine ∧
      MP3.PageTable.handle_fault demoMachine 1 = Result.abort demoMachine :=
  protection_fault_aborts demoMachine 1 (by decide)

/-- C15: scheduler FIFO (base build).  Starting from an empty ready queue, with a thread
running, after `resume` or `add` of the threads `T1..Tn` in that order (each call allocating
a new node), the next `n` calls of `yield` dispatch `T1, ..., Tn` in exactly that order and
leave the ready queue empty; and `add(t)` and `resume(t)` give the same state for every
thread and every prior state. -/
theorem scheduler_fifo (w : World) (c : Nat) (calls : List (Bool × Nat × Nat))
    (hempty : w.head = none ∧ w.tail = none) (hc : w.current = some c)
    (hn : (calls.map (fun c => c.2.2)).Nodup) :
    (∃ w', yields calls.length (enqueueAll w calls) =
        some (calls.map (fun c => some c.2.1), w') ∧ w'.head = none ∧ w'.tail = none) ∧
      ∀ (v : World) (t : Option Nat) (node : Nat),
        Scheduler.add v t node = Scheduler.resume v t node :=
  ⟨fifo_of_empty w c calls hempty.1 hempty.2 hc hn, fun _ _ _ => rfl⟩

theorem scheduler_fifo_witness :
    ∃ w', yields 3 (enqueueAll idleWorld [(false, 1, 10), (true, 2, 11), (false, 3, 12)]) =
      some ([some 1, some 2, some 3], w') ∧ w'.head = none ∧ w'.tail = none :=
  (scheduler_fifo idleWorld 100 [(false, 1, 10), (true, 2, 11), (false, 3, 12)]
    ⟨rfl, rfl⟩ rfl (by decide)).1

/-- C16: `yield` of the base build on an empty ready queue.  If a thread is running, `yield`
returns without a dispatch, the ready queue is still empty, the zombie slot is unchanged and
the same thread is current; if no thread is running, `yield` fails its assertion. -/
theorem yield_empty_queue (w : World) (hempty : w.head = none ∧ w.tail = none) :
    (∀ c, w.current = some c →
      ∃ w', Scheduler.yield w = Outcome.returned w' ∧ w'.head = none ∧ w'.tail = none ∧
        w'.zombieThread = w.zombieThread ∧ w'.current = some c ∧ w'.trace = w.trace) ∧
    (w.current = none → ∃ w', Scheduler.yield w = Outcome.aborted w') := by
  constructor
  · intro c hc
    rw [yield_of_current w c hc, dispatch_ready_nil _ (by
      cases hi : w.interrupts <;> simp [hi, disable_interrupts, hempty.1])]
    refine ⟨_, rfl, ?_, ?_, ?_, ?_, ?_⟩ <;>
      cases hi : w.interrupts <;> simp [hi, disable_interrupts, hempty.1, hempty.2, hc]
  · intro hc
    exact ⟨_, yield_of_null w hc⟩

theorem yield_empty_queue_witness :
    ∃ w', Scheduler.yield idleWorld = Outcome.returned w' ∧ w'.head = none ∧ w'.tail = none ∧
      w'.zombieThread = idleWorld.zombieThread ∧ w'.current = some 100 ∧
      w'.trace = idleWorld.trace :=
  (yield_empty_queue idleWorld ⟨rfl, rfl⟩).1 100 rfl

/-- C17: zombie singleton, in both builds.  After `terminate(t1)`, ..., `terminate(tn)` with
pairwise distinct threads on a freshly constructed scheduler, the zombie slot holds `tn`,
each of `t1..t(n-1)` has been destroyed exactly once since construction and `tn` has not
been destroyed. -/
theorem zombie_singleton (w0 : World) (ts : List Nat) (t : Nat) (hn : (ts ++ [t]).Nodup) :
    ((terminateAll (Scheduler.construct w0) (ts ++ [t])).zombieThread = some t ∧
      ∃ d, (terminateAll (Scheduler.construct w0) (ts ++ [t])).destroyed = d ++ w0.destroyed ∧
        (∀ x ∈ ts, d.count x = 1) ∧ d.count t = 0) ∧
    ((DiskBuild.terminateAll (Scheduler.construct w0) (ts ++ [t])).zombieThread = some t ∧
      ∃ d, (DiskBuild.terminateAll (Scheduler.construct w0) (ts ++ [t])).destroyed =
          d ++ w0.destroyed ∧
        (∀ x ∈ ts, d.count x = 1) ∧ d.count t = 0) := by
  refine ⟨zombie_after_terminates w0 ts t hn, ?_⟩
  rw [diskbuild_terminateAll_eq]
  exact zombie_after_terminates w0 ts t hn

theorem zombie_singleton_witness :
    (terminateAll (Scheduler.construct idleWorld) ([1, 2] ++ [3])).zombieThread = some 3 ∧
      ∃ d, (terminateAll (Scheduler.construct idleWorld) ([1, 2] ++ [3])).destroyed =
          d ++ idleWorld.destroyed ∧
        (∀ x ∈ [1, 2], d.count x = 1) ∧ d.count 3 = 0 :=
  (zombie_singleton idleWorld [1, 2] 3 (by decide)).1

/-- C18 (counterexample): the dispatch choice does not hold in every state, and a yield made
while the disk reports busy can dispatch a thread that waits for the disk.  (1) In
`lockedWorld` (thread 100 running, thread 1 ready, thread 2 waiting for the disk, the disk
not busy, `queue_lock` held) `yield(0)` neither dispatches the waiter nor anything else: the
spin of `lock_queue()` calls `yield` again, which spins in turn.  (2) In `s5BusyWorld`
thread 1 calls `read`, which queues it as a waiter (node 20) and as a ready thread (node 11)
and dispatches thread 2; the disk reports busy, and the `yield(0)` that thread 2 then makes
dispatches the head of the ready queue, node 11, which is thread 1, still queued as the
waiter of node 20. -/
theorem dispatch_choice_fails :
    (IsQueue lockedWorld.heap lockedWorld.head lockedWorld.tail [10] ∧
      IsQueue lockedWorld.heap lockedWorld.io_head lockedWorld.io_tail [20] ∧
      ¬ ∃ fuel, DispatchChoice fuel lockedWorld 0 [10] [20]) ∧
    ∃ w1 w2, NonBlockingDisk.read 4 s5BusyWorld 20 11 = Outcome.switched w1 10 ∧
      w1.current = some 2 ∧ w1.queue_locked = false ∧ w1.busy w1.polls = true ∧
      IsQueue w1.heap w1.head w1.tail [11] ∧
      IsQueue w1.heap w1.io_head w1.io_tail [20] ∧ (w1.heap 20).thread = some 1 ∧
      DiskBuild.Scheduler.yield 4 w1 0 = Outcome.switched w2 11 ∧ w2.current = some 1 ∧
      IsQueue w2.heap w2.io_head w2.io_tail [20] ∧ (w2.heap 20).thread = some 1 := by
  refine ⟨⟨lockedWorld_ready, lockedWorld_waiters, ?_⟩, _, _, rfl, rfl, rfl, rfl,
    ⟨rfl, rfl, by decide, trivial⟩, ⟨rfl, rfl, by decide, trivial⟩, rfl, rfl, rfl,
    ⟨rfl, rfl, by decide, trivial⟩, rfl⟩
  rintro ⟨fuel, -, h⟩
  obtain ⟨w', hy, -⟩ := h ⟨rfl, by simp⟩ 20 [] rfl
  rw [diskbuild_yield_locked fuel lockedWorld 0 100 rfl rfl] at hy
  exact Outcome.noConfusion hy

/-- C18 (amended): in every state in which a thread is running and `queue_lock` is free,
with `disk_busy = (interrupt != 0 ? false : DISK.is_busy())`, `yield(interrupt)` of the disk
build dispatches the first thread of the ready queue (or returns if it is empty) and leaves
the waiter queue unchanged when `disk_busy` holds or no thread waits, and otherwise removes
and dispatches the first waiter.  In particular a yield made while the disk reports busy
takes no node off the waiter queue: the call ends with the queue's pointers, nodes and
threads as they were, and a node it dispatches is the head of the ready queue (whose thread
may itself be queued as a waiter). -/
theorem disk_aware_dispatch_choice (f : Nat) (w : World) (i : Int) (c : Nat)
    (ready waiters : List Nat) (hc : w.current = some c) (hl : w.queue_locked = false)
    (hr : IsQueue w.heap w.head w.tail ready)
    (hw : IsQueue w.heap w.io_head w.io_tail waiters) :
    DispatchChoice (f + 2) w i ready waiters ∧
      ((if i ≠ 0 then false else w.busy w.polls) = true →
        ∃ w', (DiskBuild.Scheduler.yield (f + 2) w i).world = some w' ∧
          w'.io_head = w.io_head ∧ w'.io_tail = w.io_tail ∧
          IsQueue w'.heap w'.io_head w'.io_tail waiters ∧
          threadsOf w'.heap waiters = threadsOf w.heap waiters ∧
          ∀ n, DiskBuild.Scheduler.yield (f + 2) w i = Outcome.switched w' n →
            w.head = some n) := by
  have hd := dispatch_choice_of_free f w i c ready waiters hc hl hr hw
  refine ⟨hd, fun hb => ?_⟩
  have h1 := hd.1 (Or.inl hb)
  cases hready : ready with
  | nil =>
    obtain ⟨w', hy, hq, ht⟩ := h1.1 hready
    refine ⟨w', by rw [hy]; rfl, by rw [hq.head_eq, hw.head_eq], by rw [hq.tail_eq, hw.tail_eq],
      hq, ht, fun n hn => ?_⟩
    rw [hy] at hn
    exact Outcome.noConfusion hn
  | cons a rest =>
    obtain ⟨w', hy, -, -, hq, ht⟩ := h1.2 a rest hready
    refine ⟨w', by rw [hy]; rfl, by rw [hq.head_eq, hw.head_eq], by rw [hq.tail_eq, hw.tail_eq],
      hq, ht, fun n hn => ?_⟩
    rw [hy] at hn
    injection hn with _ e
    rw [hr.head_eq, hready, ← e]
    rfl

theorem disk_aware_dispatch_choice_witness :
    DispatchChoice 2 busyQueuedWorld 0 [10] [20] ∧
      ∃ w', (DiskBuild.Scheduler.yield 2 busyQueuedWorld 0).world = some w' ∧
        w'.io_head = some 20 ∧ w'.io_tail = some 20 ∧
        IsQueue w'.heap w'.io_head w'.io_tail [20] ∧
        threadsOf w'.heap [20] = threadsOf busyQueuedWorld.heap [20] ∧
        ∀ n, DiskBuild.Scheduler.yield 2 busyQueuedWorld 0 = Outcome.switched w' n →
          some 10 = some n :=
  ⟨(disk_aware_dispatch_choice 0 busyQueuedWorld 0 100 [10] [20]
      rfl rfl ⟨rfl, rfl, by decide, trivial⟩ ⟨rfl, rfl, by decide, trivial⟩).1,
    (disk_aware_dispatch_choice 0 busyQueuedWorld 0 100 [10] [20]
      rfl rfl ⟨rfl, rfl, by decide, trivial⟩ ⟨rfl, rfl, by decide, trivial⟩).2 rfl⟩

/-- C19 (counterexample): in `lockedWorld` the waiter queue holds thread 2, yet
`handle_interrupt` dispatches no thread: `queue_lock` is held, and `yield(1)` spins in
`lock_queue()`. -/
theorem interrupt_spins_on_held_lock :
    IsQueue lockedWorld.heap lockedWorld.io_head lockedWorld.io_tail [20] ∧
      ¬ ∃ fuel, InterruptDispatch fuel lockedWorld 11 [10] [20] := by
  refine ⟨lockedWorld_waiters, ?_⟩
  rintro ⟨fuel, h⟩
  obtain ⟨w', hy, -⟩ := h 20 [] rfl
  rw [handle_interrupt_eq, diskbuild_yield_locked fuel _ 1 100
    (by rw [(resume_frame lockedWorld lockedWorld.current 11).1]; rfl)
    (by rw [(resume_frame lockedWorld lockedWorld.current 11).2.2.2.2.2.2.1]; rfl)] at hy
  exact Outcome.noConfusion hy

/-- C19 (amended): in every state in which a thread is running, `queue_lock` is free and the
waiter queue is non-empty with first waiter `W`, `handle_interrupt` dispatches `W` (whatever
`is_busy` reports and whatever the ready queue holds), the remaining waiters stay queued in
order, and the interrupted thread is at the tail of the ready queue behind the threads that
were ready.  `node` is the new ready-queue node; the nodes of the two queues are distinct. -/
theorem disk_interrupt_dispatch (f : Nat) (w : World) (c node : Nat)
    (ready waiters : List Nat) (hc : w.current = some c) (hl : w.queue_locked = false)
    (hr : IsQueue w.heap w.head w.tail ready)
    (hw : IsQueue w.heap w.io_head w.io_tail waiters)
    (hfresh : node ∉ ready ∧ node ∉ waiters) (hd : ∀ a ∈ waiters, a ∉ ready) :
    InterruptDispatch (f + 2) w node ready waiters :=
  interrupt_dispatch_of_free f w c node ready waiters hc hl hr hw hfresh hd

theorem disk_interrupt_dispatch_witness : InterruptDispatch 2 queuedWorld 11 [10] [20] :=
  disk_interrupt_dispatch 0 queuedWorld 100 11 [10] [20] rfl rfl
    ⟨rfl, rfl, by decide, trivial⟩ ⟨rfl, rfl, by decide, trivial⟩ (by decide) (by decide)

/-- C20 (counterexample): scenario S5 on an idle disk.  In `s5World` thread 1 (`A`) runs and
thread 2 (`B`) is the only ready thread; `is_busy()` is false at every poll.  The `yield`
at the end of `read` then dispatches `A` itself, taken from the waiter queue (node 20), not
`B`. -/
theorem scenario_s5_idle_disk :
    S5Start s5World 1 2 10 ∧
      (∃ w1, NonBlockingDisk.read 2 s5World 20 11 = Outcome.switched w1 20 ∧
        w1.current = some 1) ∧
      ¬ ∃ fuel, ScenarioS5 fuel s5World 1 2 20 11 12 := by
  have hs : S5Start s5World 1 2 10 :=
    ⟨rfl, ⟨rfl, rfl, by decide, trivial⟩, rfl, rfl, rfl, rfl, rfl⟩
  have hf : (20 : Nat) ≠ 10 ∧ (11 : Nat) ≠ 10 ∧ (11 : Nat) ≠ 20 := by decide
  refine ⟨hs, read_idle 0 s5World 1 2 10 20 11 hs hf rfl rfl, ?_⟩
  rintro ⟨fuel, w1, n1, w2, hread, hcur, -⟩
  match fuel with
  | 0 =>
    rw [read_zero] at hread
    exact Outcome.noConfusion hread
  | 1 =>
    obtain ⟨v, hv, v1, -⟩ := read_before_yield s5World 1 2 10 20 11 hs hf
    rw [hv 0 rfl, diskbuild_yield_one v 0 1 v1] at hread
    exact Outcome.noConfusion hread
  | f + 2 =>
    obtain ⟨w1', h1, h2⟩ := read_idle f s5World 1 2 10 20 11 hs hf rfl rfl
    rw [h1] at hread
    have e : w1' = w1 := by injection hread
    rw [← e, h2] at hcur
    exact absurd hcur (by decide)

/-- C20 (amended): scenario S5 when the controller is not busy at the poll of the raw read
(the raw read completes without waiting) and reports busy at the poll of the `yield` that
ends `read`.  With `A` running, `B` the only ready thread, no waiter and both locks free,
`read` appends `A` to the ready tail and its `yield` dispatches `B`; the disk interrupt that
follows dispatches `A`, taken from the waiter queue. -/
theorem scenario_s5_busy_disk (f : Nat) (w : World)
    (A B nb io_node ready_node irq_node : Nat) (hs : S5Start w A B nb)
    (hfresh : io_node ≠ nb ∧ ready_node ≠ nb ∧ ready_node ≠ io_node ∧
      irq_node ≠ ready_node ∧ irq_node ≠ io_node)
    (hb0 : w.busy w.polls = false) (hb1 : w.busy (w.polls + 1) = true) :
    ScenarioS5 (f + 2) w A B io_node ready_node irq_node :=
  scenario_s5_of_polls f w A B nb io_node ready_node irq_node hs hfresh hb0 hb1

theorem scenario_s5_busy_disk_witness : ScenarioS5 2 s5BusyWorld 1 2 20 11 12 :=
  scenario_s5_busy_disk 0 s5BusyWorld 1 2 10 20 11 12
    ⟨rfl, ⟨rfl, rfl, by decide, trivial⟩, rfl, rfl, rfl, rfl, rfl⟩ (by decide) rfl rfl

/-- C21 (evaluation at the failing input): in `idleWorld` (empty ready queue, thread 100
running, interrupts enabled) `yield` of the base build returns with the interrupt flag
disabled: the flag is re-enabled only inside `if (head != nullptr)`.  On the same state
`yield(0)` of the disk build returns with the flag enabled, and with a ready thread
(`readyWorld`) the base build dispatches with the flag enabled. -/
theorem yield_empty_queue_interrupts_off :
    idleWorld.interrupts = true ∧ idleWorld.head = none ∧ idleWorld.current = some 100 ∧
    (∃ w', Scheduler.yield idleWorld = Outcome.returned w' ∧ w'.interrupts = false) ∧
    (∃ w', DiskBuild.Scheduler.yield 2 idleWorld 0 = Outcome.returned w' ∧
      w'.interrupts = true) ∧
    (∃ w', Scheduler.yield readyWorld = Outcome.switched w' 10 ∧ w'.interrupts = true) :=
  ⟨rfl, rfl, rfl, ⟨_, rfl, rfl⟩, ⟨_, rfl, rfl⟩, ⟨_, rfl, rfl⟩⟩

/-- C22 (evaluation at the failing input): in `readyWorld` (thread 100 running, thread 1
ready in node 10, no waiter, `queue_lock` free, interrupts enabled) `yield(0)` of the disk
build dispatches thread 1 after storing to `head` and `tail` with the interrupt flag
enabled: the flag, disabled at entry, is enabled again by `lock_queue()` and
`unlock_queue()` before the ready queue is touched.  On the same state `yield` of the base
build makes the two stores with the flag disabled. -/
theorem diskbuild_yield_stores_interrupts_on :
    (∃ w', DiskBuild.Scheduler.yield 2 readyWorld 0 = Outcome.switched w' 10 ∧
      w'.trace = [Ev.dispatch (some 1), Ev.store true, Ev.store true,
        Ev.lock LockId.queue_lock, Ev.yield false false] ++ readyWorld.trace) ∧
    (∃ w', Scheduler.yield readyWorld = Outcome.switched w' 10 ∧
      w'.trace = [Ev.dispatch (some 1), Ev.store false, Ev.store false] ++ readyWorld.trace) :=
  ⟨⟨_, rfl, rfl⟩, ⟨_, rfl, rfl⟩⟩

/-- C23 (counterexample): in `queuedWorld` (thread 100 running, thread 1 ready, thread 2
waiting for the disk, both locks free) `handle_interrupt` dispatches the waiter after
calling `queue_lock.lock()` twice, from `yield(1)`: once through `lock_queue()` to read the
waiter queue's emptiness and once to take the waiter off the queue.  The state's trace and
the record of the thread that runs the handler both show the two calls. -/
theorem interrupt_handler_locks_queue :
    (∃ w', NonBlockingDisk.handle_interrupt 2 queuedWorld 11 = Outcome.switched w' 20 ∧
      w'.trace = [Ev.dispatch (some 2), Ev.lock LockId.queue_lock, Ev.lock LockId.queue_lock,
        Ev.yield false false, Ev.store false, Ev.store false, Ev.store false] ++
        queuedWorld.trace) ∧
    (Whole.NonBlockingDisk.handle_interrupt (fun _ => none) 2 (Caller.start queuedWorld)
      11).caller.log = [CallEv.lock LockId.queue_lock, CallEv.lock LockId.queue_lock,
        CallEv.yield Site.irq false false] :=
  ⟨⟨_, rfl, rfl⟩, rfl⟩

/-- C23 (amended): on every execution of `handle_interrupt`, whatever the state it starts
in, whatever the rest of the system does while the thread is switched out (`env`), and
however far the execution has got (the budget `fuel + 1`, which covers the executions that
spin in `lock()` without end), the thread that runs the handler never calls
`hw_lock.lock()`; it calls `queue_lock.lock()`, from `yield(1)`, whenever a thread is
running; and when no thread is running the handler stops at the assertion of `yield` and
calls no `lock()` at all (`evs` are the thread's own lock calls and yields, newest first). -/
theorem interrupt_handler_locks (env : World → Option World) (fuel : Nat) (c : Caller)
    (node : Nat) :
    ∃ evs, (Whole.NonBlockingDisk.handle_interrupt env (fuel + 1) c node).caller.log =
        evs ++ c.log ∧
      CallEv.lock LockId.hw_lock ∉ evs ∧
      (c.world.current ≠ none → CallEv.lock LockId.queue_lock ∈ evs) ∧
      (c.world.current = none → ∀ l, CallEv.lock l ∉ evs) :=
  Whole.handle_interrupt_spec env fuel c node

theorem interrupt_handler_locks_witness :
    ∃ evs, (Whole.NonBlockingDisk.handle_interrupt (fun _ => none) (4 + 1)
        (Caller.start lockedWorld) 11).caller.log = evs ++ (Caller.start lockedWorld).log ∧
      CallEv.lock LockId.hw_lock ∉ evs ∧ CallEv.lock LockId.queue_lock ∈ evs := by
  obtain ⟨evs, h1, h2, h3, -⟩ :=
    interrupt_handler_locks (fun _ => none) 4 (Caller.start lockedWorld) 11
  exact ⟨evs, h1, h2, h3 (by decide)⟩

/-- C25: recursive-window address arithmetic.  For every 32-bit address `va`, with
`j = va >> 22` and `k = (va >> 12) & 0x3FF`, the PDE address that `handle_fault` computes,
`((va >> 22) << 2) | 0xFFFFF000`, is `0xFFFFF000 | (j << 2)`, and the PTE address that
`handle_fault` and `free_page` compute, `((va >> 12) << 2) | 0xFFC00000`, is
`0xFFC00000 | (j << 12) | (k << 2)`.  With the recursive mapping installed the MMU resolves
the first to the word `page_directory[va >> 22]` and, when that entry is present, the second
to the word `page_table[(va >> 12) & 0x3FF]` of the table the entry references.  These are
the words the handlers edit: `free_page` of the page of `va` clears bit 0 of
`page_table[k]`; on a fault at `va`, on a machine where the directory and the page table are
also identity-mapped as `MP_3` needs, the handler of the VM-pool build and the handler of
`MP_3` return in the same state when `PDE[j]` is present, having stored the new page into
`page_table[k]`, and when `PDE[j]` is not present both store a new page table into
`page_directory[j]` and the new page into entry `k` of it. -/
theorem recursive_window_arithmetic (m : Machine) (va : Nat) (hva : va < ULONG)
    (hrec : RecursiveMapped m) :
    ushl (va >>> 22) 2 ||| 0xFFFFF000 = 0xFFFFF000 ||| ((va >>> 22) <<< 2) ∧
    ushl (va >>> 12) 2 ||| 0xFFC00000 =
      0xFFC00000 ||| ((va >>> 22) <<< 12) ||| (((va >>> 12) &&& 0x3FF) <<< 2) ∧
    translate m (ushl (va >>> 22) 2 ||| 0xFFFFF000) =
      some (uadd m.cr3 (umul 4 (va >>> 22))) ∧
    (m.mem (uadd m.cr3 (umul 4 (va >>> 22))) &&& 1 = 1 →
      translate m (ushl (va >>> 12) 2 ||| 0xFFC00000) =
        some (uadd (m.mem (uadd m.cr3 (umul 4 (va >>> 22))) &&& 0xFFFFF000)
          (umul 4 ((va >>> 12) &&& 0x3FF)))) ∧
    (∀ (pt : PageTable) (pools : List VMPool) (n : Nat),
      umul n PAGE_SIZE = va → free_page_check pools n = true →
      m.mem (m.cr3 + 4 * (va >>> 22)) &&& 1 = 1 →
      m.mem ((m.mem (m.cr3 + 4 * (va >>> 22)) &&& 0xFFFFF000) +
        4 * ((va >>> 12) &&& 0x3FF)) &&& 1 = 1 →
      PageTable.free_page pt pools m n =
        Result.ok (pt.load { m with
          released := m.released ++
            [m.mem ((m.mem (m.cr3 + 4 * (va >>> 22)) &&& 0xFFFFF000) +
              4 * ((va >>> 12) &&& 0x3FF)) / PAGE_SIZE],
          mem := write m.mem
            ((m.mem (m.cr3 + 4 * (va >>> 22)) &&& 0xFFFFF000) + 4 * ((va >>> 12) &&& 0x3FF))
            (m.mem ((m.mem (m.cr3 + 4 * (va >>> 22)) &&& 0xFFFFF000) +
              4 * ((va >>> 12) &&& 0x3FF)) &&& 0xFFFFFFFE) })) ∧
    (∀ (err_code : Nat) (cpt : PageTable),
      m.cr2 = va → err_code &&& 1 = 0 →
      m.current_page_table = some cpt → cpt.page_directory = m.cr3 →
      (m.mem (m.cr3 + 4 * (va >>> 22)) &&& 1 = 1 →
        ∀ f rest, m.process_frames = f :: rest → f ≠ 0 → f < 1048576 →
          MP3.DirectMapped m
            ((m.mem (m.cr3 + 4 * (va >>> 22)) &&& 0xFFFFF000) / PAGE_SIZE) (va >>> 22) →
          SameEditPresent m err_code) ∧
      (m.mem (m.cr3 + 4 * (va >>> 22)) &&& 1 = 0 →
        ∀ f1 f2 rest g krest,
          m.process_frames = f1 :: f2 :: rest → m.kernel_frames = g :: krest →
          f1 ≠ 0 ∧ f1 < 1048576 ∧ f1 * PAGE_SIZE ≠ m.cr3 → f2 ≠ 0 ∧ f2 < 1048576 →
          g ≠ 0 ∧ g < 1048576 ∧ g * PAGE_SIZE ≠ m.cr3 →
          MP3.DirectMapped m g (va >>> 22) →
          SameEditAbsent m err_code)) := by
  obtain ⟨hj, hk⟩ := index_bounds va hva
  obtain ⟨f1, f2⟩ := window_forms va hva
  have hc1 : m.cr3 % 4096 = 0 := hrec.1
  have hc2 : m.cr3 < 4294967296 := hrec.2.1
  have e1 : umul 4 (va >>> 22) = 4 * (va >>> 22) :=
    umul_eq (by show 4 * (va >>> 22) < 4294967296; omega)
  have e2 : uadd m.cr3 (4 * (va >>> 22)) = m.cr3 + 4 * (va >>> 22) :=
    uadd_eq (by show m.cr3 + 4 * (va >>> 22) < 4294967296; omega)
  have e3 : umul 4 ((va >>> 12) &&& 1023) = 4 * ((va >>> 12) &&& 1023) :=
    umul_eq (by show 4 * ((va >>> 12) &&& 1023) < 4294967296; omega)
  have e4 : ∀ x, uadd (x &&& 4294963200) (4 * ((va >>> 12) &&& 1023)) =
      (x &&& 4294963200) + 4 * ((va >>> 12) &&& 1023) := by
    intro x
    have := frame_mask_lt x
    exact uadd_eq (by show (x &&& 4294963200) + 4 * ((va >>> 12) &&& 1023) < 4294967296; omega)
  rw [e1, e2, e3, e4]
  refine ⟨?_, ?_, ?_, ?_, ?_, ?_⟩
  · rw [f1, pde_address va hva]
  · rw [f2, pte_address va hva]
  · rw [pde_address va hva]
    exact translate_directory_window hrec _ hj
  · intro hp
    rw [pte_address va hva]
    exact translate_table_window hrec _ _ hj hk hp
  · intro pt pools n hn hcheck hp hpte
    refine free_page_mapped_eval pt pools m n _ _ hcheck ?_ rfl hpte
    rw [hn, pte_address va hva]
    exact translate_table_window hrec _ _ hj hk hp
  · intro err_code cpt hcr2 herr hcpt hdir
    subst hcr2
    exact ⟨fun hp f rest hpool hf0 hf hd =>
        same_edit_present m err_code herr hrec hva cpt hcpt hdir hp f rest hpool hf0 hf hd,
      fun hp f1 f2 rest g krest hpool hker h1 h2 hg hd =>
        same_edit_absent m err_code herr hrec hva cpt hcpt hdir hp f1 f2 rest hpool h1.1
          h1.2.1 h1.2.2 h2.1 h2.2 g krest hker hg.1 hg.2.1 hg.2.2 hd⟩

theorem recursive_window_arithmetic_witness :
    translate directMachine (ushl (0x40001234 >>> 22) 2 ||| 0xFFFFF000) =
        some (uadd directMachine.cr3 (umul 4 (0x40001234 >>> 22))) ∧
      SameEditPresent directMachine 0 ∧ SameEditAbsent directMachineAbsent 0 :=
  ⟨(recursive_window_arithmetic directMachine 0x40001234 (by decide)
      directMachine_mapped).2.2.1,
    ((recursive_window_arithmetic directMachine 0x40001234 (by decide)
      directMachine_mapped).2.2.2.2.2 0 _ rfl rfl rfl rfl).1 (by decide) 0x404 [0x405] rfl
      (by decide) (by decide) (directMachine_direct _ 0x100 (Or.inl (by decide)) (by decide)),
    ((recursive_window_arithmetic directMachineAbsent 0x40401234 (by decide)
      directMachineAbsent_mapped).2.2.2.2.2 0 _ rfl rfl rfl rfl).2 (by decide) 0x404 0x405 []
      0x203 [] rfl rfl (by decide) (by decide) (by decide)
      (directMachine_direct 0x203 0x101 (Or.inr rfl) (by decide))⟩

/-- C26 (counterexample): `release` of an outstanding allocation can fail an assertion.
(1) On the scenario pool, after 510 rounds of `allocate(PAGE_SIZE)` and `release`, one more
`allocate(PAGE_SIZE)` returns an address whose `release` aborts: `free_list` holds 511 live
entries and the scan for an empty pair fails its assertion.  (2) After `allocate(0)` has
returned `va`, recorded with length 0, a later `allocate` overwrites the pair, and
`release(va)` aborts in the scan of `alloc_list`. -/
theorem release_aborts_on_outstanding :
    (∃ tr p va, Run pool0 (Event.allocate 4096 va :: tr) p ∧ ¬ ReleaseSafe [p] p va) ∧
    ∃ later earlier p va, Run pool0 (later ++ Event.allocate 0 va :: earlier) p ∧
      Event.release va ∉ later ∧ ¬ ReleaseSafe [p] p va := by
  constructor
  · obtain ⟨tr, p, hrun, hnone⟩ := pool0_full_outstanding
    refine ⟨tr, p, _, hrun, ?_⟩
    rintro ⟨j, m, -, -, -, -, -, -, -, -, -, p', hp'⟩
    rw [hnone [p]] at hp'
    cases hp'
  · obtain ⟨tr, p, hrun, hnone⟩ := pool0_zero_entry_lost
    refine ⟨[Event.allocate 8192 (1073741824 + 8192 + 4096)], tr, p, _, hrun, ?_, ?_⟩
    · intro hm
      rw [List.mem_singleton] at hm
      cases hm
    · rintro ⟨j, m, -, -, -, -, -, -, -, -, -, p', hp'⟩
      rw [hnone [p]] at hp'
      cases hp'

/-- C26 (amended): for a pool constructed at a page-aligned base `b > 0` with a size `s` that
is a multiple of `PAGE_SIZE`, `2 * PAGE_SIZE ≤ s` and `b + s < 2^32`, in every state `p`
reached by returning calls of `allocate` and `release` (of returned addresses) in which
`free_list` holds fewer than 511 live pairs, with `p` registered with the page table, and
for every `va` returned by `allocate(n)` with `0 < n ≤ 2^32 - PAGE_SIZE` and not released
since, `release(va)` passes all its assertions: the entry is found, its start and length are
multiples of `PAGE_SIZE`, `free_page` accepts every page of the region, `free_list` has an
empty pair, and the call returns. -/
theorem release_assertions_hold (obj b s : Nat) (head : Option Nat) (ma mf : Nat → Nat)
    (later earlier : List Event) (p : VMPool) (pools : List VMPool) (n va : Nat)
    (hb : b % PAGE_SIZE = 0) (hb0 : 0 < b) (hs : s % PAGE_SIZE = 0) (h2 : 2 * PAGE_SIZE ≤ s)
    (hbs : b + s < ULONG) (hn : 0 < n ∧ n ≤ ULONG - PAGE_SIZE)
    (hrun : Run (VMPool.construct obj b s head ma mf).1
      (later ++ Event.allocate n va :: earlier) p)
    (hnot : Event.release va ∉ later) (hmem : p ∈ pools)
    (hfull : liveCount p.free_list 512 < 511) : ReleaseSafe pools p va := by
  have hbU : b < ULONG := by omega
  have i0 := construct_inv obj b s head ma mf hbU
  have c := Run.consistent hb0 (Nat.le_of_lt hbs)
    (construct_consistent obj b s head ma mf hb0 hs h2 (Nat.le_of_lt hbs)) i0 hrun
  have a := Run.aligned (construct_aligned obj b s head ma mf hb) i0 hrun
  have hr := roundUp_exact n hn.2
  have hr0 : roundUp n ≠ 0 := by omega
  obtain ⟨j, hj, h1, hl⟩ := Run.tracks hrun later earlier n va rfl hnot hr0
  have h := release_safe_of_inv c.1 c.2.1 a.1 h2 hbs hmem j hj (by rw [hl]; exact hr0) hfull
  rw [h1] at h
  exact h

theorem release_assertions_hold_witness :
    ReleaseSafe [pool0_after 16384] (pool0_after 16384) 0x40002000 :=
  release_assertions_hold 1 0x40000000 0x01000000 none (fun _ => 0) (fun _ => 0)
    [] [] (pool0_after 16384) [pool0_after 16384] 16384 0x40002000
    (by decide) (by decide) (by decide) (by decide) (by decide) (by decide)
    (Run.allocate Run.init (by decide) (pool0_allocate 16384 (by decide)))
    (List.not_mem_nil _) (List.mem_singleton.2 rfl)
    (by
      have r : roundUp 16384 = 16384 := by decide
      have h := (pool0_after_rep 16384 (by rw [r]; omega)).2
      rw [h.liveCount (by
        intro e he
        rw [List.mem_singleton] at he
        subst he
        rw [r]
        show 16769024 - 16384 ≠ 0
        omega) (by simp)]
      simp)

theorem windowMachine_mapped : RecursiveMapped windowMachine := demoMachine_mapped

/-- C27 (counterexample): a fault inside the recursive window changes a page-directory
entry.  In `windowMachine` the fault address `0xFFC05000` has directory index 1023, whose
entry (the recursive one) is present, and table index 5; the handler stores the new frame
into the word that the window shows there, which is `PDE[5]`: it was 0 and becomes
`0x404000 | 7`. -/
theorem fault_in_window_edits_directory :
    windowMachine.mem (windowMachine.cr3 + 4 * (windowMachine.cr2 >>> 22)) &&& 1 = 1 ∧
    windowMachine.mem (windowMachine.cr3 + 4 * 5) = 0 ∧
    ∃ m', PageTable.handle_fault windowMachine 0 = Result.ok m' ∧
      m'.mem (windowMachine.cr3 + 4 * 5) = 0x404007 := by
  refine ⟨by decide, by decide, _, handle_fault_present windowMachine 0 (by decide)
    windowMachine_mapped (by decide) (by decide) 0x404 [0x405] rfl (by decide) (by decide), ?_⟩
  decide

/-- C27 (amended): for a fault with `err_code.P = 0` at a 32-bit address `va` whose
`PDE[va >> 22]` is present and references a page table in a frame other than the
directory's own (so `va` is below the recursive window `0xFFC00000`), with the recursive
mapping installed and the process pool handing out a frame `f`, `handle_fault` returns
having changed one word of memory, the entry of table index `(va >> 12) & 0x3FF` in that
page table, which becomes `f * PAGE_SIZE | 7`: every page-directory entry and every other
page-table entry is unchanged, entry 1023 of the page table included unless the faulting
index is 1023. -/
theorem fault_touches_one_entry (m : Machine) (err_code f : Nat) (rest : List Nat)
    (herr : err_code &&& 1 = 0) (hrec : RecursiveMapped m) (hcr2 : m.cr2 < ULONG)
    (hp : m.mem (m.cr3 + 4 * (m.cr2 >>> 22)) &&& 1 = 1)
    (hdir : m.mem (m.cr3 + 4 * (m.cr2 >>> 22)) &&& 0xFFFFF000 ≠ m.cr3)
    (hpool : m.process_frames = f :: rest) (hf : f ≠ 0 ∧ f < 1048576) :
    ∃ m', PageTable.handle_fault m err_code = Result.ok m' ∧
      (∀ i, i < 1024 → m'.mem (m.cr3 + 4 * i) = m.mem (m.cr3 + 4 * i)) ∧
      m'.mem ((m.mem (m.cr3 + 4 * (m.cr2 >>> 22)) &&& 0xFFFFF000) +
        4 * ((m.cr2 >>> 12) &&& 0x3FF)) = (f * PAGE_SIZE) ||| 7 ∧
      (∀ a, a ≠ (m.mem (m.cr3 + 4 * (m.cr2 >>> 22)) &&& 0xFFFFF000) +
          4 * ((m.cr2 >>> 12) &&& 0x3FF) → m'.mem a = m.mem a) ∧
      ((m.cr2 >>> 12) &&& 0x3FF ≠ 1023 →
        m'.mem ((m.mem (m.cr3 + 4 * (m.cr2 >>> 22)) &&& 0xFFFFF000) + 4 * 1023) =
          m.mem ((m.mem (m.cr3 + 4 * (m.cr2 >>> 22)) &&& 0xFFFFF000) + 4 * 1023)) ∧
      m'.cr3 = m.cr3 ∧ m'.process_frames = rest := by
  obtain ⟨-, hk⟩ := index_bounds m.cr2 hcr2
  have hc1 : m.cr3 % 4096 = 0 := hrec.1
  have ha := frame_mask_aligned (m.mem (m.cr3 + 4 * (m.cr2 >>> 22)))
  refine ⟨_, handle_fault_present m err_code herr hrec hcr2 hp f rest hpool hf.1 hf.2,
    ?_, ?_, ?_, ?_, rfl, rfl⟩
  · intro i hi
    exact write_of_ne _ _ (by omega)
  · exact write_same _ _ _
  · intro a hne
    exact write_of_ne _ _ hne
  · intro hne
    exact write_of_ne _ _ (by omega)

theorem fault_touches_one_entry_witness :
    ∃ m', PageTable.handle_fault demoMachine 0 = Result.ok m' ∧
      (∀ i, i < 1024 → m'.mem (demoMachine.cr3 + 4 * i) =
        demoMachine.mem (demoMachine.cr3 + 4 * i)) ∧
      m'.cr3 = demoMachine.cr3 ∧ m'.process_frames = [0x405] := by
  obtain ⟨m', h1, h2, -, -, -, h3, h4⟩ := fault_touches_one_entry demoMachine 0 0x404 [0x405]
    (by decide) demoMachine_mapped (by decide) (by decide) (by decide) rfl (by decide)
  exact ⟨m', h1, h2, h3, h4⟩

/-- C28: `terminate` does not touch the ready queue, in both builds.  For every state and
every thread `t`, `terminate(t)` stores `t` in the zombie slot and leaves the ready queue
(pointers, nodes and their order), `currThread` and the running thread as they were.  So
when the ready queue holds the nodes `as`, with a node for `t` or not, the following yields
of the base build still dispatch their threads in queue order, and the following `yield` of
the disk build (with `queue_lock` free and the waiter queue holding `waiters`) makes the
dispatch choice it would have made on `as` and `waiters`. -/
theorem terminate_keeps_ready_queue (f : Nat) (w : World) (t : Option Nat) (i : Int)
    (c : Nat) (as waiters : List Nat) (hc : w.current = some c)
    (hq : IsQueue w.heap w.head w.tail as) (hall : ∀ x ∈ threadsOf w.heap as, x ≠ none)
    (hl : w.queue_locked = false) (hw : IsQueue w.heap w.io_head w.io_tail waiters) :
    (OnlyZombie w (Scheduler.terminate w t) ∧ (Scheduler.terminate w t).zombieThread = t) ∧
    (OnlyZombie w (DiskBuild.Scheduler.terminate w t) ∧
      (DiskBuild.Scheduler.terminate w t).zombieThread = t) ∧
    IsQueue (Scheduler.terminate w t).heap (Scheduler.terminate w t).head
      (Scheduler.terminate w t).tail as ∧
    threadsOf (Scheduler.terminate w t).heap as = threadsOf w.heap as ∧
    (∃ w', yields as.length (Scheduler.terminate w t) = some (threadsOf w.heap as, w') ∧
      w'.head = none ∧ w'.tail = none) ∧
    DispatchChoice (f + 2) (DiskBuild.Scheduler.terminate w t) i as waiters := by
  have hz := terminate_only_zombie w t
  obtain ⟨z1, z2, z3, -, z5, z6, z7, -, z9, -⟩ := hz
  have hq' : IsQueue (Scheduler.terminate w t).heap (Scheduler.terminate w t).head
      (Scheduler.terminate w t).tail as := by
    rw [z1, z2, z3]
    exact hq
  have hw' : IsQueue (Scheduler.terminate w t).heap (Scheduler.terminate w t).io_head
      (Scheduler.terminate w t).io_tail waiters := by
    rw [z6, z7, z3]
    exact hw
  refine ⟨⟨terminate_only_zombie w t, (terminate_zombie w t).1⟩, ?_, hq', by rw [z3], ?_, ?_⟩
  · rw [diskbuild_terminate_eq]
    exact ⟨terminate_only_zombie w t, (terminate_zombie w t).1⟩
  · have h := yields_drain as (Scheduler.terminate w t) c (by rw [z5, hc]) hq'
      (by rw [z3]; exact hall)
    rw [z3] at h
    exact h
  · rw [diskbuild_terminate_eq]
    exact dispatch_choice_of_free f _ i c as waiters (by rw [z5, hc]) (by rw [z9, hl]) hq' hw'

theorem terminate_keeps_ready_queue_witness :
    ∃ w', yields 1 (Scheduler.terminate readyWorld (some 1)) = some ([some 1], w') ∧
      w'.head = none ∧ w'.tail = none :=
  (terminate_keeps_ready_queue 0 readyWorld (some 1) 0 100 [10] [] rfl readyWorld_queue
    (by decide) rfl ⟨rfl, rfl, by decide, trivial⟩).2.2.2.2.1

end VM
